import Mathlib

/-!
# Shortest-Job-First process scheduler

A shallow embedding of `process-scheduler-(sjf).cpp` and the properties of
its workload generator, of its two schedulers and of `reset_processes`.

Modelling conventions.

* A C++ `int` is an `Int`.  Overflow of a signed `int` is undefined behaviour
  in C++; the model describes the runs in which no `int` operation overflows.
  These include all runs on the workloads the program builds (50 processes of
  at most 11000 cycles each, arrivals 50 apart), where every quantity stays
  far below `2^31`.
* A `vector<node*>` is a `List node`; reading `v[i]` with `i` past the end is
  undefined behaviour in C++ and is the fault `Fault.out_of_range` here.
* The linked-list pointers `next_node` and `prev_node` are represented by the
  order of the list `process_list`.  The vectors of the program hold pointers
  to the records; the lists of the model hold the records themselves, and
  `MP_nodes` reads the records of the linked list back from the queue and the
  schedules.  Allocation and release of memory (`new`, `delete`) are not
  modelled.
* `std::sort` is library code.  It enters the model as a function `sort`
  about which only the contract of `std::sort` is assumed
  (`std_sort_contract`): the result is a rearrangement of the input in which
  no element is `comp`-smaller than an element before it.  The order of
  elements which `comp` does not separate is left open, as in the C++
  standard.  Where a statement depends on that order, the model runs
  `gnu_sort`, the `std::sort` of libstdc++, the library of the compiler the
  source names (`g++`); `std_sort_gnu_contract` proves that it meets the
  contract on every input.
* The values returned by the two `normal_distribution` objects, already
  converted to `int`, are the list `draws`, in the order of the calls.
* The rows written to the output file are the list `sjf_file`; the model
  follows the branch in which the file could be opened.
-/

namespace SJF

/-! ## Data model -/

/-- The record `struct node` of one process (without the two link pointers). -/
structure node where
  process_ID : Int
  CPU_cycles : Int
  memory_footprint : Int
  arrival_time : Int
  start_time : Int
  stop_time : Int
  current_time : Int
  previous_end_time : Int
  waiting_time : Int
  remaining_cycles : Int
deriving DecidableEq, Repr

/-- Ways in which a run leaves defined behaviour.  `out_of_fuel` belongs to the
model only: it says that the bound on the number of loop iterations was too
small (`SJF_loop_fuel_enough` shows that this never happens). -/
inductive Fault where
  | out_of_range
  | division_by_zero
  | out_of_fuel
deriving DecidableEq, Repr

/-! ## `std::sort` with the comparator of the two schedulers -/

/-- The comparator handed to `std::sort` by both schedulers:
`a->CPU_cycles < b->CPU_cycles`. -/
def cycles_less (a b : node) : Prop := a.CPU_cycles < b.CPU_cycles

instance cycles_less_decidable : DecidableRel cycles_less :=
  fun a b => inferInstanceAs (Decidable (a.CPU_cycles < b.CPU_cycles))

/-- What the C++ standard promises about `std::sort(first, last, comp)`: the
result is a permutation of the input, and no element is `comp`-smaller than an
element that stands before it. -/
def std_sort_contract (comp : node → node → Prop) (sort : List node → List node) : Prop :=
  ∀ l, (sort l).Perm l ∧ (sort l).Pairwise (fun a b => ¬ comp b a)

/-- The ready queue of both schedulers: `process_queue = process_list`
followed by `sort(process_queue.begin(), process_queue.end(), comp)`. -/
def sorted_process_queue (sort : List node → List node) (process_list : List node) : List node :=
  sort process_list

/-! ## `SJF_single_processor` -/

/-- One row of the single-processor report: the process that was dispatched
(its id, cycles, footprint and arrival time are printed) and the printed start
time, stop time and waiting time. -/
structure Row where
  process : node
  start_time : Int
  stop_time : Int
  waiting_time : Int
deriving DecidableEq, Repr

/-- The local variables of `SJF_single_processor` while its loop runs. -/
structure SPState where
  process_queue : List node
  i : Nat
  current_time : Int
  waiting_time : Int
  total_waiting_time : Int
  sjf_file : List Row
deriving DecidableEq, Repr

/-- The state in front of the loop: `current_time = 0, waiting_time = 0,
total_waiting_time = 0`, `i = 0`. -/
def SP_init (process_queue : List node) : SPState :=
  { process_queue := process_queue, i := 0, current_time := 0, waiting_time := 0,
    total_waiting_time := 0, sjf_file := [] }

/-- The body of the `while` loop of `SJF_single_processor`, run once. -/
def SJF_iteration (s : SPState) : Except Fault SPState :=
  match s.process_queue[s.i]? with
  | none => Except.error Fault.out_of_range
  | some p =>
    if p.arrival_time ≤ s.current_time then
      let waiting_time := s.current_time - p.arrival_time
      let total_waiting_time := s.total_waiting_time + waiting_time
      let start := s.current_time
      let current_time := s.current_time + p.CPU_cycles
      Except.ok
        { process_queue := s.process_queue.eraseIdx s.i
          i := 0
          current_time := current_time
          waiting_time := waiting_time
          total_waiting_time := total_waiting_time
          sjf_file := s.sjf_file ++
            [{ process := p, start_time := start, stop_time := current_time,
               waiting_time := waiting_time }] }
    else
      Except.ok { s with i := s.i + 1 }

/-- The loop `while( !process_queue.empty() )`, with a bound on the number of
iterations. -/
def SJF_loop : Nat → SPState → Except Fault SPState
  | 0, _ => Except.error Fault.out_of_fuel
  | fuel + 1, s =>
    if s.process_queue.isEmpty then Except.ok s
    else
      match SJF_iteration s with
      | Except.error e => Except.error e
      | Except.ok s1 => SJF_loop fuel s1

/-- A number of iterations that is enough for the loop started in `s`. -/
def SP_fuel (s : SPState) : Nat :=
  (s.process_queue.length + 1) * (s.process_queue.length + 1) - s.i

/-- The statement `avg_waiting_time = total_waiting_time / num_processes;` of
both schedulers: the quotient of two `int`s, truncated towards zero, and only
then stored in the `double` (which holds every `int` exactly). -/
def avg_waiting_time (total_waiting_time num_processes : Int) : Except Fault ℚ :=
  if num_processes = 0 then Except.error Fault.division_by_zero
  else Except.ok ((Int.tdiv total_waiting_time num_processes : Int) : ℚ)

/-- What `SJF_single_processor` has computed when it reaches its report: the
state at the exit of the loop and the average waiting time. -/
structure SPResult where
  loop_end : SPState
  avg_waiting_time : ℚ
deriving DecidableEq, Repr

/-- The function `SJF_single_processor` up to its call of `reset_processes`. -/
def SJF_single_processor (sort : List node → List node) (process_list : List node)
    (num_processes : Int) : Except Fault SPResult :=
  let s0 := SP_init (sorted_process_queue sort process_list)
  match SJF_loop (SP_fuel s0) s0 with
  | Except.error e => Except.error e
  | Except.ok s =>
    match avg_waiting_time s.total_waiting_time num_processes with
    | Except.error e => Except.error e
    | Except.ok avg => Except.ok { loop_end := s, avg_waiting_time := avg }

/-- The states the loop of `SJF_single_processor` passes through: `Reaches s t`
says that the loop, started in `s`, arrives at `t` after some iterations. -/
inductive Reaches : SPState → SPState → Prop where
  | refl (s : SPState) : Reaches s s
  | step {s t u : SPState} : Reaches s t → t.process_queue.isEmpty = false →
      SJF_iteration t = Except.ok u → Reaches s u

/-! ## `generate_processes` -/

/-- The rejection loop `x = dist(gen); while(x < lo || x > hi) x = dist(gen);`
over the values the distribution returns.  `none`: the values run out before
one lies in the range. -/
def draw_until_in_range (lo hi : Int) : List Int → Option (Int × List Int)
  | [] => none
  | d :: rest =>
    if d < lo ∨ d > hi then draw_until_in_range lo hi rest else some (d, rest)

/-- The variables `generate_processes` updates: the vector `process_list`, the
global `total_cycles`, the local `arrival` and the values not yet drawn. -/
structure GenState where
  process_list : List node
  total_cycles : Int
  arrival : Int
  draws : List Int
deriving DecidableEq, Repr

/-- The `for` loop of `generate_processes`: `k` iterations are left and the
loop variable is `i`.  The write `process_list[i] = current_node` puts the
record behind the `i` records written before (`main` has resized the vector to
`num_processes`). -/
def generate_loop : Nat → Nat → GenState → Option GenState
  | 0, _, g => some g
  | k + 1, i, g =>
    match draw_until_in_range 1000 11000 g.draws with
    | none => none
    | some (cycles, draws1) =>
      match draw_until_in_range 1 100 draws1 with
      | none => none
      | some (footprint, draws2) =>
        let current_node : node :=
          { process_ID := (i : Int) + 1
            CPU_cycles := cycles
            memory_footprint := footprint
            arrival_time := g.arrival
            start_time := 0
            stop_time := 0
            current_time := 0
            previous_end_time := 0
            waiting_time := 0
            remaining_cycles := cycles }
        generate_loop k (i + 1)
          { process_list := g.process_list ++ [current_node]
            total_cycles := g.total_cycles + current_node.CPU_cycles
            arrival := g.arrival + 50
            draws := draws2 }

/-- The function `generate_processes`, started with the global `total_cycles`
and the values `draws` of the random source. -/
def generate_processes (draws : List Int) (total_cycles : Int) (num_processes : Int) :
    Option GenState :=
  generate_loop num_processes.toNat 0
    { process_list := [], total_cycles := total_cycles, arrival := 0, draws := draws }


/-! ## Two sorting procedures that meet the contract of `std::sort` -/

/-- Insertion of `a` into a list ordered by cycles.  With `ties_first` the new
element goes in front of the elements with the same cycles, otherwise behind
them. -/
def insert_by_cycles (ties_first : Bool) (a : node) : List node → List node
  | [] => [a]
  | b :: l =>
    if a.CPU_cycles < b.CPU_cycles ∨ (ties_first = true ∧ a.CPU_cycles = b.CPU_cycles) then
      a :: b :: l
    else b :: insert_by_cycles ties_first a l

/-- Insertion sort by cycles, inserting the elements from the last to the
first.  With `ties_first = true` it keeps elements of equal cycles in their
order, with `ties_first = false` it reverses them. -/
def insertion_sort (ties_first : Bool) : List node → List node
  | [] => []
  | a :: l => insert_by_cycles ties_first a (insertion_sort ties_first l)

/-! ## Invariants of the loop of `SJF_single_processor` -/

/-- The scan invariant: the queue is ordered by non-decreasing cycles, the
index `i` lies within the queue or right behind it, and none of the entries in
front of `i` has arrived yet. -/
def SP_scan_inv (s : SPState) : Prop :=
  s.process_queue.Pairwise (fun x y => x.CPU_cycles ≤ y.CPU_cycles) ∧
  s.i ≤ s.process_queue.length ∧
  ∀ j p, j < s.i → s.process_queue[j]? = some p → s.current_time < p.arrival_time

/-- The report invariant relative to the queue `q0` the loop started with:
every row obeys the two timing equations, the accumulated total is the sum
over the rows, and the rows together with the queue are a rearrangement of
`q0`. -/
def SP_report_inv (q0 : List node) (s : SPState) : Prop :=
  (∀ r ∈ s.sjf_file, r.waiting_time = r.start_time - r.process.arrival_time ∧
      r.stop_time = r.start_time + r.process.CPU_cycles) ∧
  s.total_waiting_time =
      (s.sjf_file.map (fun r => r.start_time - r.process.arrival_time)).sum ∧
  (s.sjf_file.map (fun r => r.process) ++ s.process_queue).Perm q0

/-! ## Concrete workloads -/

/-- A process record as `generate_processes` leaves it: the times are 0 and
the remaining cycles are the cycles. -/
def fresh_node (process_ID CPU_cycles memory_footprint arrival_time : Int) : node :=
  { process_ID := process_ID
    CPU_cycles := CPU_cycles
    memory_footprint := memory_footprint
    arrival_time := arrival_time
    start_time := 0
    stop_time := 0
    current_time := 0
    previous_end_time := 0
    waiting_time := 0
    remaining_cycles := CPU_cycles }

/-- The three processes A, B, C of the single-processor scenario, with
memory footprints `f1 f2 f3`. -/
def scenario_workload (f1 f2 f3 : Int) : List node :=
  [fresh_node 1 2000 f1 0, fresh_node 2 1000 f2 50, fresh_node 3 1500 f3 100]

/-- The result of `SJF_single_processor` on the scenario workload (footprints
20, 30, 40) with the order-preserving insertion sort. -/
def scenario_result : SPResult :=
  { loop_end :=
      { process_queue := []
        i := 0, current_time := 4500, waiting_time := 2900, total_waiting_time := 4850
        sjf_file :=
          [{ process := fresh_node 1 2000 20 0, start_time := 0, stop_time := 2000,
             waiting_time := 0 },
           { process := fresh_node 2 1000 30 50, start_time := 2000, stop_time := 3000,
             waiting_time := 1950 },
           { process := fresh_node 3 1500 40 100, start_time := 3000, stop_time := 4500,
             waiting_time := 2900 }] }
    avg_waiting_time := 1616 }

/-- A workload in which the processes 2 and 3 have the same cycles. -/
def tie_workload : List node :=
  [fresh_node 1 1000 20 0, fresh_node 2 2000 30 50, fresh_node 3 2000 40 100]

/-- A workload of one process that arrives at time 50, after the clock has
started at 0. -/
def late_workload : List node := [fresh_node 1 1000 20 50]

/-- A workload whose second process arrives at time 5000, after the first one
has finished at time 1000. -/
def gap_workload : List node := [fresh_node 1 1000 20 0, fresh_node 2 1000 30 5000]

/-- The order of the ready queue in the words of the specification: ascending
by cycles, and by ascending id among processes of equal cycles. -/
def spec_queue_order (q : List node) : Prop :=
  q.Pairwise (fun a b => a.CPU_cycles < b.CPU_cycles ∨
    (a.CPU_cycles = b.CPU_cycles ∧ a.process_ID < b.process_ID))

instance spec_queue_order_decidable (q : List node) : Decidable (spec_queue_order q) :=
  inferInstanceAs (Decidable (q.Pairwise (fun (a b : node) => a.CPU_cycles < b.CPU_cycles ∨
    (a.CPU_cycles = b.CPU_cycles ∧ a.process_ID < b.process_ID))))

/-! ## A random source as an unending sequence -/

/-- The values number `m`, `m + 1`, ..., `m + len - 1` of a random source
`source`, as a list of draws. -/
def source_values (source : Nat → Int) (m len : Nat) : List Int :=
  (List.range' m len).map source

/-- A random source that gives 6000 and 20 in turn. -/
def alternating_source (j : Nat) : Int := if j % 2 = 0 then 6000 else 20

/-! ## `SJF_multiprocessor` -/

/-- One line of the multi-processor report: the line `Current Time = t`, the
row of a processor that runs a process, or the row of dashes of a processor
that is empty.  Processors are numbered from 0 here (the report prints
`index + 1`). -/
inductive Line where
  | time (current_time : Int)
  | process (index : Nat) (p : node)
  | idle (index : Nat)
deriving DecidableEq, Repr

/-- The variables of `SJF_multiprocessor` while its loop runs.
`processor_schedule` holds the four vectors `processor1_schedule`, ...,
`processor4_schedule`, `processor_index` the four variables
`processor1_index`, ..., `processor4_index`, and `processor_cycles` the array
`int processor_cycles[4]`.  A record is held by one vector at a time (the
queue or one schedule), so a write through an entry of a schedule is a write
to that entry of the list. -/
structure MPState where
  process_queue : List node
  processor_schedule : List (List node)
  processor_index : List Nat
  processor_cycles : List Int
  current_time : Int
  total_waiting_time : Int
  i : Nat
  min_cycles_index : Nat
  empty_processor : Bool
  processes_left : Bool
  processes_executed : Int
  sjf_file : List Line
deriving DecidableEq, Repr

/-- The state in front of the loop of `SJF_multiprocessor`.  The four
schedules are empty: they are global vectors that nothing has filled before
the call (`reset_processes` clears them at the end of each scheduler). -/
def MP_init (process_queue : List node) : MPState :=
  { process_queue := process_queue
    processor_schedule := [[], [], [], []]
    processor_index := [0, 0, 0, 0]
    processor_cycles := [0, 0, 0, 0]
    current_time := 0
    total_waiting_time := 0
    i := 0
    min_cycles_index := 0
    empty_processor := false
    processes_left := true
    processes_executed := 0
    sjf_file := [] }

/-- The read `v[idx]` of a vector or array: a fault when `idx` is past the
end. -/
def read_at {α : Type} (v : List α) (idx : Nat) : Except Fault α :=
  match v[idx]? with
  | some a => Except.ok a
  | none => Except.error Fault.out_of_range

/-- A loop `for(int index = 0; index < n; index++)` without `break`: the body
is run for `index = 0, ..., n - 1` in turn. -/
def for_range {σ : Type} (body : Nat → σ → Except Fault σ) : Nat → σ → Except Fault σ
  | 0, s => Except.ok s
  | n + 1, s =>
    match for_range body n s with
    | Except.error e => Except.error e
    | Except.ok s1 => body n s1

/-- The first `switch(min_cycles_index)` of the steady-state branch: case `k`
moves `process_queue[i]` to the end of the schedule of processor `k`, steps the
index of that schedule, and writes start time, stop time and waiting time to
the entry at that index.  A value of `min_cycles_index` above 3 matches no
case. -/
def steady_dispatch (s : MPState) : Except Fault MPState :=
  if s.min_cycles_index < 4 then
    match read_at s.process_queue s.i, read_at s.processor_schedule s.min_cycles_index,
        read_at s.processor_index s.min_cycles_index with
    | Except.ok p, Except.ok schedule, Except.ok index =>
      match read_at (schedule ++ [p]) (index + 1) with
      | Except.error e => Except.error e
      | Except.ok entry =>
        let entry1 : node :=
          { entry with
            start_time := s.current_time
            stop_time := s.current_time + entry.CPU_cycles
            waiting_time := s.current_time - entry.arrival_time }
        Except.ok
          { s with
            process_queue := s.process_queue.eraseIdx s.i
            processor_schedule :=
              s.processor_schedule.set s.min_cycles_index
                ((schedule ++ [p]).set (index + 1) entry1)
            processor_index := s.processor_index.set s.min_cycles_index (index + 1)
            total_waiting_time := s.total_waiting_time + entry1.waiting_time
            processor_cycles := s.processor_cycles.set s.min_cycles_index entry1.CPU_cycles }
    | _, _, _ => Except.error Fault.out_of_range
  else Except.ok s

/-- The body of the report loop of the steady-state branch for processor
`index`: the remaining cycles of the entry at the index of its schedule are
set to stop time minus current time; a positive value prints the row, another
one marks the processor empty, prints dashes and, when `processes_executed` is
50, ends the main loop. -/
def steady_report (index : Nat) (s : MPState) : Except Fault MPState :=
  let after_switch : Except Fault MPState :=
    if index < 4 then
      match read_at s.processor_schedule index, read_at s.processor_index index with
      | Except.ok schedule, Except.ok idx =>
        match read_at schedule idx with
        | Except.error e => Except.error e
        | Except.ok entry =>
          let cycles := entry.stop_time - s.current_time
          let entry1 : node := { entry with remaining_cycles := cycles }
          let s1 : MPState :=
            { s with
              processor_cycles := s.processor_cycles.set index cycles
              processor_schedule := s.processor_schedule.set index (schedule.set idx entry1) }
          if cycles > 0 then
            Except.ok { s1 with sjf_file := s1.sjf_file ++ [Line.process index entry1] }
          else
            Except.ok { s1 with empty_processor := true }
      | _, _ => Except.error Fault.out_of_range
    else Except.ok s
  match after_switch with
  | Except.error e => Except.error e
  | Except.ok s1 =>
    if s1.empty_processor then
      Except.ok
        { s1 with
          sjf_file := s1.sjf_file ++ [Line.idle index]
          processes_left := if s1.processes_executed = 50 then false else s1.processes_left
          empty_processor := false }
    else Except.ok s1

/-- The loop that initialises `min_cycles_index` in the steady-state branch:
`for(index = 0; index < processor_count; index++)` with
`if(processor_cycles[index] > 0) { min_cycles_index = index; break; } else
min_cycles_index++`.  `remaining` counts the indices still to visit. -/
def min_init (processor_cycles : List Int) : Nat → Nat → Nat → Except Fault Nat
  | 0, _, min_cycles_index => Except.ok min_cycles_index
  | remaining + 1, index, min_cycles_index =>
    match read_at processor_cycles index with
    | Except.error e => Except.error e
    | Except.ok c =>
      if c > 0 then Except.ok index
      else min_init processor_cycles remaining (index + 1) (min_cycles_index + 1)

/-- The body of the loop that picks the smallest remaining cycles in the
steady-state branch: `if(processor_cycles[index] > 0 && processor_cycles[index]
<= processor_cycles[min_cycles_index]) min_cycles_index = index`. -/
def min_pick (processor_cycles : List Int) (index : Nat) (min_cycles_index : Nat) :
    Except Fault Nat :=
  match read_at processor_cycles index with
  | Except.error e => Except.error e
  | Except.ok c =>
    if c > 0 then
      match read_at processor_cycles min_cycles_index with
      | Except.error e => Except.error e
      | Except.ok cmin => if c ≤ cmin then Except.ok index else Except.ok min_cycles_index
    else Except.ok min_cycles_index

/-- The steady-state branch (`processor_cycles[min_cycles_index] > 0`) behind
the header of the report. -/
def steady_branch (processor_count : Nat) (s : MPState) : Except Fault MPState :=
  match (if s.process_queue.isEmpty then Except.ok s else steady_dispatch s) with
  | Except.error e => Except.error e
  | Except.ok s1 =>
    match for_range steady_report processor_count s1 with
    | Except.error e => Except.error e
    | Except.ok s2 =>
      match min_init s2.processor_cycles processor_count 0 s2.min_cycles_index with
      | Except.error e => Except.error e
      | Except.ok m1 =>
        match for_range (min_pick s2.processor_cycles) processor_count m1 with
        | Except.error e => Except.error e
        | Except.ok m2 =>
          match read_at s2.processor_cycles m2 with
          | Except.error e => Except.error e
          | Except.ok c =>
            Except.ok
              { s2 with
                min_cycles_index := m2
                processes_executed := s2.processes_executed + 1
                current_time := s2.current_time + c }

/-- The `switch(min_cycles_index)` of the branch for empty processors: case `k`
moves `process_queue[i]` to the end of the schedule of processor `k` and writes
start time, stop time and waiting time to the entry 0 of that schedule.  Case 0
sets the stop time to the cycles alone, and case 3 alone counts
`processes_executed`. -/
def cold_dispatch (s : MPState) : Except Fault MPState :=
  if s.min_cycles_index < 4 then
    match read_at s.process_queue s.i, read_at s.processor_schedule s.min_cycles_index,
        read_at s.processor_index s.min_cycles_index with
    | Except.ok p, Except.ok schedule, Except.ok index =>
      match read_at (schedule ++ [p]) 0 with
      | Except.error e => Except.error e
      | Except.ok entry =>
        let entry1 : node :=
          { entry with
            start_time := s.current_time
            stop_time :=
              if s.min_cycles_index = 0 then entry.CPU_cycles
              else s.current_time + entry.CPU_cycles
            waiting_time := s.current_time - entry.arrival_time }
        let schedule1 := (schedule ++ [p]).set 0 entry1
        match read_at schedule1 index with
        | Except.error e => Except.error e
        | Except.ok current =>
          Except.ok
            { s with
              process_queue := s.process_queue.eraseIdx s.i
              processor_schedule := s.processor_schedule.set s.min_cycles_index schedule1
              total_waiting_time := s.total_waiting_time + current.waiting_time
              processor_cycles := s.processor_cycles.set s.min_cycles_index entry1.CPU_cycles
              processes_executed :=
                if s.min_cycles_index = 3 then s.processes_executed + 1
                else s.processes_executed }
    | _, _, _ => Except.error Fault.out_of_range
  else Except.ok s

/-- The time above which the report loop of the branch for empty processors
takes 50 cycles off processor `index`: `current_time > 0`, `> 50`, `> 100` for
the processors 0, 1, 2 and no such step for processor 3. -/
def cold_threshold : Nat → Option Int
  | 0 => some 0
  | 1 => some 50
  | 2 => some 100
  | _ => none

/-- The test in front of that step: `if(current_time > 0)` for processor 0,
`if(current_time > 50)` for processor 1, `if(current_time > 100)` for
processor 2. -/
def cold_late (index : Nat) (current_time : Int) : Bool :=
  match cold_threshold index with
  | some t => decide (current_time > t)
  | none => false

/-- The body of the report loop of the branch for empty processors: dashes for
a processor above `min_cycles_index`, otherwise the row of the entry 0 of the
schedule, after 50 cycles have been taken off when the current time is above
the threshold of the processor. -/
def cold_report (index : Nat) (s : MPState) : Except Fault MPState :=
  if index > s.min_cycles_index then
    Except.ok { s with sjf_file := s.sjf_file ++ [Line.idle index] }
  else if index < 4 then
    match read_at s.processor_schedule index, read_at s.processor_cycles index with
    | Except.ok schedule, Except.ok c =>
      match read_at schedule 0 with
      | Except.error e => Except.error e
      | Except.ok entry =>
        let entry1 : node :=
          if cold_late index s.current_time then
            { entry with remaining_cycles := entry.remaining_cycles - 50 }
          else entry
        Except.ok
          { s with
            processor_schedule := s.processor_schedule.set index (schedule.set 0 entry1)
            processor_cycles :=
              if cold_late index s.current_time then s.processor_cycles.set index (c - 50)
              else s.processor_cycles
            sjf_file := s.sjf_file ++ [Line.process index entry1] }
    | _, _ => Except.error Fault.out_of_range
  else Except.ok s

/-- The body of the loop that picks the smallest remaining cycles at the end of
the branch for empty processors: `if(processor_cycles[index] <
processor_cycles[min_cycles_index]) min_cycles_index = index`. -/
def min_scan (processor_cycles : List Int) (index : Nat) (min_cycles_index : Nat) :
    Except Fault Nat :=
  match read_at processor_cycles index, read_at processor_cycles min_cycles_index with
  | Except.ok c, Except.ok cmin => if c < cmin then Except.ok index else Except.ok min_cycles_index
  | _, _ => Except.error Fault.out_of_range

/-- The branch for empty processors (`processor_cycles[min_cycles_index] > 0`
is false) behind the header of the report.  The test
`min_cycles_index < processor_count - 1` is written without the subtraction. -/
def cold_branch (processor_count : Nat) (s : MPState) : Except Fault MPState :=
  match cold_dispatch s with
  | Except.error e => Except.error e
  | Except.ok s1 =>
    match for_range cold_report processor_count s1 with
    | Except.error e => Except.error e
    | Except.ok s2 =>
      if s2.min_cycles_index + 1 < processor_count then
        Except.ok
          { s2 with
            min_cycles_index := s2.min_cycles_index + 1
            current_time := s2.current_time + 50 }
      else
        match for_range (min_scan s2.processor_cycles) processor_count 0 with
        | Except.error e => Except.error e
        | Except.ok m =>
          match read_at s2.processor_cycles m with
          | Except.error e => Except.error e
          | Except.ok c =>
            Except.ok { s2 with min_cycles_index := m, current_time := s2.current_time + c }

/-- The body of the `while` loop of `SJF_multiprocessor`, run once. -/
def MP_iteration (processor_count : Nat) (s : MPState) : Except Fault MPState :=
  match read_at s.process_queue s.i with
  | Except.error e => Except.error e
  | Except.ok p =>
    if p.arrival_time ≤ s.current_time then
      let s0 : MPState := { s with sjf_file := s.sjf_file ++ [Line.time s.current_time] }
      match read_at s0.processor_cycles s0.min_cycles_index with
      | Except.error e => Except.error e
      | Except.ok c =>
        match (if c > 0 then steady_branch processor_count s0
               else cold_branch processor_count s0) with
        | Except.error e => Except.error e
        | Except.ok s1 => Except.ok { s1 with i := 0 }
    else
      Except.ok { s with i := s.i + 1 }

/-- The loop `while( processes_left )`, with a bound on the number of
iterations. -/
def MP_loop (processor_count : Nat) : Nat → MPState → Except Fault MPState
  | 0, _ => Except.error Fault.out_of_fuel
  | fuel + 1, s =>
    if s.processes_left then
      match MP_iteration processor_count s with
      | Except.error e => Except.error e
      | Except.ok s1 => MP_loop processor_count fuel s1
    else Except.ok s

/-- A number of iterations that is enough for the loop started in `s`. -/
def MP_fuel (s : MPState) : Nat :=
  (s.process_queue.length + 1) * (s.process_queue.length + 1) - s.i

/-- What `SJF_multiprocessor` has computed when it reaches the end of its
report: the state at the exit of the loop and the average waiting time. -/
structure MPResult where
  loop_end : MPState
  avg_waiting_time : ℚ
deriving DecidableEq, Repr

/-- The function `SJF_multiprocessor` up to its call of `reset_processes`. -/
def SJF_multiprocessor (sort : List node → List node) (process_list : List node)
    (num_processes : Int) (processor_count : Nat) : Except Fault MPResult :=
  let s0 := MP_init (sorted_process_queue sort process_list)
  match MP_loop processor_count (MP_fuel s0) s0 with
  | Except.error e => Except.error e
  | Except.ok s =>
    match avg_waiting_time s.total_waiting_time num_processes with
    | Except.error e => Except.error e
    | Except.ok avg => Except.ok { loop_end := s, avg_waiting_time := avg }

/-- The states the loop of `SJF_multiprocessor` passes through:
`MP_reaches processor_count s t` says that the loop, started in `s`, arrives at
`t` after some iterations. -/
inductive MP_reaches (processor_count : Nat) : MPState → MPState → Prop where
  | refl (s : MPState) : MP_reaches processor_count s s
  | step {s t u : MPState} : MP_reaches processor_count s t → t.processes_left = true →
      MP_iteration processor_count t = Except.ok u → MP_reaches processor_count s u

/-- The loop of `SJF_multiprocessor` run for `k` iterations, as long as
`processes_left` holds. -/
def MP_run (processor_count : Nat) : Nat → MPState → Except Fault MPState
  | 0, s => Except.ok s
  | k + 1, s =>
    if s.processes_left then
      match MP_iteration processor_count s with
      | Except.error e => Except.error e
      | Except.ok s1 => MP_run processor_count k s1
    else Except.ok s

/-! ## Invariants of the loop of `SJF_multiprocessor` -/

/-- The fields of a record the generator fixes: id, cycles, memory footprint
and arrival time. -/
def node_key (p : node) : Int × Int × Int × Int :=
  (p.process_ID, p.CPU_cycles, p.memory_footprint, p.arrival_time)

/-- A record without its remaining cycles (set to 0), the only field the two
report loops write. -/
def forget_remaining (p : node) : node := { p with remaining_cycles := 0 }

/-- The record of `p` right after a dispatch at time `t`: start time `t`, stop
time `t` plus cycles, waiting time `t` minus arrival time. -/
def dispatched_at (t : Int) (p : node) : node :=
  { p with
    start_time := t
    stop_time := t + p.CPU_cycles
    waiting_time := t - p.arrival_time }

/-- The scan invariant of the multi-processor loop: the queue is ordered by
non-decreasing cycles, the index `i` lies within the queue or right behind it,
and none of the entries in front of `i` has arrived yet. -/
def MP_scan_inv (s : MPState) : Prop :=
  s.process_queue.Pairwise (fun x y => x.CPU_cycles ≤ y.CPU_cycles) ∧
  s.i ≤ s.process_queue.length ∧
  ∀ j p, j < s.i → s.process_queue[j]? = some p → s.current_time < p.arrival_time

/-- The records of the queue and of the four schedules of a state, reduced to
the fields the generator fixes. -/
def MP_keys (s : MPState) : List (Int × Int × Int × Int) :=
  (s.process_queue ++ s.processor_schedule.flatten).map node_key

/-- The state of an iteration behind the line `Current Time = ...`. -/
def MP_header (s : MPState) : MPState :=
  { s with sjf_file := s.sjf_file ++ [Line.time s.current_time] }

/-- What the two report loops leave as it is: the queue, the indices of the
schedules, the clock, the total waiting time, `min_cycles_index`, `i`,
`processes_executed`, the flag `empty_processor` (not set), the records of the
schedules up to their remaining cycles, and the size of `processor_cycles`. -/
def MP_frame (s u : MPState) : Prop :=
  u.process_queue = s.process_queue ∧
  u.processor_index = s.processor_index ∧
  u.current_time = s.current_time ∧
  u.total_waiting_time = s.total_waiting_time ∧
  u.min_cycles_index = s.min_cycles_index ∧
  u.i = s.i ∧
  u.processes_executed = s.processes_executed ∧
  u.empty_processor = false ∧
  u.processor_schedule.map (List.map forget_remaining)
    = s.processor_schedule.map (List.map forget_remaining) ∧
  u.processor_cycles.length = s.processor_cycles.length

/-- A dispatch from `s` to `u`: the process `p` read at `process_queue[i]` has
left the queue and has been added to the schedules, which hold the same
records otherwise. -/
def MP_moved (s u : MPState) (p : node) : Prop :=
  s.process_queue[s.i]? = some p ∧
  u.process_queue = s.process_queue.eraseIdx s.i ∧
  (u.processor_schedule.flatten.map node_key).Perm
    (node_key p :: s.processor_schedule.flatten.map node_key)

/-- What holds of a record in a schedule at clock `t`: its stop time is its
start time plus its cycles, it has started by `t`, its waiting time is its
start time minus its arrival time, its remaining cycles do not exceed its
cycles, and its cycles are at least 1000. -/
def entry_ok (t : Int) (e : node) : Prop :=
  e.stop_time = e.start_time + e.CPU_cycles ∧
  e.start_time ≤ t ∧
  e.waiting_time = e.start_time - e.arrival_time ∧
  e.remaining_cycles ≤ e.CPU_cycles ∧
  1000 ≤ e.CPU_cycles

/-- Every record of every schedule obeys `entry_ok` at the clock of the
state. -/
def entries_ok (s : MPState) : Prop :=
  ∀ (k : Nat) (schedule : List node), s.processor_schedule[k]? = some schedule →
    ∀ e ∈ schedule, entry_ok s.current_time e

/-- In the steady-state report, `processor_cycles[k]` has been set to the stop
time of the record at the index of schedule `k`, minus the clock. -/
def slot_cycles (s : MPState) (k : Nat) : Prop :=
  ∃ schedule idx e, s.processor_schedule[k]? = some schedule ∧
    s.processor_index[k]? = some idx ∧ schedule[idx]? = some e ∧
    s.processor_cycles[k]? = some (e.stop_time - s.current_time)

/-- Every process row of the report shows remaining cycles above 0 and not
above the cycles of the process. -/
def lines_ok (sjf_file : List Line) : Prop :=
  ∀ k e, Line.process k e ∈ sjf_file → 0 < e.remaining_cycles ∧ e.remaining_cycles ≤ e.CPU_cycles

/-- Processor `k` during the fill-up: its schedule holds one record, its index
is 0, and `processor_cycles[k]` equals the remaining cycles of that record,
which are at least `bound`. -/
def cold_slot (bound : Int) (s : MPState) (k : Nat) : Prop :=
  ∃ e, s.processor_schedule[k]? = some [e] ∧ s.processor_index[k]? = some 0 ∧
    s.processor_cycles[k]? = some e.remaining_cycles ∧ bound ≤ e.remaining_cycles

/-- Processor `k` before it has received a process: empty schedule, index 0,
`processor_cycles[k] = 0`. -/
def empty_slot (s : MPState) (k : Nat) : Prop :=
  s.processor_schedule[k]? = some [] ∧ s.processor_index[k]? = some 0 ∧
    s.processor_cycles[k]? = some 0

/-- The fill-up phase: `min_cycles_index` counts the processors filled so far,
one every 50 time units; the processors in front of it hold one record each
and the others are still empty.  (With `processor_count = 0` the code still
fills processor 0.) -/
def MP_cold (processor_count : Nat) (s : MPState) : Prop :=
  s.min_cycles_index < max processor_count 1 ∧
  s.current_time = 50 * (s.min_cycles_index : Int) ∧
  (∀ k, k < s.min_cycles_index → cold_slot (1000 - 50 * (s.min_cycles_index : Int)) s k) ∧
  (∀ k, s.min_cycles_index ≤ k → k < 4 → empty_slot s k)

/-- The steady state: `min_cycles_index` names a processor in use whose entry
of `processor_cycles` is positive, and the index of every processor in use
points to the last record of its schedule. -/
def MP_steady (processor_count : Nat) (s : MPState) : Prop :=
  s.min_cycles_index < max processor_count 1 ∧
  (∃ c, s.processor_cycles[s.min_cycles_index]? = some c ∧ 0 < c) ∧
  ∀ k, k < max processor_count 1 → ∃ schedule idx,
    s.processor_schedule[k]? = some schedule ∧ s.processor_index[k]? = some idx ∧
    schedule.length = idx + 1

/-- The invariant of the loop of `SJF_multiprocessor` on a workload whose
processes have at least 1000 cycles and start with their remaining cycles
equal to their cycles. -/
def MP_inv (processor_count : Nat) (s : MPState) : Prop :=
  s.processor_schedule.length = 4 ∧ s.processor_index.length = 4 ∧
  s.processor_cycles.length = 4 ∧
  s.empty_processor = false ∧
  (∀ p ∈ s.process_queue, 1000 ≤ p.CPU_cycles ∧ p.remaining_cycles = p.CPU_cycles) ∧
  entries_ok s ∧
  lines_ok s.sjf_file ∧
  (MP_cold processor_count s ∨ MP_steady processor_count s)

/-- A dispatch from `s` to `u` in full: the process `p` read at
`process_queue[i]` has left the queue, its waiting time has been added to the
total, and the schedule of the processor `min_cycles_index` holds, behind the
records it held before, the record of `p` with the times of a dispatch at the
clock of `s` (all this up to the remaining cycles, which the report loops
rewrite). -/
def MP_dispatched (s u : MPState) (p : node) : Prop :=
  s.process_queue[s.i]? = some p ∧
  u.process_queue = s.process_queue.eraseIdx s.i ∧
  u.total_waiting_time = s.total_waiting_time + (s.current_time - p.arrival_time) ∧
  ∃ schedule0 schedule e,
    s.processor_schedule[s.min_cycles_index]? = some schedule0 ∧
    u.processor_schedule[s.min_cycles_index]? = some (schedule ++ [e]) ∧
    schedule.map forget_remaining = schedule0.map forget_remaining ∧
    forget_remaining e = forget_remaining (dispatched_at s.current_time p)

/-- A workload as `generate_processes` builds it (and `reset_processes`
restores it), as far as the schedulers depend on it: the record at position
`j` arrives at `50 * j`, its cycles lie in [1000, 11000] and its remaining
cycles equal its cycles. -/
def generated_workload (process_list : List node) : Prop :=
  ∀ (j : Nat) (p : node), process_list[j]? = some p →
    p.arrival_time = 50 * (j : Int) ∧ 1000 ≤ p.CPU_cycles ∧ p.CPU_cycles ≤ 11000 ∧
    p.remaining_cycles = p.CPU_cycles

/-- The state of the loop of `SJF_multiprocessor` after `k` iterations on the
queue `q` (the first state, should an iteration fail). -/
def MP_state_after (processor_count k : Nat) (q : List node) : MPState :=
  match MP_run processor_count k (MP_init q) with
  | Except.ok s => s
  | Except.error _ => MP_init q

/-- A generated workload of four processes in which the processes 1 and 2, on
two processors, finish at the same time 1050. -/
def mp_tie_workload : List node :=
  [fresh_node 1 1050 20 0, fresh_node 2 1000 30 50, fresh_node 3 2000 40 100,
   fresh_node 4 3000 50 150]

/-- A generated workload of five processes in which, on two processors, the
process dispatched at time 1000 gets the same remaining cycles, 2050, as the
process that runs on the other processor. -/
def mp_equal_workload : List node :=
  [fresh_node 1 1000 20 0, fresh_node 2 3000 30 50, fresh_node 3 2050 40 100,
   fresh_node 4 5000 50 150, fresh_node 5 6000 60 200]

/-- Equality of two results of a run can be decided. -/
instance except_decidable_eq {ε α : Type} [DecidableEq ε] [DecidableEq α] :
    DecidableEq (Except ε α)
  | Except.ok a, Except.ok b =>
    if h : a = b then isTrue (by rw [h]) else isFalse (fun hc => h (Except.ok.inj hc))
  | Except.error a, Except.error b =>
    if h : a = b then isTrue (by rw [h]) else isFalse (fun hc => h (Except.error.inj hc))
  | Except.ok _, Except.error _ => isFalse (fun hc => by cases hc)
  | Except.error _, Except.ok _ => isFalse (fun hc => by cases hc)

/-- The record of the process `p` with the given start time, stop time,
waiting time and remaining cycles. -/
def run_record (p : node) (start stop waiting remaining : Int) : node :=
  { p with
    start_time := start
    stop_time := stop
    waiting_time := waiting
    remaining_cycles := remaining }

/-- A generated workload of 50 processes, as `main` asks for: process `j + 1`
arrives at `50 * j`; the cycles, between 1000 and 7713, are all different. -/
def mp_workload_50 : List node :=
  (List.range 50).map (fun j : Nat =>
    fresh_node ((j : Int) + 1) (1000 + 137 * (((j * 7 + 3) % 50 : Nat) : Int)) 20 (50 * (j : Int)))

/-! ## The parameters of the memory-footprint distribution -/

/-- The second argument of
`normal_distribution<> footprints_distribution(20, 101/6)`, the standard
deviation: `101/6` divides two `int` literals, so the quotient is truncated
before it is converted to the `double` parameter (which holds every `int`
exactly). -/
def footprints_distribution_stddev : ℚ := ((Int.tdiv 101 6 : Int) : ℚ)

/-- The standard deviation the comment in `generate_processes` works out:
`Standard Deviation (memory footprints) = 50.5/3 = 16.8333 = 101/6`. -/
def footprints_stddev_comment : ℚ := 101 / 6

/-! ## The clock of the single-processor loop -/

/-- The clock invariant of the single-processor loop: the clock is the sum of
the cycles of the rows written so far, and every row starts at the sum of the
cycles of the rows in front of it and stops at that sum plus its own cycles. -/
def SP_clock_inv (s : SPState) : Prop :=
  s.current_time = (s.sjf_file.map (fun r => r.process.CPU_cycles)).sum ∧
  ∀ (j : Nat) (r : Row), s.sjf_file[j]? = some r →
    r.start_time = ((s.sjf_file.take j).map (fun r => r.process.CPU_cycles)).sum ∧
    r.stop_time = ((s.sjf_file.take (j + 1)).map (fun r => r.process.CPU_cycles)).sum

/-! ## The records of the schedules and of the report -/

/-- The records of the four schedules of a state without their remaining
cycles. -/
def MP_cores (s : MPState) : List node :=
  s.processor_schedule.flatten.map forget_remaining

/-- The order of the times of a dispatch: the process has arrived when it
starts, it does not stop before it starts, and its waiting time is not
negative. -/
def times_ok (e : node) : Prop :=
  e.arrival_time ≤ e.start_time ∧ e.start_time ≤ e.stop_time ∧ 0 ≤ e.waiting_time

/-- The four processes of the multi-processor scenario: cycles 1000, 2000,
1500, 500 and arrival times 0, 50, 100, 150, with memory footprints
`f1 f2 f3 f4`. -/
def mp_scenario_workload (f1 f2 f3 f4 : Int) : List node :=
  [fresh_node 1 1000 f1 0, fresh_node 2 2000 f2 50, fresh_node 3 1500 f3 100,
   fresh_node 4 500 f4 150]

/-! ## `reset_processes` -/

/-- What `reset_processes` writes to one record: `start_time`, `stop_time`,
`previous_end_time` and `waiting_time` become 0 and `remaining_cycles` becomes
`CPU_cycles`. -/
def reset_node (p : node) : node :=
  { p with
    start_time := 0
    stop_time := 0
    previous_end_time := 0
    waiting_time := 0
    remaining_cycles := p.CPU_cycles }

/-- What `reset_processes` works on: the records of the doubly linked list, in
the order of the links from `head`, the global `process_queue` and the four
global schedules. -/
structure Memory where
  nodes : List node
  process_queue : List node
  processor_schedule : List (List node)
deriving DecidableEq, Repr

/-- The `for` loop of `reset_processes`: `k` iterations are left and
`current_node` is the record at position `i` of the list.  A step along
`next_node` behind the last record leaves the list, and a further iteration
would write through a pointer that `generate_processes` never set: a fault. -/
def reset_loop : Nat → Nat → List node → Except Fault (List node)
  | 0, _, nodes => Except.ok nodes
  | k + 1, i, nodes =>
    match nodes[i]? with
    | none => Except.error Fault.out_of_range
    | some p => reset_loop k (i + 1) (nodes.set i (reset_node p))

/-- The function `reset_processes` on the list whose records are `nodes`: the
loop over `num_processes` records, then the five `clear()` calls.  The
statement `delete current_node` between them acts on the pointer the loop ends
with; the model has no heap, and that statement has no counterpart here. -/
def reset_processes (nodes : List node) (num_processes : Int) : Except Fault Memory :=
  match reset_loop num_processes.toNat 0 nodes with
  | Except.error e => Except.error e
  | Except.ok nodes1 =>
    Except.ok { nodes := nodes1, process_queue := [], processor_schedule := [[], [], [], []] }

/-- The record of the process `p` among `records`: the queue and the schedules
hold pointers to the records of the list, so what the schedulers write to an
entry of a schedule is written to the record of the list with the same id (the
ids `generate_processes` gives are all different). -/
def current_record (records : List node) (p : node) : node :=
  match records.find? (fun r => decide (r.process_ID = p.process_ID)) with
  | some r => r
  | none => p

/-- The records of the list when the loop of `SJF_multiprocessor` is in the
state `s`. -/
def MP_nodes (process_list : List node) (s : MPState) : List node :=
  process_list.map (current_record (s.process_queue ++ s.processor_schedule.flatten))

/-- The whole function `SJF_single_processor`: the run, which writes to no
record, and the call `reset_processes(head, num_processes)` at its end. -/
def SJF_single_processor_reset (sort : List node → List node) (process_list : List node)
    (num_processes : Int) : Except Fault (SPResult × Memory) :=
  match SJF_single_processor sort process_list num_processes with
  | Except.error e => Except.error e
  | Except.ok r =>
    match reset_processes process_list num_processes with
    | Except.error e => Except.error e
    | Except.ok m => Except.ok (r, m)

/-- The whole function `SJF_multiprocessor`: the run and the call
`reset_processes(head, num_processes)` at its end, on the records as the loop
has left them. -/
def SJF_multiprocessor_reset (sort : List node → List node) (process_list : List node)
    (num_processes : Int) (processor_count : Nat) : Except Fault (MPResult × Memory) :=
  match SJF_multiprocessor sort process_list num_processes processor_count with
  | Except.error e => Except.error e
  | Except.ok r =>
    match reset_processes (MP_nodes process_list r.loop_end) num_processes with
    | Except.error e => Except.error e
    | Except.ok m => Except.ok (r, m)
/-- A workload of 60 processes, process `j + 1` arriving at `50 * j`, in which
the processes 1 and 2 (1050 and 1000 cycles) stop at the same time 1050. -/
def mp_workload_60 : List node :=
  (List.range 60).map (fun j : Nat =>
    fresh_node ((j : Int) + 1) (if j = 0 then 1050 else 990 + 10 * (j : Int)) 20
      (50 * (j : Int)))

/-- Values of the random source from which `generate_processes` builds
`mp_workload_60`. -/
def mp_draws_60 : List Int :=
  ((List.range 60).map (fun j : Nat =>
    [if j = 0 then 1050 else 990 + 10 * (j : Int), 20])).flatten

/-- The state of the loop of `SJF_multiprocessor` when the first `m` processes
of `process_list` have been dispatched, the process at position `k` to
processor `k` at the clock `50 * k`: the schedule of processor `k < m` holds
the record of that dispatch and nothing else, the other schedules are empty,
and the queue holds the remaining processes. -/
def cold_filled (process_list : List node) (m : Nat) (s : MPState) : Prop :=
  (∀ k, k < m → ∃ p e, process_list[k]? = some p ∧
    s.processor_schedule[k]? = some [e] ∧
    forget_remaining e = forget_remaining (dispatched_at (50 * (k : Int)) p)) ∧
  (∀ k, m ≤ k → k < 4 → s.processor_schedule[k]? = some []) ∧
  s.process_queue.Perm (process_list.drop m)

/-- Values of the random source from which `generate_processes` builds
`mp_workload_50`. -/
def mp_draws_50 : List Int :=
  ((List.range 50).map (fun j : Nat =>
    [1000 + 137 * (((j * 7 + 3) % 50 : Nat) : Int), 20])).flatten

/-- The pace of the dispatches: the record at position `j` of a schedule starts
at `950 * j` or later, and the clock has reached 950 times the number of
records of the processor `min_cycles_index`. -/
def MP_pace (s : MPState) : Prop :=
  (∀ (k : Nat) (schedule : List node) (j : Nat) (e : node),
    s.processor_schedule[k]? = some schedule → schedule[j]? = some e →
    950 * (j : Int) ≤ e.start_time) ∧
  ∀ schedule, s.processor_schedule[s.min_cycles_index]? = some schedule →
    950 * (schedule.length : Int) ≤ s.current_time

/-- The counter `processes_executed` stays behind the number of the processes
dispatched so far: it is below that number, or both are 0. -/
def MP_counter (s : MPState) : Prop :=
  s.processes_executed + 1 ≤ (s.processor_schedule.flatten.length : Int) ∨
  (s.processes_executed = 0 ∧ s.processor_schedule.flatten = [])

/-! ## `std::sort` as libstdc++ implements it

The source is compiled with g++ (`Compile using: g++ -std=c++0x ...`), whose
library implements `std::sort` as an introsort: quicksort with the median of
three as pivot down to ranges of 16 elements, heapsort when the recursion gets
too deep, and a final insertion sort (`bits/stl_algo.h`, `bits/stl_heap.h`).
The vector is a list, iterators are positions, `none` is a read or a write
outside the vector. -/

section gnu_sort

variable {α : Type}

/-- The call `std::iter_swap(a, b)`. -/
def iter_swap (v : List α) (a b : Nat) : Option (List α) :=
  match v[a]?, v[b]? with
  | some x, some y => some ((v.set a y).set b x)
  | _, _ => none

/-- The function `std::__move_median_to_first(result, a, b, c, comp)`: swaps
the median of `*a`, `*b`, `*c` to `*result`. -/
def move_median_to_first (comp : α → α → Bool) (v : List α) (result a b c : Nat) :
    Option (List α) :=
  match v[a]?, v[b]?, v[c]? with
  | some x, some y, some z =>
    if comp x y then
      if comp y z then iter_swap v result b
      else if comp x z then iter_swap v result c
      else iter_swap v result a
    else if comp x z then iter_swap v result a
    else if comp y z then iter_swap v result c
    else iter_swap v result b
  | _, _, _ => none

/-- The loop `while (comp(first, pivot)) ++first;` of
`std::__unguarded_partition`; `steps` bounds the positions still to read. -/
def partition_up (comp : α → α → Bool) (v : List α) (pivot : Nat) : Nat → Nat → Option Nat
  | 0, _ => none
  | steps + 1, first =>
    match v[first]?, v[pivot]? with
    | some x, some p => if comp x p then partition_up comp v pivot steps (first + 1) else some first
    | _, _ => none

/-- The loop `while (comp(pivot, last)) --last;` of
`std::__unguarded_partition`. -/
def partition_down (comp : α → α → Bool) (v : List α) (pivot : Nat) : Nat → Option Nat
  | 0 =>
    match v[0]?, v[pivot]? with
    | some x, some p => if comp p x then none else some 0
    | _, _ => none
  | last + 1 =>
    match v[last + 1]?, v[pivot]? with
    | some x, some p => if comp p x then partition_down comp v pivot last else some (last + 1)
    | _, _ => none

/-- The function `std::__unguarded_partition(first, last, pivot, comp)`;
`steps` bounds the passes of its `while (true)`. -/
def unguarded_partition (comp : α → α → Bool) (pivot : Nat) :
    Nat → List α → Nat → Nat → Option (List α × Nat)
  | 0, _, _, _ => none
  | steps + 1, v, first, last =>
    match partition_up comp v pivot (v.length + 1) first with
    | none => none
    | some first1 =>
      if last = 0 then none
      else
        match partition_down comp v pivot (last - 1) with
        | none => none
        | some last1 =>
          if first1 < last1 then
            match iter_swap v first1 last1 with
            | none => none
            | some v1 => unguarded_partition comp pivot steps v1 (first1 + 1) last1
          else some (v, first1)

/-- The function `std::__unguarded_partition_pivot(first, last, comp)`. -/
def unguarded_partition_pivot (comp : α → α → Bool) (v : List α) (first last : Nat) :
    Option (List α × Nat) :=
  let mid := first + (last - first) / 2
  match move_median_to_first comp v first (first + 1) mid (last - 1) with
  | none => none
  | some v1 => unguarded_partition comp first (v1.length + 1) v1 (first + 1) last

/-- The loop of `std::__push_heap(first, holeIndex, topIndex, value, comp)`;
the position `first + k` is `first + k` of the vector. -/
def push_heap (comp : α → α → Bool) (first topIndex : Nat) (value : α) :
    Nat → List α → Nat → Option (List α)
  | 0, _, _ => none
  | steps + 1, v, holeIndex =>
    let parent := (holeIndex - 1) / 2
    if holeIndex > topIndex then
      match v[first + parent]? with
      | none => none
      | some x =>
        if comp x value then
          if first + holeIndex < v.length then
            push_heap comp first topIndex value steps (v.set (first + holeIndex) x) parent
          else none
        else if first + holeIndex < v.length then some (v.set (first + holeIndex) value)
        else none
    else if first + holeIndex < v.length then some (v.set (first + holeIndex) value)
    else none

/-- The first loop of `std::__adjust_heap`: the hole moves down to the larger
child while there are two children. -/
def adjust_heap_down (comp : α → α → Bool) (first len : Nat) :
    Nat → List α → Nat → Nat → Option (List α × Nat × Nat)
  | 0, _, _, _ => none
  | steps + 1, v, holeIndex, secondChild =>
    if secondChild < (len - 1) / 2 then
      let child := 2 * (secondChild + 1)
      match v[first + child]?, v[first + (child - 1)]? with
      | some x, some y =>
        let child1 := if comp x y then child - 1 else child
        match v[first + child1]? with
        | none => none
        | some z =>
          if first + holeIndex < v.length then
            adjust_heap_down comp first len steps (v.set (first + holeIndex) z) child1 child1
          else none
      | _, _ => none
    else some (v, holeIndex, secondChild)

/-- The function `std::__adjust_heap(first, holeIndex, len, value, comp)`. -/
def adjust_heap (comp : α → α → Bool) (v : List α) (first holeIndex len : Nat) (value : α) :
    Option (List α) :=
  match adjust_heap_down comp first len (len + 1) v holeIndex holeIndex with
  | none => none
  | some (v1, holeIndex1, secondChild1) =>
    if len % 2 = 0 ∧ 2 ≤ len ∧ secondChild1 = (len - 2) / 2 then
      let child := 2 * (secondChild1 + 1)
      match v1[first + (child - 1)]? with
      | none => none
      | some z =>
        if first + holeIndex1 < v1.length then
          push_heap comp first holeIndex value (len + 1) (v1.set (first + holeIndex1) z)
            (child - 1)
        else none
    else push_heap comp first holeIndex value (len + 1) v1 holeIndex1

/-- The function `std::__pop_heap(first, last, result, comp)`. -/
def pop_heap (comp : α → α → Bool) (v : List α) (first last result : Nat) : Option (List α) :=
  match v[result]?, v[first]? with
  | some value, some top => adjust_heap comp (v.set result top) first 0 (last - first) value
  | _, _ => none

/-- The loop of `std::__make_heap`, from `parent` down to 0. -/
def make_heap_loop (comp : α → α → Bool) (first len : Nat) : Nat → List α → Option (List α)
  | 0, v =>
    match v[first]? with
    | none => none
    | some value => adjust_heap comp v first 0 len value
  | parent + 1, v =>
    match v[first + (parent + 1)]? with
    | none => none
    | some value =>
      match adjust_heap comp v first (parent + 1) len value with
      | none => none
      | some v1 => make_heap_loop comp first len parent v1

/-- The function `std::__make_heap(first, last, comp)`. -/
def make_heap (comp : α → α → Bool) (v : List α) (first last : Nat) : Option (List α) :=
  if last - first < 2 then some v
  else make_heap_loop comp first (last - first) ((last - first - 2) / 2) v

/-- The loop of `std::__heap_select(first, middle, last, comp)` behind its
`std::__make_heap`: `count` positions from `i` on. -/
def heap_select_loop (comp : α → α → Bool) (first middle : Nat) :
    Nat → Nat → List α → Option (List α)
  | 0, _, v => some v
  | count + 1, i, v =>
    match v[i]?, v[first]? with
    | some x, some top =>
      if comp x top then
        match pop_heap comp v first middle i with
        | none => none
        | some v1 => heap_select_loop comp first middle count (i + 1) v1
      else heap_select_loop comp first middle count (i + 1) v
    | _, _ => none

/-- The function `std::__sort_heap(first, last, comp)`:
`while (last - first > 1) { --last; std::__pop_heap(first, last, last, comp); }`,
with `count` the passes left. -/
def sort_heap (comp : α → α → Bool) (first : Nat) : Nat → Nat → List α → Option (List α)
  | 0, _, v => some v
  | count + 1, last, v =>
    if last - first > 1 then
      match pop_heap comp v first (last - 1) (last - 1) with
      | none => none
      | some v1 => sort_heap comp first count (last - 1) v1
    else some v

/-- The function `std::__partial_sort(first, middle, last, comp)`. -/
def partial_sort (comp : α → α → Bool) (v : List α) (first middle last : Nat) :
    Option (List α) :=
  match make_heap comp v first middle with
  | none => none
  | some v1 =>
    match heap_select_loop comp first middle (last - middle) middle v1 with
    | none => none
    | some v2 => sort_heap comp first (middle - first) middle v2

/-- The function `std::__introsort_loop(first, last, depth_limit, comp)`: each
pass of its `while (last - first > 16)` takes one off `depth_limit`, sorts the
part behind the cut by a call of its own and goes on with the part in front of
it. -/
def introsort_loop (comp : α → α → Bool) : Nat → List α → Nat → Nat → Option (List α)
  | 0, v, first, last =>
    if last - first > 16 then partial_sort comp v first last last else some v
  | depth_limit + 1, v, first, last =>
    if last - first > 16 then
      match unguarded_partition_pivot comp v first last with
      | none => none
      | some (v1, cut) =>
        match introsort_loop comp depth_limit v1 cut last with
        | none => none
        | some v2 => introsort_loop comp depth_limit v2 first cut
    else some v

/-- The loop of `std::__unguarded_linear_insert(last, comp)`: `value` moves
down from the position `last` while it is less than the element in front. -/
def unguarded_linear_insert_loop (comp : α → α → Bool) (value : α) :
    Nat → List α → Option (List α)
  | 0, _ => none
  | last + 1, v =>
    match v[last]? with
    | none => none
    | some x =>
      if comp value x then
        if last + 1 < v.length then
          unguarded_linear_insert_loop comp value last (v.set (last + 1) x)
        else none
      else if last + 1 < v.length then some (v.set (last + 1) value)
      else none

/-- The function `std::__unguarded_linear_insert(last, comp)`. -/
def unguarded_linear_insert (comp : α → α → Bool) (v : List α) (last : Nat) : Option (List α) :=
  match v[last]? with
  | none => none
  | some value => unguarded_linear_insert_loop comp value last v

/-- The loop of `std::__insertion_sort(first, last, comp)`: `count` positions
from `i` on; an element less than `*first` moves to the front
(`std::move_backward`), another one is inserted without a guard. -/
def insertion_sort_loop (comp : α → α → Bool) (first : Nat) :
    Nat → Nat → List α → Option (List α)
  | 0, _, v => some v
  | count + 1, i, v =>
    match v[i]?, v[first]? with
    | some x, some f =>
      if comp x f then
        insertion_sort_loop comp first count (i + 1)
          (v.take first ++ x :: ((v.drop first).take (i - first)) ++ v.drop (i + 1))
      else
        match unguarded_linear_insert comp v i with
        | none => none
        | some v1 => insertion_sort_loop comp first count (i + 1) v1
    | _, _ => none

/-- The function `std::__insertion_sort(first, last, comp)`. -/
def gnu_insertion_sort (comp : α → α → Bool) (v : List α) (first last : Nat) :
    Option (List α) :=
  if first = last then some v
  else insertion_sort_loop comp first (last - (first + 1)) (first + 1) v

/-- The function `std::__unguarded_insertion_sort(first, last, comp)`: `count`
positions from `i` on. -/
def unguarded_insertion_sort (comp : α → α → Bool) : Nat → Nat → List α → Option (List α)
  | 0, _, v => some v
  | count + 1, i, v =>
    match unguarded_linear_insert comp v i with
    | none => none
    | some v1 => unguarded_insertion_sort comp count (i + 1) v1

/-- The function `std::__final_insertion_sort(first, last, comp)`. -/
def final_insertion_sort (comp : α → α → Bool) (v : List α) (first last : Nat) :
    Option (List α) :=
  if last - first > 16 then
    match gnu_insertion_sort comp v first (first + 16) with
    | none => none
    | some v1 => unguarded_insertion_sort comp (last - (first + 16)) (first + 16) v1
  else gnu_insertion_sort comp v first last

/-- The function `std::__lg(n)`: the position of the highest bit of `n`. -/
def lg : Nat → Nat → Nat
  | 0, _ => 0
  | steps + 1, n => if n ≤ 1 then 0 else lg steps (n / 2) + 1

/-- The function `std::__sort(first, last, comp)` on the whole vector. -/
def gnu_sort (comp : α → α → Bool) (v : List α) : Option (List α) :=
  if v.length = 0 then some v
  else
    match introsort_loop comp (lg v.length v.length * 2) v 0 v.length with
    | none => none
    | some v1 => final_insertion_sort comp v1 0 v1.length

end gnu_sort

/-- The comparison both schedulers hand to `sort`:
`[](const node *a, const node *b) { return a->CPU_cycles < b->CPU_cycles; }`. -/
def compare_cycles (a b : node) : Bool := decide (a.CPU_cycles < b.CPU_cycles)

/-- The call `sort(process_queue.begin(), process_queue.end(), ...)` as
libstdc++ runs it: the queue `std::__sort` leaves (the queue as it was, should
`gnu_sort` end in `none`, which `std_sort_gnu_returns` shows it never does). -/
def std_sort_gnu (process_queue : List node) : List node :=
  (gnu_sort compare_cycles process_queue).getD process_queue

/-- A workload of 17 processes, process `j + 1` arriving at `50 * j`, with the
cycles 1000, 1100, ..., 2600 in this order, except that process 9 has the 1200
cycles of process 3. -/
def tie_workload_17 : List node :=
  (List.range 17).map (fun j : Nat =>
    fresh_node ((j : Int) + 1) (if j = 8 then 1200 else 1000 + 100 * (j : Int)) 20
      (50 * (j : Int)))

/-- Values of the random source from which `generate_processes` builds
`tie_workload_17`. -/
def tie_draws_17 : List Int :=
  ((List.range 17).map (fun j : Nat =>
    [if j = 8 then 1200 else 1000 + 100 * (j : Int), 20])).flatten

/-- A workload of 50 processes, as `main` asks for: process `j + 1` arrives at
`50 * j`, and the processes `j + 1` and `j + 26` have the same cycles. -/
def tie_workload_50 : List node :=
  (List.range 50).map (fun j : Nat =>
    fresh_node ((j : Int) + 1) (1000 + 137 * (((j * 7 + 3) % 25 : Nat) : Int)) 20 (50 * (j : Int)))

/-- Values of the random source from which `generate_processes` builds
`tie_workload_50`. -/
def tie_draws_50 : List Int :=
  ((List.range 50).map (fun j : Nat =>
    [1000 + 137 * (((j * 7 + 3) % 25 : Nat) : Int), 20])).flatten

/-! ## Notions for the proof that `gnu_sort` sorts -/

/-- The vector `w` is a rearrangement of `v` that differs from it only at the
positions from `first` up to, and without, `last`. -/
def same_outside {α : Type} (first last : Nat) (v w : List α) : Prop :=
  w.length = v.length ∧ w.Perm v ∧ ∀ i, i < first ∨ last ≤ i → w[i]? = v[i]?

/-- The elements of `v` at the positions from `first` up to, and without,
`last`. -/
def slice {α : Type} (v : List α) (first last : Nat) : List α :=
  (v.drop first).take (last - first)

/-- The parent of the position `i` of a heap. -/
def heap_parent (i : Nat) : Nat := (i - 1) / 2

/-- The position `h` lies in the part of the heap below `k`, `k` included. -/
def below (k h : Nat) : Prop := ∃ n, heap_parent^[n] h = k

/-- The element at the position `i` of the heap that starts at `first`. -/
def heap_at {α : Type} (v : List α) (first i : Nat) : Option α := v[first + i]?

/-- The element at `i` is not above the element at the parent of `i`. -/
def heap_edge {α : Type} (key : α → Int) (v : List α) (first i : Nat) : Prop :=
  ∀ a b, heap_at v first i = some a → heap_at v first (heap_parent i) = some b → key a ≤ key b

/-- The first `len` positions from `first` on are a heap as far as the parents
from `k` on go. -/
def heap_from {α : Type} (key : α → Int) (v : List α) (first len k : Nat) : Prop :=
  ∀ i, 1 ≤ i → i < len → k ≤ heap_parent i → heap_edge key v first i

/-- A heap from `k` on with a hole at `h`: the order holds wherever the hole
is not involved, and the children of the hole are not above its parent. -/
def heap_hole {α : Type} (key : α → Int) (v : List α) (first len k h : Nat) : Prop :=
  (∀ i, 1 ≤ i → i < len → k ≤ heap_parent i → i ≠ h → heap_parent i ≠ h →
    heap_edge key v first i) ∧
  (h ≠ k → ∀ c, 1 ≤ c → c < len → heap_parent c = h →
    ∀ a b, heap_at v first c = some a → heap_at v first (heap_parent h) = some b →
      key a ≤ key b)

/-! ## Lemmas on the sorting procedures -/

theorem insert_by_cycles_perm (t : Bool) (a : node) (l : List node) :
    (insert_by_cycles t a l).Perm (a :: l) := by
  induction l with
  | nil => simp [insert_by_cycles]
  | cons b l ih =>
    unfold insert_by_cycles
    split
    · exact List.Perm.refl _
    · exact (List.Perm.cons b ih).trans (List.Perm.swap a b l)

theorem insertion_sort_perm (t : Bool) (l : List node) : (insertion_sort t l).Perm l := by
  induction l with
  | nil => simp [insertion_sort]
  | cons a l ih =>
    simp only [insertion_sort]
    exact (insert_by_cycles_perm t a _).trans (List.Perm.cons a ih)

theorem insert_by_cycles_sorted (t : Bool) (a : node) (l : List node)
    (h : l.Pairwise (fun x y => x.CPU_cycles ≤ y.CPU_cycles)) :
    (insert_by_cycles t a l).Pairwise (fun x y => x.CPU_cycles ≤ y.CPU_cycles) := by
  induction l with
  | nil => simp [insert_by_cycles]
  | cons b l ih =>
    have hb := List.pairwise_cons.mp h
    unfold insert_by_cycles
    split
    · rename_i hab
      have hle : a.CPU_cycles ≤ b.CPU_cycles := by
        rcases hab with h1 | h1
        · exact le_of_lt h1
        · exact le_of_eq h1.2
      refine List.pairwise_cons.mpr ⟨?_, h⟩
      intro y hy
      rcases List.mem_cons.mp hy with rfl | hy
      · exact hle
      · exact le_trans hle (hb.1 y hy)
    · rename_i hab
      have hle : b.CPU_cycles ≤ a.CPU_cycles := by
        by_contra hc
        exact hab (Or.inl (lt_of_not_le hc))
      refine List.pairwise_cons.mpr ⟨?_, ih hb.2⟩
      intro y hy
      rcases List.mem_cons.mp ((insert_by_cycles_perm t a l).subset hy) with rfl | hy
      · exact hle
      · exact hb.1 y hy

theorem insertion_sort_sorted (t : Bool) (l : List node) :
    (insertion_sort t l).Pairwise (fun x y => x.CPU_cycles ≤ y.CPU_cycles) := by
  induction l with
  | nil => simp [insertion_sort]
  | cons a l ih =>
    simp only [insertion_sort]
    exact insert_by_cycles_sorted t a _ ih

theorem insertion_sort_contract (t : Bool) :
    std_sort_contract cycles_less (insertion_sort t) := by
  intro l
  refine ⟨insertion_sort_perm t l, ?_⟩
  refine (insertion_sort_sorted t l).imp ?_
  intro a b hab
  simp only [cycles_less, not_lt]
  exact hab

/-- The queue a conforming `std::sort` builds is ordered by non-decreasing
cycles and is a rearrangement of the workload. -/
theorem sorted_process_queue_spec (sort : List node → List node)
    (hsort : std_sort_contract cycles_less sort) (process_list : List node) :
    (sorted_process_queue sort process_list).Perm process_list ∧
    (sorted_process_queue sort process_list).Pairwise
      (fun x y => x.CPU_cycles ≤ y.CPU_cycles) := by
  refine ⟨(hsort process_list).1, ?_⟩
  refine ((hsort process_list).2).imp ?_
  intro a b hab
  simpa [cycles_less] using hab


/-! ## Lemmas on the loop of `SJF_single_processor` -/

/-- An iteration that succeeds either dispatches the entry at `i` (which has
arrived) or steps over it (it has not arrived). -/
theorem SJF_iteration_ok {s u : SPState} (h : SJF_iteration s = Except.ok u) :
    ∃ p, s.process_queue[s.i]? = some p ∧
      ((p.arrival_time ≤ s.current_time ∧
          u.process_queue = s.process_queue.eraseIdx s.i ∧ u.i = 0 ∧
          u.current_time = s.current_time + p.CPU_cycles ∧
          u.waiting_time = s.current_time - p.arrival_time ∧
          u.total_waiting_time = s.total_waiting_time + (s.current_time - p.arrival_time) ∧
          u.sjf_file = s.sjf_file ++
            [{ process := p, start_time := s.current_time,
               stop_time := s.current_time + p.CPU_cycles,
               waiting_time := s.current_time - p.arrival_time }]) ∨
       (¬ p.arrival_time ≤ s.current_time ∧
          u.process_queue = s.process_queue ∧ u.i = s.i + 1 ∧
          u.current_time = s.current_time ∧ u.waiting_time = s.waiting_time ∧
          u.total_waiting_time = s.total_waiting_time ∧ u.sjf_file = s.sjf_file)) := by
  unfold SJF_iteration at h
  cases hq : s.process_queue[s.i]? with
  | none => rw [hq] at h; cases h
  | some p =>
    rw [hq] at h
    refine ⟨p, rfl, ?_⟩
    by_cases harr : p.arrival_time ≤ s.current_time
    · left
      simp only [harr, if_true] at h
      cases h
      exact ⟨harr, rfl, rfl, rfl, rfl, rfl, rfl⟩
    · right
      simp only [harr, if_false] at h
      cases h
      exact ⟨harr, rfl, rfl, rfl, rfl, rfl, rfl⟩

/-- The only fault of an iteration is the read past the end of the queue. -/
theorem SJF_iteration_error {s : SPState} {e : Fault} (h : SJF_iteration s = Except.error e) :
    e = Fault.out_of_range ∧ s.process_queue[s.i]? = none := by
  unfold SJF_iteration at h
  cases hq : s.process_queue[s.i]? with
  | none => rw [hq] at h; cases h; exact ⟨rfl, rfl⟩
  | some p =>
    rw [hq] at h
    by_cases harr : p.arrival_time ≤ s.current_time
    · simp only [harr, if_true] at h; cases h
    · simp only [harr, if_false] at h; cases h

theorem SP_scan_inv_init (q : List node)
    (hq : q.Pairwise (fun x y => x.CPU_cycles ≤ y.CPU_cycles)) : SP_scan_inv (SP_init q) := by
  refine ⟨hq, Nat.zero_le _, ?_⟩
  intro j p hj
  exact absurd hj (Nat.not_lt_zero j)

theorem SP_scan_inv_iteration {s u : SPState} (hinv : SP_scan_inv s)
    (h : SJF_iteration s = Except.ok u) : SP_scan_inv u := by
  obtain ⟨hsorted, hle, hscan⟩ := hinv
  obtain ⟨p, hp, hcase⟩ := SJF_iteration_ok h
  have hlt : s.i < s.process_queue.length := by
    by_contra hc
    rw [List.getElem?_eq_none (Nat.le_of_not_lt hc)] at hp
    cases hp
  rcases hcase with ⟨_, hq, hi, _, _, _, _⟩ | ⟨harr, hq, hi, ht, _, _, _⟩
  · refine ⟨?_, ?_, ?_⟩
    · rw [hq]
      exact hsorted.sublist (List.eraseIdx_sublist _ _)
    · rw [hi]; exact Nat.zero_le _
    · intro j r hj
      rw [hi] at hj
      exact absurd hj (Nat.not_lt_zero j)
  · refine ⟨?_, ?_, ?_⟩
    · rw [hq]; exact hsorted
    · rw [hq, hi]; exact hlt
    · intro j r hj hr
      rw [hi] at hj
      rw [hq] at hr
      rw [ht]
      rcases Nat.lt_succ_iff_lt_or_eq.mp hj with hj1 | hj1
      · exact hscan j r hj1 hr
      · subst hj1
        rw [hp] at hr
        cases hr
        exact lt_of_not_le harr

theorem SP_scan_inv_reaches {s t : SPState} (hr : Reaches s t) (hinv : SP_scan_inv s) :
    SP_scan_inv t := by
  induction hr with
  | refl => exact hinv
  | step _ _ hstep ih => exact SP_scan_inv_iteration ih hstep


theorem cons_eraseIdx_perm (q : List node) (i : Nat) (p : node) (h : q[i]? = some p) :
    (p :: q.eraseIdx i).Perm q := by
  induction q generalizing i with
  | nil => simp at h
  | cons a q ih =>
    cases i with
    | zero =>
      simp only [List.getElem?_cons_zero, Option.some.injEq] at h
      subst h
      simp
    | succ i =>
      simp only [List.getElem?_cons_succ] at h
      simp only [List.eraseIdx_cons_succ]
      exact (List.Perm.swap a p _).trans (List.Perm.cons a (ih i h))

theorem SP_report_inv_init (q : List node) : SP_report_inv q (SP_init q) := by
  refine ⟨?_, ?_, ?_⟩
  · intro r hr
    simp [SP_init] at hr
  · simp [SP_init]
  · simp [SP_init]

theorem SP_report_inv_iteration {q0 : List node} {s u : SPState} (hinv : SP_report_inv q0 s)
    (h : SJF_iteration s = Except.ok u) : SP_report_inv q0 u := by
  obtain ⟨hrows, htotal, hperm⟩ := hinv
  obtain ⟨p, hp, hcase⟩ := SJF_iteration_ok h
  rcases hcase with ⟨_, hq, _, _, _, htot, hfile⟩ | ⟨_, hq, _, _, _, htot, hfile⟩
  · refine ⟨?_, ?_, ?_⟩
    · intro r hr
      rw [hfile] at hr
      rcases List.mem_append.mp hr with hr | hr
      · exact hrows r hr
      · rw [List.mem_singleton] at hr
        subst hr
        exact ⟨rfl, rfl⟩
    · rw [htot, hfile, htotal]
      simp
    · rw [hfile, hq]
      simp only [List.map_append, List.map_cons, List.map_nil, List.append_assoc,
        List.singleton_append]
      exact (List.Perm.append_left _ (cons_eraseIdx_perm _ _ _ hp)).trans hperm
  · refine ⟨?_, ?_, ?_⟩
    · rw [hfile]; exact hrows
    · rw [htot, hfile]; exact htotal
    · rw [hfile, hq]; exact hperm

theorem SP_report_inv_reaches {q0 : List node} {s t : SPState} (hr : Reaches s t)
    (hinv : SP_report_inv q0 s) : SP_report_inv q0 t := by
  induction hr with
  | refl => exact hinv
  | step _ _ hstep ih => exact SP_report_inv_iteration ih hstep

theorem Reaches_trans {s t u : SPState} (h1 : Reaches s t) (h2 : Reaches t u) :
    Reaches s u := by
  induction h2 with
  | refl => exact h1
  | step _ hne hstep ih => exact Reaches.step ih hne hstep

/-- A loop that returns has passed from its first state to the returned one,
and the returned state has an empty queue. -/
theorem SJF_loop_ok (fuel : Nat) (s t : SPState) (h : SJF_loop fuel s = Except.ok t) :
    Reaches s t ∧ t.process_queue = [] := by
  induction fuel generalizing s with
  | zero => simp [SJF_loop] at h
  | succ fuel ih =>
    unfold SJF_loop at h
    by_cases hempty : s.process_queue.isEmpty = true
    · simp only [hempty, if_true] at h
      cases h
      exact ⟨Reaches.refl _, List.isEmpty_iff.mp hempty⟩
    · simp only [hempty] at h
      cases hstep : SJF_iteration s with
      | error e => rw [hstep] at h; simp at h
      | ok s1 =>
        rw [hstep] at h
        simp only [Bool.false_eq_true, if_false] at h
        obtain ⟨hr, hq⟩ := ih s1 h
        refine ⟨Reaches_trans ?_ hr, hq⟩
        exact Reaches.step (Reaches.refl s) (by simpa using hempty) hstep

/-- The bound `SP_fuel` is never used up: the loop ends by itself or stops at a
read past the end of the queue. -/
theorem SJF_loop_fuel_enough (fuel : Nat) (s : SPState) (hi : s.i ≤ s.process_queue.length)
    (hfuel : SP_fuel s ≤ fuel) : SJF_loop fuel s ≠ Except.error Fault.out_of_fuel := by
  induction fuel generalizing s with
  | zero =>
    exfalso
    unfold SP_fuel at hfuel
    have h1 : (s.process_queue.length + 1) * (s.process_queue.length + 1)
        = s.process_queue.length * s.process_queue.length + 2 * s.process_queue.length + 1 := by
      ring
    omega
  | succ fuel ih =>
    unfold SJF_loop
    by_cases hempty : s.process_queue.isEmpty = true
    · simp [hempty]
    · simp only [hempty, Bool.false_eq_true, if_false]
      cases hstep : SJF_iteration s with
      | error e =>
        simp only
        rw [(SJF_iteration_error hstep).1]
        simp
      | ok s1 =>
        simp only
        obtain ⟨p, hp, hcase⟩ := SJF_iteration_ok hstep
        have hlt : s.i < s.process_queue.length := by
          by_contra hc
          rw [List.getElem?_eq_none (Nat.le_of_not_lt hc)] at hp
          cases hp
        have h1 : (s.process_queue.length + 1) * (s.process_queue.length + 1)
            = s.process_queue.length * s.process_queue.length
              + 2 * s.process_queue.length + 1 := by
          ring
        unfold SP_fuel at hfuel
        rcases hcase with ⟨_, hq, hi1, _, _, _, _⟩ | ⟨_, hq, hi1, _, _, _, _⟩
        · have hlen : s1.process_queue.length + 1 = s.process_queue.length := by
            rw [hq, List.length_eraseIdx, if_pos hlt]
            omega
          apply ih s1
          · rw [hi1]; exact Nat.zero_le _
          · unfold SP_fuel
            rw [hi1, hlen]
            have h2 : s.process_queue.length * s.process_queue.length
                = s1.process_queue.length * s1.process_queue.length
                  + 2 * s1.process_queue.length + 1 := by
              rw [← hlen]; ring
            omega
        · apply ih s1
          · rw [hi1, hq]; exact hlt
          · unfold SP_fuel
            rw [hi1, hq]
            omega


/-- A run of `SJF_single_processor` that returns has left its loop with an
empty queue, in a state the loop reaches from its first state, and reports the
truncated quotient. -/
theorem SJF_single_processor_ok {sort : List node → List node} {process_list : List node}
    {num_processes : Int} {r : SPResult}
    (h : SJF_single_processor sort process_list num_processes = Except.ok r) :
    Reaches (SP_init (sorted_process_queue sort process_list)) r.loop_end ∧
    r.loop_end.process_queue = [] ∧
    avg_waiting_time r.loop_end.total_waiting_time num_processes
      = Except.ok r.avg_waiting_time := by
  unfold SJF_single_processor at h
  simp only at h
  cases hloop : SJF_loop (SP_fuel (SP_init (sorted_process_queue sort process_list)))
      (SP_init (sorted_process_queue sort process_list)) with
  | error e => rw [hloop] at h; cases h
  | ok s =>
    rw [hloop] at h
    simp only at h
    cases havg : avg_waiting_time s.total_waiting_time num_processes with
    | error e => rw [havg] at h; cases h
    | ok avg =>
      rw [havg] at h
      cases h
      obtain ⟨hr, hq⟩ := SJF_loop_ok _ _ _ hloop
      exact ⟨hr, hq, havg⟩

/-- The function `SJF_single_processor` never exhausts the iteration bound of
the model: it returns, divides by zero, or reads past the end of the queue. -/
theorem SJF_single_processor_fuel (sort : List node → List node) (process_list : List node)
    (num_processes : Int) :
    SJF_single_processor sort process_list num_processes ≠ Except.error Fault.out_of_fuel := by
  unfold SJF_single_processor
  simp only
  have hfuel := SJF_loop_fuel_enough
    (SP_fuel (SP_init (sorted_process_queue sort process_list)))
    (SP_init (sorted_process_queue sort process_list)) (Nat.zero_le _) (Nat.le_refl _)
  cases hloop : SJF_loop (SP_fuel (SP_init (sorted_process_queue sort process_list)))
      (SP_init (sorted_process_queue sort process_list)) with
  | error e =>
    simp only
    intro hc
    cases hc
    exact hfuel hloop
  | ok s =>
    simp only
    unfold avg_waiting_time
    by_cases hn : num_processes = 0
    · simp [hn]
    · simp [hn]

/-- What a dispatch picks.  In a state that obeys the scan invariant, an
iteration that writes the row `row` has read the process of that row at index
`i`; the process has arrived, every entry in front of it has not, and no
arrived entry of the queue has fewer cycles. -/
theorem dispatch_choice {s u : SPState} {row : Row} (hinv : SP_scan_inv s)
    (hstep : SJF_iteration s = Except.ok u) (hrow : u.sjf_file = s.sjf_file ++ [row]) :
    s.process_queue[s.i]? = some row.process ∧
    row.process.arrival_time ≤ s.current_time ∧
    row.start_time = s.current_time ∧
    (∀ j p, j < s.i → s.process_queue[j]? = some p → s.current_time < p.arrival_time) ∧
    (∀ r ∈ s.process_queue, r.arrival_time ≤ s.current_time →
      row.process.CPU_cycles ≤ r.CPU_cycles) := by
  obtain ⟨hsorted, _, hscan⟩ := hinv
  obtain ⟨p, hp, hcase⟩ := SJF_iteration_ok hstep
  rcases hcase with ⟨harr, _, _, _, _, _, hfile⟩ | ⟨_, _, _, _, _, _, hfile⟩
  · rw [hfile] at hrow
    have hrow1 := List.append_cancel_left hrow
    simp only [List.cons.injEq, and_true] at hrow1
    subst hrow1
    refine ⟨hp, harr, rfl, hscan, ?_⟩
    intro r hr hrarr
    obtain ⟨j, hj⟩ := List.mem_iff_getElem?.mp hr
    obtain ⟨hjlt, hjr⟩ := List.getElem?_eq_some.mp hj
    obtain ⟨hilt, hip⟩ := List.getElem?_eq_some.mp hp
    rcases Nat.lt_trichotomy j s.i with hlt | heq | hgt
    · exact absurd hrarr (not_le_of_lt (hscan j r hlt hj))
    · subst heq
      rw [hjr] at hip
      rw [hip]
    · have := List.pairwise_iff_getElem.mp hsorted s.i j hilt hjlt hgt
      rw [hjr, hip] at this
      exact this
  · exfalso
    rw [hfile] at hrow
    have := congrArg List.length hrow
    simp at this


/-! ## The single-processor scheduler: dispatch rule and report -/

/-- C1: at every dispatch of `SJF_single_processor` (an iteration, in a state
`s` the loop reaches, that writes a row), the dispatched process stands in the
ready queue, its arrival time is at most the current time, and no process of
the ready queue that has arrived has strictly fewer cycles. -/
theorem C1_dispatch_shortest_arrived (sort : List node → List node)
    (hsort : std_sort_contract cycles_less sort) (process_list : List node)
    (s u : SPState) (row : Row)
    (hreach : Reaches (SP_init (sorted_process_queue sort process_list)) s)
    (hstep : SJF_iteration s = Except.ok u)
    (hrow : u.sjf_file = s.sjf_file ++ [row]) :
    row.process ∈ s.process_queue ∧
    row.process.arrival_time ≤ s.current_time ∧
    ∀ r ∈ s.process_queue, r.arrival_time ≤ s.current_time →
      ¬ r.CPU_cycles < row.process.CPU_cycles := by
  have hinv : SP_scan_inv s :=
    SP_scan_inv_reaches hreach
      (SP_scan_inv_init _ (sorted_process_queue_spec sort hsort process_list).2)
  obtain ⟨hp, harr, _, _, hmin⟩ := dispatch_choice hinv hstep hrow
  refine ⟨List.mem_iff_getElem?.mpr ⟨s.i, hp⟩, harr, ?_⟩
  intro r hr hrarr
  exact not_lt_of_le (hmin r hr hrarr)

/-- C1 on the scenario workload: with the queue B, C, A and the clock at 0 the
scan has stepped over B and C and dispatches A. -/
theorem C1_dispatch_shortest_arrived_witness :
    fresh_node 1 2000 20 0 ∈
      [fresh_node 2 1000 30 50, fresh_node 3 1500 40 100, fresh_node 1 2000 20 0] ∧
    (fresh_node 1 2000 20 0).arrival_time ≤ 0 ∧
    ∀ r ∈ [fresh_node 2 1000 30 50, fresh_node 3 1500 40 100, fresh_node 1 2000 20 0],
      r.arrival_time ≤ 0 → ¬ r.CPU_cycles < (fresh_node 1 2000 20 0).CPU_cycles :=
  C1_dispatch_shortest_arrived (insertion_sort true) (insertion_sort_contract true)
    (scenario_workload 20 30 40)
    { process_queue :=
        [fresh_node 2 1000 30 50, fresh_node 3 1500 40 100, fresh_node 1 2000 20 0]
      i := 2, current_time := 0, waiting_time := 0, total_waiting_time := 0, sjf_file := [] }
    { process_queue := [fresh_node 2 1000 30 50, fresh_node 3 1500 40 100]
      i := 0, current_time := 2000, waiting_time := 0, total_waiting_time := 0
      sjf_file := [{ process := fresh_node 1 2000 20 0, start_time := 0, stop_time := 2000,
                     waiting_time := 0 }] }
    { process := fresh_node 1 2000 20 0, start_time := 0, stop_time := 2000, waiting_time := 0 }
    (Reaches.step (Reaches.step (Reaches.refl _) rfl rfl) rfl rfl)
    rfl rfl


/-- Every row of the report was written by a dispatch: from a start state
without rows, each row of a reached state is the row appended by the iteration
of some reached state, with the clock of that state as its start time. -/
theorem row_has_dispatch {a s : SPState} (hreach : Reaches a s) (ha : a.sjf_file = [])
    (row : Row) (hrow : row ∈ s.sjf_file) :
    ∃ s0 u0, Reaches a s0 ∧ SJF_iteration s0 = Except.ok u0 ∧
      u0.sjf_file = s0.sjf_file ++ [row] ∧ row.start_time = s0.current_time := by
  induction hreach with
  | refl => rw [ha] at hrow; cases hrow
  | @step t u hr _ hstep ih =>
    obtain ⟨p, _, hcase⟩ := SJF_iteration_ok hstep
    rcases hcase with ⟨_, _, _, _, _, _, hfile⟩ | ⟨_, _, _, _, _, _, hfile⟩
    · rw [hfile] at hrow
      rcases List.mem_append.mp hrow with hrow | hrow
      · exact ih hrow
      · rw [List.mem_singleton] at hrow
        subst hrow
        exact ⟨t, u, hr, hstep, hfile, rfl⟩
    · rw [hfile] at hrow
      exact ih hrow

/-- C2: every row of the report of `SJF_single_processor` (in any state the
loop reaches) was written by a dispatch whose clock value is the row's start
time, its waiting time is start time minus arrival time, and its stop time is
start time plus cycles. -/
theorem C2_row_times (sort : List node → List node) (process_list : List node)
    (s : SPState) (row : Row)
    (hreach : Reaches (SP_init (sorted_process_queue sort process_list)) s)
    (hrow : row ∈ s.sjf_file) :
    (∃ s0 u0, Reaches (SP_init (sorted_process_queue sort process_list)) s0 ∧
      SJF_iteration s0 = Except.ok u0 ∧ u0.sjf_file = s0.sjf_file ++ [row] ∧
      row.start_time = s0.current_time) ∧
    row.waiting_time = row.start_time - row.process.arrival_time ∧
    row.stop_time = row.start_time + row.process.CPU_cycles := by
  have hinv := SP_report_inv_reaches hreach (SP_report_inv_init _)
  exact ⟨row_has_dispatch hreach rfl row hrow, hinv.1 row hrow⟩

/-- C2 on the scenario workload: the row of B, written second. -/
theorem C2_row_times_witness :
    (∃ s0 u0, Reaches (SP_init (sorted_process_queue (insertion_sort true)
        (scenario_workload 20 30 40))) s0 ∧
      SJF_iteration s0 = Except.ok u0 ∧
      u0.sjf_file = s0.sjf_file ++ [Row.mk (fresh_node 2 1000 30 50) 2000 3000 1950] ∧
      (2000 : Int) = s0.current_time) ∧
    (1950 : Int) = 2000 - (fresh_node 2 1000 30 50).arrival_time ∧
    (3000 : Int) = 2000 + (fresh_node 2 1000 30 50).CPU_cycles :=
  C2_row_times (insertion_sort true) (scenario_workload 20 30 40)
    { process_queue := [fresh_node 3 1500 40 100]
      i := 0, current_time := 3000, waiting_time := 1950, total_waiting_time := 1950
      sjf_file := [{ process := fresh_node 1 2000 20 0, start_time := 0, stop_time := 2000,
                     waiting_time := 0 },
                   { process := fresh_node 2 1000 30 50, start_time := 2000,
                     stop_time := 3000, waiting_time := 1950 }] }
    { process := fresh_node 2 1000 30 50, start_time := 2000, stop_time := 3000,
      waiting_time := 1950 }
    (Reaches.step (Reaches.step (Reaches.step (Reaches.step (Reaches.refl _) rfl rfl) rfl rfl)
      rfl rfl) rfl rfl)
    (by decide)

/-- C3: when `SJF_single_processor` runs to completion, the total waiting time
it has accumulated is the sum of start time minus arrival time over the rows
of its report. -/
theorem C3_total_waiting_time (sort : List node → List node) (process_list : List node)
    (num_processes : Int) (r : SPResult)
    (h : SJF_single_processor sort process_list num_processes = Except.ok r) :
    r.loop_end.total_waiting_time =
      (r.loop_end.sjf_file.map (fun row => row.start_time - row.process.arrival_time)).sum := by
  have hr := (SJF_single_processor_ok h).1
  exact (SP_report_inv_reaches hr (SP_report_inv_init _)).2.1

/-- C3 on the scenario workload: 4850 = 0 + 1950 + 2900. -/
theorem C3_total_waiting_time_witness :
    scenario_result.loop_end.total_waiting_time =
      (scenario_result.loop_end.sjf_file.map
        (fun row => row.start_time - row.process.arrival_time)).sum :=
  C3_total_waiting_time (insertion_sort true) (scenario_workload 20 30 40) 3 scenario_result
    rfl

/-- C4: when `SJF_single_processor` runs to completion on a workload of n
processes, the loop has ended with an empty ready queue, the report has n rows,
and the processes of the rows are a rearrangement of the workload: every
process occurs in the report as often as in the workload, so exactly once when
the processes of the workload are distinct. -/
theorem C4_report_is_permutation (sort : List node → List node)
    (hsort : std_sort_contract cycles_less sort) (process_list : List node)
    (num_processes : Int) (r : SPResult)
    (h : SJF_single_processor sort process_list num_processes = Except.ok r) :
    r.loop_end.process_queue = [] ∧
    r.loop_end.sjf_file.length = process_list.length ∧
    (r.loop_end.sjf_file.map (fun row => row.process)).Perm process_list ∧
    (∀ p, (r.loop_end.sjf_file.map (fun row => row.process)).count p = process_list.count p) ∧
    (process_list.Nodup → (r.loop_end.sjf_file.map (fun row => row.process)).Nodup) := by
  obtain ⟨hr, hq, _⟩ := SJF_single_processor_ok h
  have hinv := (SP_report_inv_reaches hr (SP_report_inv_init _)).2.2
  rw [hq, List.append_nil] at hinv
  have hperm := hinv.trans (sorted_process_queue_spec sort hsort process_list).1
  refine ⟨hq, ?_, hperm, fun p => hperm.count_eq p, fun hnd => hperm.nodup_iff.mpr hnd⟩
  have := hperm.length_eq
  simpa using this

/-- C4 on the scenario workload. -/
theorem C4_report_is_permutation_witness :
    scenario_result.loop_end.process_queue = [] ∧
    scenario_result.loop_end.sjf_file.length = (scenario_workload 20 30 40).length ∧
    (scenario_result.loop_end.sjf_file.map (fun row => row.process)).Perm
      (scenario_workload 20 30 40) ∧
    (∀ p, (scenario_result.loop_end.sjf_file.map (fun row => row.process)).count p
      = (scenario_workload 20 30 40).count p) ∧
    ((scenario_workload 20 30 40).Nodup →
      (scenario_result.loop_end.sjf_file.map (fun row => row.process)).Nodup) :=
  C4_report_is_permutation (insertion_sort true) (insertion_sort_contract true)
    (scenario_workload 20 30 40) 3 scenario_result rfl


/-! ## The scenario of three processes -/

theorem map_eq_of_inj_on (f : node → Int) (q l : List node)
    (hinj : ∀ x ∈ q, ∀ y ∈ l, f x = f y → x = y) (h : q.map f = l.map f) : q = l := by
  induction q generalizing l with
  | nil =>
    cases l with
    | nil => rfl
    | cons b l => simp at h
  | cons a q ih =>
    cases l with
    | nil => simp at h
    | cons b l =>
      simp only [List.map_cons, List.cons.injEq] at h
      have hab : a = b := hinj a (List.mem_cons_self _ _) b (List.mem_cons_self _ _) h.1
      have htail : q = l :=
        ih l (fun x hx y hy hxy =>
          hinj x (List.mem_cons_of_mem _ hx) y (List.mem_cons_of_mem _ hy) hxy) h.2
      rw [hab, htail]

/-- When the cycles of the workload are pairwise different, `std::sort` has a
single admissible result: a rearrangement ordered by non-decreasing cycles
equals the strictly ordered one. -/
theorem sorted_queue_unique (q l : List node) (hperm : q.Perm l)
    (hq : q.Pairwise (fun x y => x.CPU_cycles ≤ y.CPU_cycles))
    (hl : l.Pairwise (fun x y => x.CPU_cycles < y.CPU_cycles)) : q = l := by
  have hq1 : (q.map (fun x => x.CPU_cycles)).Sorted (fun a b => a ≤ b) :=
    List.pairwise_map.mpr hq
  have hl0 : (l.map (fun x => x.CPU_cycles)).Sorted (fun a b => a < b) :=
    List.pairwise_map.mpr hl
  have hl1 : (l.map (fun x => x.CPU_cycles)).Sorted (fun a b => a ≤ b) :=
    hl0.imp (fun h => le_of_lt h)
  have hmap : q.map (fun x => x.CPU_cycles) = l.map (fun x => x.CPU_cycles) :=
    List.eq_of_perm_of_sorted (hperm.map _) hq1 hl1
  have hnodup : (l.map (fun x => x.CPU_cycles)).Nodup := hl0.nodup
  refine map_eq_of_inj_on (fun x => x.CPU_cycles) q l ?_ hmap
  intro x hx y hy hxy
  exact List.inj_on_of_nodup_map hnodup (hperm.subset hx) hy hxy

/-- On the scenario workload every conforming `std::sort` builds the queue
B, C, A. -/
theorem scenario_queue (sort : List node → List node)
    (hsort : std_sort_contract cycles_less sort) (f1 f2 f3 : Int) :
    sorted_process_queue sort (scenario_workload f1 f2 f3) =
      [fresh_node 2 1000 f2 50, fresh_node 3 1500 f3 100, fresh_node 1 2000 f1 0] := by
  obtain ⟨hperm, hsorted⟩ := sorted_process_queue_spec sort hsort (scenario_workload f1 f2 f3)
  refine sorted_queue_unique _ _ (hperm.trans ?_) hsorted ?_
  · unfold scenario_workload
    show ([fresh_node 1 2000 f1 0] ++ [fresh_node 2 1000 f2 50, fresh_node 3 1500 f3 100]).Perm
      ([fresh_node 2 1000 f2 50, fresh_node 3 1500 f3 100] ++ [fresh_node 1 2000 f1 0])
    exact List.perm_append_comm
  · simp [fresh_node]

/-- C5: on the workload A = (2000 cycles, arrival 0), B = (1000, 50),
C = (1500, 100), whatever the memory footprints and whichever conforming
`std::sort` is used, `SJF_single_processor` runs to completion and its report
is A, B, C with (start, stop, wait) = (0, 2000, 0), (2000, 3000, 1950),
(3000, 4500, 2900). -/
theorem C5_scenario_report (sort : List node → List node)
    (hsort : std_sort_contract cycles_less sort) (f1 f2 f3 : Int) :
    ∃ r, SJF_single_processor sort (scenario_workload f1 f2 f3) 3 = Except.ok r ∧
      r.loop_end.sjf_file =
        [Row.mk (fresh_node 1 2000 f1 0) 0 2000 0,
         Row.mk (fresh_node 2 1000 f2 50) 2000 3000 1950,
         Row.mk (fresh_node 3 1500 f3 100) 3000 4500 2900] := by
  unfold SJF_single_processor
  rw [scenario_queue sort hsort f1 f2 f3]
  exact ⟨_, rfl, rfl⟩

/-- C5 with the order-preserving insertion sort and the footprints 20, 30, 40. -/
theorem C5_scenario_report_witness :
    ∃ r, SJF_single_processor (insertion_sort true) (scenario_workload 20 30 40) 3
        = Except.ok r ∧
      r.loop_end.sjf_file =
        [Row.mk (fresh_node 1 2000 20 0) 0 2000 0,
         Row.mk (fresh_node 2 1000 30 50) 2000 3000 1950,
         Row.mk (fresh_node 3 1500 40 100) 3000 4500 2900] :=
  C5_scenario_report (insertion_sort true) (insertion_sort_contract true) 20 30 40


/-! ## The average waiting time -/

/-- C6: on the scenario workload the accumulated waiting time is 4850 and the
average `SJF_single_processor` reports for the three processes is the
truncated quotient 1616, which is not 4850/3. -/
theorem C6_average_is_truncated :
    SJF_single_processor (insertion_sort true) (scenario_workload 20 30 40) 3
      = Except.ok scenario_result ∧
    scenario_result.loop_end.total_waiting_time = 4850 ∧
    scenario_result.avg_waiting_time = 1616 ∧
    avg_waiting_time 4850 3 = Except.ok 1616 ∧
    (1616 : ℚ) ≠ 4850 / 3 := by
  refine ⟨rfl, rfl, rfl, rfl, ?_⟩
  norm_num

/-! ## No arrived process in the queue -/

/-- In a state whose queue is not empty and holds no arrived process, the loop
steps `i` over the rest of the queue and then reads past its end; the clock is
never advanced and nothing is dispatched. -/
theorem starvation_reads_out_of_range (fuel : Nat) (s : SPState)
    (hne : s.process_queue ≠ [])
    (hnone : ∀ p ∈ s.process_queue, s.current_time < p.arrival_time)
    (hfuel : s.process_queue.length - s.i < fuel) :
    SJF_loop fuel s = Except.error Fault.out_of_range := by
  induction fuel generalizing s with
  | zero => exact absurd hfuel (Nat.not_lt_zero _)
  | succ fuel ih =>
    unfold SJF_loop
    have hempty : s.process_queue.isEmpty = false := by
      cases hq : s.process_queue with
      | nil => exact absurd hq hne
      | cons a l => rfl
    simp only [hempty, Bool.false_eq_true, if_false]
    cases hstep : SJF_iteration s with
    | error e => rw [(SJF_iteration_error hstep).1]
    | ok s1 =>
      simp only
      obtain ⟨p, hp, hcase⟩ := SJF_iteration_ok hstep
      obtain ⟨hilt, hip⟩ := List.getElem?_eq_some.mp hp
      have hmem : p ∈ s.process_queue := List.mem_iff_getElem?.mpr ⟨s.i, hp⟩
      rcases hcase with ⟨harr, _⟩ | ⟨_, hq, hi1, ht, _, _, _⟩
      · exact absurd harr (not_le_of_lt (hnone p hmem))
      · apply ih s1
        · rw [hq]; exact hne
        · rw [hq, ht]; exact hnone
        · rw [hq, hi1]; omega

/-! ## Processes of equal cycles -/

/-- The loop only removes entries: the queue of a reached state is the queue
of the first state with some entries left out, in the same order. -/
theorem queue_sublist_reaches {a s : SPState} (hreach : Reaches a s) :
    s.process_queue.Sublist a.process_queue := by
  induction hreach with
  | refl => exact List.Sublist.refl _
  | step _ _ hstep ih =>
    obtain ⟨p, _, hcase⟩ := SJF_iteration_ok hstep
    rcases hcase with ⟨_, hq, _⟩ | ⟨_, hq, _⟩
    · rw [hq]
      exact (List.eraseIdx_sublist _ _).trans ih
    · rw [hq]
      exact ih

/-! ## The workload generator -/

/-- A value that leaves the rejection loop lies in the range. -/
theorem draw_until_in_range_spec (lo hi : Int) (draws : List Int) (d : Int) (rest : List Int)
    (h : draw_until_in_range lo hi draws = some (d, rest)) : lo ≤ d ∧ d ≤ hi := by
  induction draws with
  | nil => simp [draw_until_in_range] at h
  | cons x xs ih =>
    unfold draw_until_in_range at h
    by_cases hx : x < lo ∨ x > hi
    · rw [if_pos hx] at h
      exact ih h
    · rw [if_neg hx] at h
      simp only [Option.some.injEq, Prod.mk.injEq] at h
      obtain ⟨hd, _⟩ := h
      subst hd
      constructor
      · exact le_of_not_lt (fun hc => hx (Or.inl hc))
      · exact le_of_not_lt (fun hc => hx (Or.inr hc))

/-- What the `for` loop of `generate_processes` adds in `k` iterations that
start with the loop variable `i`: `k` records, each within the two ranges and
with its remaining cycles equal to its cycles; the `j`-th of them has the id
`i + j + 1` and the arrival time `arrival + 50 * j`; `total_cycles` grows by
the sum of their cycles. -/
theorem generate_loop_spec (k i : Nat) (g g1 : GenState)
    (h : generate_loop k i g = some g1) :
    ∃ added : List node,
      g1.process_list = g.process_list ++ added ∧
      added.length = k ∧
      (∀ p ∈ added, 1000 ≤ p.CPU_cycles ∧ p.CPU_cycles ≤ 11000 ∧
        1 ≤ p.memory_footprint ∧ p.memory_footprint ≤ 100 ∧
        p.remaining_cycles = p.CPU_cycles) ∧
      (∀ (j : Nat) (p : node), added[j]? = some p →
        p.arrival_time = g.arrival + 50 * (j : Int) ∧
        p.process_ID = (i : Int) + (j : Int) + 1) ∧
      g1.total_cycles = g.total_cycles + (added.map (fun p => p.CPU_cycles)).sum ∧
      g1.arrival = g.arrival + 50 * (k : Int) := by
  induction k generalizing i g with
  | zero =>
    simp only [generate_loop, Option.some.injEq] at h
    subst h
    exact ⟨[], by simp, rfl, by simp, by simp, by simp, by simp⟩
  | succ k ih =>
    unfold generate_loop at h
    cases hc : draw_until_in_range 1000 11000 g.draws with
    | none => rw [hc] at h; cases h
    | some c =>
      obtain ⟨cycles, draws1⟩ := c
      rw [hc] at h
      simp only at h
      cases hf : draw_until_in_range 1 100 draws1 with
      | none => rw [hf] at h; cases h
      | some f =>
        obtain ⟨footprint, draws2⟩ := f
        rw [hf] at h
        simp only at h
        obtain ⟨added, hlist, hlen, hrange, hpos, htotal, harr⟩ := ih _ _ h
        have hcr := draw_until_in_range_spec _ _ _ _ _ hc
        have hfr := draw_until_in_range_spec _ _ _ _ _ hf
        refine ⟨(⟨(i : Int) + 1, cycles, footprint, g.arrival, 0, 0, 0, 0, 0, cycles⟩ : node)
          :: added, ?_, ?_, ?_, ?_, ?_, ?_⟩
        · rw [hlist]; simp
        · simp [hlen]
        · intro p hp
          rcases List.mem_cons.mp hp with rfl | hp
          · exact ⟨hcr.1, hcr.2, hfr.1, hfr.2, rfl⟩
          · exact hrange p hp
        · intro j p hj
          cases j with
          | zero =>
            simp only [List.getElem?_cons_zero, Option.some.injEq] at hj
            subst hj
            simp
          | succ j =>
            simp only [List.getElem?_cons_succ] at hj
            obtain ⟨h1, h2⟩ := hpos j p hj
            constructor
            · rw [h1]; push_cast; ring
            · rw [h2]; push_cast; ring
        · rw [htotal]
          simp only [List.map_cons, List.sum_cons]
          ring
        · rw [harr]; push_cast; ring

/-- C9: whenever `generate_processes` returns, for any values of the random
source and any number of processes, it has built as many records as asked for,
and each of them has its cycles in [1000, 11000], its memory footprint in
[1, 100] and its remaining cycles equal to its cycles. -/
theorem C9_generated_ranges (draws : List Int) (total_cycles num_processes : Int)
    (g : GenState) (h : generate_processes draws total_cycles num_processes = some g) :
    g.process_list.length = num_processes.toNat ∧
    ∀ p ∈ g.process_list, 1000 ≤ p.CPU_cycles ∧ p.CPU_cycles ≤ 11000 ∧
      1 ≤ p.memory_footprint ∧ p.memory_footprint ≤ 100 ∧
      p.remaining_cycles = p.CPU_cycles := by
  obtain ⟨added, hlist, hlen, hrange, _, _, _⟩ := generate_loop_spec _ _ _ _ h
  simp only [List.nil_append] at hlist
  rw [hlist]
  exact ⟨hlen, hrange⟩

/-- C9 for two processes and a random source whose values 500, 0, 12000 and
150 are rejected. -/
theorem C9_generated_ranges_witness :
    [fresh_node 1 6000 20 0, fresh_node 2 7000 30 50].length = (2 : Int).toNat ∧
    ∀ p ∈ [fresh_node 1 6000 20 0, fresh_node 2 7000 30 50],
      1000 ≤ p.CPU_cycles ∧ p.CPU_cycles ≤ 11000 ∧
      1 ≤ p.memory_footprint ∧ p.memory_footprint ≤ 100 ∧
      p.remaining_cycles = p.CPU_cycles :=
  C9_generated_ranges [500, 6000, 0, 20, 12000, 7000, 150, 30, 5] 0 2
    { process_list := [fresh_node 1 6000 20 0, fresh_node 2 7000 30 50]
      total_cycles := 13000, arrival := 100, draws := [5] }
    rfl

/-- C10: whenever `generate_processes` returns, the record at the 0-based
position `i` of `process_list` has the arrival time `50 * i`, whatever values
the random source gave: the arrival times are 0, 50, 100, ... -/
theorem C10_arrival_times (draws : List Int) (total_cycles num_processes : Int)
    (g : GenState) (h : generate_processes draws total_cycles num_processes = some g) :
    g.process_list.length = num_processes.toNat ∧
    ∀ (i : Nat) (p : node), g.process_list[i]? = some p → p.arrival_time = 50 * (i : Int) := by
  obtain ⟨added, hlist, hlen, _, hpos, _, _⟩ := generate_loop_spec _ _ _ _ h
  simp only [List.nil_append] at hlist
  rw [hlist]
  refine ⟨hlen, ?_⟩
  intro i p hp
  rw [(hpos i p hp).1]
  simp

/-- C10 for two processes: the arrival times are 0 and 50. -/
theorem C10_arrival_times_witness :
    [fresh_node 1 6000 20 0, fresh_node 2 7000 30 50].length = (2 : Int).toNat ∧
    ∀ (i : Nat) (p : node), [fresh_node 1 6000 20 0, fresh_node 2 7000 30 50][i]? = some p →
      p.arrival_time = 50 * (i : Int) :=
  C10_arrival_times [500, 6000, 0, 20, 12000, 7000, 150, 30, 5] 0 2
    { process_list := [fresh_node 1 6000 20 0, fresh_node 2 7000 30 50]
      total_cycles := 13000, arrival := 100, draws := [5] }
    rfl

/-! ## The rejection loops and the random source -/

/-- The rejection loop uses up a list of values that are all outside the
range without returning. -/
theorem draw_until_in_range_none (lo hi : Int) (draws : List Int)
    (h : ∀ d ∈ draws, d < lo ∨ d > hi) : draw_until_in_range lo hi draws = none := by
  induction draws with
  | nil => rfl
  | cons x xs ih =>
    unfold draw_until_in_range
    rw [if_pos (h x (List.mem_cons_self _ _))]
    exact ih (fun d hd => h d (List.mem_cons_of_mem _ hd))

theorem source_values_succ (source : Nat → Int) (m len : Nat) :
    source_values source m (len + 1) = source m :: source_values source (m + 1) len := by
  simp [source_values, List.range'_succ]

/-- The rejection loop on a random source: when the value number `m + d` is
the first one from number `m` on that lies in the range, the loop returns it
and goes on behind it. -/
theorem draw_until_in_range_first (lo hi : Int) (source : Nat → Int) (d m len : Nat)
    (hout : ∀ j, m ≤ j → j < m + d → source j < lo ∨ source j > hi)
    (hin : lo ≤ source (m + d) ∧ source (m + d) ≤ hi) (hlen : d < len) :
    draw_until_in_range lo hi (source_values source m len) =
      some (source (m + d), source_values source (m + d + 1) (len - (d + 1))) := by
  induction d generalizing m len with
  | zero =>
    obtain ⟨len1, rfl⟩ : ∃ len1, len = len1 + 1 := ⟨len - 1, by omega⟩
    rw [source_values_succ]
    unfold draw_until_in_range
    have hnot : ¬ (source m < lo ∨ source m > hi) := by
      intro hc
      rcases hc with hc | hc
      · exact absurd hin.1 (not_le_of_lt hc)
      · exact absurd hin.2 (not_le_of_lt hc)
    rw [if_neg hnot]
    simp
  | succ d ih =>
    obtain ⟨len1, rfl⟩ : ∃ len1, len = len1 + 1 := ⟨len - 1, by omega⟩
    rw [source_values_succ]
    unfold draw_until_in_range
    rw [if_pos (hout m (Nat.le_refl _) (by omega))]
    have h1 := ih (m + 1) len1 (fun j hj1 hj2 => hout j (by omega) (by omega))
      (by rw [show m + 1 + d = m + (d + 1) by omega]; exact hin) (by omega)
    rw [h1]
    rw [show m + 1 + d = m + (d + 1) by omega, show len1 + 1 - (d + 1 + 1) = len1 - (d + 1) by omega]

/-- On a random source in which a value of the range occurs from every number
on, the rejection loop started at number `m` returns, and goes on behind the
value it returns, as soon as the list of draws is long enough. -/
theorem draw_until_in_range_returns (lo hi : Int) (source : Nat → Int)
    (hhit : ∀ m, ∃ j, m ≤ j ∧ lo ≤ source j ∧ source j ≤ hi) (m : Nat) :
    ∃ d, lo ≤ source (m + d) ∧ source (m + d) ≤ hi ∧ ∀ len, d < len →
      draw_until_in_range lo hi (source_values source m len) =
        some (source (m + d), source_values source (m + d + 1) (len - (d + 1))) := by
  classical
  have hex : ∃ d, lo ≤ source (m + d) ∧ source (m + d) ≤ hi := by
    obtain ⟨j, hj, h1, h2⟩ := hhit m
    refine ⟨j - m, ?_⟩
    rw [show m + (j - m) = j by omega]
    exact ⟨h1, h2⟩
  refine ⟨Nat.find hex, (Nat.find_spec hex).1, (Nat.find_spec hex).2, ?_⟩
  intro len hlen
  refine draw_until_in_range_first lo hi source _ m len ?_ (Nat.find_spec hex) hlen
  intro j hj1 hj2
  have hmin := Nat.find_min hex (show j - m < Nat.find hex by omega)
  rw [show m + (j - m) = j by omega] at hmin
  by_contra hc
  apply hmin
  constructor
  · exact le_of_not_lt (fun h => hc (Or.inl h))
  · exact le_of_not_lt (fun h => hc (Or.inr h))

/-- On a random source in which both ranges occur from every number on, the
`for` loop of `generate_processes` returns for every number of iterations,
whatever the number `m` of the first value it draws, once the list of draws is
long enough. -/
theorem generate_loop_returns (source : Nat → Int)
    (hcycles : ∀ m, ∃ j, m ≤ j ∧ 1000 ≤ source j ∧ source j ≤ 11000)
    (hfoot : ∀ m, ∃ j, m ≤ j ∧ 1 ≤ source j ∧ source j ≤ 100) (k : Nat) :
    ∀ m, ∃ bound, ∀ len, bound ≤ len → ∀ i g, g.draws = source_values source m len →
      ∃ g1, generate_loop k i g = some g1 := by
  induction k with
  | zero =>
    intro m
    exact ⟨0, fun len _ i g _ => ⟨g, rfl⟩⟩
  | succ k ih =>
    intro m
    obtain ⟨d1, _, _, hd1⟩ := draw_until_in_range_returns 1000 11000 source hcycles m
    obtain ⟨d2, _, _, hd2⟩ := draw_until_in_range_returns 1 100 source hfoot (m + d1 + 1)
    obtain ⟨bound, hbound⟩ := ih (m + d1 + 1 + d2 + 1)
    refine ⟨d1 + 1 + (d2 + 1) + bound, ?_⟩
    intro len hlen i g hg
    unfold generate_loop
    rw [hg, hd1 len (by omega)]
    simp only
    rw [hd2 (len - (d1 + 1)) (by omega)]
    simp only
    exact hbound (len - (d1 + 1) - (d2 + 1)) (by omega) _ _ rfl

theorem alternating_source_cycles (m : Nat) :
    ∃ j, m ≤ j ∧ 1000 ≤ alternating_source j ∧ alternating_source j ≤ 11000 := by
  refine ⟨2 * m, by omega, ?_⟩
  have h : (2 * m) % 2 = 0 := by omega
  simp [alternating_source, h]

theorem alternating_source_footprint (m : Nat) :
    ∃ j, m ≤ j ∧ 1 ≤ alternating_source j ∧ alternating_source j ≤ 100 := by
  refine ⟨2 * m + 1, by omega, ?_⟩
  have h : (2 * m + 1) % 2 = 1 := by omega
  simp [alternating_source, h]

/-- C11, as stated, fails: on the random source that always gives 0, a value
outside both ranges, `generate_processes` asked for one process does not
return, however many values it draws; no cap ends the rejection loop. -/
theorem C11_no_retry_cap :
    ¬ ∃ len g, generate_processes (source_values (fun _ => 0) 0 len) 0 1 = some g := by
  rintro ⟨len, g, h⟩
  have hnone : draw_until_in_range 1000 11000 (source_values (fun _ => 0) 0 len) = none := by
    apply draw_until_in_range_none
    intro d hd
    simp only [source_values, List.mem_map] at hd
    obtain ⟨_, _, rfl⟩ := hd
    left
    norm_num
  have h1 : generate_processes (source_values (fun _ => 0) 0 len) 0 1 = none := by
    show generate_loop 1 0 _ = none
    unfold generate_loop
    simp only [hnone]
  rw [h1] at h
  cases h

/-- C11, amended: on every random source in which a value inside
[1000, 11000] and a value inside [1, 100] occur again from every position on,
`generate_processes` terminates: for every number of processes it returns
after a finite number of draws. -/
theorem C11_terminates_on_recurring_source (source : Nat → Int)
    (hcycles : ∀ m, ∃ j, m ≤ j ∧ 1000 ≤ source j ∧ source j ≤ 11000)
    (hfoot : ∀ m, ∃ j, m ≤ j ∧ 1 ≤ source j ∧ source j ≤ 100)
    (total_cycles num_processes : Int) :
    ∃ len g, generate_processes (source_values source 0 len) total_cycles num_processes
      = some g := by
  obtain ⟨bound, hbound⟩ := generate_loop_returns source hcycles hfoot num_processes.toNat 0
  obtain ⟨g, hg⟩ := hbound bound (Nat.le_refl _) 0
    { process_list := [], total_cycles := total_cycles, arrival := 0,
      draws := source_values source 0 bound } rfl
  exact ⟨bound, g, hg⟩

/-- C11, amended, on the source that gives 6000 and 20 in turn, for 50
processes. -/
theorem C11_terminates_on_recurring_source_witness :
    ∃ len g, generate_processes (source_values alternating_source 0 len) 0 50 = some g :=
  C11_terminates_on_recurring_source alternating_source alternating_source_cycles
    alternating_source_footprint 0 50

/-- C12: when `generate_processes` returns after a start with
`total_cycles = 0`, it has built as many records as asked for and
`total_cycles` is the sum of their cycles. -/
theorem C12_total_cycles (draws : List Int) (num_processes : Int) (g : GenState)
    (h : generate_processes draws 0 num_processes = some g) :
    g.process_list.length = num_processes.toNat ∧
    g.total_cycles = (g.process_list.map (fun p => p.CPU_cycles)).sum := by
  obtain ⟨added, hlist, hlen, _, _, htotal, _⟩ := generate_loop_spec _ _ _ _ h
  simp only [List.nil_append] at hlist
  rw [hlist]
  refine ⟨hlen, ?_⟩
  rw [htotal]
  simp

/-- C12 for two processes of 6000 and 7000 cycles. -/
theorem C12_total_cycles_witness :
    [fresh_node 1 6000 20 0, fresh_node 2 7000 30 50].length = (2 : Int).toNat ∧
    (13000 : Int) =
      ([fresh_node 1 6000 20 0, fresh_node 2 7000 30 50].map (fun p => p.CPU_cycles)).sum :=
  C12_total_cycles [500, 6000, 0, 20, 12000, 7000, 150, 30, 5] 2
    { process_list := [fresh_node 1 6000 20 0, fresh_node 2 7000 30 50]
      total_cycles := 13000, arrival := 100, draws := [5] }
    rfl

/-! ## Lemmas on the steps of `SJF_multiprocessor` -/

theorem read_at_ok {α : Type} {v : List α} {idx : Nat} {a : α}
    (h : read_at v idx = Except.ok a) : v[idx]? = some a := by
  unfold read_at at h
  cases hv : v[idx]? with
  | none => rw [hv] at h; cases h
  | some b => rw [hv] at h; cases h; rfl

theorem read_at_some {α : Type} {v : List α} {idx : Nat} {a : α}
    (h : v[idx]? = some a) : read_at v idx = Except.ok a := by
  unfold read_at
  rw [h]

theorem read_at_error {α : Type} {v : List α} {idx : Nat} {e : Fault}
    (h : read_at v idx = Except.error e) : e = Fault.out_of_range ∧ v.length ≤ idx := by
  unfold read_at at h
  cases hv : v[idx]? with
  | none =>
    rw [hv] at h
    cases h
    exact ⟨rfl, List.getElem?_eq_none_iff.mp hv⟩
  | some b => rw [hv] at h; cases h

/-- The rule for a loop without `break`: a property that holds in front of the
loop and is carried from index to index by the body holds behind the loop. -/
theorem for_range_inv {σ : Type} (body : Nat → σ → Except Fault σ) (inv : Nat → σ → Prop)
    (n : Nat) (s u : σ) (h0 : inv 0 s)
    (hstep : ∀ k a b, k < n → inv k a → body k a = Except.ok b → inv (k + 1) b)
    (h : for_range body n s = Except.ok u) : inv n u := by
  induction n generalizing u with
  | zero =>
    simp only [for_range] at h
    cases h
    exact h0
  | succ n ih =>
    simp only [for_range] at h
    cases hn : for_range body n s with
    | error e => rw [hn] at h; cases h
    | ok s1 =>
      rw [hn] at h
      exact hstep n s1 u (Nat.lt_succ_self n)
        (ih s1 (fun k a b hk => hstep k a b (Nat.lt_succ_of_lt hk)) hn) h

/-- Every fault of a loop is a fault of its body. -/
theorem for_range_error {σ : Type} (body : Nat → σ → Except Fault σ)
    (hbody : ∀ k a e, body k a = Except.error e → e = Fault.out_of_range)
    (n : Nat) (s : σ) (e : Fault) (h : for_range body n s = Except.error e) :
    e = Fault.out_of_range := by
  induction n with
  | zero => simp [for_range] at h
  | succ n ih =>
    simp only [for_range] at h
    cases hn : for_range body n s with
    | error e1 =>
      rw [hn] at h
      cases h
      exact ih hn
    | ok s1 =>
      rw [hn] at h
      exact hbody n s1 e h

/-- What the first `switch` of the steady-state branch does when it succeeds. -/
theorem steady_dispatch_ok {s u : MPState} (h : steady_dispatch s = Except.ok u) :
    (4 ≤ s.min_cycles_index ∧ u = s) ∨
    (s.min_cycles_index < 4 ∧ ∃ p schedule index entry,
      s.process_queue[s.i]? = some p ∧
      s.processor_schedule[s.min_cycles_index]? = some schedule ∧
      s.processor_index[s.min_cycles_index]? = some index ∧
      (schedule ++ [p])[index + 1]? = some entry ∧
      u = { s with
            process_queue := s.process_queue.eraseIdx s.i
            processor_schedule :=
              s.processor_schedule.set s.min_cycles_index
                ((schedule ++ [p]).set (index + 1)
                  { entry with
                    start_time := s.current_time
                    stop_time := s.current_time + entry.CPU_cycles
                    waiting_time := s.current_time - entry.arrival_time })
            processor_index := s.processor_index.set s.min_cycles_index (index + 1)
            total_waiting_time :=
              s.total_waiting_time + (s.current_time - entry.arrival_time)
            processor_cycles :=
              s.processor_cycles.set s.min_cycles_index entry.CPU_cycles }) := by
  unfold steady_dispatch at h
  by_cases hk : s.min_cycles_index < 4
  · right
    rw [if_pos hk] at h
    refine ⟨hk, ?_⟩
    cases hp : read_at s.process_queue s.i with
    | error e => rw [hp] at h; cases h
    | ok p =>
      cases hs : read_at s.processor_schedule s.min_cycles_index with
      | error e => rw [hp, hs] at h; cases h
      | ok schedule =>
        cases hi : read_at s.processor_index s.min_cycles_index with
        | error e => rw [hp, hs, hi] at h; cases h
        | ok index =>
          rw [hp, hs, hi] at h
          simp only at h
          cases he : read_at (schedule ++ [p]) (index + 1) with
          | error e => rw [he] at h; cases h
          | ok entry =>
            rw [he] at h
            simp only [Except.ok.injEq] at h
            exact ⟨p, schedule, index, entry, read_at_ok hp, read_at_ok hs, read_at_ok hi,
              read_at_ok he, h.symm⟩
  · left
    rw [if_neg hk] at h
    cases h
    exact ⟨Nat.le_of_not_lt hk, rfl⟩

/-- What the `switch` of the branch for empty processors does when it
succeeds. -/
theorem cold_dispatch_ok {s u : MPState} (h : cold_dispatch s = Except.ok u) :
    (4 ≤ s.min_cycles_index ∧ u = s) ∨
    (s.min_cycles_index < 4 ∧ ∃ p schedule index entry current,
      s.process_queue[s.i]? = some p ∧
      s.processor_schedule[s.min_cycles_index]? = some schedule ∧
      s.processor_index[s.min_cycles_index]? = some index ∧
      (schedule ++ [p])[0]? = some entry ∧
      ((schedule ++ [p]).set 0
        { entry with
          start_time := s.current_time
          stop_time :=
            if s.min_cycles_index = 0 then entry.CPU_cycles
            else s.current_time + entry.CPU_cycles
          waiting_time := s.current_time - entry.arrival_time })[index]? = some current ∧
      u = { s with
            process_queue := s.process_queue.eraseIdx s.i
            processor_schedule :=
              s.processor_schedule.set s.min_cycles_index
                ((schedule ++ [p]).set 0
                  { entry with
                    start_time := s.current_time
                    stop_time :=
                      if s.min_cycles_index = 0 then entry.CPU_cycles
                      else s.current_time + entry.CPU_cycles
                    waiting_time := s.current_time - entry.arrival_time })
            total_waiting_time := s.total_waiting_time + current.waiting_time
            processor_cycles :=
              s.processor_cycles.set s.min_cycles_index entry.CPU_cycles
            processes_executed :=
              if s.min_cycles_index = 3 then s.processes_executed + 1
              else s.processes_executed }) := by
  unfold cold_dispatch at h
  by_cases hk : s.min_cycles_index < 4
  · right
    rw [if_pos hk] at h
    refine ⟨hk, ?_⟩
    cases hp : read_at s.process_queue s.i with
    | error e => rw [hp] at h; cases h
    | ok p =>
      cases hs : read_at s.processor_schedule s.min_cycles_index with
      | error e => rw [hp, hs] at h; cases h
      | ok schedule =>
        cases hi : read_at s.processor_index s.min_cycles_index with
        | error e => rw [hp, hs, hi] at h; cases h
        | ok index =>
          rw [hp, hs, hi] at h
          simp only at h
          cases he : read_at (schedule ++ [p]) 0 with
          | error e => rw [he] at h; cases h
          | ok entry =>
            rw [he] at h
            simp only at h
            split at h
            · cases h
            · rename_i current hc
              simp only [Except.ok.injEq] at h
              exact ⟨p, schedule, index, entry, current, read_at_ok hp, read_at_ok hs,
                read_at_ok hi, read_at_ok he, read_at_ok hc, h.symm⟩
  · left
    rw [if_neg hk] at h
    cases h
    exact ⟨Nat.le_of_not_lt hk, rfl⟩

/-- What the body of the report loop of the steady-state branch does when it
succeeds, started with `empty_processor` not set. -/
theorem steady_report_ok {index : Nat} {s u : MPState}
    (hempty : s.empty_processor = false) (h : steady_report index s = Except.ok u) :
    (4 ≤ index ∧ u = s) ∨
    (index < 4 ∧ ∃ schedule idx entry,
      s.processor_schedule[index]? = some schedule ∧
      s.processor_index[index]? = some idx ∧
      schedule[idx]? = some entry ∧
      ((entry.stop_time - s.current_time > 0 ∧
        u = { s with
              processor_cycles := s.processor_cycles.set index (entry.stop_time - s.current_time)
              processor_schedule :=
                s.processor_schedule.set index
                  (schedule.set idx
                    { entry with remaining_cycles := entry.stop_time - s.current_time })
              sjf_file := s.sjf_file ++
                [Line.process index
                  { entry with remaining_cycles := entry.stop_time - s.current_time }] }) ∨
       (¬ entry.stop_time - s.current_time > 0 ∧
        u = { s with
              processor_cycles := s.processor_cycles.set index (entry.stop_time - s.current_time)
              processor_schedule :=
                s.processor_schedule.set index
                  (schedule.set idx
                    { entry with remaining_cycles := entry.stop_time - s.current_time })
              sjf_file := s.sjf_file ++ [Line.idle index]
              processes_left :=
                if s.processes_executed = 50 then false else s.processes_left }))) := by
  unfold steady_report at h
  by_cases hk : index < 4
  · right
    refine ⟨hk, ?_⟩
    simp only [if_pos hk] at h
    cases hs : read_at s.processor_schedule index with
    | error e => rw [hs] at h; simp at h
    | ok schedule =>
      cases hi : read_at s.processor_index index with
      | error e => rw [hs, hi] at h; simp at h
      | ok idx =>
        rw [hs, hi] at h
        simp only at h
        cases he : read_at schedule idx with
        | error e => rw [he] at h; simp at h
        | ok entry =>
          rw [he] at h
          simp only at h
          refine ⟨schedule, idx, entry, read_at_ok hs, read_at_ok hi, read_at_ok he, ?_⟩
          by_cases hc : entry.stop_time - s.current_time > 0
          · left
            refine ⟨hc, ?_⟩
            simp only [if_pos hc, hempty, Bool.false_eq_true, if_false, Except.ok.injEq] at h
            rw [hempty]
            exact h.symm
          · right
            refine ⟨hc, ?_⟩
            simp only [if_neg hc, if_true, Except.ok.injEq] at h
            rw [hempty]
            exact h.symm
  · left
    simp only [if_neg hk, hempty, Bool.false_eq_true, if_false, Except.ok.injEq] at h
    exact ⟨Nat.le_of_not_lt hk, h.symm⟩

/-- What the body of the report loop of the branch for empty processors does
when it succeeds. -/
theorem cold_report_ok {index : Nat} {s u : MPState} (h : cold_report index s = Except.ok u) :
    (s.min_cycles_index < index ∧
      u = { s with sjf_file := s.sjf_file ++ [Line.idle index] }) ∨
    (index ≤ s.min_cycles_index ∧ 4 ≤ index ∧ u = s) ∨
    (index ≤ s.min_cycles_index ∧ index < 4 ∧ ∃ schedule c entry,
      s.processor_schedule[index]? = some schedule ∧
      s.processor_cycles[index]? = some c ∧
      schedule[0]? = some entry ∧
      u = { s with
            processor_schedule :=
              s.processor_schedule.set index
                (schedule.set 0
                  (if cold_late index s.current_time then
                    { entry with remaining_cycles := entry.remaining_cycles - 50 }
                   else entry))
            processor_cycles :=
              if cold_late index s.current_time then s.processor_cycles.set index (c - 50)
              else s.processor_cycles
            sjf_file := s.sjf_file ++
              [Line.process index
                (if cold_late index s.current_time then
                  { entry with remaining_cycles := entry.remaining_cycles - 50 }
                 else entry)] }) := by
  unfold cold_report at h
  by_cases hgt : index > s.min_cycles_index
  · left
    rw [if_pos hgt] at h
    cases h
    exact ⟨hgt, rfl⟩
  · right
    rw [if_neg hgt] at h
    by_cases hk : index < 4
    · right
      rw [if_pos hk] at h
      refine ⟨Nat.le_of_not_lt hgt, hk, ?_⟩
      cases hs : read_at s.processor_schedule index with
      | error e => rw [hs] at h; simp at h
      | ok schedule =>
        cases hcy : read_at s.processor_cycles index with
        | error e => rw [hs, hcy] at h; simp at h
        | ok c =>
          rw [hs, hcy] at h
          simp only at h
          cases he : read_at schedule 0 with
          | error e => rw [he] at h; simp at h
          | ok entry =>
            rw [he] at h
            simp only [Except.ok.injEq] at h
            exact ⟨schedule, c, entry, read_at_ok hs, read_at_ok hcy, read_at_ok he, h.symm⟩
    · left
      rw [if_neg hk] at h
      cases h
      exact ⟨Nat.le_of_not_lt hgt, Nat.le_of_not_lt hk, rfl⟩

/-! ## Lemmas on lists of schedules -/

theorem set_self_of_getElem? {α : Type} (l : List α) (i : Nat) (a : α) (h : l[i]? = some a) :
    l.set i a = l := by
  induction l generalizing i with
  | nil => rfl
  | cons b l ih =>
    cases i with
    | zero =>
      simp only [List.getElem?_cons_zero, Option.some.injEq] at h
      subst h
      rfl
    | succ i =>
      simp only [List.getElem?_cons_succ] at h
      simp only [List.set_cons_succ, ih i h]

/-- Replacing an entry by one with the same image under `f` does not change
the image of the list. -/
theorem map_set_same {α β : Type} (f : α → β) (l : List α) (i : Nat) (a b : α)
    (h : l[i]? = some a) (hf : f b = f a) : (l.set i b).map f = l.map f := by
  rw [List.map_set, hf]
  apply set_self_of_getElem?
  rw [List.getElem?_map, h]
  rfl

/-- The concatenation of a list of lists around its entry `k`. -/
theorem flatten_split {α : Type} (L : List (List α)) (k : Nat) (l : List α)
    (h : L[k]? = some l) :
    ∃ A B, L.flatten = A ++ l ++ B ∧ ∀ l1, (L.set k l1).flatten = A ++ l1 ++ B := by
  induction L generalizing k with
  | nil => simp at h
  | cons a L ih =>
    cases k with
    | zero =>
      simp only [List.getElem?_cons_zero, Option.some.injEq] at h
      subst h
      exact ⟨[], L.flatten, by simp, fun l1 => by simp⟩
    | succ k =>
      simp only [List.getElem?_cons_succ] at h
      obtain ⟨A, B, h1, h2⟩ := ih k h
      refine ⟨a ++ A, B, ?_, ?_⟩
      · simp [h1]
      · intro l1
        simp [h2 l1]

/-- Appending `x` to the entry `k` of a list of lists adds `x` to the
concatenation, up to the order. -/
theorem flatten_set_append_perm {α : Type} (L : List (List α)) (k : Nat) (l : List α) (x : α)
    (h : L[k]? = some l) : ((L.set k (l ++ [x])).flatten).Perm (x :: L.flatten) := by
  obtain ⟨A, B, h1, h2⟩ := flatten_split L k l h
  rw [h1, h2]
  have : A ++ (l ++ [x]) ++ B = (A ++ l) ++ x :: B := by simp
  rw [this]
  exact List.perm_middle

theorem node_key_forget (p : node) : node_key (forget_remaining p) = node_key p := rfl

theorem node_key_of_forget_eq {a b : node} (h : forget_remaining a = forget_remaining b) :
    node_key a = node_key b := by
  rw [← node_key_forget a, ← node_key_forget b, h]

/-! ## What the report loops leave unchanged -/

theorem MP_frame_refl (s : MPState) (h : s.empty_processor = false) : MP_frame s s :=
  ⟨rfl, rfl, rfl, rfl, rfl, rfl, rfl, h, rfl, rfl⟩

theorem MP_frame_trans {s t u : MPState} (h1 : MP_frame s t) (h2 : MP_frame t u) :
    MP_frame s u := by
  obtain ⟨a1, a2, a3, a4, a5, a6, a7, _, a9, a10⟩ := h1
  obtain ⟨b1, b2, b3, b4, b5, b6, b7, b8, b9, b10⟩ := h2
  exact ⟨b1.trans a1, b2.trans a2, b3.trans a3, b4.trans a4, b5.trans a5, b6.trans a6,
    b7.trans a7, b8, b9.trans a9, b10.trans a10⟩

/-- Writing the remaining cycles of one entry of one schedule leaves the
records of the schedules as they are, up to their remaining cycles. -/
theorem schedule_set_forget (L : List (List node)) (k idx : Nat) (schedule : List node)
    (entry entry1 : node) (hL : L[k]? = some schedule) (he : schedule[idx]? = some entry)
    (hf : forget_remaining entry1 = forget_remaining entry) :
    (L.set k (schedule.set idx entry1)).map (List.map forget_remaining)
      = L.map (List.map forget_remaining) :=
  map_set_same (List.map forget_remaining) L k schedule (schedule.set idx entry1) hL
    (map_set_same forget_remaining schedule idx entry entry1 he hf)

theorem steady_report_frame {index : Nat} {s u : MPState}
    (hempty : s.empty_processor = false) (h : steady_report index s = Except.ok u) :
    MP_frame s u := by
  rcases steady_report_ok hempty h with ⟨_, rfl⟩ | ⟨_, schedule, idx, entry, hs, _, he, hcase⟩
  · exact MP_frame_refl _ hempty
  · rcases hcase with ⟨_, rfl⟩ | ⟨_, rfl⟩
    · exact ⟨rfl, rfl, rfl, rfl, rfl, rfl, rfl, hempty,
        schedule_set_forget _ _ _ _ _ _ hs he rfl, by simp⟩
    · exact ⟨rfl, rfl, rfl, rfl, rfl, rfl, rfl, hempty,
        schedule_set_forget _ _ _ _ _ _ hs he rfl, by simp⟩

theorem cold_report_frame {index : Nat} {s u : MPState}
    (hempty : s.empty_processor = false) (h : cold_report index s = Except.ok u) :
    MP_frame s u := by
  rcases cold_report_ok h with ⟨_, rfl⟩ | ⟨_, _, rfl⟩ | ⟨_, _, schedule, c, entry, hs, _, he, rfl⟩
  · exact ⟨rfl, rfl, rfl, rfl, rfl, rfl, rfl, hempty, rfl, rfl⟩
  · exact MP_frame_refl _ hempty
  · refine ⟨rfl, rfl, rfl, rfl, rfl, rfl, rfl, hempty, ?_, ?_⟩
    · apply schedule_set_forget _ _ _ _ _ _ hs he
      by_cases hl : cold_late index s.current_time = true
      · rw [if_pos hl]; rfl
      · rw [if_neg hl]
    · by_cases hl : cold_late index s.current_time = true
      · simp [hl]
      · simp [hl]

theorem steady_report_loop_frame {n : Nat} {s u : MPState}
    (hempty : s.empty_processor = false) (h : for_range steady_report n s = Except.ok u) :
    MP_frame s u :=
  for_range_inv steady_report (fun _ a => MP_frame s a) n s u (MP_frame_refl s hempty)
    (fun _ _ _ _ ha hb => MP_frame_trans ha (steady_report_frame ha.2.2.2.2.2.2.2.1 hb)) h

theorem cold_report_loop_frame {n : Nat} {s u : MPState}
    (hempty : s.empty_processor = false) (h : for_range cold_report n s = Except.ok u) :
    MP_frame s u :=
  for_range_inv cold_report (fun _ a => MP_frame s a) n s u (MP_frame_refl s hempty)
    (fun _ _ _ _ ha hb => MP_frame_trans ha (cold_report_frame ha.2.2.2.2.2.2.2.1 hb)) h

/-! ## The parts of one iteration -/

/-- The steps of the steady-state branch when it succeeds. -/
theorem steady_branch_ok {processor_count : Nat} {s u : MPState}
    (h : steady_branch processor_count s = Except.ok u) :
    ∃ s1 s2 m1 m2 c,
      (if s.process_queue.isEmpty then Except.ok s else steady_dispatch s) = Except.ok s1 ∧
      for_range steady_report processor_count s1 = Except.ok s2 ∧
      min_init s2.processor_cycles processor_count 0 s2.min_cycles_index = Except.ok m1 ∧
      for_range (min_pick s2.processor_cycles) processor_count m1 = Except.ok m2 ∧
      s2.processor_cycles[m2]? = some c ∧
      u = { s2 with
            min_cycles_index := m2
            processes_executed := s2.processes_executed + 1
            current_time := s2.current_time + c } := by
  unfold steady_branch at h
  cases h1 : (if s.process_queue.isEmpty then Except.ok s else steady_dispatch s) with
  | error e => rw [h1] at h; cases h
  | ok s1 =>
    rw [h1] at h
    simp only at h
    cases h2 : for_range steady_report processor_count s1 with
    | error e => rw [h2] at h; cases h
    | ok s2 =>
      rw [h2] at h
      simp only at h
      cases h3 : min_init s2.processor_cycles processor_count 0 s2.min_cycles_index with
      | error e => rw [h3] at h; cases h
      | ok m1 =>
        rw [h3] at h
        simp only at h
        cases h4 : for_range (min_pick s2.processor_cycles) processor_count m1 with
        | error e => rw [h4] at h; cases h
        | ok m2 =>
          rw [h4] at h
          simp only at h
          cases h5 : read_at s2.processor_cycles m2 with
          | error e => rw [h5] at h; cases h
          | ok c =>
            rw [h5] at h
            simp only [Except.ok.injEq] at h
            exact ⟨s1, s2, m1, m2, c, rfl, h2, h3, h4, read_at_ok h5, h.symm⟩

/-- The steps of the branch for empty processors when it succeeds. -/
theorem cold_branch_ok {processor_count : Nat} {s u : MPState}
    (h : cold_branch processor_count s = Except.ok u) :
    ∃ s1 s2,
      cold_dispatch s = Except.ok s1 ∧
      for_range cold_report processor_count s1 = Except.ok s2 ∧
      ((s2.min_cycles_index + 1 < processor_count ∧
        u = { s2 with
              min_cycles_index := s2.min_cycles_index + 1
              current_time := s2.current_time + 50 }) ∨
       (¬ s2.min_cycles_index + 1 < processor_count ∧ ∃ m c,
        for_range (min_scan s2.processor_cycles) processor_count 0 = Except.ok m ∧
        s2.processor_cycles[m]? = some c ∧
        u = { s2 with min_cycles_index := m, current_time := s2.current_time + c })) := by
  unfold cold_branch at h
  cases h1 : cold_dispatch s with
  | error e => rw [h1] at h; cases h
  | ok s1 =>
    rw [h1] at h
    simp only at h
    cases h2 : for_range cold_report processor_count s1 with
    | error e => rw [h2] at h; cases h
    | ok s2 =>
      rw [h2] at h
      simp only at h
      refine ⟨s1, s2, rfl, h2, ?_⟩
      by_cases hm : s2.min_cycles_index + 1 < processor_count
      · left
        rw [if_pos hm] at h
        simp only [Except.ok.injEq] at h
        exact ⟨hm, h.symm⟩
      · right
        rw [if_neg hm] at h
        refine ⟨hm, ?_⟩
        cases h3 : for_range (min_scan s2.processor_cycles) processor_count 0 with
        | error e => rw [h3] at h; cases h
        | ok m =>
          rw [h3] at h
          simp only at h
          cases h4 : read_at s2.processor_cycles m with
          | error e => rw [h4] at h; cases h
          | ok c =>
            rw [h4] at h
            simp only [Except.ok.injEq] at h
            exact ⟨m, c, rfl, read_at_ok h4, h.symm⟩

/-- An iteration that succeeds either steps over the entry at `i`, which has
not arrived, or prints the header and runs one of the two branches, according
to `processor_cycles[min_cycles_index]`, and sets `i` to 0. -/
theorem MP_iteration_ok {processor_count : Nat} {s u : MPState}
    (h : MP_iteration processor_count s = Except.ok u) :
    ∃ p, s.process_queue[s.i]? = some p ∧
      ((¬ p.arrival_time ≤ s.current_time ∧ u = { s with i := s.i + 1 }) ∨
       (p.arrival_time ≤ s.current_time ∧ ∃ c s1,
          s.processor_cycles[s.min_cycles_index]? = some c ∧
          ((c > 0 ∧ steady_branch processor_count (MP_header s) = Except.ok s1) ∨
           (¬ c > 0 ∧ cold_branch processor_count (MP_header s) = Except.ok s1)) ∧
          u = { s1 with i := 0 })) := by
  unfold MP_iteration at h
  cases hp : read_at s.process_queue s.i with
  | error e => rw [hp] at h; cases h
  | ok p =>
    rw [hp] at h
    simp only at h
    refine ⟨p, read_at_ok hp, ?_⟩
    by_cases harr : p.arrival_time ≤ s.current_time
    · right
      rw [if_pos harr] at h
      refine ⟨harr, ?_⟩
      cases hc : read_at s.processor_cycles s.min_cycles_index with
      | error e => rw [hc] at h; cases h
      | ok c =>
        rw [hc] at h
        simp only at h
        by_cases hpos : c > 0
        · rw [if_pos hpos] at h
          cases hb : steady_branch processor_count
              { s with sjf_file := s.sjf_file ++ [Line.time s.current_time] } with
          | error e => rw [hb] at h; cases h
          | ok s1 =>
            rw [hb] at h
            simp only [Except.ok.injEq] at h
            exact ⟨c, s1, read_at_ok hc, Or.inl ⟨hpos, hb⟩, h.symm⟩
        · rw [if_neg hpos] at h
          cases hb : cold_branch processor_count
              { s with sjf_file := s.sjf_file ++ [Line.time s.current_time] } with
          | error e => rw [hb] at h; cases h
          | ok s1 =>
            rw [hb] at h
            simp only [Except.ok.injEq] at h
            exact ⟨c, s1, read_at_ok hc, Or.inr ⟨hpos, hb⟩, h.symm⟩
    · left
      rw [if_neg harr] at h
      simp only [Except.ok.injEq] at h
      exact ⟨harr, h.symm⟩

/-! ## The queue and the schedules across one iteration -/

theorem flatten_keys_of_forget (L1 L2 : List (List node))
    (h : L1.map (List.map forget_remaining) = L2.map (List.map forget_remaining)) :
    L1.flatten.map node_key = L2.flatten.map node_key := by
  have key : ∀ L : List (List node),
      L.flatten.map node_key
        = ((L.map (List.map forget_remaining)).map (List.map node_key)).flatten := by
    intro L
    rw [List.map_flatten, List.map_map]
    congr 1
    apply List.map_congr_left
    intro l _
    simp only [Function.comp, List.map_map]
    apply List.map_congr_left
    intro a _
    rfl
  rw [key L1, key L2, h]

theorem MP_frame_keys {s u : MPState} (h : MP_frame s u) :
    u.process_queue = s.process_queue ∧
    u.processor_schedule.flatten.map node_key = s.processor_schedule.flatten.map node_key :=
  ⟨h.1, flatten_keys_of_forget _ _ h.2.2.2.2.2.2.2.2.1⟩

/-- Adding `p` to the schedule `k` and rewriting the times of one of its
entries adds the key of `p` to the keys of the schedules. -/
theorem flatten_keys_dispatch (L : List (List node)) (k idx : Nat) (schedule : List node)
    (p entry entry1 : node) (hL : L[k]? = some schedule)
    (he : (schedule ++ [p])[idx]? = some entry) (hkey : node_key entry1 = node_key entry) :
    ((L.set k ((schedule ++ [p]).set idx entry1)).flatten.map node_key).Perm
      (node_key p :: L.flatten.map node_key) := by
  obtain ⟨A, B, h1, h2⟩ := flatten_split L k schedule hL
  rw [h1, h2]
  simp only [List.map_append]
  rw [map_set_same node_key (schedule ++ [p]) idx entry entry1 he hkey]
  simp only [List.map_append, List.map_cons, List.map_nil, List.append_assoc]
  have : List.map node_key A ++ (List.map node_key schedule ++ ([node_key p] ++ List.map node_key B))
      = (List.map node_key A ++ List.map node_key schedule) ++ node_key p :: List.map node_key B := by
    simp
  rw [this]
  refine List.perm_middle.trans ?_
  simp

/-- The first `switch` of the steady-state branch either matches no case and
changes nothing, or dispatches `process_queue[i]`. -/
theorem steady_dispatch_moved {s u : MPState} (h : steady_dispatch s = Except.ok u) :
    u.current_time = s.current_time ∧ u.i = s.i ∧ u.min_cycles_index = s.min_cycles_index ∧
    u.empty_processor = s.empty_processor ∧ u.processes_left = s.processes_left ∧
    u.processes_executed = s.processes_executed ∧ u.sjf_file = s.sjf_file ∧
    (u = s ∨ ∃ p, MP_moved s u p) := by
  rcases steady_dispatch_ok h with ⟨_, rfl⟩ | ⟨_, p, schedule, index, entry, hp, hs, _, he, rfl⟩
  · exact ⟨rfl, rfl, rfl, rfl, rfl, rfl, rfl, Or.inl rfl⟩
  · refine ⟨rfl, rfl, rfl, rfl, rfl, rfl, rfl, Or.inr ⟨p, hp, rfl, ?_⟩⟩
    exact flatten_keys_dispatch _ _ _ _ _ _ _ hs he rfl

/-- The `switch` of the branch for empty processors either matches no case and
changes nothing, or dispatches `process_queue[i]`. -/
theorem cold_dispatch_moved {s u : MPState} (h : cold_dispatch s = Except.ok u) :
    u.current_time = s.current_time ∧ u.i = s.i ∧ u.min_cycles_index = s.min_cycles_index ∧
    u.empty_processor = s.empty_processor ∧ u.processes_left = s.processes_left ∧
    u.sjf_file = s.sjf_file ∧
    (u = s ∨ ∃ p, MP_moved s u p) := by
  rcases cold_dispatch_ok h with
    ⟨_, rfl⟩ | ⟨_, p, schedule, index, entry, current, hp, hs, _, he, _, rfl⟩
  · exact ⟨rfl, rfl, rfl, rfl, rfl, rfl, Or.inl rfl⟩
  · refine ⟨rfl, rfl, rfl, rfl, rfl, rfl, Or.inr ⟨p, hp, rfl, ?_⟩⟩
    exact flatten_keys_dispatch _ _ _ _ _ _ _ hs he rfl

/-- One iteration of the loop, as far as the queue and the keys of the
schedules go: a step over an entry that has not arrived, or a branch, which
sets `i` to 0 and either leaves queue and schedules as they are or dispatches
`process_queue[i]`. -/
theorem MP_iteration_moved {processor_count : Nat} {s u : MPState}
    (hempty : s.empty_processor = false)
    (h : MP_iteration processor_count s = Except.ok u) :
    u.empty_processor = false ∧
    ((u = { s with i := s.i + 1 } ∧
        ∃ p, s.process_queue[s.i]? = some p ∧ ¬ p.arrival_time ≤ s.current_time) ∨
     (u.i = 0 ∧
        (∃ p, s.process_queue[s.i]? = some p ∧ p.arrival_time ≤ s.current_time) ∧
        ((u.process_queue = s.process_queue ∧
          u.processor_schedule.flatten.map node_key
            = s.processor_schedule.flatten.map node_key) ∨
         ∃ p, MP_moved s u p))) := by
  obtain ⟨p, hp, hcase⟩ := MP_iteration_ok h
  rcases hcase with ⟨harr, rfl⟩ | ⟨harr, c, s1, _, hbranch, rfl⟩
  · exact ⟨hempty, Or.inl ⟨rfl, p, hp, harr⟩⟩
  · have hempty0 : (MP_header s).empty_processor = false := hempty
    rcases hbranch with ⟨_, hb⟩ | ⟨_, hb⟩
    · obtain ⟨t1, t2, m1, m2, c2, hd, hrep, _, _, _, rfl⟩ := steady_branch_ok hb
      have hd1 : t1.empty_processor = false ∧ (t1 = MP_header s ∨ ∃ p, MP_moved (MP_header s) t1 p) := by
        by_cases hq : (MP_header s).process_queue.isEmpty = true
        · rw [if_pos hq] at hd
          cases hd
          exact ⟨hempty0, Or.inl rfl⟩
        · rw [if_neg hq] at hd
          obtain ⟨_, _, _, he, _, _, _, hm⟩ := steady_dispatch_moved hd
          exact ⟨he.trans hempty0, hm⟩
      have hf := steady_report_loop_frame hd1.1 hrep
      obtain ⟨hfq, hfk⟩ := MP_frame_keys hf
      refine ⟨hf.2.2.2.2.2.2.2.1, Or.inr ⟨rfl, ⟨p, hp, harr⟩, ?_⟩⟩
      rcases hd1.2 with rfl | ⟨q, hq1, hq2, hq3⟩
      · exact Or.inl ⟨hfq, hfk⟩
      · exact Or.inr ⟨q, hq1, hfq.trans hq2, by rw [hfk]; exact hq3⟩
    · obtain ⟨t1, t2, hd, hrep, hfin⟩ := cold_branch_ok hb
      obtain ⟨_, _, _, he, _, _, hm⟩ := cold_dispatch_moved hd
      have hf := cold_report_loop_frame (he.trans hempty0) hrep
      obtain ⟨hfq, hfk⟩ := MP_frame_keys hf
      have hfin1 : s1.process_queue = t2.process_queue ∧
          s1.processor_schedule = t2.processor_schedule ∧
          s1.empty_processor = t2.empty_processor := by
        rcases hfin with ⟨_, rfl⟩ | ⟨_, m, c1, _, _, rfl⟩
        · exact ⟨rfl, rfl, rfl⟩
        · exact ⟨rfl, rfl, rfl⟩
      obtain ⟨g1, g2, g3⟩ := hfin1
      refine ⟨g3.trans hf.2.2.2.2.2.2.2.1, Or.inr ⟨rfl, ⟨p, hp, harr⟩, ?_⟩⟩
      show (s1.process_queue = s.process_queue ∧ _) ∨ _
      rw [g2]
      rcases hm with rfl | ⟨q, hq1, hq2, hq3⟩
      · exact Or.inl ⟨g1.trans hfq, hfk⟩
      · refine Or.inr ⟨q, hq1, (g1.trans hfq).trans hq2, ?_⟩
        show (List.map node_key t2.processor_schedule.flatten).Perm _
        rw [hfk]
        exact hq3

/-! ## The scan of the queue and the whereabouts of the processes -/

/-- In a queue ordered by cycles, the first entry that has arrived is an
arrived entry of fewest cycles. -/
theorem first_arrived_is_shortest (q : List node) (i : Nat) (t : Int) (p : node)
    (hsorted : q.Pairwise (fun x y => x.CPU_cycles ≤ y.CPU_cycles))
    (hscan : ∀ j r, j < i → q[j]? = some r → t < r.arrival_time)
    (hp : q[i]? = some p) :
    ∀ r ∈ q, r.arrival_time ≤ t → p.CPU_cycles ≤ r.CPU_cycles := by
  intro r hr hrarr
  obtain ⟨j, hj⟩ := List.mem_iff_getElem?.mp hr
  obtain ⟨hjlt, hjr⟩ := List.getElem?_eq_some.mp hj
  obtain ⟨hilt, hip⟩ := List.getElem?_eq_some.mp hp
  rcases Nat.lt_trichotomy j i with hlt | heq | hgt
  · exact absurd hrarr (not_le_of_lt (hscan j r hlt hj))
  · subst heq
    rw [hjr] at hip
    rw [hip]
  · have := List.pairwise_iff_getElem.mp hsorted i j hilt hjlt hgt
    rw [hjr, hip] at this
    exact this

theorem MP_scan_inv_init (q : List node)
    (hq : q.Pairwise (fun x y => x.CPU_cycles ≤ y.CPU_cycles)) : MP_scan_inv (MP_init q) := by
  refine ⟨hq, Nat.zero_le _, ?_⟩
  intro j p hj
  exact absurd hj (Nat.not_lt_zero j)

theorem MP_scan_inv_iteration {processor_count : Nat} {s u : MPState}
    (hempty : s.empty_processor = false) (hinv : MP_scan_inv s)
    (h : MP_iteration processor_count s = Except.ok u) : MP_scan_inv u := by
  obtain ⟨hsorted, _, hscan⟩ := hinv
  rcases (MP_iteration_moved hempty h).2 with ⟨rfl, p, hp, harr⟩ | ⟨hi, _, hq⟩
  · obtain ⟨hlt, _⟩ := List.getElem?_eq_some.mp hp
    refine ⟨hsorted, hlt, ?_⟩
    intro j r hj hr
    rcases Nat.lt_succ_iff_lt_or_eq.mp hj with hj1 | hj1
    · exact hscan j r hj1 hr
    · subst hj1
      have hr1 : s.process_queue[s.i]? = some r := hr
      rw [hp] at hr1
      cases hr1
      exact lt_of_not_le harr
  · have hsub : u.process_queue.Sublist s.process_queue := by
      rcases hq with ⟨hq, _⟩ | ⟨p, _, hq, _⟩
      · rw [hq]
      · rw [hq]; exact List.eraseIdx_sublist _ _
    refine ⟨hsorted.sublist hsub, by rw [hi]; exact Nat.zero_le _, ?_⟩
    intro j r hj
    rw [hi] at hj
    exact absurd hj (Nat.not_lt_zero j)

/-- Along the loop the flag `empty_processor` is not set between iterations and
the scan invariant holds. -/
theorem MP_scan_inv_reaches {processor_count : Nat} {s t : MPState}
    (hr : MP_reaches processor_count s t)
    (hinv : s.empty_processor = false ∧ MP_scan_inv s) :
    t.empty_processor = false ∧ MP_scan_inv t := by
  induction hr with
  | refl => exact hinv
  | step _ _ hstep ih =>
    exact ⟨(MP_iteration_moved ih.1 hstep).1, MP_scan_inv_iteration ih.1 ih.2 hstep⟩

theorem MP_keys_iteration {processor_count : Nat} {s u : MPState}
    (hempty : s.empty_processor = false)
    (h : MP_iteration processor_count s = Except.ok u) : (MP_keys u).Perm (MP_keys s) := by
  unfold MP_keys
  rcases (MP_iteration_moved hempty h).2 with ⟨rfl, _⟩ | ⟨_, _, hq⟩
  · exact List.Perm.refl _
  · rcases hq with ⟨hq, hk⟩ | ⟨p, hp, hq, hk⟩
    · simp only [List.map_append, hq, hk]
      exact List.Perm.refl _
    · simp only [List.map_append, hq]
      have h1 : (node_key p :: (s.process_queue.eraseIdx s.i).map node_key).Perm
          (s.process_queue.map node_key) :=
        (cons_eraseIdx_perm s.process_queue s.i p hp).map node_key
      refine (List.Perm.append_left _ hk).trans ?_
      refine List.perm_middle.trans ?_
      exact List.Perm.append_right _ h1

theorem MP_keys_reaches {processor_count : Nat} {s t : MPState}
    (hr : MP_reaches processor_count s t) (hempty : s.empty_processor = false)
    (hscan : MP_scan_inv s) : (MP_keys t).Perm (MP_keys s) := by
  induction hr with
  | refl => exact List.Perm.refl _
  | step hr1 _ hstep ih =>
    exact (MP_keys_iteration (MP_scan_inv_reaches hr1 ⟨hempty, hscan⟩).1 hstep).trans ih

theorem MP_keys_init (q : List node) : MP_keys (MP_init q) = q.map node_key := by
  simp [MP_keys, MP_init]

/-- C14: at every dispatch of `SJF_multiprocessor` (an iteration, in a state
the loop reaches, that changes the ready queue), the process taken out of the
queue is `process_queue[i]`, its arrival time is at most the current time, and
no process of the ready queue that has arrived has strictly fewer cycles. -/
theorem C14_multiprocessor_dispatch_shortest_arrived (sort : List node → List node)
    (hsort : std_sort_contract cycles_less sort) (process_list : List node)
    (processor_count : Nat) (s u : MPState)
    (hreach : MP_reaches processor_count
      (MP_init (sorted_process_queue sort process_list)) s)
    (hstep : MP_iteration processor_count s = Except.ok u)
    (hdispatch : u.process_queue ≠ s.process_queue) :
    ∃ p, MP_moved s u p ∧
      p.arrival_time ≤ s.current_time ∧
      ∀ r ∈ s.process_queue, r.arrival_time ≤ s.current_time →
        ¬ r.CPU_cycles < p.CPU_cycles := by
  obtain ⟨hempty, hinv⟩ := MP_scan_inv_reaches hreach
    ⟨rfl, MP_scan_inv_init _ (sorted_process_queue_spec sort hsort process_list).2⟩
  rcases (MP_iteration_moved hempty hstep).2 with ⟨rfl, _⟩ | ⟨_, ⟨p, hp, harr⟩, hq⟩
  · exact absurd rfl hdispatch
  · rcases hq with ⟨hq, _⟩ | ⟨p1, hmoved⟩
    · exact absurd hq hdispatch
    · have hpp : p1 = p := by
        have := hmoved.1
        rw [hp] at this
        cases this
        rfl
      subst hpp
      refine ⟨p1, hmoved, harr, ?_⟩
      intro r hr hrarr
      exact not_lt_of_le
        (first_arrived_is_shortest _ _ _ _ hinv.1 hinv.2.2 hp r hr hrarr)

/-! ## The `std::sort` of libstdc++ sorts -/

section gnu_sort_proof

variable {α : Type} (key : α → Int)

/-- The loop of `std::__unguarded_linear_insert`: with an element in front of
the hole that is not above `value`, the loop puts `value` behind the last such
element and moves the elements above `value` one position up. -/
theorem unguarded_linear_insert_loop_spec (value : α) (pre : List α) :
    ∀ (y : α) (suf : List α), (∃ x ∈ pre, key x ≤ key value) →
    ∃ P Q, pre = P ++ Q ∧ (∀ x ∈ Q, key value < key x) ∧
      (∃ x, P.getLast? = some x ∧ key x ≤ key value) ∧
      unguarded_linear_insert_loop (fun a b => decide (key a < key b)) value pre.length
          (pre ++ y :: suf)
        = some (P ++ value :: Q ++ suf) := by
  induction pre using List.reverseRecOn with
  | nil =>
    intro y suf h
    obtain ⟨x, hx, _⟩ := h
    cases hx
  | append_singleton pre x ih =>
    intro y suf h
    have hlen : (pre ++ [x]).length = pre.length + 1 := by simp
    have hread : (pre ++ [x] ++ y :: suf)[pre.length]? = some x := by
      rw [List.append_assoc, List.getElem?_append_right (Nat.le_refl _)]
      simp
    have hbound : pre.length + 1 < (pre ++ [x] ++ y :: suf).length := by
      simp
    rw [hlen]
    unfold unguarded_linear_insert_loop
    rw [hread]
    simp only
    by_cases hc : key value < key x
    · rw [if_pos (by simpa using hc), if_pos hbound]
      have hset : (pre ++ [x] ++ y :: suf).set (pre.length + 1) x = pre ++ x :: x :: suf := by
        rw [List.append_assoc, List.set_append_right _ _ (by omega)]
        simp
      rw [hset]
      have hex : ∃ z ∈ pre, key z ≤ key value := by
        obtain ⟨z, hz, hzv⟩ := h
        rcases List.mem_append.mp hz with h1 | h1
        · exact ⟨z, h1, hzv⟩
        · simp only [List.mem_singleton] at h1
          subst h1
          omega
      obtain ⟨P, Q, hpq, hQ, hP, hres⟩ := ih x (x :: suf) hex
      refine ⟨P, Q ++ [x], ?_, ?_, hP, ?_⟩
      · rw [hpq, List.append_assoc]
      · intro z hz
        rcases List.mem_append.mp hz with h1 | h1
        · exact hQ z h1
        · simp only [List.mem_singleton] at h1
          subst h1
          exact hc
      · rw [hres]
        simp
    · rw [if_neg (by simpa using hc), if_pos hbound]
      refine ⟨pre ++ [x], [], by simp, by simp, ⟨x, by simp, by omega⟩, ?_⟩
      have hset : (pre ++ [x] ++ y :: suf).set (pre.length + 1) value
          = pre ++ [x] ++ value :: suf := by
        rw [List.set_append_right _ _ (by simp)]
        simp
      rw [hset]
      simp

/-- The result of `unguarded_linear_insert_loop_spec` is a rearrangement of
`value :: pre`, and it is ordered when `pre` is. -/
theorem insert_result_facts (value : α) (pre P Q : List α) (hpq : pre = P ++ Q)
    (hQ : ∀ x ∈ Q, key value < key x) (hP : ∃ x, P.getLast? = some x ∧ key x ≤ key value) :
    (P ++ value :: Q).Perm (pre ++ [value]) ∧
    (pre.Pairwise (fun a b => key a ≤ key b) →
      (P ++ value :: Q).Pairwise (fun a b => key a ≤ key b)) := by
  subst hpq
  constructor
  · have h1 : (P ++ value :: Q).Perm (value :: (P ++ Q)) := List.perm_middle
    exact h1.trans ((List.perm_append_singleton value (P ++ Q)).symm)
  · intro hs
    obtain ⟨x, hx, hxv⟩ := hP
    rw [List.pairwise_append] at hs ⊢
    obtain ⟨hsP, hsQ, hPQ⟩ := hs
    refine ⟨hsP, ?_, ?_⟩
    · rw [List.pairwise_cons]
      exact ⟨fun z hz => le_of_lt (hQ z hz), hsQ⟩
    · intro a ha b hb
      have hax : key a ≤ key x := by
        obtain ⟨P1, rfl⟩ : ∃ P1, P = P1 ++ [x] := by
          rcases List.eq_nil_or_concat P with h | ⟨P1, z, h⟩
          · subst h
            simp at hx
          · rw [List.concat_eq_append] at h
            subst h
            simp at hx
            subst hx
            exact ⟨P1, rfl⟩
        rcases List.mem_append.mp ha with h1 | h1
        · rw [List.pairwise_append] at hsP
          exact hsP.2.2 a h1 x (by simp)
        · simp only [List.mem_singleton] at h1
          subst h1
          exact le_refl _
      rcases List.mem_cons.mp hb with h1 | h1
      · subst h1
        omega
      · have := hQ b h1
        omega

end gnu_sort_proof

section gnu_sort_proof

variable {α : Type} (key : α → Int)

/-- The function `std::__unguarded_linear_insert` on the element behind a
part `pre` that holds an element not above it. -/
theorem unguarded_linear_insert_spec (pre : List α) (value : α) (suf : List α)
    (h : ∃ x ∈ pre, key x ≤ key value) :
    ∃ w, unguarded_linear_insert (fun a b => decide (key a < key b)) (pre ++ value :: suf)
          pre.length = some (w ++ suf) ∧
      w.Perm (pre ++ [value]) ∧
      (pre.Pairwise (fun a b => key a ≤ key b) → w.Pairwise (fun a b => key a ≤ key b)) := by
  obtain ⟨P, Q, hpq, hQ, hP, hres⟩ := unguarded_linear_insert_loop_spec key value pre value suf h
  obtain ⟨h1, h2⟩ := insert_result_facts key value pre P Q hpq hQ hP
  refine ⟨P ++ value :: Q, ?_, h1, h2⟩
  unfold unguarded_linear_insert
  have hread : (pre ++ value :: suf)[pre.length]? = some value := by
    rw [List.getElem?_append_right (Nat.le_refl _)]
    simp
  rw [hread]
  simp only
  rw [hres]

/-- The loop of `std::__insertion_sort` from the first position of the vector:
behind an ordered part `pre` that is not empty, it inserts the elements `xs`. -/
theorem insertion_sort_loop_spec (xs : List α) :
    ∀ (pre tail : List α), pre ≠ [] → pre.Pairwise (fun a b => key a ≤ key b) →
    ∃ w, insertion_sort_loop (fun a b => decide (key a < key b)) 0 xs.length pre.length
          (pre ++ xs ++ tail) = some (w ++ tail) ∧
      w.Perm (pre ++ xs) ∧ w.Pairwise (fun a b => key a ≤ key b) := by
  induction xs with
  | nil =>
    intro pre tail _ hs
    refine ⟨pre, ?_, by simp, hs⟩
    simp [insertion_sort_loop]
  | cons x xs ih =>
    intro pre tail hne hs
    obtain ⟨f, pre1, hpre⟩ : ∃ f pre1, pre = f :: pre1 := by
      cases pre with
      | nil => exact absurd rfl hne
      | cons f pre1 => exact ⟨f, pre1, rfl⟩
    have hread : (pre ++ (x :: xs) ++ tail)[pre.length]? = some x := by
      rw [List.append_assoc, List.getElem?_append_right (Nat.le_refl _)]
      simp
    have hfirst : (pre ++ (x :: xs) ++ tail)[0]? = some f := by
      rw [hpre]
      simp
    have hlen : (x :: xs).length = xs.length + 1 := rfl
    rw [hlen]
    unfold insertion_sort_loop
    rw [hread, hfirst]
    simp only
    by_cases hc : key x < key f
    · rw [if_pos (by simpa using hc)]
      have hv : (List.take 0 (pre ++ (x :: xs) ++ tail) ++
          x :: List.take (pre.length - 0) (List.drop 0 (pre ++ (x :: xs) ++ tail)) ++
          List.drop (pre.length + 1) (pre ++ (x :: xs) ++ tail))
          = (x :: pre) ++ xs ++ tail := by
        simp only [List.take_zero, List.nil_append, List.drop_zero, Nat.sub_zero,
          List.append_assoc, List.take_left', List.cons_append]
        congr 1
        congr 1
        rw [show pre.length + 1 = pre.length + 1 from rfl]
        rw [List.drop_append_eq_append_drop]
        simp
      rw [hv]
      have hs1 : (x :: pre).Pairwise (fun a b => key a ≤ key b) := by
        rw [List.pairwise_cons]
        refine ⟨?_, hs⟩
        intro a ha
        rw [hpre] at ha hs
        rcases List.mem_cons.mp ha with h1 | h1
        · subst h1
          omega
        · have := (List.pairwise_cons.mp hs).1 a h1
          omega
      obtain ⟨w, hw, hperm, hsorted⟩ := ih (x :: pre) tail (by simp) hs1
      have hl : (x :: pre).length = pre.length + 1 := rfl
      rw [hl] at hw
      refine ⟨w, hw, ?_, hsorted⟩
      refine hperm.trans ?_
      simp only [List.cons_append]
      exact (List.perm_middle).symm
    · rw [if_neg (by simpa using hc)]
      have hsent : ∃ z ∈ pre, key z ≤ key x := ⟨f, by rw [hpre]; simp, by omega⟩
      obtain ⟨w1, hw1, hperm1, hsorted1⟩ :=
        unguarded_linear_insert_spec key pre x (xs ++ tail) hsent
      have hv : pre ++ (x :: xs) ++ tail = pre ++ x :: (xs ++ tail) := by simp
      rw [hv, hw1]
      simp only
      have hl1 : w1.length = pre.length + 1 := by
        have := hperm1.length_eq
        simpa using this
      have hne1 : w1 ≠ [] := by
        intro h0
        rw [h0] at hl1
        simp at hl1
      obtain ⟨w, hw, hperm, hsorted⟩ := ih w1 tail hne1 (hsorted1 hs)
      rw [hl1, List.append_assoc] at hw
      refine ⟨w, hw, ?_, hsorted⟩
      refine hperm.trans ?_
      refine (List.Perm.append_right xs hperm1).trans ?_
      simp

/-- The function `std::__insertion_sort` on the first `W.length` positions. -/
theorem gnu_insertion_sort_spec (W tail : List α) :
    ∃ w, gnu_insertion_sort (fun a b => decide (key a < key b)) (W ++ tail) 0 W.length
          = some (w ++ tail) ∧
      w.Perm W ∧ w.Pairwise (fun a b => key a ≤ key b) := by
  cases W with
  | nil =>
    refine ⟨[], ?_, List.Perm.refl _, List.Pairwise.nil⟩
    simp [gnu_insertion_sort]
  | cons f xs =>
    obtain ⟨w, hw, hperm, hsorted⟩ :=
      insertion_sort_loop_spec key xs [f] tail (by simp) (List.pairwise_singleton _ _)
    refine ⟨w, ?_, hperm, hsorted⟩
    unfold gnu_insertion_sort
    rw [if_neg (by simp)]
    simpa using hw

/-- The function `std::__unguarded_insertion_sort` behind an ordered part `pre`
that holds an element which is not above any of the elements to insert. -/
theorem unguarded_insertion_sort_spec (xs : List α) :
    ∀ (pre tail : List α) (s : α), s ∈ pre → (∀ x ∈ xs, key s ≤ key x) →
      pre.Pairwise (fun a b => key a ≤ key b) →
    ∃ w, unguarded_insertion_sort (fun a b => decide (key a < key b)) xs.length pre.length
          (pre ++ xs ++ tail) = some (w ++ tail) ∧
      w.Perm (pre ++ xs) ∧ w.Pairwise (fun a b => key a ≤ key b) := by
  induction xs with
  | nil =>
    intro pre tail s _ _ hs
    refine ⟨pre, ?_, by simp, hs⟩
    simp [unguarded_insertion_sort]
  | cons x xs ih =>
    intro pre tail s hmem hle hs
    have hlen : (x :: xs).length = xs.length + 1 := rfl
    rw [hlen]
    unfold unguarded_insertion_sort
    have hsent : ∃ z ∈ pre, key z ≤ key x := ⟨s, hmem, hle x (by simp)⟩
    obtain ⟨w1, hw1, hperm1, hsorted1⟩ :=
      unguarded_linear_insert_spec key pre x (xs ++ tail) hsent
    have hv : pre ++ (x :: xs) ++ tail = pre ++ x :: (xs ++ tail) := by simp
    rw [hv, hw1]
    simp only
    have hl1 : w1.length = pre.length + 1 := by
      have := hperm1.length_eq
      simpa using this
    have hmem1 : s ∈ w1 := hperm1.symm.subset (List.mem_append_left _ hmem)
    obtain ⟨w, hw, hperm, hsorted⟩ := ih w1 tail s hmem1
      (fun z hz => hle z (List.mem_cons_of_mem _ hz)) (hsorted1 hs)
    rw [hl1, List.append_assoc] at hw
    refine ⟨w, hw, ?_, hsorted⟩
    refine hperm.trans ?_
    refine (List.Perm.append_right xs hperm1).trans ?_
    simp

/-- The function `std::__final_insertion_sort` on a vector whose first element
is not above any element from position 16 on: the result is the vector in
order. -/
theorem final_insertion_sort_spec (v : List α)
    (hguard : ∀ a, v.head? = some a → ∀ b ∈ v.drop 16, key a ≤ key b) :
    ∃ w, final_insertion_sort (fun a b => decide (key a < key b)) v 0 v.length = some w ∧
      w.Perm v ∧ w.Pairwise (fun a b => key a ≤ key b) := by
  unfold final_insertion_sort
  by_cases hbig : v.length - 0 > 16
  · rw [if_pos hbig]
    have hsplit : v = v.take 16 ++ v.drop 16 := (List.take_append_drop 16 v).symm
    have hl16 : (v.take 16).length = 16 := by
      rw [List.length_take]
      omega
    obtain ⟨w16, hw16, hperm16, hsorted16⟩ := gnu_insertion_sort_spec key (v.take 16) (v.drop 16)
    rw [hl16, ← hsplit] at hw16
    rw [show (0 : Nat) + 16 = 16 from rfl, hw16]
    simp only
    obtain ⟨a, ha⟩ : ∃ a, v.head? = some a := by
      cases v with
      | nil => simp at hbig
      | cons a l => exact ⟨a, rfl⟩
    have hmem : a ∈ w16 := by
      apply hperm16.symm.subset
      cases v with
      | nil => simp at ha
      | cons b l =>
        simp only [List.head?_cons, Option.some.injEq] at ha
        subst ha
        simp
    obtain ⟨w, hw, hperm, hsorted⟩ := unguarded_insertion_sort_spec key (v.drop 16) w16 [] a hmem
      (hguard a ha) hsorted16
    have hlw : w16.length = 16 := by rw [hperm16.length_eq, hl16]
    have hld : (v.drop 16).length = v.length - 16 := List.length_drop 16 v
    rw [hlw, hld] at hw
    simp only [List.append_nil] at hw
    refine ⟨w, hw, ?_, hsorted⟩
    refine hperm.trans ?_
    refine (List.Perm.append_right _ hperm16).trans ?_
    rw [← hsplit]
  · rw [if_neg hbig]
    obtain ⟨w, hw, hperm, hsorted⟩ := gnu_insertion_sort_spec key v []
    simp only [List.append_nil] at hw
    exact ⟨w, hw, hperm, hsorted⟩

end gnu_sort_proof

section gnu_sort_proof

variable {α : Type}

theorem set_perm_cons (t : List α) : ∀ (n : Nat) (y h : α), t[n]? = some y →
    (y :: t.set n h).Perm (h :: t) := by
  induction t with
  | nil => intro n y h hn; simp at hn
  | cons z t ih =>
    intro n y h hn
    cases n with
    | zero =>
      simp only [List.getElem?_cons_zero, Option.some.injEq] at hn
      subst hn
      simp only [List.set_cons_zero]
      exact List.Perm.swap _ _ _
    | succ n =>
      simp only [List.getElem?_cons_succ] at hn
      simp only [List.set_cons_succ]
      refine (List.Perm.swap _ _ _).trans ?_
      refine ((ih n y h hn).cons z).trans ?_
      exact List.Perm.swap _ _ _

/-- Swapping two entries of a list rearranges it. -/
theorem set_set_perm (v : List α) : ∀ (a b : Nat) (x y : α), v[a]? = some x → v[b]? = some y →
    ((v.set a y).set b x).Perm v := by
  induction v with
  | nil => intro a b x y ha; simp at ha
  | cons z t ih =>
    intro a b x y ha hb
    cases a with
    | zero =>
      simp only [List.getElem?_cons_zero, Option.some.injEq] at ha
      subst ha
      cases b with
      | zero =>
        simp only [List.getElem?_cons_zero, Option.some.injEq] at hb
        subst hb
        simp
      | succ b =>
        simp only [List.getElem?_cons_succ] at hb
        simp only [List.set_cons_zero, List.set_cons_succ]
        exact set_perm_cons t b y z hb
    | succ a =>
      simp only [List.getElem?_cons_succ] at ha
      cases b with
      | zero =>
        simp only [List.getElem?_cons_zero, Option.some.injEq] at hb
        subst hb
        simp only [List.set_cons_zero, List.set_cons_succ]
        exact set_perm_cons t a x z ha
      | succ b =>
        simp only [List.getElem?_cons_succ] at hb
        simp only [List.set_cons_succ]
        exact (ih a b x y ha hb).cons z

/-- The call `std::iter_swap(a, b)` inside the vector. -/
theorem iter_swap_spec (v : List α) (a b : Nat) (x y : α) (ha : v[a]? = some x)
    (hb : v[b]? = some y) :
    iter_swap v a b = some ((v.set a y).set b x) ∧
    ((v.set a y).set b x).length = v.length ∧
    ((v.set a y).set b x).Perm v ∧
    ∀ i, ((v.set a y).set b x)[i]? = if i = b then some x else if i = a then some y else v[i]? := by
  have hal := (List.getElem?_eq_some.mp ha).1
  have hbl := (List.getElem?_eq_some.mp hb).1
  refine ⟨?_, by simp, set_set_perm v a b x y ha hb, ?_⟩
  · unfold iter_swap
    rw [ha, hb]
  · intro i
    by_cases h1 : i = b
    · subst h1
      rw [if_pos rfl, List.getElem?_set_self (by simpa using hbl)]
    · rw [if_neg h1, List.getElem?_set_ne (fun h => h1 h.symm)]
      by_cases h2 : i = a
      · subst h2
        rw [if_pos rfl, List.getElem?_set_self hal]
      · rw [if_neg h2, List.getElem?_set_ne (fun h => h2 h.symm)]

theorem same_outside_refl (first last : Nat) (v : List α) : same_outside first last v v :=
  ⟨rfl, List.Perm.refl _, fun _ _ => rfl⟩

theorem same_outside_trans {first last : Nat} {u v w : List α}
    (h1 : same_outside first last u v) (h2 : same_outside first last v w) :
    same_outside first last u w :=
  ⟨h2.1.trans h1.1, h2.2.1.trans h1.2.1, fun i hi => (h2.2.2 i hi).trans (h1.2.2 i hi)⟩

theorem same_outside_mono {first last first1 last1 : Nat} {v w : List α}
    (h : same_outside first last v w) (hf : first1 ≤ first) (hl : last ≤ last1) :
    same_outside first1 last1 v w :=
  ⟨h.1, h.2.1, fun i hi => h.2.2 i (by omega)⟩

theorem mem_slice {v : List α} {first last : Nat} {x : α} :
    x ∈ slice v first last ↔ ∃ i, first ≤ i ∧ i < last ∧ v[i]? = some x := by
  unfold slice
  rw [List.mem_iff_getElem?]
  constructor
  · rintro ⟨n, hn⟩
    rw [List.getElem?_take] at hn
    by_cases h : n < last - first
    · rw [if_pos h, List.getElem?_drop] at hn
      exact ⟨first + n, by omega, by omega, hn⟩
    · rw [if_neg h] at hn
      cases hn
  · rintro ⟨i, h1, h2, h3⟩
    refine ⟨i - first, ?_⟩
    rw [List.getElem?_take, if_pos (by omega), List.getElem?_drop]
    rw [show first + (i - first) = i by omega]
    exact h3

theorem slice_split (v : List α) (first last : Nat) (h : first ≤ last) :
    v = v.take first ++ slice v first last ++ v.drop last := by
  unfold slice
  have h1 : List.drop (last - first) (List.drop first v) = v.drop last := by
    rw [List.drop_drop]
    congr 1
    omega
  rw [List.append_assoc, ← h1, List.take_append_drop, List.take_append_drop]

/-- A rearrangement that differs only inside a window rearranges the
window. -/
theorem same_outside_slice {first last : Nat} {v w : List α}
    (h : same_outside first last v w) (hfl : first ≤ last) :
    (slice w first last).Perm (slice v first last) := by
  obtain ⟨hlen, hperm, hout⟩ := h
  have htake : w.take first = v.take first := by
    apply List.ext_getElem?
    intro n
    rw [List.getElem?_take, List.getElem?_take]
    by_cases hn : n < first
    · rw [if_pos hn, if_pos hn]
      exact hout n (Or.inl hn)
    · rw [if_neg hn, if_neg hn]
  have hdrop : w.drop last = v.drop last := by
    apply List.ext_getElem?
    intro n
    rw [List.getElem?_drop, List.getElem?_drop]
    exact hout (last + n) (Or.inr (by omega))
  have hw := slice_split w first last hfl
  have hv := slice_split v first last hfl
  rw [hw, hv, htake, hdrop] at hperm
  rw [List.perm_append_right_iff, List.perm_append_left_iff] at hperm
  exact hperm

/-- An element of the window of the rearranged vector is an element of the
window of the vector. -/
theorem same_outside_mem {first last : Nat} {v w : List α}
    (h : same_outside first last v w) (hfl : first ≤ last) (i : Nat) (x : α)
    (h1 : first ≤ i) (h2 : i < last) (hx : w[i]? = some x) :
    ∃ j, first ≤ j ∧ j < last ∧ v[j]? = some x := by
  have hm : x ∈ slice w first last := mem_slice.mpr ⟨i, h1, h2, hx⟩
  exact mem_slice.mp ((same_outside_slice h hfl).subset hm)

end gnu_sort_proof

section gnu_sort_proof

variable {α : Type} (key : α → Int)

/-- The first loop of `std::__unguarded_partition` stops in front of an
element that is not below the pivot, when there is one. -/
theorem partition_up_spec (v : List α) (pivot : Nat) (pv : α) (hp : v[pivot]? = some pv)
    (hi : Nat) (xhi : α) (hhi : v[hi]? = some xhi) (hge : key pv ≤ key xhi) :
    ∀ steps f, f ≤ hi → hi - f < steps →
    ∃ f1, partition_up (fun a b => decide (key a < key b)) v pivot steps f = some f1 ∧
      f ≤ f1 ∧ f1 ≤ hi ∧
      (∀ i x, f ≤ i → i < f1 → v[i]? = some x → key x < key pv) ∧
      ∃ x1, v[f1]? = some x1 ∧ key pv ≤ key x1 := by
  intro steps
  induction steps with
  | zero => intro f _ h; omega
  | succ steps ih =>
    intro f hf hsteps
    have hlt : f < v.length := by
      have := (List.getElem?_eq_some.mp hhi).1
      omega
    unfold partition_up
    rw [List.getElem?_eq_getElem hlt, hp]
    simp only
    by_cases hc : key v[f] < key pv
    · rw [if_pos (by simpa using hc)]
      have hne : f ≠ hi := by
        intro h
        subst h
        rw [List.getElem?_eq_getElem hlt] at hhi
        cases hhi
        omega
      obtain ⟨f1, h1, h2, h3, h4, h5⟩ := ih (f + 1) (by omega) (by omega)
      refine ⟨f1, h1, by omega, h3, ?_, h5⟩
      intro i x hi1 hi2 hx
      by_cases hif : i = f
      · subst hif
        rw [List.getElem?_eq_getElem hlt] at hx
        cases hx
        exact hc
      · exact h4 i x (by omega) hi2 hx
    · rw [if_neg (by simpa using hc)]
      refine ⟨f, rfl, Nat.le_refl _, hf, ?_, v[f], List.getElem?_eq_getElem hlt, by omega⟩
      intro i x h1 h2
      omega

/-- The second loop of `std::__unguarded_partition` stops at an element that
is not above the pivot, at the pivot itself at the latest. -/
theorem partition_down_spec (v : List α) (pivot : Nat) (pv : α) (hp : v[pivot]? = some pv) :
    ∀ l, pivot ≤ l → l < v.length →
    ∃ l1, partition_down (fun a b => decide (key a < key b)) v pivot l = some l1 ∧
      pivot ≤ l1 ∧ l1 ≤ l ∧
      (∀ i x, l1 < i → i ≤ l → v[i]? = some x → key pv < key x) ∧
      ∃ x1, v[l1]? = some x1 ∧ key x1 ≤ key pv := by
  intro l
  induction l with
  | zero =>
    intro h1 h2
    have hp0 : pivot = 0 := by omega
    subst hp0
    unfold partition_down
    rw [hp]
    simp only
    rw [if_neg (by simp)]
    exact ⟨0, rfl, Nat.le_refl _, Nat.le_refl _, fun i x h3 h4 => by omega, pv, hp, le_refl _⟩
  | succ l ih =>
    intro h1 h2
    unfold partition_down
    rw [List.getElem?_eq_getElem h2, hp]
    simp only
    by_cases hc : key pv < key v[l + 1]
    · rw [if_pos (by simpa using hc)]
      have hne : pivot ≠ l + 1 := by
        intro h
        subst h
        rw [List.getElem?_eq_getElem h2] at hp
        cases hp
        omega
      obtain ⟨l1, g1, g2, g3, g4, g5⟩ := ih (by omega) (by omega)
      refine ⟨l1, g1, g2, by omega, ?_, g5⟩
      intro i x hi1 hi2 hx
      by_cases hil : i = l + 1
      · subst hil
        rw [List.getElem?_eq_getElem h2] at hx
        cases hx
        exact hc
      · exact g4 i x hi1 (by omega) hx
    · rw [if_neg (by simpa using hc)]
      refine ⟨l + 1, rfl, h1, Nat.le_refl _, fun i x h3 h4 => by omega, v[l + 1],
        List.getElem?_eq_getElem h2, by omega⟩

/-- The function `std::__unguarded_partition` with the pivot in front of the
range: it rearranges the range `[f, last)` and returns a cut such that no
element in front of the cut is above the pivot and no element from the cut on
is below it. -/
theorem unguarded_partition_spec (pivot last : Nat) (pv : α) :
    ∀ (steps : Nat) (v : List α) (f l : Nat),
      pivot < f → f ≤ l → l ≤ last → last ≤ v.length → l < steps →
      v[pivot]? = some pv →
      (∀ i x, pivot < i → i < f → v[i]? = some x → key x ≤ key pv) →
      (∀ i x, l ≤ i → i < last → v[i]? = some x → key pv ≤ key x) →
      (∃ hi x, f ≤ hi ∧ hi < last ∧ v[hi]? = some x ∧ key pv ≤ key x) →
      ∃ w cut, unguarded_partition (fun a b => decide (key a < key b)) pivot steps v f l
          = some (w, cut) ∧
        same_outside (pivot + 1) last v w ∧
        pivot < cut ∧ cut < last ∧
        (∀ i x, pivot < i → i < cut → w[i]? = some x → key x ≤ key pv) ∧
        (∀ i x, cut ≤ i → i < last → w[i]? = some x → key pv ≤ key x) := by
  intro steps
  induction steps with
  | zero => intro v f l _ _ _ _ h; omega
  | succ steps ih =>
    intro v f l hpf hfl hll hlast hsteps hp hlow hhigh hsent
    obtain ⟨hi, xhi, hhi1, hhi2, hhi3, hhi4⟩ := hsent
    obtain ⟨f1, u1, u2, u3, u4, x1, u5, u6⟩ :=
      partition_up_spec key v pivot pv hp hi xhi hhi3 hhi4 (v.length + 1) f hhi1 (by omega)
    obtain ⟨l1, d1, d2, d3, d4, y1, d5, d6⟩ :=
      partition_down_spec key v pivot pv hp (l - 1) (by omega) (by omega)
    unfold unguarded_partition
    rw [u1]
    simp only
    rw [if_neg (by omega), d1]
    simp only
    by_cases hlt : f1 < l1
    · rw [if_pos hlt]
      obtain ⟨s1, s2, s3, s4⟩ := iter_swap_spec v f1 l1 x1 y1 u5 d5
      rw [s1]
      simp only
      have hp1 : ((v.set f1 y1).set l1 x1)[pivot]? = some pv := by
        rw [s4, if_neg (by omega), if_neg (by omega)]
        exact hp
      obtain ⟨w, cut, r1, r2, r3, r4, r5, r6⟩ := ih ((v.set f1 y1).set l1 x1) (f1 + 1) l1
        (by omega) (by omega) (by omega) (by rw [s2]; exact hlast) (by omega) hp1
        (by
          intro i x hi1 hi2 hx
          rw [s4, if_neg (by omega)] at hx
          by_cases hif : i = f1
          · rw [if_pos hif] at hx
            cases hx
            exact d6
          · rw [if_neg hif] at hx
            by_cases hlo : i < f
            · exact hlow i x hi1 hlo hx
            · exact le_of_lt (u4 i x (by omega) (by omega) hx))
        (by
          intro i x hi1 hi2 hx
          rw [s4] at hx
          by_cases hil : i = l1
          · rw [if_pos hil] at hx
            cases hx
            exact u6
          · rw [if_neg hil, if_neg (by omega)] at hx
            by_cases hup : l ≤ i
            · exact hhigh i x hup hi2 hx
            · exact le_of_lt (d4 i x (by omega) (by omega) hx))
        ⟨l1, x1, by omega, by omega, by rw [s4, if_pos rfl], u6⟩
      refine ⟨w, cut, r1, ?_, r3, r4, r5, r6⟩
      refine same_outside_trans ⟨s2, s3, ?_⟩ r2
      intro i hi1
      rw [s4, if_neg (by omega), if_neg (by omega)]
    · rw [if_neg hlt]
      refine ⟨v, f1, rfl, same_outside_refl _ _ _, by omega, by omega, ?_, ?_⟩
      · intro i x hi1 hi2 hx
        by_cases hlo : i < f
        · exact hlow i x hi1 hlo hx
        · exact le_of_lt (u4 i x (by omega) hi2 hx)
      · intro i x hi1 hi2 hx
        by_cases hup : l ≤ i
        · exact hhigh i x hup hi2 hx
        · by_cases hil : i = l1
          · subst hil
            have hif : i = f1 := by omega
            subst hif
            rw [u5] at hx
            cases hx
            exact u6
          · exact le_of_lt (d4 i x (by omega) (by omega) hx)

end gnu_sort_proof

section gnu_sort_proof

variable {α : Type} (key : α → Int)

/-- Swapping the element at `m` to the front of the range leaves, at `hi`, an
element that is not below it. -/
theorem swap_median (v : List α) (first m hi last : Nat) (x0 xm xh : α)
    (h0 : v[first]? = some x0) (hm : v[m]? = some xm) (hh : v[hi]? = some xh)
    (h1 : first < m) (h2 : m < last) (h3 : first < hi) (h4 : hi < last) (h5 : hi ≠ m)
    (h6 : key xm ≤ key xh) :
    ∃ v1, iter_swap v first m = some v1 ∧ same_outside first last v v1 ∧
      v1[first]? = some xm ∧
      ∃ hi x, first + 1 ≤ hi ∧ hi < last ∧ v1[hi]? = some x ∧ key xm ≤ key x := by
  obtain ⟨s1, s2, s3, s4⟩ := iter_swap_spec v first m x0 xm h0 hm
  refine ⟨_, s1, ⟨s2, s3, ?_⟩, ?_, hi, xh, by omega, h4, ?_, h6⟩
  · intro i hi1
    rw [s4, if_neg (by omega), if_neg (by omega)]
  · rw [s4, if_neg (by omega), if_pos rfl]
  · rw [s4, if_neg h5, if_neg (by omega)]
    exact hh

/-- The function `std::__move_median_to_first` on the second, the middle and
the last position of a range: the element it brings to the front is not above
one of the two others, which stay in the range. -/
theorem move_median_to_first_spec (v : List α) (first mid last : Nat)
    (h1 : first + 1 < mid) (h2 : mid + 1 < last) (h3 : last ≤ v.length) :
    ∃ v1 pv, move_median_to_first (fun a b => decide (key a < key b)) v first (first + 1) mid
          (last - 1) = some v1 ∧
      same_outside first last v v1 ∧ v1[first]? = some pv ∧
      ∃ hi x, first + 1 ≤ hi ∧ hi < last ∧ v1[hi]? = some x ∧ key pv ≤ key x := by
  have g0 : v[first]? = some v[first] := List.getElem?_eq_getElem (by omega)
  have ga : v[first + 1]? = some v[first + 1] := List.getElem?_eq_getElem (by omega)
  have gb : v[mid]? = some v[mid] := List.getElem?_eq_getElem (by omega)
  have gc : v[last - 1]? = some v[last - 1] := List.getElem?_eq_getElem (by omega)
  unfold move_median_to_first
  rw [ga, gb, gc]
  simp only
  by_cases c1 : key (v[first + 1]) < key (v[mid])
  · rw [if_pos (by simpa using c1)]
    by_cases c2 : key (v[mid]) < key (v[last - 1])
    · rw [if_pos (by simpa using c2)]
      obtain ⟨v1, e1, e2, e3, e4⟩ := swap_median key v first mid (last - 1) last _ _ _ g0 gb gc
        (by omega) (by omega) (by omega) (by omega) (by omega) (by omega)
      exact ⟨v1, _, e1, e2, e3, e4⟩
    · rw [if_neg (by simpa using c2)]
      by_cases c3 : key (v[first + 1]) < key (v[last - 1])
      · rw [if_pos (by simpa using c3)]
        obtain ⟨v1, e1, e2, e3, e4⟩ := swap_median key v first (last - 1) mid last _ _ _ g0 gc gb
          (by omega) (by omega) (by omega) (by omega) (by omega) (by omega)
        exact ⟨v1, _, e1, e2, e3, e4⟩
      · rw [if_neg (by simpa using c3)]
        obtain ⟨v1, e1, e2, e3, e4⟩ := swap_median key v first (first + 1) mid last _ _ _ g0 ga gb
          (by omega) (by omega) (by omega) (by omega) (by omega) (by omega)
        exact ⟨v1, _, e1, e2, e3, e4⟩
  · rw [if_neg (by simpa using c1)]
    by_cases c3 : key (v[first + 1]) < key (v[last - 1])
    · rw [if_pos (by simpa using c3)]
      obtain ⟨v1, e1, e2, e3, e4⟩ := swap_median key v first (first + 1) (last - 1) last _ _ _
        g0 ga gc (by omega) (by omega) (by omega) (by omega) (by omega) (by omega)
      exact ⟨v1, _, e1, e2, e3, e4⟩
    · rw [if_neg (by simpa using c3)]
      by_cases c2 : key (v[mid]) < key (v[last - 1])
      · rw [if_pos (by simpa using c2)]
        obtain ⟨v1, e1, e2, e3, e4⟩ := swap_median key v first (last - 1) (first + 1) last _ _ _
          g0 gc ga (by omega) (by omega) (by omega) (by omega) (by omega) (by omega)
        exact ⟨v1, _, e1, e2, e3, e4⟩
      · rw [if_neg (by simpa using c2)]
        obtain ⟨v1, e1, e2, e3, e4⟩ := swap_median key v first mid (first + 1) last _ _ _
          g0 gb ga (by omega) (by omega) (by omega) (by omega) (by omega) (by omega)
        exact ⟨v1, _, e1, e2, e3, e4⟩

/-- The function `std::__unguarded_partition_pivot` on a range of more than 16
elements: it rearranges the range and returns a cut inside it such that no
element in front of the cut is above the pivot and no element from the cut on
is below it. -/
theorem unguarded_partition_pivot_spec (v : List α) (first last : Nat)
    (hsize : last - first > 16) (hlast : last ≤ v.length) :
    ∃ w cut pv, unguarded_partition_pivot (fun a b => decide (key a < key b)) v first last
        = some (w, cut) ∧
      same_outside first last v w ∧ first < cut ∧ cut < last ∧
      (∀ i x, first ≤ i → i < cut → w[i]? = some x → key x ≤ key pv) ∧
      (∀ i x, cut ≤ i → i < last → w[i]? = some x → key pv ≤ key x) := by
  obtain ⟨v1, pv, m1, m2, m3, m4⟩ := move_median_to_first_spec key v first
    (first + (last - first) / 2) last (by omega) (by omega) hlast
  have hl1 : v1.length = v.length := m2.1
  obtain ⟨w, cut, r1, r2, r3, r4, r5, r6⟩ := unguarded_partition_spec key first last pv
    (v1.length + 1) v1 (first + 1) last (by omega) (by omega) (Nat.le_refl _) (by omega)
    (by omega) m3 (fun i x h1 h2 => by omega) (fun i x h1 h2 => by omega) m4
  refine ⟨w, cut, pv, ?_, same_outside_trans m2 (same_outside_mono r2 (by omega) (Nat.le_refl _)),
    r3, r4, ?_, r6⟩
  · unfold unguarded_partition_pivot
    simp only
    rw [m1]
    simp only
    exact r1
  · intro i x h1 h2 hx
    by_cases hif : i = first
    · subst hif
      rw [r2.2.2 i (Or.inl (by omega)), m3] at hx
      cases hx
      exact le_refl _
    · exact r5 i x (by omega) h2 hx

end gnu_sort_proof

section gnu_sort_proof

variable {α : Type} (key : α → Int)

theorem heap_parent_le (i : Nat) : heap_parent i ≤ i := by
  unfold heap_parent
  omega

theorem heap_parent_iterate_le (n i : Nat) : heap_parent^[n] i ≤ i := by
  induction n generalizing i with
  | zero => exact Nat.le_refl _
  | succ n ih =>
    rw [Function.iterate_succ_apply]
    exact (ih _).trans (heap_parent_le i)

theorem below_refl (k : Nat) : below k k := ⟨0, rfl⟩

theorem below_le {k h : Nat} (hb : below k h) : k ≤ h := by
  obtain ⟨n, hn⟩ := hb
  rw [← hn]
  exact heap_parent_iterate_le n h

theorem below_child {k h c : Nat} (hb : below k h) (hc : heap_parent c = h) : below k c := by
  obtain ⟨n, hn⟩ := hb
  refine ⟨n + 1, ?_⟩
  rw [Function.iterate_succ_apply, hc]
  exact hn

theorem below_parent {k h : Nat} (hb : below k h) (hne : h ≠ k) :
    below k (heap_parent h) ∧ k ≤ heap_parent h ∧ 1 ≤ h := by
  obtain ⟨n, hn⟩ := hb
  cases n with
  | zero => exact absurd hn hne
  | succ n =>
    rw [Function.iterate_succ_apply] at hn
    have h1 : below k (heap_parent h) := ⟨n, hn⟩
    refine ⟨h1, below_le h1, ?_⟩
    have h3 := below_le h1
    unfold heap_parent at h3
    omega

theorem heap_at_set_ne (v : List α) (first i j : Nat) (x : α) (h : i ≠ j) :
    heap_at (v.set (first + i) x) first j = heap_at v first j := by
  unfold heap_at
  rw [List.getElem?_set_ne (by omega)]

theorem heap_at_set_self (v : List α) (first i : Nat) (x : α) (h : first + i < v.length) :
    heap_at (v.set (first + i) x) first i = some x := by
  unfold heap_at
  rw [List.getElem?_set_self h]

/-- Filling the hole with the element of another position and moving the hole
there is a swap in the vector that has `value` in the hole. -/
theorem hole_move_perm (v : List α) (a b : Nat) (value z : α) (hab : a ≠ b)
    (ha : a < v.length) (hb : v[b]? = some z) :
    ((v.set a z).set b value).Perm (v.set a value) := by
  have h1 : (v.set a value)[a]? = some value := List.getElem?_set_self ha
  have h2 : (v.set a value)[b]? = some z := by
    rw [List.getElem?_set_ne hab]
    exact hb
  have h3 := set_set_perm (v.set a value) a b value z h1 h2
  rw [List.set_set] at h3
  exact h3

/-- The first loop of `std::__adjust_heap`: the hole moves down to a position
without a second child; the order is kept wherever the hole is not
involved. -/
theorem adjust_heap_down_spec (first len k : Nat) (value : α) :
    ∀ (steps : Nat) (v : List α) (h : Nat), first + len ≤ v.length → below k h → h < len →
      len - h < steps → heap_hole key v first len k h →
    ∃ w h1, adjust_heap_down (fun a b => decide (key a < key b)) first len steps v h h
        = some (w, h1, h1) ∧
      w.length = v.length ∧ below k h1 ∧ h1 < len ∧ ¬ h1 < (len - 1) / 2 ∧
      heap_hole key w first len k h1 ∧
      (w.set (first + h1) value).Perm (v.set (first + h) value) ∧
      ∀ i, i < first ∨ first + len ≤ i → w[i]? = v[i]? := by
  intro steps
  induction steps with
  | zero => intro v h _ _ _ hs; omega
  | succ steps ih =>
    intro v h hbound hbelow hlen hsteps hhole
    unfold adjust_heap_down
    by_cases hdown : h < (len - 1) / 2
    · rw [if_pos hdown]
      simp only
      have hr : first + 2 * (h + 1) < v.length := by omega
      have hl : first + (2 * (h + 1) - 1) < v.length := by omega
      rw [List.getElem?_eq_getElem hr, List.getElem?_eq_getElem hl]
      simp only
      obtain ⟨c, hc, hcdef⟩ : ∃ c, (c = 2 * h + 1 ∨ c = 2 * h + 2) ∧
          c = (if decide (key v[first + 2 * (h + 1)] < key v[first + (2 * (h + 1) - 1)]) = true
            then 2 * (h + 1) - 1 else 2 * (h + 1)) := by
        by_cases hcmp : key v[first + 2 * (h + 1)] < key v[first + (2 * (h + 1) - 1)]
        · exact ⟨2 * h + 1, Or.inl rfl, by rw [if_pos (by simpa using hcmp)]; omega⟩
        · exact ⟨2 * h + 2, Or.inr rfl, by rw [if_neg (by simpa using hcmp)]; omega⟩
      rw [← hcdef]
      have hcl : first + c < v.length := by omega
      have hch : heap_parent c = h := by
        unfold heap_parent
        omega
      rw [List.getElem?_eq_getElem hcl]
      simp only
      rw [if_pos (by omega)]
      have hother : ∀ d, 1 ≤ d → heap_parent d = h → d ≠ c → d < len →
          ∀ a, heap_at v first d = some a → key a ≤ key v[first + c] := by
        intro d hd1 hdp hdc hdl a ha
        unfold heap_parent at hdp
        unfold heap_at at ha
        by_cases hcmp : key v[first + 2 * (h + 1)] < key v[first + (2 * (h + 1) - 1)]
        · rw [if_pos (by simpa using hcmp)] at hcdef
          have hd : d = 2 * (h + 1) := by omega
          subst hd
          rw [List.getElem?_eq_getElem hr] at ha
          cases ha
          have : v[first + c] = v[first + (2 * (h + 1) - 1)] := by
            congr 1
            omega
          rw [this]
          omega
        · rw [if_neg (by simpa using hcmp)] at hcdef
          have hd : d = 2 * (h + 1) - 1 := by omega
          subst hd
          rw [List.getElem?_eq_getElem hl] at ha
          cases ha
          have : v[first + c] = v[first + 2 * (h + 1)] := by
            congr 1
            omega
          rw [this]
          omega
      have hhole1 : heap_hole key (v.set (first + h) v[first + c]) first len k c := by
        obtain ⟨hE, hX⟩ := hhole
        have hkh := below_le hbelow
        constructor
        · intro i hi1 hi2 hi3 hi4 hi5 a b ha hb
          by_cases hih : i = h
          · subst hih
            have hik : i ≠ k := by
              unfold heap_parent at hi3
              omega
            rw [heap_at_set_self _ _ _ _ (by omega)] at ha
            cases ha
            rw [heap_at_set_ne _ _ _ _ _ (by unfold heap_parent; omega)] at hb
            exact hX hik c (by omega) (by omega) hch _ _
              (by unfold heap_at; exact List.getElem?_eq_getElem hcl) hb
          · rw [heap_at_set_ne _ _ _ _ _ (fun h0 => hih h0.symm)] at ha
            by_cases hph : heap_parent i = h
            · rw [hph, heap_at_set_self _ _ _ _ (by omega)] at hb
              cases hb
              exact hother i hi1 hph hi4 hi2 a ha
            · rw [heap_at_set_ne _ _ _ _ _ (fun h0 => hph h0.symm)] at hb
              exact hE i hi1 hi2 hi3 hih hph a b ha hb
        · intro _ d hd1 hd2 hd3 a b ha hb
          have hdh : d ≠ h := by
            unfold heap_parent at hd3
            omega
          rw [heap_at_set_ne _ _ _ _ _ (fun h0 => hdh h0.symm)] at ha
          rw [hch, heap_at_set_self _ _ _ _ (by omega)] at hb
          cases hb
          exact hE d hd1 hd2 (by rw [hd3]; omega) hdh (by rw [hd3]; omega) a _ ha
            (by rw [hd3]; unfold heap_at; exact List.getElem?_eq_getElem hcl)
      obtain ⟨w, h1, r1, r2, r3, r4, r5, r6, r7, r8⟩ :=
        ih (v.set (first + h) v[first + c]) c (by simpa using hbound)
          (below_child hbelow hch) (by omega) (by omega) hhole1
      refine ⟨w, h1, r1, by simpa using r2, r3, r4, r5, r6, ?_, ?_⟩
      · refine r7.trans ?_
        exact hole_move_perm v (first + h) (first + c) value _ (by omega) (by omega)
          (List.getElem?_eq_getElem hcl)
      · intro i hi
        rw [r8 i hi, List.getElem?_set_ne (by omega)]
    · rw [if_neg hdown]
      exact ⟨v, h, rfl, rfl, hbelow, hlen, hdown, hhole, List.Perm.refl _, fun _ _ => rfl⟩


/-- Putting `value` into the hole gives a heap when the children of the hole
are not above `value` and `value` is not above the parent of the hole. -/
theorem push_heap_place (v : List α) (first len k h : Nat) (value : α)
    (hbound : first + len ≤ v.length) (hlen : h < len)
    (hhole : heap_hole key v first len k h)
    (hchild : ∀ c, 1 ≤ c → c < len → heap_parent c = h →
      ∀ a, heap_at v first c = some a → key a ≤ key value)
    (htop : h ≠ k → ∀ b, heap_at v first (heap_parent h) = some b → key value ≤ key b) :
    heap_from key (v.set (first + h) value) first len k := by
  intro i hi1 hi2 hi3 a b ha hb
  by_cases hih : i = h
  · subst hih
    have hik : i ≠ k := by
      unfold heap_parent at hi3
      omega
    rw [heap_at_set_ne _ _ _ _ _ (by unfold heap_parent; omega)] at hb
    rw [heap_at_set_self _ _ _ _ (by omega)] at ha
    cases ha
    exact htop hik b hb
  · rw [heap_at_set_ne _ _ _ _ _ (fun h0 => hih h0.symm)] at ha
    by_cases hph : heap_parent i = h
    · rw [hph, heap_at_set_self _ _ _ _ (by omega)] at hb
      cases hb
      exact hchild i hi1 hi2 hph a ha
    · rw [heap_at_set_ne _ _ _ _ _ (fun h0 => hph h0.symm)] at hb
      exact hhole.1 i hi1 hi2 hi3 hih hph a b ha hb

/-- The loop of `std::__push_heap`: the hole moves up while the parent is below
`value`, then `value` is put into it; the result is a heap from `k` on. -/
theorem push_heap_spec (first len k : Nat) (value : α) :
    ∀ (steps : Nat) (v : List α) (h : Nat), first + len ≤ v.length → below k h → h < len →
      h < steps → heap_hole key v first len k h →
      (∀ c, 1 ≤ c → c < len → heap_parent c = h →
        ∀ a, heap_at v first c = some a → key a ≤ key value) →
    ∃ w, push_heap (fun a b => decide (key a < key b)) first k value steps v h = some w ∧
      w.length = v.length ∧ heap_from key w first len k ∧
      w.Perm (v.set (first + h) value) ∧
      ∀ i, i < first ∨ first + len ≤ i → w[i]? = v[i]? := by
  intro steps
  induction steps with
  | zero => intro v h _ _ _ hs; omega
  | succ steps ih =>
    intro v h hbound hbelow hlen hsteps hhole hchild
    have hkh := below_le hbelow
    have hdone : ∀ (htop : h ≠ k → ∀ b, heap_at v first (heap_parent h) = some b →
        key value ≤ key b),
        ∃ w, some (v.set (first + h) value) = some w ∧
          w.length = v.length ∧ heap_from key w first len k ∧
          w.Perm (v.set (first + h) value) ∧
          ∀ i, i < first ∨ first + len ≤ i → w[i]? = v[i]? := by
      intro htop
      refine ⟨_, rfl, by simp, push_heap_place key v first len k h value hbound hlen hhole
        hchild htop, List.Perm.refl _, ?_⟩
      intro i hi
      rw [List.getElem?_set_ne (by omega)]
    unfold push_heap
    simp only
    by_cases hgt : h > k
    · rw [if_pos hgt]
      obtain ⟨hqb, hkq, h1⟩ := below_parent hbelow (by omega)
      have hqdef : heap_parent h = (h - 1) / 2 := rfl
      have hqh : (h - 1) / 2 < h := by omega
      have hql : first + (h - 1) / 2 < v.length := by omega
      have hatq : heap_at v first (heap_parent h) = some v[first + (h - 1) / 2] := by
        unfold heap_at
        rw [hqdef]
        exact List.getElem?_eq_getElem hql
      rw [List.getElem?_eq_getElem hql]
      simp only
      by_cases hcmp : key v[first + (h - 1) / 2] < key value
      · rw [if_pos (by simpa using hcmp), if_pos (by omega)]
        obtain ⟨hE, hX⟩ := hhole
        have hhne : h ≠ k := by omega
        have hsib : ∀ c, 1 ≤ c → c < len → heap_parent c = heap_parent h →
            ∀ a, heap_at (v.set (first + h) v[first + (h - 1) / 2]) first c = some a →
              key a ≤ key v[first + (h - 1) / 2] := by
          intro c hc1 hc2 hc3 a ha
          by_cases hch : c = h
          · subst hch
            rw [heap_at_set_self _ _ _ _ (by omega)] at ha
            cases ha
            exact Int.le_refl _
          · rw [heap_at_set_ne _ _ _ _ _ (fun h0 => hch h0.symm)] at ha
            refine hE c hc1 hc2 (by rw [hc3]; exact hkq) hch (by rw [hc3, hqdef]; omega)
              a _ ha ?_
            rw [hc3]
            exact hatq
        have hhole1 : heap_hole key (v.set (first + h) v[first + (h - 1) / 2]) first len k
            (heap_parent h) := by
          constructor
          · intro i hi1 hi2 hi3 hi4 hi5 a b ha hb
            have hih : i ≠ h := fun h0 => hi5 (by rw [h0])
            rw [heap_at_set_ne _ _ _ _ _ (fun h0 => hih h0.symm)] at ha
            by_cases hph : heap_parent i = h
            · rw [hph, heap_at_set_self _ _ _ _ (by omega)] at hb
              cases hb
              exact hX hhne i hi1 hi2 hph a _ ha hatq
            · rw [heap_at_set_ne _ _ _ _ _ (fun h0 => hph h0.symm)] at hb
              exact hE i hi1 hi2 hi3 hih hph a b ha hb
          · intro hqk c hc1 hc2 hc3 a b ha hb
            obtain ⟨_, hkqq, hq1⟩ := below_parent hqb hqk
            have hpq := heap_parent_le (heap_parent h)
            rw [heap_at_set_ne _ _ _ _ _ (by rw [hqdef] at hpq ⊢; omega)] at hb
            have hqE : key v[first + (h - 1) / 2] ≤ key b :=
              hE (heap_parent h) hq1 (by rw [hqdef]; omega) hkqq (by rw [hqdef]; omega)
                (by rw [hqdef] at hpq ⊢; omega) _ b hatq hb
            exact (hsib c hc1 hc2 hc3 a ha).trans hqE
        obtain ⟨w, r1, r2, r3, r4, r5⟩ :=
          ih (v.set (first + h) v[first + (h - 1) / 2]) (heap_parent h)
            (by simpa using hbound) hqb (by rw [hqdef]; omega) (by rw [hqdef]; omega) hhole1
            (fun c hc1 hc2 hc3 a ha => by
              have := hsib c hc1 hc2 hc3 a ha
              omega)
        refine ⟨w, r1, by simpa using r2, r3, ?_, ?_⟩
        · refine r4.trans ?_
          exact hole_move_perm v (first + h) (first + heap_parent h) value _
            (by rw [hqdef]; omega) (by omega)
            (by rw [hqdef]; exact List.getElem?_eq_getElem hql)
        · intro i hi
          rw [r5 i hi, List.getElem?_set_ne (by omega)]
      · rw [if_neg (by simpa using hcmp), if_pos (by omega)]
        refine hdone ?_
        intro _ b hb
        rw [hatq] at hb
        cases hb
        omega
    · rw [if_neg hgt, if_pos (by omega)]
      exact hdone (fun hne => absurd (by omega) hne)

/-- The function `std::__adjust_heap` puts `value` into a heap whose position
`k` is free: the result is a heap from `k` on. -/
theorem adjust_heap_spec (v : List α) (first k len : Nat) (value : α)
    (hbound : first + len ≤ v.length) (hk : k < len)
    (hheap : heap_from key v first len (k + 1)) :
    ∃ w, adjust_heap (fun a b => decide (key a < key b)) v first k len value = some w ∧
      w.length = v.length ∧ heap_from key w first len k ∧
      w.Perm (v.set (first + k) value) ∧
      ∀ i, i < first ∨ first + len ≤ i → w[i]? = v[i]? := by
  have hhole : heap_hole key v first len k k := by
    constructor
    · intro i hi1 hi2 hi3 hi4 hi5
      exact hheap i hi1 hi2 (by omega)
    · intro hne
      exact absurd rfl hne
  obtain ⟨v1, h1, r1, r2, r3, r4, r5, r6, r7, r8⟩ :=
    adjust_heap_down_spec key first len k value (len + 1) v k hbound (below_refl k) hk
      (by omega) hhole
  unfold adjust_heap
  rw [r1]
  simp only
  by_cases hsp : len % 2 = 0 ∧ 2 ≤ len ∧ h1 = (len - 2) / 2
  · rw [if_pos hsp]
    have hc : 2 * (h1 + 1) - 1 = len - 1 := by omega
    have hcl : first + (2 * (h1 + 1) - 1) < v1.length := by omega
    have hcp : heap_parent (2 * (h1 + 1) - 1) = h1 := by
      unfold heap_parent
      omega
    rw [List.getElem?_eq_getElem hcl]
    simp only
    rw [if_pos (by omega)]
    have hhole2 : heap_hole key (v1.set (first + h1) v1[first + (2 * (h1 + 1) - 1)]) first len k
        (2 * (h1 + 1) - 1) := by
      obtain ⟨hE, hX⟩ := r6
      have hkh := below_le r3
      constructor
      · intro i hi1 hi2 hi3 hi4 hi5 a b ha hb
        have hph : heap_parent i ≠ h1 := by
          unfold heap_parent
          omega
        rw [heap_at_set_ne _ _ _ _ _ (fun h0 => hph h0.symm)] at hb
        by_cases hih : i = h1
        · subst hih
          have hik : i ≠ k := by
            unfold heap_parent at hi3
            omega
          rw [heap_at_set_self _ _ _ _ (by omega)] at ha
          cases ha
          exact hX hik _ (by omega) (by omega) hcp _ b
            (by unfold heap_at; exact List.getElem?_eq_getElem hcl) hb
        · rw [heap_at_set_ne _ _ _ _ _ (fun h0 => hih h0.symm)] at ha
          exact hE i hi1 hi2 hi3 hih hph a b ha hb
      · intro _ d hd1 hd2 hd3
        unfold heap_parent at hd3
        omega
    obtain ⟨w, s1, s2, s3, s4, s5⟩ :=
      push_heap_spec key first len k value (len + 1)
        (v1.set (first + h1) v1[first + (2 * (h1 + 1) - 1)]) (2 * (h1 + 1) - 1)
        (by rw [List.length_set]; omega) (below_child r3 hcp) (by omega) (by omega) hhole2
        (fun d hd1 hd2 hd3 => by unfold heap_parent at hd3; omega)
    refine ⟨w, s1, by rw [s2, List.length_set, r2], s3, ?_, ?_⟩
    · refine (s4.trans ?_).trans r7
      exact hole_move_perm v1 (first + h1) (first + (2 * (h1 + 1) - 1)) value _
        (by omega) (by omega) (List.getElem?_eq_getElem hcl)
    · intro i hi
      rw [s5 i hi, List.getElem?_set_ne (by omega), r8 i hi]
  · rw [if_neg hsp]
    obtain ⟨w, s1, s2, s3, s4, s5⟩ :=
      push_heap_spec key first len k value (len + 1) v1 h1 (by omega) r3 r4 (by omega) r6
        (fun d hd1 hd2 hd3 => by unfold heap_parent at hd3; omega)
    refine ⟨w, s1, by rw [s2, r2], s3, s4.trans r7, ?_⟩
    intro i hi
    rw [s5 i hi, r8 i hi]


theorem set_getElem?_self (v : List α) (i : Nat) (x : α) (h : v[i]? = some x) :
    v.set i x = v := by
  apply List.ext_getElem?
  intro j
  by_cases hj : j = i
  · subst hj
    rw [List.getElem?_set_self (List.getElem?_eq_some.mp h).1, h]
  · rw [List.getElem?_set_ne (fun h0 => hj h0.symm)]

/-- In a heap no element is above the one at the root. -/
theorem heap_root_max (v : List α) (first n : Nat) (hbound : first + n ≤ v.length)
    (hheap : heap_from key v first n 0) :
    ∀ j, j < n → ∀ a b, heap_at v first j = some a → heap_at v first 0 = some b →
      key a ≤ key b := by
  intro j
  induction j using Nat.strong_induction_on with
  | _ j ih =>
    intro hj a b ha hb
    by_cases hj0 : j = 0
    · subst hj0
      rw [ha] at hb
      cases hb
      exact Int.le_refl _
    · have hp : heap_parent j < j := by
        unfold heap_parent
        omega
      have hpl : first + heap_parent j < v.length := by omega
      have hc : heap_at v first (heap_parent j) = some v[first + heap_parent j] := by
        unfold heap_at
        exact List.getElem?_eq_getElem hpl
      have h1 := hheap j (by omega) hj (Nat.zero_le _) a _ ha hc
      have h2 := ih (heap_parent j) hp (by omega) _ b hc hb
      exact h1.trans h2

/-- The loop of `std::__make_heap` turns the window into a heap. -/
theorem make_heap_loop_spec (first len : Nat) :
    ∀ (p : Nat) (v : List α), first + len ≤ v.length → p < len →
      heap_from key v first len (p + 1) →
    ∃ w, make_heap_loop (fun a b => decide (key a < key b)) first len p v = some w ∧
      same_outside first (first + len) v w ∧ heap_from key w first len 0 := by
  intro p
  induction p with
  | zero =>
    intro v hbound hp hheap
    unfold make_heap_loop
    have hf : first < v.length := by omega
    rw [List.getElem?_eq_getElem hf]
    simp only
    obtain ⟨w, r1, r2, r3, r4, r5⟩ :=
      adjust_heap_spec key v first 0 len v[first] hbound hp hheap
    rw [Nat.add_zero, set_getElem?_self v first _ (List.getElem?_eq_getElem hf)] at r4
    exact ⟨w, r1, ⟨r2, r4, r5⟩, r3⟩
  | succ p ih =>
    intro v hbound hp hheap
    unfold make_heap_loop
    have hf : first + (p + 1) < v.length := by omega
    rw [List.getElem?_eq_getElem hf]
    simp only
    obtain ⟨v1, r1, r2, r3, r4, r5⟩ :=
      adjust_heap_spec key v first (p + 1) len v[first + (p + 1)] hbound hp hheap
    rw [set_getElem?_self v _ _ (List.getElem?_eq_getElem hf)] at r4
    rw [r1]
    simp only
    obtain ⟨w, s1, s2, s3⟩ := ih v1 (by omega) (by omega) r3
    exact ⟨w, s1, same_outside_trans ⟨r2, r4, r5⟩ s2, s3⟩

/-- The function `std::__make_heap` turns the window into a heap. -/
theorem make_heap_spec (v : List α) (first last : Nat) (hle : first ≤ last)
    (hlast : last ≤ v.length) :
    ∃ w, make_heap (fun a b => decide (key a < key b)) v first last = some w ∧
      same_outside first last v w ∧ heap_from key w first (last - first) 0 := by
  unfold make_heap
  by_cases hsmall : last - first < 2
  · rw [if_pos hsmall]
    refine ⟨v, rfl, same_outside_refl _ _ _, ?_⟩
    intro i hi1 hi2
    omega
  · rw [if_neg hsmall]
    obtain ⟨w, r1, r2, r3⟩ :=
      make_heap_loop_spec key first (last - first) ((last - first - 2) / 2) v (by omega)
        (by omega) (by
          intro i hi1 hi2 hi3
          unfold heap_parent at hi3
          omega)
    refine ⟨w, r1, ?_, r3⟩
    have : first + (last - first) = last := by omega
    rw [this] at r2
    exact r2

/-- The function `std::__pop_heap` on a heap of `n` elements moves the root to
the last position and leaves a heap of `n - 1` elements. -/
theorem pop_heap_spec (v : List α) (first n : Nat) (hn : 2 ≤ n)
    (hbound : first + n ≤ v.length) (hheap : heap_from key v first n 0) :
    ∃ w, pop_heap (fun a b => decide (key a < key b)) v first (first + n - 1)
        (first + n - 1) = some w ∧
      same_outside first (first + n) v w ∧ heap_from key w first (n - 1) 0 ∧
      w[first + n - 1]? = v[first]? := by
  have hr : first + n - 1 = first + (n - 1) := by omega
  have hrl : first + (n - 1) < v.length := by omega
  have hfl : first < v.length := by omega
  unfold pop_heap
  rw [hr, List.getElem?_eq_getElem hrl, List.getElem?_eq_getElem hfl]
  simp only
  have hsize : first + (n - 1) - first = n - 1 := by omega
  rw [hsize]
  have hheap1 : heap_from key (v.set (first + (n - 1)) v[first]) first (n - 1) 1 := by
    intro i hi1 hi2 hi3 a b ha hb
    have hp := heap_parent_le i
    rw [heap_at_set_ne _ _ _ _ _ (by omega)] at ha hb
    exact hheap i hi1 (by omega) (Nat.zero_le _) a b ha hb
  obtain ⟨w, r1, r2, r3, r4, r5⟩ :=
    adjust_heap_spec key (v.set (first + (n - 1)) v[first]) first 0 (n - 1)
      v[first + (n - 1)] (by rw [List.length_set]; omega) (by omega) hheap1
  refine ⟨w, r1, ⟨by rw [r2, List.length_set], ?_, ?_⟩, r3, ?_⟩
  · refine r4.trans ?_
    rw [Nat.add_zero]
    exact set_set_perm v (first + (n - 1)) first _ _ (List.getElem?_eq_getElem hrl)
      (List.getElem?_eq_getElem hfl)
  · intro i hi
    rw [r5 i (by omega), List.getElem?_set_ne (by omega)]
  · rw [r5 _ (Or.inr (Nat.le_refl _)), List.getElem?_set_self hrl]

/-- The loop of `std::__sort_heap`: with a heap of `n` elements below elements
that are not below any of the heap, the first element of the result is not
above any other one of the window. -/
theorem sort_heap_spec (first last : Nat) :
    ∀ (count : Nat) (v : List α) (n : Nat), 1 ≤ n → n ≤ count → first + n ≤ last →
      last ≤ v.length → heap_from key v first n 0 →
      (∀ i j a b, first + n ≤ i → i < last → j < n → v[i]? = some a →
        v[first + j]? = some b → key b ≤ key a) →
    ∃ w, sort_heap (fun a b => decide (key a < key b)) first count (first + n) v = some w ∧
      same_outside first (first + n) v w ∧
      ∀ i a b, first < i → i < last → w[first]? = some a → w[i]? = some b →
        key a ≤ key b := by
  intro count
  induction count with
  | zero => intro v n h1 h2; omega
  | succ count ih =>
    intro v n hn1 hn2 hlast hbound hheap hpopped
    unfold sort_heap
    by_cases hmore : first + n - first > 1
    · rw [if_pos hmore]
      obtain ⟨v1, r1, r2, r3, r4⟩ := pop_heap_spec key v first n (by omega) (by omega) hheap
      rw [r1]
      simp only
      have hr : first + n - 1 = first + (n - 1) := by omega
      rw [hr] at r4 ⊢
      have hinv : ∀ i j a b, first + (n - 1) ≤ i → i < last → j < n - 1 → v1[i]? = some a →
          v1[first + j]? = some b → key b ≤ key a := by
        intro i j a b hi1 hi2 hj ha hb
        obtain ⟨j1, hj1, hj2, hj3⟩ :=
          same_outside_mem r2 (by omega) (first + j) b (by omega) (by omega) hb
        obtain ⟨j2, rfl⟩ : ∃ j2, j1 = first + j2 := ⟨j1 - first, by omega⟩
        by_cases hi : i = first + (n - 1)
        · subst hi
          rw [r4] at ha
          exact heap_root_max key v first n (by omega) hheap j2 (by omega) b a hj3
            (by unfold heap_at; exact ha)
        · rw [r2.2.2 i (by omega)] at ha
          exact hpopped i j2 a b (by omega) hi2 (by omega) ha hj3
      obtain ⟨w, s1, s2, s3⟩ :=
        ih v1 (n - 1) (by omega) (by omega) (by omega) (by rw [r2.1]; exact hbound) r3 hinv
      exact ⟨w, s1, same_outside_trans r2 (same_outside_mono s2 (Nat.le_refl _) (by omega)),
        s3⟩
    · rw [if_neg hmore]
      refine ⟨v, rfl, same_outside_refl _ _ _, ?_⟩
      intro i a b hi1 hi2 ha hb
      exact hpopped i 0 b a (by omega) hi2 (by omega) hb ha

/-- The heap sort that `std::__introsort_loop` falls back to leaves the window
a rearrangement of itself whose first element is not above any other one. -/
theorem partial_sort_spec (v : List α) (first last : Nat) (hlt : first < last)
    (hlast : last ≤ v.length) :
    ∃ w, partial_sort (fun a b => decide (key a < key b)) v first last last = some w ∧
      same_outside first last v w ∧
      ∀ i a b, first < i → i < last → w[first]? = some a → w[i]? = some b →
        key a ≤ key b := by
  obtain ⟨v1, r1, r2, r3⟩ := make_heap_spec key v first last (by omega) hlast
  unfold partial_sort
  rw [r1]
  simp only
  rw [Nat.sub_self]
  unfold heap_select_loop
  simp only
  have hl : first + (last - first) = last := by omega
  obtain ⟨w, s1, s2, s3⟩ :=
    sort_heap_spec key first last (last - first) v1 (last - first) (by omega) (Nat.le_refl _)
      (by omega) (by rw [r2.1]; exact hlast) r3 (by
        intro i j a b hi1 hi2
        omega)
  rw [hl] at s1 s2
  exact ⟨w, s1, same_outside_trans r2 s2, s3⟩


/-- The function `std::__introsort_loop` rearranges the window so that its first
element is not above any element that stands sixteen or more positions
further. -/
theorem introsort_loop_spec :
    ∀ (depth_limit : Nat) (v : List α) (first last : Nat), first ≤ last → last ≤ v.length →
    ∃ w, introsort_loop (fun a b => decide (key a < key b)) depth_limit v first last = some w ∧
      same_outside first last v w ∧
      ∀ i a b, first + 16 ≤ i → i < last → w[first]? = some a → w[i]? = some b →
        key a ≤ key b := by
  intro depth_limit
  induction depth_limit with
  | zero =>
    intro v first last hle hlast
    unfold introsort_loop
    by_cases hsize : last - first > 16
    · rw [if_pos hsize]
      obtain ⟨w, r1, r2, r3⟩ := partial_sort_spec key v first last (by omega) hlast
      exact ⟨w, r1, r2, fun i a b hi1 hi2 ha hb => r3 i a b (by omega) hi2 ha hb⟩
    · rw [if_neg hsize]
      refine ⟨v, rfl, same_outside_refl _ _ _, ?_⟩
      intro i a b hi1 hi2
      omega
  | succ depth_limit ih =>
    intro v first last hle hlast
    unfold introsort_loop
    by_cases hsize : last - first > 16
    · rw [if_pos hsize]
      obtain ⟨v1, cut, pv, r1, r2, r3, r4, r5, r6⟩ :=
        unguarded_partition_pivot_spec key v first last hsize hlast
      rw [r1]
      simp only
      obtain ⟨v2, s1, s2, _⟩ := ih v1 cut last (by omega) (by rw [r2.1]; exact hlast)
      rw [s1]
      simp only
      obtain ⟨w, t1, t2, t3⟩ :=
        ih v2 first cut (by omega) (by rw [s2.1, r2.1]; omega)
      refine ⟨w, t1, ?_, ?_⟩
      · exact same_outside_trans r2 (same_outside_trans
          (same_outside_mono s2 (by omega) (Nat.le_refl _))
          (same_outside_mono t2 (Nat.le_refl _) (by omega)))
      · intro i a b hi1 hi2 ha hb
        by_cases hic : i < cut
        · exact t3 i a b hi1 hic ha hb
        · obtain ⟨j, hj1, hj2, hj3⟩ :=
            same_outside_mem t2 (by omega) first a (Nat.le_refl _) r3 ha
          rw [s2.2.2 j (by omega)] at hj3
          have h1 := r5 j a hj1 hj2 hj3
          rw [t2.2.2 i (by omega)] at hb
          obtain ⟨m, hm1, hm2, hm3⟩ :=
            same_outside_mem s2 (by omega) i b (by omega) hi2 hb
          have h2 := r6 m b hm1 hm2 hm3
          exact h1.trans h2
    · rw [if_neg hsize]
      refine ⟨v, rfl, same_outside_refl _ _ _, ?_⟩
      intro i a b hi1 hi2
      omega

/-- The sort of libstdc++ returns, for every input, a rearrangement of the input
in which the keys do not decrease. -/
theorem gnu_sort_spec (v : List α) :
    ∃ w, gnu_sort (fun a b => decide (key a < key b)) v = some w ∧ w.Perm v ∧
      w.Pairwise (fun a b => key a ≤ key b) := by
  unfold gnu_sort
  by_cases hlen : v.length = 0
  · rw [if_pos hlen]
    have : v = [] := List.length_eq_zero.mp hlen
    subst this
    exact ⟨[], rfl, List.Perm.refl _, List.Pairwise.nil⟩
  · rw [if_neg hlen]
    obtain ⟨v1, r1, r2, r3⟩ :=
      introsort_loop_spec key (lg v.length v.length * 2) v 0 v.length (Nat.zero_le _)
        (Nat.le_refl _)
    rw [r1]
    simp only
    obtain ⟨w, s1, s2, s3⟩ := final_insertion_sort_spec key v1 (by
      intro a ha b hb
      obtain ⟨n, hn⟩ := List.mem_iff_getElem?.mp hb
      rw [List.getElem?_drop] at hn
      have hn1 := (List.getElem?_eq_some.mp hn).1
      refine r3 (16 + n) a b (by omega) (by rw [← r2.1]; exact hn1) ?_ hn
      rw [← List.head?_eq_getElem?]
      exact ha)
    exact ⟨w, s1, s2.trans r2.2.1, s3⟩

end gnu_sort_proof

/-- The sort of libstdc++ with the comparison of the program meets the contract
of `std::sort`. -/
theorem std_sort_gnu_contract : std_sort_contract cycles_less std_sort_gnu := by
  intro l
  obtain ⟨w, h1, h2, h3⟩ := gnu_sort_spec (fun a : node => a.CPU_cycles) l
  have hw : std_sort_gnu l = w := by
    unfold std_sort_gnu
    have : compare_cycles = fun a b : node => decide (a.CPU_cycles < b.CPU_cycles) := by
      funext a b
      rfl
    rw [this, h1]
    rfl
  rw [hw]
  refine ⟨h2, h3.imp ?_⟩
  intro a b hab
  unfold cycles_less
  omega

/-- The translation of the sort of libstdc++ returns on every process list: the
queue of the schedulers is its result. -/
theorem std_sort_gnu_returns (l : List node) :
    gnu_sort compare_cycles l = some (std_sort_gnu l) := by
  obtain ⟨w, h1, _, _⟩ := gnu_sort_spec (fun a : node => a.CPU_cycles) l
  have h2 : compare_cycles = fun a b : node => decide (a.CPU_cycles < b.CPU_cycles) := by
    funext a b
    rfl
  unfold std_sort_gnu
  rw [h2, h1]
  rfl

/-! ## The order of equal cycles in the queue -/

/-- The multi-processor loop only removes entries from the queue: the queue
of a reached state is the queue of the first state with some entries left out,
in the same order. -/
theorem MP_queue_sublist_reaches {processor_count : Nat} {a s : MPState}
    (hreach : MP_reaches processor_count a s) (hempty : a.empty_processor = false)
    (hscan : MP_scan_inv a) :
    s.process_queue.Sublist a.process_queue := by
  induction hreach with
  | refl => exact List.Sublist.refl _
  | step hr1 _ hstep ih =>
    have hempty1 := (MP_scan_inv_reaches hr1 ⟨hempty, hscan⟩).1
    rcases (MP_iteration_moved hempty1 hstep).2 with ⟨rfl, _⟩ | ⟨_, _, hq⟩
    · exact ih
    · rcases hq with ⟨hq, _⟩ | ⟨p, _, hq, _⟩
      · rw [hq]
        exact ih
      · rw [hq]
        exact (List.eraseIdx_sublist _ _).trans ih

/-- C8, as stated, fails.  On the workload `tie_workload_17`, which
`generate_processes` builds and in which the processes 3 and 9 have 1200 cycles
each, the `std::sort` of libstdc++ leaves process 9 in front of process 3: the
queue is not in ascending id among equal cycles.  `SJF_single_processor`
dispatches process 9 at clock 2100 and process 3 after it, at clock 3300, and
`SJF_multiprocessor` (two processors) dispatches process 9 at clock 1000 with
process 3 next in the queue; process 3 has arrived at 100, process 9 at 400.
On the workload `tie_workload_50` of 50 processes, in which the processes 8
and 33 have 1274 cycles each, process 33 stands in front of process 8;
`SJF_single_processor` dispatches it first, at clock 5685, and so does
`SJF_multiprocessor` with four processors, at clock 3429. -/
theorem C8_ties_not_by_id :
    generate_processes tie_draws_17 0 17 =
      some { process_list := tie_workload_17, total_cycles := 30000, arrival := 850,
             draws := [] } ∧
    (gnu_sort compare_cycles tie_workload_17).map
        (List.map (fun p => (p.process_ID, p.CPU_cycles, p.arrival_time))) =
      some [(1, 1000, 0), (2, 1100, 50), (9, 1200, 400), (3, 1200, 100), (4, 1300, 150),
        (5, 1400, 200), (6, 1500, 250), (7, 1600, 300), (8, 1700, 350), (10, 1900, 450),
        (11, 2000, 500), (12, 2100, 550), (13, 2200, 600), (14, 2300, 650), (15, 2400, 700),
        (16, 2500, 750), (17, 2600, 800)] ∧
    ¬ spec_queue_order (sorted_process_queue std_sort_gnu tie_workload_17) ∧
    (SJF_single_processor std_sort_gnu tie_workload_17 17).map
        (fun r => (r.loop_end.sjf_file.take 4).map
          (fun row => (row.process.process_ID, row.process.CPU_cycles,
            row.process.arrival_time, row.start_time))) =
      Except.ok
        [(1, 1000, 0, 0), (2, 1100, 50, 1000), (9, 1200, 400, 2100), (3, 1200, 100, 3300)] ∧
    MP_run 2 2 (MP_init (sorted_process_queue std_sort_gnu tie_workload_17))
      = Except.ok (MP_state_after 2 2 (std_sort_gnu tie_workload_17)) ∧
    (MP_state_after 2 2 (std_sort_gnu tie_workload_17)).current_time = 1000 ∧
    ((MP_state_after 2 2 (std_sort_gnu tie_workload_17)).process_queue.take 2).map
        (fun p => (p.process_ID, p.CPU_cycles, p.arrival_time)) =
      [(9, 1200, 400), (3, 1200, 100)] ∧
    MP_iteration 2 (MP_state_after 2 2 (std_sort_gnu tie_workload_17))
      = Except.ok (MP_state_after 2 3 (std_sort_gnu tie_workload_17)) ∧
    (MP_state_after 2 3 (std_sort_gnu tie_workload_17)).processor_schedule.map
        (List.map (fun p => (p.process_ID, p.start_time))) =
      [[(1, 0), (9, 1000)], [(2, 50)], [], []] ∧
    ((MP_state_after 2 3 (std_sort_gnu tie_workload_17)).process_queue.take 1).map
        (fun p => p.process_ID) = [3] ∧
    generate_processes tie_draws_50 0 50 =
      some { process_list := tie_workload_50, total_cycles := 132200, arrival := 2500,
             draws := [] } ∧
    (gnu_sort compare_cycles tie_workload_50).map (List.map (fun p => p.process_ID)) =
      some [22, 47, 15, 40, 33, 8, 1, 26, 44, 19, 37, 12, 5, 30, 48, 23, 41, 16, 9, 34, 27,
        2, 20, 45, 38, 13, 6, 31, 24, 49, 17, 42, 35, 10, 3, 28, 46, 21, 14, 39, 32, 7, 50,
        25, 43, 18, 11, 36, 4, 29] ∧
    ¬ spec_queue_order (sorted_process_queue std_sort_gnu tie_workload_50) ∧
    (SJF_single_processor std_sort_gnu tie_workload_50 50).map
        (fun r => ((r.loop_end.sjf_file.drop 5).take 2).map
          (fun row => (row.process.process_ID, row.process.CPU_cycles,
            row.process.arrival_time, row.start_time))) =
      Except.ok [(33, 1274, 1600, 5685), (8, 1274, 350, 6959)] ∧
    MP_run 4 111 (MP_init (sorted_process_queue std_sort_gnu tie_workload_50))
      = Except.ok (MP_state_after 4 111 (std_sort_gnu tie_workload_50)) ∧
    (MP_state_after 4 111 (std_sort_gnu tie_workload_50)).current_time = 3429 ∧
    ((MP_state_after 4 111 (std_sort_gnu tie_workload_50)).process_queue.take 2).map
        (fun p => (p.process_ID, p.CPU_cycles, p.arrival_time)) =
      [(33, 1274, 1600), (8, 1274, 350)] ∧
    MP_iteration 4 (MP_state_after 4 111 (std_sort_gnu tie_workload_50))
      = Except.ok (MP_state_after 4 112 (std_sort_gnu tie_workload_50)) ∧
    (MP_state_after 4 112 (std_sort_gnu tie_workload_50)).processor_schedule.map
        (List.map (fun p => (p.process_ID, p.start_time))) =
      [[(1, 0), (22, 1411), (47, 2411), (40, 3411)], [(2, 50), (15, 2420)],
        [(3, 100), (33, 3429)], [(4, 150)]] ∧
    ((MP_state_after 4 112 (std_sort_gnu tie_workload_50)).process_queue.take 1).map
        (fun p => p.process_ID) = [8] := by
  refine ⟨?_, ?_, ?_, ?_, ?_, ?_, ?_, ?_, ?_, ?_, ?_, ?_, ?_, ?_, ?_⟩
  all_goals decide!

/-- C8, amended: the ready queue that `SJF_single_processor` and
`SJF_multiprocessor` build with the `std::sort` of libstdc++ is, for every
process list, a rearrangement of the list in non-decreasing order of cycles
(nothing is said about the order of equal cycles: it is what the sort leaves);
the queue of every state the loop of either scheduler reaches is in that order
and holds the entries of the built queue that are left, in the built order;
and at every dispatch of either scheduler the process taken is the entry at
`i`, it has arrived, no entry in front of it has arrived and no arrived entry
has fewer cycles: among arrived processes of the same, smallest cycles the one
that stands first in the queue is dispatched first. -/
theorem C8_queue_order_and_ties (process_list : List node) (processor_count : Nat) :
    gnu_sort compare_cycles process_list
      = some (sorted_process_queue std_sort_gnu process_list) ∧
    (sorted_process_queue std_sort_gnu process_list).Perm process_list ∧
    (sorted_process_queue std_sort_gnu process_list).Pairwise
      (fun a b => a.CPU_cycles ≤ b.CPU_cycles) ∧
    (∀ s, Reaches (SP_init (sorted_process_queue std_sort_gnu process_list)) s →
      s.process_queue.Sublist (sorted_process_queue std_sort_gnu process_list) ∧
      s.process_queue.Pairwise (fun a b => a.CPU_cycles ≤ b.CPU_cycles)) ∧
    (∀ s u row, Reaches (SP_init (sorted_process_queue std_sort_gnu process_list)) s →
      SJF_iteration s = Except.ok u → u.sjf_file = s.sjf_file ++ [row] →
      s.process_queue[s.i]? = some row.process ∧
      row.process.arrival_time ≤ s.current_time ∧
      (∀ j p, j < s.i → s.process_queue[j]? = some p → ¬ p.arrival_time ≤ s.current_time) ∧
      ∀ p ∈ s.process_queue, p.arrival_time ≤ s.current_time →
        row.process.CPU_cycles ≤ p.CPU_cycles) ∧
    (∀ s, MP_reaches processor_count
        (MP_init (sorted_process_queue std_sort_gnu process_list)) s →
      s.process_queue.Sublist (sorted_process_queue std_sort_gnu process_list) ∧
      s.process_queue.Pairwise (fun a b => a.CPU_cycles ≤ b.CPU_cycles)) ∧
    (∀ s u, MP_reaches processor_count
        (MP_init (sorted_process_queue std_sort_gnu process_list)) s →
      MP_iteration processor_count s = Except.ok u → u.process_queue ≠ s.process_queue →
      ∃ p, s.process_queue[s.i]? = some p ∧
        u.process_queue = s.process_queue.eraseIdx s.i ∧
        p.arrival_time ≤ s.current_time ∧
        (∀ j q, j < s.i → s.process_queue[j]? = some q → ¬ q.arrival_time ≤ s.current_time) ∧
        ∀ q ∈ s.process_queue, q.arrival_time ≤ s.current_time →
          p.CPU_cycles ≤ q.CPU_cycles) := by
  have hcontract := std_sort_gnu_contract process_list
  have hsorted : (sorted_process_queue std_sort_gnu process_list).Pairwise
      (fun a b => a.CPU_cycles ≤ b.CPU_cycles) := by
    refine hcontract.2.imp ?_
    intro a b hab
    unfold cycles_less at hab
    omega
  refine ⟨std_sort_gnu_returns process_list, hcontract.1, hsorted, ?_, ?_, ?_, ?_⟩
  · intro s hreach
    exact ⟨queue_sublist_reaches hreach,
      (SP_scan_inv_reaches hreach (SP_scan_inv_init _ hsorted)).1⟩
  · intro s u row hreach hstep hrow
    have hinv : SP_scan_inv s := SP_scan_inv_reaches hreach (SP_scan_inv_init _ hsorted)
    obtain ⟨hp, harr, _, hscan, hmin⟩ := dispatch_choice hinv hstep hrow
    exact ⟨hp, harr, fun j p hj hjp => not_le_of_lt (hscan j p hj hjp), hmin⟩
  · intro s hreach
    exact ⟨MP_queue_sublist_reaches hreach rfl (MP_scan_inv_init _ hsorted),
      (MP_scan_inv_reaches hreach ⟨rfl, MP_scan_inv_init _ hsorted⟩).2.1⟩
  · intro s u hreach hstep hdispatch
    obtain ⟨hempty, hinv⟩ := MP_scan_inv_reaches hreach ⟨rfl, MP_scan_inv_init _ hsorted⟩
    rcases (MP_iteration_moved hempty hstep).2 with ⟨rfl, _⟩ | ⟨_, ⟨p, hp, harr⟩, hq⟩
    · exact absurd rfl hdispatch
    · rcases hq with ⟨hq, _⟩ | ⟨p1, hp1, hq1, _⟩
      · exact absurd hq hdispatch
      · refine ⟨p, hp, hq1, harr, ?_, ?_⟩
        · intro j q hj hjq
          exact not_le_of_lt (hinv.2.2 j q hj hjq)
        · exact first_arrived_is_shortest _ _ _ _ hinv.1 hinv.2.2 hp

/-! ## The invariant of the multi-processor loop -/

theorem entry_ok_mono {t t1 : Int} {e : node} (ht : t ≤ t1) (h : entry_ok t e) :
    entry_ok t1 e :=
  ⟨h.1, le_trans h.2.1 ht, h.2.2.1, h.2.2.2.1, h.2.2.2.2⟩

theorem lines_ok_append {f g : List Line} (hf : lines_ok f) (hg : lines_ok g) :
    lines_ok (f ++ g) := by
  intro k e hmem
  rcases List.mem_append.mp hmem with h | h
  · exact hf k e h
  · exact hg k e h

theorem lines_ok_time (t : Int) : lines_ok [Line.time t] := by
  intro k e hmem
  simp at hmem

theorem lines_ok_idle (k : Nat) : lines_ok [Line.idle k] := by
  intro k1 e hmem
  simp at hmem

theorem lines_ok_process (k : Nat) (e : node) (h1 : 0 < e.remaining_cycles)
    (h2 : e.remaining_cycles ≤ e.CPU_cycles) : lines_ok [Line.process k e] := by
  intro k1 e1 hmem
  simp only [List.mem_singleton, Line.process.injEq] at hmem
  obtain ⟨_, rfl⟩ := hmem
  exact ⟨h1, h2⟩

theorem MP_inv_init (processor_count : Nat) (q : List node)
    (hq : ∀ p ∈ q, 1000 ≤ p.CPU_cycles ∧ p.remaining_cycles = p.CPU_cycles) :
    MP_inv processor_count (MP_init q) := by
  refine ⟨rfl, rfl, rfl, rfl, hq, ?_, ?_, Or.inl ⟨?_, ?_, ?_, ?_⟩⟩
  · intro k schedule hk e he
    have hk1 : ([[], [], [], []] : List (List node))[k]? = some schedule := hk
    have : schedule = [] := by
      rcases k with _ | _ | _ | _ | k <;> simp at hk1 <;> exact hk1
    rw [this] at he
    cases he
  · intro k e hmem
    cases hmem
  · show 0 < max processor_count 1
    omega
  · rfl
  · intro k hk
    exact absurd hk (Nat.not_lt_zero k)
  · intro k _ hk4
    show ([[], [], [], []] : List (List node))[k]? = some [] ∧
      ([0, 0, 0, 0] : List Nat)[k]? = some 0 ∧ ([0, 0, 0, 0] : List Int)[k]? = some 0
    rcases k with _ | _ | _ | _ | k
    · exact ⟨rfl, rfl, rfl⟩
    · exact ⟨rfl, rfl, rfl⟩
    · exact ⟨rfl, rfl, rfl⟩
    · exact ⟨rfl, rfl, rfl⟩
    · omega

/-- The records of the slot `k` in two states with the same records up to the
remaining cycles. -/
theorem MP_frame_slot {s u : MPState} (h : MP_frame s u) (k : Nat) (schedule : List node)
    (hs : u.processor_schedule[k]? = some schedule) :
    ∃ schedule0, s.processor_schedule[k]? = some schedule0 ∧
      schedule.map forget_remaining = schedule0.map forget_remaining := by
  have hcore := h.2.2.2.2.2.2.2.2.1
  have h1 : (u.processor_schedule.map (List.map forget_remaining))[k]?
      = some (schedule.map forget_remaining) := by
    rw [List.getElem?_map, hs]
    rfl
  rw [hcore, List.getElem?_map] at h1
  cases h0 : s.processor_schedule[k]? with
  | none => rw [h0] at h1; cases h1
  | some schedule0 =>
    rw [h0] at h1
    simp only [Option.map_some', Option.some.injEq] at h1
    exact ⟨schedule0, rfl, h1.symm⟩

theorem MP_frame_slot_back {s u : MPState} (h : MP_frame s u) (k : Nat) (schedule0 : List node)
    (hs : s.processor_schedule[k]? = some schedule0) :
    ∃ schedule, u.processor_schedule[k]? = some schedule ∧
      schedule.map forget_remaining = schedule0.map forget_remaining := by
  have hcore := h.2.2.2.2.2.2.2.2.1
  have h1 : (s.processor_schedule.map (List.map forget_remaining))[k]?
      = some (schedule0.map forget_remaining) := by
    rw [List.getElem?_map, hs]
    rfl
  rw [← hcore, List.getElem?_map] at h1
  cases h0 : u.processor_schedule[k]? with
  | none => rw [h0] at h1; cases h1
  | some schedule =>
    rw [h0] at h1
    simp only [Option.map_some', Option.some.injEq] at h1
    exact ⟨schedule, rfl, h1⟩

theorem forget_getElem? {a b : List node}
    (h : a.map forget_remaining = b.map forget_remaining) (j : Nat) (e : node)
    (he : a[j]? = some e) : ∃ e0, b[j]? = some e0 ∧ forget_remaining e = forget_remaining e0 := by
  have h1 : (a.map forget_remaining)[j]? = some (forget_remaining e) := by
    rw [List.getElem?_map, he]
    rfl
  rw [h, List.getElem?_map] at h1
  cases h0 : b[j]? with
  | none => rw [h0] at h1; cases h1
  | some e0 =>
    rw [h0] at h1
    simp only [Option.map_some', Option.some.injEq] at h1
    exact ⟨e0, rfl, h1.symm⟩

theorem forget_length {a b : List node}
    (h : a.map forget_remaining = b.map forget_remaining) : a.length = b.length := by
  have := congrArg List.length h
  simpa using this

/-! ## The choice of `min_cycles_index` -/

/-- The initialising loop returns the index it started with when it visits no
processor. -/
theorem min_init_zero (cycles : List Int) (index m : Nat) :
    min_init cycles 0 index m = Except.ok m := rfl

/-- When some visited processor has positive cycles, the initialising loop
returns a visited processor with positive cycles. -/
theorem min_init_pos (cycles : List Int) (remaining index m r : Nat)
    (h : min_init cycles remaining index m = Except.ok r)
    (hex : ∃ k c, index ≤ k ∧ k < index + remaining ∧ cycles[k]? = some c ∧ 0 < c) :
    r < index + remaining ∧ ∃ c, cycles[r]? = some c ∧ 0 < c := by
  induction remaining generalizing index m with
  | zero =>
    obtain ⟨k, _, h1, h2, _⟩ := hex
    omega
  | succ remaining ih =>
    unfold min_init at h
    cases hc : read_at cycles index with
    | error e => rw [hc] at h; cases h
    | ok c =>
      rw [hc] at h
      simp only at h
      by_cases hpos : c > 0
      · rw [if_pos hpos] at h
        cases h
        exact ⟨by omega, c, read_at_ok hc, hpos⟩
      · rw [if_neg hpos] at h
        have hex1 : ∃ k c, index + 1 ≤ k ∧ k < index + 1 + remaining ∧
            cycles[k]? = some c ∧ 0 < c := by
          obtain ⟨k, c1, h1, h2, h3, h4⟩ := hex
          refine ⟨k, c1, ?_, by omega, h3, h4⟩
          by_contra hlt
          have hk : k = index := by omega
          subst hk
          rw [read_at_ok hc] at h3
          cases h3
          exact hpos h4
        obtain ⟨g1, g2⟩ := ih (index + 1) (m + 1) h hex1
        exact ⟨by omega, g2⟩

theorem min_pick_ok {cycles : List Int} {index m b : Nat}
    (h : min_pick cycles index m = Except.ok b) :
    b = m ∨ (b = index ∧ ∃ c, cycles[index]? = some c ∧ 0 < c) := by
  unfold min_pick at h
  cases hc : read_at cycles index with
  | error e => rw [hc] at h; cases h
  | ok c =>
    rw [hc] at h
    simp only at h
    by_cases hpos : c > 0
    · rw [if_pos hpos] at h
      cases hm : read_at cycles m with
      | error e => rw [hm] at h; cases h
      | ok cmin =>
        rw [hm] at h
        simp only at h
        by_cases hle : c ≤ cmin
        · rw [if_pos hle] at h
          cases h
          exact Or.inr ⟨rfl, c, read_at_ok hc, hpos⟩
        · rw [if_neg hle] at h
          cases h
          exact Or.inl rfl
    · rw [if_neg hpos] at h
      cases h
      exact Or.inl rfl

/-- The picking loop of the steady-state branch keeps `min_cycles_index` on a
processor in use with positive cycles. -/
theorem min_pick_loop_pos (cycles : List Int) (n bound m1 m2 : Nat) (hn : n ≤ bound)
    (h1 : m1 < bound ∧ ∃ c, cycles[m1]? = some c ∧ 0 < c)
    (h : for_range (min_pick cycles) n m1 = Except.ok m2) :
    m2 < bound ∧ ∃ c, cycles[m2]? = some c ∧ 0 < c :=
  for_range_inv (min_pick cycles) (fun _ m => m < bound ∧ ∃ c, cycles[m]? = some c ∧ 0 < c)
    n m1 m2 h1
    (fun k a b hk ha hb => by
      rcases min_pick_ok hb with rfl | ⟨rfl, hc⟩
      · exact ha
      · exact ⟨by omega, hc⟩) h

theorem min_scan_ok {cycles : List Int} {index m b : Nat}
    (h : min_scan cycles index m = Except.ok b) : b = m ∨ b = index := by
  unfold min_scan at h
  cases hc : read_at cycles index with
  | error e => rw [hc] at h; simp at h
  | ok c =>
    cases hm : read_at cycles m with
    | error e => rw [hc, hm] at h; simp at h
    | ok cmin =>
      rw [hc, hm] at h
      simp only at h
      by_cases hlt : c < cmin
      · rw [if_pos hlt] at h
        cases h
        exact Or.inr rfl
      · rw [if_neg hlt] at h
        cases h
        exact Or.inl rfl

/-- The picking loop at the end of the fill-up returns a processor in use. -/
theorem min_scan_loop_lt (cycles : List Int) (n m : Nat)
    (h : for_range (min_scan cycles) n 0 = Except.ok m) : m < max n 1 :=
  for_range_inv (min_scan cycles) (fun _ m => m < max n 1) n 0 m (by omega)
    (fun k a b hk ha hb => by
      rcases min_scan_ok hb with rfl | rfl
      · exact ha
      · omega) h

/-! ## The report loop of the steady-state branch -/

theorem getElem?_set_of_some {α : Type} (l : List α) (i j : Nat) (a b : α)
    (h : l[i]? = some b) : (l.set i a)[j]? = if i = j then some a else l[j]? := by
  obtain ⟨hlt, _⟩ := List.getElem?_eq_some.mp h
  rw [List.getElem?_set]
  by_cases hij : i = j
  · subst hij
    simp [hlt]
  · simp [hij]

/-- One pass of the body of the steady-state report loop, for processor `j`:
the records stay in order, the process rows it prints show positive remaining
cycles, `processor_cycles[j]` is set from the stop time of the current record,
and the other processors are left alone. -/
theorem steady_report_step {j : Nat} {a b : MPState} (hempty : a.empty_processor = false)
    (hentries : entries_ok a) (hlines : lines_ok a.sjf_file)
    (hlen : a.processor_cycles.length = 4)
    (h : steady_report j a = Except.ok b) :
    entries_ok b ∧ lines_ok b.sjf_file ∧ (j < 4 → slot_cycles b j) ∧
    ∀ k, k ≠ j → b.processor_schedule[k]? = a.processor_schedule[k]? ∧
      b.processor_cycles[k]? = a.processor_cycles[k]? := by
  rcases steady_report_ok hempty h with
    ⟨h4, rfl⟩ | ⟨_, schedule, idx, entry, hs, hi, he, hcase⟩
  · exact ⟨hentries, hlines, fun hj => absurd hj (Nat.not_lt_of_le h4), fun k _ => ⟨rfl, rfl⟩⟩
  · have hok : entry_ok a.current_time entry := hentries j schedule hs entry (List.getElem?_mem he)
    have hok1 : entry_ok a.current_time
        { entry with remaining_cycles := entry.stop_time - a.current_time } := by
      obtain ⟨g1, g2, g3, _, g5⟩ := hok
      refine ⟨g1, g2, g3, ?_, g5⟩
      show entry.stop_time - a.current_time ≤ entry.CPU_cycles
      omega
    have hsched : ∀ (k : Nat) (sched1 : List node),
        (a.processor_schedule.set j
          (schedule.set idx
            { entry with remaining_cycles := entry.stop_time - a.current_time }))[k]?
          = some sched1 →
        ∀ e ∈ sched1, entry_ok a.current_time e := by
      intro k sched1 hk e hmem
      rw [getElem?_set_of_some _ _ _ _ _ hs] at hk
      by_cases hjk : j = k
      · rw [if_pos hjk] at hk
        cases hk
        rcases List.mem_or_eq_of_mem_set hmem with hm | rfl
        · exact hentries j schedule hs e hm
        · exact hok1
      · rw [if_neg hjk] at hk
        exact hentries k sched1 hk e hmem
    have hslot : ∀ (c1 : List Int),
        c1 = a.processor_cycles.set j (entry.stop_time - a.current_time) →
        j < a.processor_cycles.length →
        ∃ schedule1 idx1 e1,
          (a.processor_schedule.set j
            (schedule.set idx
              { entry with remaining_cycles := entry.stop_time - a.current_time }))[j]?
            = some schedule1 ∧
          a.processor_index[j]? = some idx1 ∧ schedule1[idx1]? = some e1 ∧
          c1[j]? = some (e1.stop_time - a.current_time) := by
      intro c1 hc1 hlen
      refine ⟨schedule.set idx
          { entry with remaining_cycles := entry.stop_time - a.current_time }, idx,
        { entry with remaining_cycles := entry.stop_time - a.current_time }, ?_, hi, ?_, ?_⟩
      · rw [getElem?_set_of_some _ _ _ _ _ hs, if_pos rfl]
      · rw [getElem?_set_of_some _ _ _ _ _ he, if_pos rfl]
      · rw [hc1, List.getElem?_set_self hlen]
    have hother : ∀ k, k ≠ j →
        (a.processor_schedule.set j
          (schedule.set idx
            { entry with remaining_cycles := entry.stop_time - a.current_time }))[k]?
          = a.processor_schedule[k]? ∧
        (a.processor_cycles.set j (entry.stop_time - a.current_time))[k]?
          = a.processor_cycles[k]? := by
      intro k hk
      exact ⟨List.getElem?_set_ne (Ne.symm hk), List.getElem?_set_ne (Ne.symm hk)⟩
    rcases hcase with ⟨hpos, rfl⟩ | ⟨_, rfl⟩
    · refine ⟨hsched, ?_, ?_, hother⟩
      · exact lines_ok_append hlines (lines_ok_process _ _ hpos hok1.2.2.2.1)
      · intro hj
        exact hslot _ rfl (by omega)
    · refine ⟨hsched, ?_, ?_, hother⟩
      · exact lines_ok_append hlines (lines_ok_idle _)
      · intro hj
        exact hslot _ rfl (by omega)

/-- The report loop of the steady-state branch, run over the processors below
`n`: the records stay in order, the rows printed are in order, the entries of
`processor_cycles` below `n` are set from the stop times of the current
records and the others are left alone. -/
theorem steady_report_loop {n : Nat} {s u : MPState} (hempty : s.empty_processor = false)
    (hentries : entries_ok s) (hlines : lines_ok s.sjf_file)
    (hlen : s.processor_cycles.length = 4)
    (h : for_range steady_report n s = Except.ok u) :
    MP_frame s u ∧ entries_ok u ∧ lines_ok u.sjf_file ∧
    (∀ k, n ≤ k → u.processor_cycles[k]? = s.processor_cycles[k]?) ∧
    (∀ k, k < n → k < 4 → slot_cycles u k) := by
  refine for_range_inv steady_report
    (fun j a => MP_frame s a ∧ entries_ok a ∧ lines_ok a.sjf_file ∧
      (∀ k, j ≤ k → a.processor_cycles[k]? = s.processor_cycles[k]?) ∧
      (∀ k, k < j → k < 4 → slot_cycles a k)) n s u
    ⟨MP_frame_refl s hempty, hentries, hlines, fun _ _ => rfl,
      fun k hk => absurd hk (Nat.not_lt_zero k)⟩ ?_ h
  intro j a b _ ⟨hf, he, hl, hc, hsl⟩ hb
  have hea : a.empty_processor = false := hf.2.2.2.2.2.2.2.1
  have hla : a.processor_cycles.length = 4 := hf.2.2.2.2.2.2.2.2.2.trans hlen
  obtain ⟨g1, g2, g3, g4⟩ := steady_report_step hea he hl hla hb
  have hfb := steady_report_frame hea hb
  refine ⟨MP_frame_trans hf hfb, g1, g2, ?_, ?_⟩
  · intro k hk
    rw [(g4 k (by omega)).2]
    exact hc k (by omega)
  · intro k hk hk4
    by_cases hkj : k = j
    · subst hkj
      exact g3 hk4
    · obtain ⟨schedule, idx, e, h1, h2, h3, h4⟩ := hsl k (by omega) hk4
      refine ⟨schedule, idx, e, ?_, ?_, h3, ?_⟩
      · rw [(g4 k hkj).1]; exact h1
      · rw [hfb.2.1]; exact h2
      · rw [(g4 k hkj).2, hfb.2.2.1]; exact h4

/-! ## The report loop of the branch for empty processors -/

theorem cold_slot_mono {bound bound1 : Int} {s : MPState} {k : Nat} (hb : bound1 ≤ bound)
    (h : cold_slot bound s k) : cold_slot bound1 s k := by
  obtain ⟨e, h1, h2, h3, h4⟩ := h
  exact ⟨e, h1, h2, h3, le_trans hb h4⟩

theorem cold_slot_transfer {bound : Int} {a b : MPState} {k : Nat}
    (h1 : b.processor_schedule[k]? = a.processor_schedule[k]?)
    (h2 : b.processor_index = a.processor_index)
    (h3 : b.processor_cycles[k]? = a.processor_cycles[k]?)
    (h : cold_slot bound a k) : cold_slot bound b k := by
  obtain ⟨e, g1, g2, g3, g4⟩ := h
  exact ⟨e, h1.trans g1, by rw [h2]; exact g2, h3.trans g3, g4⟩

theorem empty_slot_transfer {a b : MPState} {k : Nat}
    (h1 : b.processor_schedule[k]? = a.processor_schedule[k]?)
    (h2 : b.processor_index = a.processor_index)
    (h3 : b.processor_cycles[k]? = a.processor_cycles[k]?)
    (h : empty_slot a k) : empty_slot b k := by
  obtain ⟨g1, g2, g3⟩ := h
  exact ⟨h1.trans g1, by rw [h2]; exact g2, h3.trans g3⟩

/-- One pass of the body of the report loop of the branch for empty
processors, for processor `j`, while `min_cycles_index` is `D`: a processor up
to `D` loses at most 50 cycles, together with its record, and the row printed
shows positive remaining cycles; the other processors are left alone. -/
theorem cold_report_step {j D : Nat} {bound : Int} {a b : MPState}
    (hmin : a.min_cycles_index = D) (hD : D < 4) (hbound : 50 < bound)
    (hentries : entries_ok a) (hlines : lines_ok a.sjf_file)
    (hslot : j ≤ D → cold_slot bound a j)
    (h : cold_report j a = Except.ok b) :
    entries_ok b ∧ lines_ok b.sjf_file ∧ (j ≤ D → cold_slot (bound - 50) b j) ∧
    ∀ k, k ≠ j → b.processor_schedule[k]? = a.processor_schedule[k]? ∧
      b.processor_cycles[k]? = a.processor_cycles[k]? := by
  rcases cold_report_ok h with
    ⟨hlt, rfl⟩ | ⟨hle, h4, rfl⟩ | ⟨hle, _, schedule, c, entry, hs, hc, he, rfl⟩
  · refine ⟨hentries, lines_ok_append hlines (lines_ok_idle _), ?_, fun k _ => ⟨rfl, rfl⟩⟩
    intro hj
    rw [hmin] at hlt
    omega
  · rw [hmin] at hle
    omega
  · rw [hmin] at hle
    obtain ⟨e, g1, g2, g3, g4⟩ := hslot hle
    rw [hs] at g1
    cases g1
    simp only [List.getElem?_cons_zero, Option.some.injEq] at he
    subst he
    rw [hc] at g3
    cases g3
    have hok : entry_ok a.current_time e := hentries j [e] hs e (List.mem_singleton.mpr rfl)
    obtain ⟨e1, he1⟩ : ∃ e1 : node, e1 =
        (if cold_late j a.current_time = true then
          { e with remaining_cycles := e.remaining_cycles - 50 } else e) := ⟨_, rfl⟩
    have hforget : e1.remaining_cycles ≤ e.remaining_cycles ∧
        e.remaining_cycles - 50 ≤ e1.remaining_cycles ∧
        entry_ok a.current_time e1 := by
      by_cases hl : cold_late j a.current_time = true
      · rw [if_pos hl] at he1
        subst he1
        obtain ⟨q1, q2, q3, q4, q5⟩ := hok
        refine ⟨?_, ?_, q1, q2, q3, ?_, q5⟩
        · show e.remaining_cycles - 50 ≤ e.remaining_cycles
          omega
        · exact le_refl _
        · show e.remaining_cycles - 50 ≤ e.CPU_cycles
          omega
      · rw [if_neg hl] at he1
        subst he1
        exact ⟨le_refl _, by omega, hok⟩
    have hcycles : (if cold_late j a.current_time = true
          then a.processor_cycles.set j (e.remaining_cycles - 50)
          else a.processor_cycles)[j]? = some e1.remaining_cycles := by
      by_cases hl : cold_late j a.current_time = true
      · rw [if_pos hl] at he1 ⊢
        subst he1
        rw [getElem?_set_of_some _ _ _ _ _ hc, if_pos rfl]
      · rw [if_neg hl] at he1 ⊢
        subst he1
        exact hc
    have hcycles_other : ∀ k, k ≠ j → (if cold_late j a.current_time = true
          then a.processor_cycles.set j (e.remaining_cycles - 50)
          else a.processor_cycles)[k]? = a.processor_cycles[k]? := by
      intro k hk
      by_cases hl : cold_late j a.current_time = true
      · rw [if_pos hl]
        exact List.getElem?_set_ne (Ne.symm hk)
      · rw [if_neg hl]
    rw [← he1]
    refine ⟨?_, ?_, ?_, ?_⟩
    · intro k sched1 hk x hx
      have hk1 : (a.processor_schedule.set j ([e].set 0 e1))[k]? = some sched1 := hk
      rw [getElem?_set_of_some _ _ _ _ _ hs] at hk1
      by_cases hjk : j = k
      · rw [if_pos hjk] at hk1
        cases hk1
        simp only [List.set_cons_zero, List.mem_singleton] at hx
        subst hx
        exact hforget.2.2
      · rw [if_neg hjk] at hk1
        exact hentries k sched1 hk1 x hx
    · refine lines_ok_append hlines (lines_ok_process _ _ ?_ hforget.2.2.2.2.2.1)
      omega
    · intro _
      refine ⟨e1, ?_, g2, hcycles, by omega⟩
      show (a.processor_schedule.set j ([e].set 0 e1))[j]? = some [e1]
      rw [getElem?_set_of_some _ _ _ _ _ hs, if_pos rfl]
      rfl
    · intro k hk
      exact ⟨List.getElem?_set_ne (Ne.symm hk), hcycles_other k hk⟩

/-- The report loop of the branch for empty processors while
`min_cycles_index` is `D`: each processor up to `D` still holds one record,
with at most 50 cycles less, and the processors above `D` are still empty. -/
theorem cold_report_loop {n D : Nat} {bound : Int} {s u : MPState}
    (hmin : s.min_cycles_index = D) (hD : D < 4) (hbound : 50 < bound)
    (hempty : s.empty_processor = false)
    (hentries : entries_ok s) (hlines : lines_ok s.sjf_file)
    (hslots : ∀ k, k ≤ D → cold_slot bound s k)
    (hempties : ∀ k, D < k → k < 4 → empty_slot s k)
    (h : for_range cold_report n s = Except.ok u) :
    MP_frame s u ∧ entries_ok u ∧ lines_ok u.sjf_file ∧
    (∀ k, k ≤ D → cold_slot (bound - 50) u k) ∧
    (∀ k, D < k → k < 4 → empty_slot u k) := by
  have hJ := for_range_inv cold_report
    (fun j a => MP_frame s a ∧ entries_ok a ∧ lines_ok a.sjf_file ∧
      (∀ k, k ≤ D → (k < j → cold_slot (bound - 50) a k) ∧ (j ≤ k → cold_slot bound a k)) ∧
      (∀ k, D < k → k < 4 → empty_slot a k)) n s u
    ⟨MP_frame_refl s hempty, hentries, hlines,
      fun k hk => ⟨fun hk0 => absurd hk0 (Nat.not_lt_zero k), fun _ => hslots k hk⟩,
      hempties⟩ ?_ h
  · obtain ⟨hf, he, hl, hs, hem⟩ := hJ
    refine ⟨hf, he, hl, ?_, hem⟩
    intro k hk
    by_cases hkn : k < n
    · exact (hs k hk).1 hkn
    · exact cold_slot_mono (by omega) ((hs k hk).2 (by omega))
  · intro j a b _ ⟨hf, he, hl, hs, hem⟩ hb
    have hea : a.empty_processor = false := hf.2.2.2.2.2.2.2.1
    have hma : a.min_cycles_index = D := hf.2.2.2.2.1.trans hmin
    obtain ⟨g1, g2, g3, g4⟩ := cold_report_step hma hD hbound he hl
      (fun hj => (hs j hj).2 (Nat.le_refl _)) hb
    have hfb := cold_report_frame hea hb
    refine ⟨MP_frame_trans hf hfb, g1, g2, ?_, ?_⟩
    · intro k hk
      by_cases hkj : k = j
      · subst hkj
        exact ⟨fun _ => g3 hk, fun hlt => absurd hlt (by omega)⟩
      · obtain ⟨q1, q2⟩ := g4 k hkj
        constructor
        · intro hlt
          exact cold_slot_transfer q1 hfb.2.1 q2 ((hs k hk).1 (by omega))
        · intro hle
          exact cold_slot_transfer q1 hfb.2.1 q2 ((hs k hk).2 (by omega))
    · intro k hk hk4
      by_cases hkj : k = j
      · subst hkj
        rcases cold_report_ok hb with ⟨_, rfl⟩ | ⟨hle, _, rfl⟩ | ⟨hle, _⟩
        · exact hem k hk hk4
        · exact hem k hk hk4
        · rw [hma] at hle
          omega
      · obtain ⟨q1, q2⟩ := g4 k hkj
        exact empty_slot_transfer q1 hfb.2.1 q2 (hem k hk hk4)

/-! ## One iteration under the invariant -/

theorem set_concat {α : Type} (l : List α) (p x : α) :
    (l ++ [p]).set l.length x = l ++ [x] := by
  induction l with
  | nil => rfl
  | cons a l ih => simp [ih]

theorem map_eq_concat {α β : Type} (f : α → β) (l a : List α) (x : α)
    (h : l.map f = (a ++ [x]).map f) :
    ∃ init e, l = init ++ [e] ∧ init.map f = a.map f ∧ f e = f x := by
  rw [List.map_append] at h
  obtain ⟨l1, l2, h1, h2, h3⟩ := List.map_eq_append_iff.mp h
  cases l2 with
  | nil => simp at h3
  | cons e rest =>
    cases rest with
    | nil =>
      simp only [List.map_cons, List.map_nil, List.cons.injEq, and_true] at h3
      exact ⟨l1, e, h1, h2, h3⟩
    | cons e2 rest => simp at h3

theorem queue_facts_eraseIdx (q : List node) (i : Nat)
    (h : ∀ p ∈ q, 1000 ≤ p.CPU_cycles ∧ p.remaining_cycles = p.CPU_cycles) :
    ∀ p ∈ q.eraseIdx i, 1000 ≤ p.CPU_cycles ∧ p.remaining_cycles = p.CPU_cycles :=
  fun p hp => h p ((List.eraseIdx_sublist q i).subset hp)

theorem entries_ok_mono {s u : MPState}
    (hs : u.processor_schedule = s.processor_schedule) (ht : s.current_time ≤ u.current_time)
    (h : entries_ok s) : entries_ok u := by
  intro k schedule hk e he
  rw [hs] at hk
  exact entry_ok_mono ht (h k schedule hk e he)

theorem dispatched_at_ok (t : Int) (p : node) (h1 : 1000 ≤ p.CPU_cycles)
    (h2 : p.remaining_cycles = p.CPU_cycles) : entry_ok t (dispatched_at t p) :=
  ⟨rfl, le_refl _, rfl, le_of_eq h2, h1⟩

/-- The `switch` of the branch for empty processors during the fill-up: the
process read from the queue becomes the only record of the processor
`min_cycles_index`, with the times of a dispatch at the clock. -/
theorem cold_dispatch_cold {processor_count : Nat} {s t1 : MPState} {p : node}
    (hP : processor_count ≤ 4) (hcold : MP_cold processor_count s)
    (hp : s.process_queue[s.i]? = some p)
    (hd : cold_dispatch (MP_header s) = Except.ok t1) :
    t1.process_queue = s.process_queue.eraseIdx s.i ∧
    t1.processor_schedule =
      s.processor_schedule.set s.min_cycles_index [dispatched_at s.current_time p] ∧
    t1.processor_index = s.processor_index ∧
    t1.processor_cycles = s.processor_cycles.set s.min_cycles_index p.CPU_cycles ∧
    t1.current_time = s.current_time ∧
    t1.total_waiting_time = s.total_waiting_time + (s.current_time - p.arrival_time) ∧
    t1.min_cycles_index = s.min_cycles_index ∧
    t1.empty_processor = s.empty_processor ∧
    t1.sjf_file = s.sjf_file ++ [Line.time s.current_time] := by
  obtain ⟨hminlt, htime, _, hempties⟩ := hcold
  have hD : s.min_cycles_index < 4 := by omega
  obtain ⟨e1, e2, _⟩ := hempties s.min_cycles_index (Nat.le_refl _) hD
  rcases cold_dispatch_ok hd with
    ⟨h4, _⟩ | ⟨_, p1, schedule, index, entry, current, hp1, hs, hi, he, hcur, ht1⟩
  · exact absurd hD (Nat.not_lt_of_le h4)
  · simp only [MP_header] at hp1 hs hi hcur ht1
    rw [hp] at hp1
    cases hp1
    rw [e1] at hs
    cases hs
    rw [e2] at hi
    cases hi
    simp only [List.nil_append, List.getElem?_cons_zero, Option.some.injEq] at he
    subst he
    simp only [List.nil_append, List.set_cons_zero, List.getElem?_cons_zero,
      Option.some.injEq] at hcur ht1
    subst hcur
    have hdp : ({ p with
          start_time := s.current_time
          stop_time := if s.min_cycles_index = 0 then p.CPU_cycles
            else s.current_time + p.CPU_cycles
          waiting_time := s.current_time - p.arrival_time } : node)
        = dispatched_at s.current_time p := by
      unfold dispatched_at
      by_cases h0 : s.min_cycles_index = 0
      · have ht0 : s.current_time = 0 := by rw [htime, h0]; simp
        rw [if_pos h0, ht0]
        simp
      · rw [if_neg h0]
    rw [hdp] at ht1
    rw [ht1]
    exact ⟨rfl, rfl, rfl, rfl, rfl, rfl, rfl, rfl, rfl⟩

/-- A pass through the branch for empty processors during the fill-up keeps
the invariant and dispatches the process read from the queue at the clock of
the state. -/
theorem cold_step {processor_count : Nat} {s s1 : MPState} {p : node}
    (hP : processor_count ≤ 4) (hinv : MP_inv processor_count s)
    (hcold : MP_cold processor_count s) (hp : s.process_queue[s.i]? = some p)
    (hb : cold_branch processor_count (MP_header s) = Except.ok s1) :
    MP_inv processor_count { s1 with i := 0 } ∧ MP_dispatched s { s1 with i := 0 } p := by
  obtain ⟨hl1, hl2, hl3, hempty, hqueue, hentries, hlines, _⟩ := hinv
  have hcold0 := hcold
  obtain ⟨hminlt, htime, hfilled, hempties⟩ := hcold
  have hD : s.min_cycles_index < 4 := by omega
  obtain ⟨e1, e2, e3⟩ := hempties s.min_cycles_index (Nat.le_refl _) hD
  obtain ⟨t1, t2, hd, hrep, hfin⟩ := cold_branch_ok hb
  obtain ⟨c1, c2, c3, c4, c5, c6, c7, c8, c9⟩ := cold_dispatch_cold hP hcold0 hp hd
  have hpq : 1000 ≤ p.CPU_cycles ∧ p.remaining_cycles = p.CPU_cycles :=
    hqueue p (List.getElem?_mem hp)
  have hsched1 : ∀ k, t1.processor_schedule[k]? =
      if s.min_cycles_index = k then some [dispatched_at s.current_time p]
      else s.processor_schedule[k]? := by
    intro k
    rw [c2, getElem?_set_of_some _ _ _ _ _ e1]
  have hcycles1 : ∀ k, t1.processor_cycles[k]? =
      if s.min_cycles_index = k then some p.CPU_cycles else s.processor_cycles[k]? := by
    intro k
    rw [c4, getElem?_set_of_some _ _ _ _ _ e3]
  have hentries1 : entries_ok t1 := by
    intro k schedule hk e he
    rw [hsched1 k] at hk
    rw [c5]
    by_cases hkD : s.min_cycles_index = k
    · rw [if_pos hkD] at hk
      cases hk
      rw [List.mem_singleton] at he
      subst he
      exact dispatched_at_ok _ _ hpq.1 hpq.2
    · rw [if_neg hkD] at hk
      exact hentries k schedule hk e he
  have hlines1 : lines_ok t1.sjf_file := by
    rw [c9]
    exact lines_ok_append hlines (lines_ok_time _)
  have hslots1 : ∀ k, k ≤ s.min_cycles_index →
      cold_slot (1000 - 50 * (s.min_cycles_index : Int)) t1 k := by
    intro k hk
    by_cases hkD : s.min_cycles_index = k
    · refine ⟨dispatched_at s.current_time p, ?_, ?_, ?_, ?_⟩
      · rw [hsched1 k, if_pos hkD]
      · rw [c3, ← hkD]; exact e2
      · rw [hcycles1 k, if_pos hkD]
        show some p.CPU_cycles = some p.remaining_cycles
        rw [hpq.2]
      · show 1000 - 50 * (s.min_cycles_index : Int) ≤ p.remaining_cycles
        rw [hpq.2]
        have := hpq.1
        omega
    · obtain ⟨e, g1, g2, g3, g4⟩ := hfilled k (by omega)
      refine ⟨e, ?_, ?_, ?_, g4⟩
      · rw [hsched1 k, if_neg hkD]; exact g1
      · rw [c3]; exact g2
      · rw [hcycles1 k, if_neg hkD]; exact g3
  have hempties1 : ∀ k, s.min_cycles_index < k → k < 4 → empty_slot t1 k := by
    intro k hk hk4
    obtain ⟨g1, g2, g3⟩ := hempties k (by omega) hk4
    refine ⟨?_, ?_, ?_⟩
    · rw [hsched1 k, if_neg (by omega)]; exact g1
    · rw [c3]; exact g2
    · rw [hcycles1 k, if_neg (by omega)]; exact g3
  obtain ⟨hf, hentries2, hlines2, hslots2, hempties2⟩ :=
    cold_report_loop c7 hD (by omega) (c8.trans hempty) hentries1 hlines1 hslots1 hempties1 hrep
  obtain ⟨f1, f2, f3, f4, f5, _, _, f8, f9, f10⟩ := hf
  have hlen2 : t2.processor_schedule.length = 4 := by
    have := congrArg List.length f9
    simp only [List.length_map] at this
    rw [this, c2, List.length_set]
    exact hl1
  have hqueue2 : ∀ q ∈ t2.process_queue,
      1000 ≤ q.CPU_cycles ∧ q.remaining_cycles = q.CPU_cycles := by
    rw [f1, c1]
    exact queue_facts_eraseIdx _ _ hqueue
  have hdisp : ∃ schedule0 schedule e,
      s.processor_schedule[s.min_cycles_index]? = some schedule0 ∧
      t2.processor_schedule[s.min_cycles_index]? = some (schedule ++ [e]) ∧
      schedule.map forget_remaining = schedule0.map forget_remaining ∧
      forget_remaining e = forget_remaining (dispatched_at s.current_time p) := by
    obtain ⟨e, g1, _, _, _⟩ := hslots2 s.min_cycles_index (Nat.le_refl _)
    have hcore : (t2.processor_schedule.map (List.map forget_remaining))[s.min_cycles_index]?
        = (t1.processor_schedule.map (List.map forget_remaining))[s.min_cycles_index]? := by
      rw [f9]
    rw [List.getElem?_map, List.getElem?_map, g1, hsched1, if_pos rfl] at hcore
    simp only [Option.map_some', List.map_cons, List.map_nil, Option.some.injEq,
      List.cons.injEq, and_true] at hcore
    exact ⟨[], [], e, e1, g1, rfl, hcore⟩
  have hlen3 : t2.processor_cycles.length = 4 := by
    rw [f10, c4, List.length_set]
    exact hl3
  have hidx2 : t2.processor_index.length = 4 := by
    rw [f2, c3]
    exact hl2
  rcases hfin with ⟨hlt, hs1⟩ | ⟨hnlt, m, c, hscan, hc, hs1⟩
  · rw [hs1]
    refine ⟨⟨hlen2, hidx2, hlen3, f8, hqueue2, ?_, hlines2, Or.inl ⟨?_, ?_, ?_, ?_⟩⟩,
      hp, ?_, ?_, hdisp⟩
    · exact entries_ok_mono (s := t2) rfl (by show t2.current_time ≤ t2.current_time + 50; omega)
        hentries2
    · show t2.min_cycles_index + 1 < max processor_count 1
      omega
    · show t2.current_time + 50 = 50 * ((t2.min_cycles_index + 1 : Nat) : Int)
      rw [f3, c5, htime, f5, c7]
      push_cast
      ring
    · intro k hk
      have hk1 : k < t2.min_cycles_index + 1 := hk
      have := hslots2 k (by omega)
      refine cold_slot_transfer rfl rfl rfl (cold_slot_mono ?_ this)
      show 1000 - 50 * ((t2.min_cycles_index + 1 : Nat) : Int)
        ≤ 1000 - 50 * (s.min_cycles_index : Int) - 50
      rw [f5, c7]
      push_cast
      omega
    · intro k hk hk4
      have hk1 : t2.min_cycles_index + 1 ≤ k := hk
      exact empty_slot_transfer rfl rfl rfl (hempties2 k (by omega) hk4)
    · show t2.process_queue = s.process_queue.eraseIdx s.i
      rw [f1, c1]
    · show t2.total_waiting_time = s.total_waiting_time + (s.current_time - p.arrival_time)
      rw [f4, c6]
  · have hm : m < max processor_count 1 := min_scan_loop_lt _ _ _ hscan
    have hmD : m ≤ s.min_cycles_index := by
      rw [f5, c7] at hnlt
      omega
    obtain ⟨e, g1, g2, g3, g4⟩ := hslots2 m hmD
    have hcpos : 0 < c := by
      rw [hc] at g3
      cases g3
      omega
    rw [hs1]
    refine ⟨⟨hlen2, hidx2, hlen3, f8, hqueue2, ?_, hlines2, Or.inr ⟨hm, ⟨c, hc, hcpos⟩, ?_⟩⟩,
      hp, ?_, ?_, hdisp⟩
    · exact entries_ok_mono (s := t2) rfl (by show t2.current_time ≤ t2.current_time + c; omega)
        hentries2
    · intro k hk
      have hkD : k ≤ s.min_cycles_index := by
        rw [f5, c7] at hnlt
        omega
      obtain ⟨e0, q1, q2, _, _⟩ := hslots2 k hkD
      exact ⟨[e0], 0, q1, q2, rfl⟩
    · show t2.process_queue = s.process_queue.eraseIdx s.i
      rw [f1, c1]
    · show t2.total_waiting_time = s.total_waiting_time + (s.current_time - p.arrival_time)
      rw [f4, c6]

/-- The first `switch` of the steady-state branch in the steady state: the
process read from the queue is added behind the records of the processor
`min_cycles_index`, with the times of a dispatch at the clock, and the index of
that processor points to it. -/
theorem steady_dispatch_steady {processor_count : Nat} {s t1 : MPState} {p : node}
    (hP : processor_count ≤ 4) (hsteady : MP_steady processor_count s)
    (hp : s.process_queue[s.i]? = some p)
    (hd : steady_dispatch (MP_header s) = Except.ok t1) :
    ∃ schedule idx,
      s.processor_schedule[s.min_cycles_index]? = some schedule ∧
      s.processor_index[s.min_cycles_index]? = some idx ∧
      schedule.length = idx + 1 ∧
      t1.process_queue = s.process_queue.eraseIdx s.i ∧
      t1.processor_schedule =
        s.processor_schedule.set s.min_cycles_index
          (schedule ++ [dispatched_at s.current_time p]) ∧
      t1.processor_index = s.processor_index.set s.min_cycles_index (idx + 1) ∧
      t1.processor_cycles = s.processor_cycles.set s.min_cycles_index p.CPU_cycles ∧
      t1.current_time = s.current_time ∧
      t1.total_waiting_time = s.total_waiting_time + (s.current_time - p.arrival_time) ∧
      t1.min_cycles_index = s.min_cycles_index ∧
      t1.empty_processor = s.empty_processor ∧
      t1.sjf_file = s.sjf_file ++ [Line.time s.current_time] := by
  obtain ⟨hminlt, _, hslots⟩ := hsteady
  have hD : s.min_cycles_index < 4 := by omega
  obtain ⟨schedule, idx, g1, g2, g3⟩ := hslots s.min_cycles_index hminlt
  rcases steady_dispatch_ok hd with
    ⟨h4, _⟩ | ⟨_, p1, schedule1, index, entry, hp1, hs, hi, he, ht1⟩
  · exact absurd hD (Nat.not_lt_of_le h4)
  · simp only [MP_header] at hp1 hs hi ht1
    rw [hp] at hp1
    cases hp1
    rw [g1] at hs
    cases hs
    rw [g2] at hi
    cases hi
    rw [← g3, List.getElem?_concat_length] at he
    cases he
    rw [← g3, set_concat] at ht1
    rw [ht1]
    exact ⟨schedule, idx, g1, g2, g3, rfl, rfl, by rw [g3], rfl, rfl, rfl, rfl, rfl, rfl⟩

/-- A pass through the steady-state branch in the steady state keeps the
invariant and dispatches the process read from the queue at the clock of the
state. -/
theorem steady_step {processor_count : Nat} {s s1 : MPState} {p : node}
    (hP : processor_count ≤ 4) (hinv : MP_inv processor_count s)
    (hsteady : MP_steady processor_count s) (hp : s.process_queue[s.i]? = some p)
    (hb : steady_branch processor_count (MP_header s) = Except.ok s1) :
    MP_inv processor_count { s1 with i := 0 } ∧ MP_dispatched s { s1 with i := 0 } p := by
  obtain ⟨hl1, hl2, hl3, hempty, hqueue, hentries, hlines, _⟩ := hinv
  have hsteady0 := hsteady
  obtain ⟨hminlt, _, hslots⟩ := hsteady
  have hD : s.min_cycles_index < 4 := by omega
  obtain ⟨t1, t2, m1, m2, c2, hd, hrep, hinit, hpick, hc2, hs1⟩ := steady_branch_ok hb
  have hne : (MP_header s).process_queue.isEmpty = false := by
    show s.process_queue.isEmpty = false
    cases hq : s.process_queue with
    | nil => rw [hq] at hp; simp at hp
    | cons a l => rfl
  rw [hne] at hd
  simp only [Bool.false_eq_true, if_false] at hd
  obtain ⟨schedule, idx, g1, g2, g3, c1, csch, cidx, ccyc, c5, c6, c7, c8, c9⟩ :=
    steady_dispatch_steady hP hsteady0 hp hd
  have hpq : 1000 ≤ p.CPU_cycles ∧ p.remaining_cycles = p.CPU_cycles :=
    hqueue p (List.getElem?_mem hp)
  obtain ⟨cm, hcm⟩ : ∃ cm, s.processor_cycles[s.min_cycles_index]? = some cm := by
    obtain ⟨_, ⟨c, hc, _⟩, _⟩ := hsteady0
    exact ⟨c, hc⟩
  have hsched1 : ∀ k, t1.processor_schedule[k]? =
      if s.min_cycles_index = k then some (schedule ++ [dispatched_at s.current_time p])
      else s.processor_schedule[k]? := by
    intro k
    rw [csch, getElem?_set_of_some _ _ _ _ _ g1]
  have hidx1 : ∀ k, t1.processor_index[k]? =
      if s.min_cycles_index = k then some (idx + 1) else s.processor_index[k]? := by
    intro k
    rw [cidx, getElem?_set_of_some _ _ _ _ _ g2]
  have hcycles1 : ∀ k, t1.processor_cycles[k]? =
      if s.min_cycles_index = k then some p.CPU_cycles else s.processor_cycles[k]? := by
    intro k
    rw [ccyc, getElem?_set_of_some _ _ _ _ _ hcm]
  have hentries1 : entries_ok t1 := by
    intro k sched hk e he
    rw [hsched1 k] at hk
    rw [c5]
    by_cases hkD : s.min_cycles_index = k
    · rw [if_pos hkD] at hk
      cases hk
      rcases List.mem_append.mp he with he | he
      · exact hentries _ schedule g1 e he
      · rw [List.mem_singleton] at he
        subst he
        exact dispatched_at_ok _ _ hpq.1 hpq.2
    · rw [if_neg hkD] at hk
      exact hentries k sched hk e he
  have hlines1 : lines_ok t1.sjf_file := by
    rw [c9]
    exact lines_ok_append hlines (lines_ok_time _)
  have hlen1 : t1.processor_cycles.length = 4 := by
    rw [ccyc, List.length_set]
    exact hl3
  obtain ⟨hf, hentries2, hlines2, hcyc_hi, hcyc_lo⟩ :=
    steady_report_loop (c8.trans hempty) hentries1 hlines1 hlen1 hrep
  have hfr := hf
  obtain ⟨f1, f2, f3, f4, f5, _, _, f8, f9, f10⟩ := hf
  have hlen2 : t2.processor_schedule.length = 4 := by
    have := congrArg List.length f9
    simp only [List.length_map] at this
    rw [this, csch, List.length_set]
    exact hl1
  have hlen3 : t2.processor_cycles.length = 4 := by
    rw [f10]
    exact hlen1
  have hidx2 : t2.processor_index.length = 4 := by
    rw [f2, cidx, List.length_set]
    exact hl2
  have hqueue2 : ∀ q ∈ t2.process_queue,
      1000 ≤ q.CPU_cycles ∧ q.remaining_cycles = q.CPU_cycles := by
    rw [f1, c1]
    exact queue_facts_eraseIdx _ _ hqueue
  -- the schedule of the processor that received the process
  obtain ⟨sched2, hsched2, hcore2⟩ := MP_frame_slot_back hfr s.min_cycles_index
    (schedule ++ [dispatched_at s.current_time p]) (by rw [hsched1, if_pos rfl])
  obtain ⟨init, e, hsplit, hinitcore, hecore⟩ :=
    map_eq_concat forget_remaining sched2 schedule (dispatched_at s.current_time p) hcore2
  have hdisp : ∃ schedule0 schedule1 e1,
      s.processor_schedule[s.min_cycles_index]? = some schedule0 ∧
      t2.processor_schedule[s.min_cycles_index]? = some (schedule1 ++ [e1]) ∧
      schedule1.map forget_remaining = schedule0.map forget_remaining ∧
      forget_remaining e1 = forget_remaining (dispatched_at s.current_time p) :=
    ⟨schedule, init, e, g1, by rw [hsched2, hsplit], hinitcore, hecore⟩
  -- the entry of `processor_cycles` of that processor
  have hcycm : t2.processor_cycles[s.min_cycles_index]? = some p.CPU_cycles := by
    by_cases hmP : s.min_cycles_index < processor_count
    · obtain ⟨sch, ix, en, q1, q2, q3, q4⟩ := hcyc_lo s.min_cycles_index hmP hD
      rw [hsched2] at q1
      cases q1
      rw [f2, hidx1, if_pos rfl] at q2
      cases q2
      have hlen : init.length = idx + 1 := by
        have := forget_length hinitcore
        omega
      rw [hsplit, ← hlen, List.getElem?_concat_length] at q3
      cases q3
      rw [q4, f3, c5]
      have hstop : e.stop_time = s.current_time + p.CPU_cycles := by
        have := congrArg node.stop_time hecore
        exact this
      rw [hstop]
      congr 1
      omega
    · rw [hcyc_hi s.min_cycles_index (by omega), hcycles1, if_pos rfl]
  -- the new value of `min_cycles_index`
  have hm2 : m2 < max processor_count 1 ∧ ∃ c, t2.processor_cycles[m2]? = some c ∧ 0 < c := by
    by_cases hP0 : processor_count = 0
    · subst hP0
      rw [min_init_zero] at hinit
      cases hinit
      simp only [for_range] at hpick
      cases hpick
      rw [f5, c7]
      exact ⟨hminlt, p.CPU_cycles, hcycm, by omega⟩
    · have hmP : s.min_cycles_index < processor_count := by omega
      have h1 := min_init_pos _ _ _ _ _ hinit
        ⟨s.min_cycles_index, p.CPU_cycles, Nat.zero_le _, by omega, hcycm, by omega⟩
      have h2 := min_pick_loop_pos _ processor_count processor_count m1 m2 (Nat.le_refl _)
        ⟨by omega, h1.2⟩ hpick
      exact ⟨by omega, h2.2⟩
  obtain ⟨hm2lt, c, hc, hcpos⟩ := hm2
  rw [hc2] at hc
  cases hc
  rw [hs1]
  refine ⟨⟨hlen2, hidx2, hlen3, f8, hqueue2, ?_, hlines2,
    Or.inr ⟨hm2lt, ⟨c2, hc2, hcpos⟩, ?_⟩⟩, hp, ?_, ?_, hdisp⟩
  · exact entries_ok_mono (s := t2) rfl (by show t2.current_time ≤ t2.current_time + c2; omega)
      hentries2
  · intro k hk
    obtain ⟨sch0, ix0, q1, q2, q3⟩ := hslots k hk
    by_cases hkD : s.min_cycles_index = k
    · subst hkD
      rw [g1] at q1
      cases q1
      rw [g2] at q2
      cases q2
      refine ⟨sched2, idx + 1, hsched2, ?_, ?_⟩
      · show t2.processor_index[s.min_cycles_index]? = some (idx + 1)
        rw [f2, hidx1, if_pos rfl]
      · have := forget_length hcore2
        rw [this]
        simp [g3]
    · obtain ⟨sch2, hsch2, hcore⟩ := MP_frame_slot_back hfr k sch0
        (by rw [hsched1, if_neg hkD]; exact q1)
      refine ⟨sch2, ix0, hsch2, ?_, ?_⟩
      · show t2.processor_index[k]? = some ix0
        rw [f2, hidx1, if_neg hkD]
        exact q2
      · rw [forget_length hcore]
        exact q3
  · show t2.process_queue = s.process_queue.eraseIdx s.i
    rw [f1, c1]
  · show t2.total_waiting_time = s.total_waiting_time + (s.current_time - p.arrival_time)
    rw [f4, c6]

/-- Every iteration keeps the invariant, and an iteration that changes the
queue is a dispatch, at the clock of the state, of a process that has
arrived. -/
theorem MP_inv_iteration {processor_count : Nat} {s u : MPState}
    (hP : processor_count ≤ 4) (hinv : MP_inv processor_count s)
    (h : MP_iteration processor_count s = Except.ok u) :
    MP_inv processor_count u ∧
    (u.process_queue = s.process_queue ∨
      ∃ p, MP_dispatched s u p ∧ p.arrival_time ≤ s.current_time) := by
  obtain ⟨p, hp, hcase⟩ := MP_iteration_ok h
  rcases hcase with ⟨_, rfl⟩ | ⟨harr, c, s1, hc, hbranch, rfl⟩
  · exact ⟨hinv, Or.inl rfl⟩
  · have hphase := hinv.2.2.2.2.2.2.2
    rcases hphase with hcold | hsteady
    · have hc0 : c = 0 := by
        obtain ⟨hminlt, _, _, hempties⟩ := hcold
        obtain ⟨_, _, e3⟩ := hempties s.min_cycles_index (Nat.le_refl _) (by omega)
        rw [hc] at e3
        cases e3
        rfl
      rcases hbranch with ⟨hpos, _⟩ | ⟨_, hb⟩
      · omega
      · obtain ⟨g1, g2⟩ := cold_step hP hinv hcold hp hb
        exact ⟨g1, Or.inr ⟨p, g2, harr⟩⟩
    · have hcpos : 0 < c := by
        obtain ⟨_, ⟨c1, hc1, hpos⟩, _⟩ := hsteady
        rw [hc] at hc1
        cases hc1
        exact hpos
      rcases hbranch with ⟨_, hb⟩ | ⟨hneg, _⟩
      · obtain ⟨g1, g2⟩ := steady_step hP hinv hsteady hp hb
        exact ⟨g1, Or.inr ⟨p, g2, harr⟩⟩
      · exact absurd hcpos hneg

theorem MP_inv_reaches {processor_count : Nat} {s t : MPState}
    (hP : processor_count ≤ 4) (hr : MP_reaches processor_count s t)
    (hinv : MP_inv processor_count s) : MP_inv processor_count t := by
  induction hr with
  | refl => exact hinv
  | step _ _ hstep ih => exact (MP_inv_iteration hP ih hstep).1

/-- A run of `k` iterations passes through states the loop reaches. -/
theorem MP_run_reaches (processor_count k : Nat) (s t : MPState)
    (h : MP_run processor_count k s = Except.ok t) : MP_reaches processor_count s t := by
  induction k generalizing s with
  | zero =>
    simp only [MP_run] at h
    cases h
    exact MP_reaches.refl _
  | succ k ih =>
    unfold MP_run at h
    by_cases hl : s.processes_left = true
    · rw [if_pos hl] at h
      cases hstep : MP_iteration processor_count s with
      | error e => rw [hstep] at h; cases h
      | ok s1 =>
        rw [hstep] at h
        have h1 := ih s1 h
        clear ih h
        induction h1 with
        | refl => exact MP_reaches.step (MP_reaches.refl s) hl hstep
        | step _ hl2 hstep2 ih2 => exact MP_reaches.step ih2 hl2 hstep2
    · rw [if_neg hl] at h
      cases h
      exact MP_reaches.refl _

/-- The queue built from a generated workload holds processes of at least
1000 cycles whose remaining cycles equal their cycles. -/
theorem generated_queue_facts (sort : List node → List node)
    (hsort : std_sort_contract cycles_less sort) (process_list : List node)
    (hgen : generated_workload process_list) :
    ∀ p ∈ sorted_process_queue sort process_list,
      1000 ≤ p.CPU_cycles ∧ p.remaining_cycles = p.CPU_cycles := by
  intro p hp
  have hmem : p ∈ process_list :=
    (sorted_process_queue_spec sort hsort process_list).1.subset hp
  obtain ⟨j, hj⟩ := List.mem_iff_getElem?.mp hmem
  obtain ⟨_, h1, _, h2⟩ := hgen j p hj
  exact ⟨h1, h2⟩

/-- The invariant holds in every state the loop reaches on a generated
workload with at most four processors. -/
theorem MP_inv_generated (sort : List node → List node)
    (hsort : std_sort_contract cycles_less sort) (process_list : List node)
    (hgen : generated_workload process_list) (processor_count : Nat)
    (hP : processor_count ≤ 4) (s : MPState)
    (hreach : MP_reaches processor_count
      (MP_init (sorted_process_queue sort process_list)) s) :
    MP_inv processor_count s :=
  MP_inv_reaches hP hreach
    (MP_inv_init processor_count _ (generated_queue_facts sort hsort process_list hgen))

/-- C13: on a generated workload (arrival 50 * i, cycles in [1000, 11000]) with
at most four processors, every dispatch of `SJF_multiprocessor` (an iteration,
in a state the loop reaches, that changes the ready queue), during the fill-up
as well as in the steady state and for every processor, processor 0 included,
puts the process read from the queue at the end of the schedule of processor
`min_cycles_index` with start time = clock, stop time = clock + cycles and
waiting time = clock - arrival time, the clock being that of the moment of the
dispatch; the waiting time is added to the total. -/
theorem C13_multiprocessor_dispatch_times (sort : List node → List node)
    (hsort : std_sort_contract cycles_less sort) (process_list : List node)
    (hgen : generated_workload process_list) (processor_count : Nat)
    (hP : processor_count ≤ 4) (s u : MPState)
    (hreach : MP_reaches processor_count
      (MP_init (sorted_process_queue sort process_list)) s)
    (hstep : MP_iteration processor_count s = Except.ok u)
    (hdispatch : u.process_queue ≠ s.process_queue) :
    ∃ p schedule e,
      s.process_queue[s.i]? = some p ∧
      u.process_queue = s.process_queue.eraseIdx s.i ∧
      u.processor_schedule[s.min_cycles_index]? = some (schedule ++ [e]) ∧
      node_key e = node_key p ∧
      e.start_time = s.current_time ∧
      e.stop_time = s.current_time + p.CPU_cycles ∧
      e.waiting_time = s.current_time - p.arrival_time ∧
      u.total_waiting_time = s.total_waiting_time + (s.current_time - p.arrival_time) := by
  have hinv := MP_inv_generated sort hsort process_list hgen processor_count hP s hreach
  rcases (MP_inv_iteration hP hinv hstep).2 with hq | ⟨p, hd, _⟩
  · exact absurd hq hdispatch
  · obtain ⟨h1, h2, h3, schedule0, schedule, e, _, h5, _, h7⟩ := hd
    refine ⟨p, schedule, e, h1, h2, h5, ?_, ?_, ?_, ?_, h3⟩
    · exact (node_key_of_forget_eq h7).trans rfl
    · exact congrArg node.start_time h7
    · exact congrArg node.stop_time h7
    · exact congrArg node.waiting_time h7

/-! ## The concrete workloads of the multi-processor scheduler -/

theorem mp_tie_workload_generated : generated_workload mp_tie_workload := by
  intro j p hj
  rcases j with _ | _ | _ | _ | j <;>
    simp [mp_tie_workload] at hj <;> subst hj <;> simp [fresh_node]

theorem mp_equal_workload_generated : generated_workload mp_equal_workload := by
  intro j p hj
  rcases j with _ | _ | _ | _ | _ | j <;>
    simp [mp_equal_workload] at hj <;> subst hj <;> simp [fresh_node]

/-- C13 on the tie workload with two processors: the third dispatch, at clock
1050, of process 3 to processor 0. -/
theorem C13_multiprocessor_dispatch_times_witness :
    ∃ p schedule e,
      (MP_state_after 2 3 (insertion_sort true mp_tie_workload)).process_queue[
        (MP_state_after 2 3 (insertion_sort true mp_tie_workload)).i]? = some p ∧
      (MP_state_after 2 4 (insertion_sort true mp_tie_workload)).process_queue =
        (MP_state_after 2 3 (insertion_sort true mp_tie_workload)).process_queue.eraseIdx
          (MP_state_after 2 3 (insertion_sort true mp_tie_workload)).i ∧
      (MP_state_after 2 4 (insertion_sort true mp_tie_workload)).processor_schedule[
        (MP_state_after 2 3 (insertion_sort true mp_tie_workload)).min_cycles_index]?
          = some (schedule ++ [e]) ∧
      node_key e = node_key p ∧
      e.start_time = (MP_state_after 2 3 (insertion_sort true mp_tie_workload)).current_time ∧
      e.stop_time = (MP_state_after 2 3 (insertion_sort true mp_tie_workload)).current_time
        + p.CPU_cycles ∧
      e.waiting_time = (MP_state_after 2 3 (insertion_sort true mp_tie_workload)).current_time
        - p.arrival_time ∧
      (MP_state_after 2 4 (insertion_sort true mp_tie_workload)).total_waiting_time =
        (MP_state_after 2 3 (insertion_sort true mp_tie_workload)).total_waiting_time +
          ((MP_state_after 2 3 (insertion_sort true mp_tie_workload)).current_time
            - p.arrival_time) :=
  C13_multiprocessor_dispatch_times (insertion_sort true) (insertion_sort_contract true)
    mp_tie_workload mp_tie_workload_generated 2 (by decide)
    (MP_state_after 2 3 (insertion_sort true mp_tie_workload))
    (MP_state_after 2 4 (insertion_sort true mp_tie_workload))
    (MP_run_reaches 2 3 _ _ (by decide!)) (by decide!) (by decide!)

/-- C14 on the tie workload with two processors: the dispatch at clock 1050
takes process 3, of 2000 cycles, while process 4, of 3000 cycles, has arrived
as well. -/
theorem C14_multiprocessor_dispatch_shortest_arrived_witness :
    ∃ p, MP_moved (MP_state_after 2 3 (insertion_sort true mp_tie_workload))
        (MP_state_after 2 4 (insertion_sort true mp_tie_workload)) p ∧
      p.arrival_time ≤ (MP_state_after 2 3 (insertion_sort true mp_tie_workload)).current_time ∧
      ∀ r ∈ (MP_state_after 2 3 (insertion_sort true mp_tie_workload)).process_queue,
        r.arrival_time ≤ (MP_state_after 2 3 (insertion_sort true mp_tie_workload)).current_time →
        ¬ r.CPU_cycles < p.CPU_cycles :=
  C14_multiprocessor_dispatch_shortest_arrived (insertion_sort true)
    (insertion_sort_contract true) mp_tie_workload 2
    (MP_state_after 2 3 (insertion_sort true mp_tie_workload))
    (MP_state_after 2 4 (insertion_sort true mp_tie_workload))
    (MP_run_reaches 2 3 _ _ (by decide!)) (by decide!) (by decide!)

/-- C18: in every state the loop of `SJF_multiprocessor` reaches, the records
of the ready queue and of the four schedules together are those of the
workload, each as often as there; so with distinct process ids no process is in
two schedules, twice in one schedule, or in the queue and in a schedule, and
the current records of two processors are different processes.  Every
iteration that changes the queue moves the process `process_queue[i]`, and
nothing else, from the queue into the schedules. -/
theorem C18_each_process_in_one_place (sort : List node → List node)
    (hsort : std_sort_contract cycles_less sort) (process_list : List node)
    (processor_count : Nat) (s : MPState)
    (hreach : MP_reaches processor_count
      (MP_init (sorted_process_queue sort process_list)) s) :
    (MP_keys s).Perm (process_list.map node_key) ∧
    ((process_list.map (fun p => p.process_ID)).Nodup →
      ((s.process_queue ++ s.processor_schedule.flatten).map (fun p => p.process_ID)).Nodup) ∧
    ∀ u, MP_iteration processor_count s = Except.ok u →
      u.process_queue ≠ s.process_queue → ∃ p, MP_moved s u p := by
  obtain ⟨hperm, hsorted⟩ := sorted_process_queue_spec sort hsort process_list
  have hkeys : (MP_keys s).Perm (process_list.map node_key) := by
    have h1 := MP_keys_reaches hreach rfl (MP_scan_inv_init _ hsorted)
    rw [MP_keys_init] at h1
    exact h1.trans (hperm.map node_key)
  obtain ⟨hempty, _⟩ := MP_scan_inv_reaches hreach ⟨rfl, MP_scan_inv_init _ hsorted⟩
  refine ⟨hkeys, ?_, ?_⟩
  · intro hnodup
    have h2 := hkeys.map (fun k => k.1)
    simp only [MP_keys, List.map_map] at h2
    have h3 : (List.map ((fun k => k.1) ∘ node_key)
        (s.process_queue ++ s.processor_schedule.flatten)).Nodup :=
      h2.nodup_iff.mpr hnodup
    exact h3
  · intro u hstep hne
    rcases (MP_iteration_moved hempty hstep).2 with ⟨rfl, _⟩ | ⟨_, _, hq⟩
    · exact absurd rfl hne
    · rcases hq with ⟨hq, _⟩ | hm
      · exact absurd hq hne
      · exact hm

/-- C18 on the tie workload with two processors, in the state after the
dispatch at clock 1050. -/
theorem C18_each_process_in_one_place_witness :
    (MP_keys (MP_state_after 2 4 (insertion_sort true mp_tie_workload))).Perm
      (mp_tie_workload.map node_key) ∧
    ((mp_tie_workload.map (fun p => p.process_ID)).Nodup →
      (((MP_state_after 2 4 (insertion_sort true mp_tie_workload)).process_queue ++
        (MP_state_after 2 4 (insertion_sort true mp_tie_workload)).processor_schedule.flatten).map
          (fun p => p.process_ID)).Nodup) ∧
    ∀ u, MP_iteration 2 (MP_state_after 2 4 (insertion_sort true mp_tie_workload))
        = Except.ok u →
      u.process_queue ≠ (MP_state_after 2 4 (insertion_sort true mp_tie_workload)).process_queue →
      ∃ p, MP_moved (MP_state_after 2 4 (insertion_sort true mp_tie_workload)) u p :=
  C18_each_process_in_one_place (insertion_sort true) (insertion_sort_contract true)
    mp_tie_workload 2 (MP_state_after 2 4 (insertion_sort true mp_tie_workload))
    (MP_run_reaches 2 4 _ _ (by decide!))

/-! ## Processors that finish at the same time -/

/-- C15: on the tie workload with two processors, the processes 1 and 2 both
stop at 1050.  At the decision point 1050 the queue holds the processes 3 and
4, which have arrived; processor 0 gets process 3, while processor 1, whose
`processor_cycles` is 0, gets nothing, neither then nor at the next decision
point 3050, where process 4 goes to processor 0 as well. -/
theorem C15_tied_processor_stays_empty :
    MP_run 2 3 (MP_init (sorted_process_queue (insertion_sort true) mp_tie_workload))
      = Except.ok (MP_state_after 2 3 (insertion_sort true mp_tie_workload)) ∧
    (MP_state_after 2 3 (insertion_sort true mp_tie_workload)).current_time = 1050 ∧
    (MP_state_after 2 3 (insertion_sort true mp_tie_workload)).process_queue
      = [fresh_node 3 2000 40 100, fresh_node 4 3000 50 150] ∧
    (MP_state_after 2 3 (insertion_sort true mp_tie_workload)).processor_schedule
      = [[run_record (fresh_node 1 1050 20 0) 0 1050 0 1000],
         [run_record (fresh_node 2 1000 30 50) 50 1050 0 1000], [], []] ∧
    MP_iteration 2 (MP_state_after 2 3 (insertion_sort true mp_tie_workload))
      = Except.ok (MP_state_after 2 4 (insertion_sort true mp_tie_workload)) ∧
    (MP_state_after 2 4 (insertion_sort true mp_tie_workload)).processor_cycles
      = [2000, 0, 0, 0] ∧
    (MP_state_after 2 4 (insertion_sort true mp_tie_workload)).process_queue
      = [fresh_node 4 3000 50 150] ∧
    (MP_state_after 2 4 (insertion_sort true mp_tie_workload)).processor_schedule
      = [[run_record (fresh_node 1 1050 20 0) 0 1050 0 1000,
          run_record (fresh_node 3 2000 40 100) 1050 3050 950 2000],
         [run_record (fresh_node 2 1000 30 50) 50 1050 0 0], [], []] ∧
    MP_iteration 2 (MP_state_after 2 4 (insertion_sort true mp_tie_workload))
      = Except.ok (MP_state_after 2 5 (insertion_sort true mp_tie_workload)) ∧
    (MP_state_after 2 5 (insertion_sort true mp_tie_workload)).process_queue = [] ∧
    (MP_state_after 2 5 (insertion_sort true mp_tie_workload)).processor_schedule
      = [[run_record (fresh_node 1 1050 20 0) 0 1050 0 1000,
          run_record (fresh_node 3 2000 40 100) 1050 3050 950 2000,
          run_record (fresh_node 4 3000 50 150) 3050 6050 2900 3000],
         [run_record (fresh_node 2 1000 30 50) 50 1050 0 (-2000)], [], []] := by
  decide!

/-- C16: on the workload `mp_equal_workload` with two processors, the dispatch
at the decision point 1000 leaves both processors with 2050 remaining cycles;
the steady-state loop then sets `min_cycles_index` to 1, the higher of the two
indices, and the clock goes on by 2050. -/
theorem C16_tie_picks_highest_index :
    MP_run 2 3 (MP_init (sorted_process_queue (insertion_sort true) mp_equal_workload))
      = Except.ok (MP_state_after 2 3 (insertion_sort true mp_equal_workload)) ∧
    (MP_state_after 2 3 (insertion_sort true mp_equal_workload)).current_time = 1000 ∧
    (MP_state_after 2 3 (insertion_sort true mp_equal_workload)).processor_cycles
      = [950, 3000, 0, 0] ∧
    MP_iteration 2 (MP_state_after 2 3 (insertion_sort true mp_equal_workload))
      = Except.ok (MP_state_after 2 4 (insertion_sort true mp_equal_workload)) ∧
    (MP_state_after 2 4 (insertion_sort true mp_equal_workload)).processor_cycles
      = [2050, 2050, 0, 0] ∧
    (MP_state_after 2 4 (insertion_sort true mp_equal_workload)).min_cycles_index = 1 ∧
    (MP_state_after 2 4 (insertion_sort true mp_equal_workload)).current_time = 1000 + 2050 ∧
    min_init [2050, 2050, 0, 0] 2 0 0 = Except.ok 0 ∧
    for_range (min_pick [2050, 2050, 0, 0]) 2 0 = Except.ok 1 := by
  decide!

/-- The main loop is left only by an iteration that starts with
`processes_executed = 50`, whatever the number of processes. -/
theorem processes_left_only_at_50 {processor_count : Nat} {s u : MPState}
    (hempty : s.empty_processor = false) (hleft : s.processes_left = true)
    (h : MP_iteration processor_count s = Except.ok u) (hu : u.processes_left = false) :
    s.processes_executed = 50 := by
  obtain ⟨p, _, hcase⟩ := MP_iteration_ok h
  rcases hcase with ⟨_, rfl⟩ | ⟨_, c, s1, _, hbranch, rfl⟩
  · rw [hleft] at hu
    cases hu
  · rcases hbranch with ⟨_, hb⟩ | ⟨_, hb⟩
    · obtain ⟨t1, t2, m1, m2, c2, hd, hrep, _, _, _, rfl⟩ := steady_branch_ok hb
      have ht1 : t1.empty_processor = false ∧ t1.processes_left = true ∧
          t1.processes_executed = s.processes_executed := by
        by_cases hq : (MP_header s).process_queue.isEmpty = true
        · rw [if_pos hq] at hd
          cases hd
          exact ⟨hempty, hleft, rfl⟩
        · rw [if_neg hq] at hd
          obtain ⟨_, _, _, he, hl, hpe, _, _⟩ := steady_dispatch_moved hd
          exact ⟨he.trans hempty, hl.trans hleft, hpe⟩
      have hloop := for_range_inv steady_report
        (fun _ a => a.empty_processor = false ∧
          a.processes_executed = s.processes_executed ∧
          (a.processes_left = true ∨ s.processes_executed = 50))
        processor_count t1 t2 ⟨ht1.1, ht1.2.2, Or.inl ht1.2.1⟩
        (fun k a b _ ha hb1 => by
          obtain ⟨ha1, ha2, ha3⟩ := ha
          rcases steady_report_ok ha1 hb1 with ⟨_, rfl⟩ | ⟨_, _, _, _, _, _, _, hcase⟩
          · exact ⟨ha1, ha2, ha3⟩
          · rcases hcase with ⟨_, rfl⟩ | ⟨_, rfl⟩
            · exact ⟨ha1, ha2, ha3⟩
            · refine ⟨ha1, ha2, ?_⟩
              by_cases h50 : a.processes_executed = 50
              · exact Or.inr (ha2 ▸ h50)
              · rcases ha3 with ha3 | ha3
                · left
                  show (if a.processes_executed = 50 then false else a.processes_left) = true
                  rw [if_neg h50]
                  exact ha3
                · exact Or.inr ha3) hrep
      rcases hloop.2.2 with hl | hl
      · have hu1 : t2.processes_left = false := hu
        rw [hl] at hu1
        cases hu1
      · exact hl
    · obtain ⟨t1, t2, hd, hrep, hfin⟩ := cold_branch_ok hb
      obtain ⟨_, _, _, he, hl, _, _⟩ := cold_dispatch_moved hd
      have hloop := for_range_inv cold_report
        (fun _ a => a.processes_left = true)
        processor_count t1 t2 (hl.trans hleft)
        (fun k a b _ ha hb1 => by
          rcases cold_report_ok hb1 with ⟨_, rfl⟩ | ⟨_, _, rfl⟩ | ⟨_, _, _, _, _, _, _, _, rfl⟩
          · exact ha
          · exact ha
          · exact ha) hrep
      have hs1 : s1.processes_left = t2.processes_left := by
        rcases hfin with ⟨_, rfl⟩ | ⟨_, _, _, _, _, rfl⟩
        · rfl
        · rfl
      have hu1 : s1.processes_left = false := hu
      rw [hs1, hloop] at hu1
      cases hu1

/-- C17: on the tie workload, four processes on two processors, the loop of
`SJF_multiprocessor` reaches a state in which the queue is empty and all four
processes have stopped, so that no processor is busy, but `processes_left`
still holds and `processes_executed` is 2; the next iteration reads
`process_queue[0]` in the empty queue, and the function ends in that fault
instead of leaving its loop. -/
theorem C17_loop_exit_and_counter :
    MP_run 2 5 (MP_init (sorted_process_queue (insertion_sort true) mp_tie_workload))
      = Except.ok (MP_state_after 2 5 (insertion_sort true mp_tie_workload)) ∧
    (MP_state_after 2 5 (insertion_sort true mp_tie_workload)).process_queue = [] ∧
    (MP_state_after 2 5 (insertion_sort true mp_tie_workload)).current_time = 6050 ∧
    (MP_state_after 2 5 (insertion_sort true mp_tie_workload)).processor_schedule.flatten.map
        (fun e => (e.process_ID, e.stop_time))
      = [(1, 1050), (3, 3050), (4, 6050), (2, 1050)] ∧
    (MP_state_after 2 5 (insertion_sort true mp_tie_workload)).processes_executed = 2 ∧
    (MP_state_after 2 5 (insertion_sort true mp_tie_workload)).processes_left = true ∧
    MP_iteration 2 (MP_state_after 2 5 (insertion_sort true mp_tie_workload))
      = Except.error Fault.out_of_range ∧
    SJF_multiprocessor (insertion_sort true) mp_tie_workload 4 2
      = Except.error Fault.out_of_range := by
  decide!

/-! ## The whole run of `SJF_multiprocessor` -/

/-- The workload `mp_workload_50` is what `generate_processes` builds from the
draws `mp_draws_50`. -/
theorem mp_workload_50_from_generator :
    generate_processes mp_draws_50 0 50 =
      some { process_list := mp_workload_50, total_cycles := 217825, arrival := 2500,
             draws := [] } := by
  decide!

/-- The tie workload is what `generate_processes` builds from the values 1050,
20, 1000, 30, 2000, 40, 3000, 50 of the random source. -/
theorem mp_tie_workload_from_generator :
    (generate_processes [1050, 20, 1000, 30, 2000, 40, 3000, 50] 0 4).map
      (fun g => g.process_list) = some mp_tie_workload := by
  decide

/-- Every record of the schedules of a state with `entries_ok` has run, or
runs, for exactly its cycles. -/
theorem entries_ok_flatten {s : MPState} (h : entries_ok s) :
    ∀ e ∈ s.processor_schedule.flatten, entry_ok s.current_time e := by
  intro e he
  obtain ⟨schedule, hmem, hes⟩ := List.mem_flatten.mp he
  obtain ⟨k, hk⟩ := List.mem_iff_getElem?.mp hmem
  exact h k schedule hk e hes

/-! ## The remaining cycles of the records -/

/-- C20: on the tie workload with two processors, a workload that
`generate_processes` builds, the state after five iterations holds the record
of process 2 with `remaining_cycles = -2000`: its processor has been idle since
the clock 1050, and the report at the clock 3050 has written
`stop_time - current_time` into the record. -/
theorem C20_remaining_cycles_negative :
    generated_workload mp_tie_workload ∧
    MP_run 2 5 (MP_init (sorted_process_queue (insertion_sort true) mp_tie_workload))
      = Except.ok (MP_state_after 2 5 (insertion_sort true mp_tie_workload)) ∧
    (MP_state_after 2 5 (insertion_sort true mp_tie_workload)).processor_schedule[1]?
      = some [run_record (fresh_node 2 1000 30 50) 50 1050 0 (-2000)] ∧
    (run_record (fresh_node 2 1000 30 50) 50 1050 0 (-2000)).remaining_cycles < 0 :=
  ⟨mp_tie_workload_generated, by decide!, by decide!, by decide⟩

/-- C20: on a generated workload with at most four processors, in every state
the loop of `SJF_multiprocessor` reaches, a record of the ready queue has its
remaining cycles equal to its cycles, which are at least 1000; a record of a
schedule has remaining cycles not above its cycles; and every process row of
the report shows remaining cycles above 0 and not above the cycles. -/
theorem C20_remaining_cycles_bounds (sort : List node → List node)
    (hsort : std_sort_contract cycles_less sort) (process_list : List node)
    (hgen : generated_workload process_list) (processor_count : Nat)
    (hP : processor_count ≤ 4) (s : MPState)
    (hreach : MP_reaches processor_count
      (MP_init (sorted_process_queue sort process_list)) s) :
    (∀ p ∈ s.process_queue,
      p.remaining_cycles = p.CPU_cycles ∧ 0 ≤ p.remaining_cycles) ∧
    (∀ e ∈ s.processor_schedule.flatten, e.remaining_cycles ≤ e.CPU_cycles) ∧
    (∀ k e, Line.process k e ∈ s.sjf_file →
      0 < e.remaining_cycles ∧ e.remaining_cycles ≤ e.CPU_cycles) := by
  obtain ⟨_, _, _, _, hqueue, hentries, hlines, _⟩ :=
    MP_inv_generated sort hsort process_list hgen processor_count hP s hreach
  refine ⟨?_, ?_, hlines⟩
  · intro p hp
    obtain ⟨h1, h2⟩ := hqueue p hp
    exact ⟨h2, by omega⟩
  · intro e he
    exact (entries_ok_flatten hentries e he).2.2.2.1

/-- C20 on the tie workload with two processors, in the state after five
iterations. -/
theorem C20_remaining_cycles_bounds_witness :
    (∀ p ∈ (MP_state_after 2 5 (insertion_sort true mp_tie_workload)).process_queue,
      p.remaining_cycles = p.CPU_cycles ∧ 0 ≤ p.remaining_cycles) ∧
    (∀ e ∈ (MP_state_after 2 5 (insertion_sort true mp_tie_workload)).processor_schedule.flatten,
      e.remaining_cycles ≤ e.CPU_cycles) ∧
    (∀ k e, Line.process k e ∈ (MP_state_after 2 5 (insertion_sort true mp_tie_workload)).sjf_file →
      0 < e.remaining_cycles ∧ e.remaining_cycles ≤ e.CPU_cycles) :=
  C20_remaining_cycles_bounds (insertion_sort true) (insertion_sort_contract true)
    mp_tie_workload mp_tie_workload_generated 2 (by decide)
    (MP_state_after 2 5 (insertion_sort true mp_tie_workload))
    (MP_run_reaches 2 5 _ _ (by decide!))

/-! ## The standard deviation of the memory footprints -/

/-- C30: the standard deviation handed to `footprints_distribution` is 16: the
expression `101/6` is an `int` division and is truncated; it is not the
quotient 101/6 = 16.8333... that the comment of the code works out. -/
theorem C30_stddev_is_truncated :
    footprints_distribution_stddev = 16 ∧
    footprints_distribution_stddev ≠ 101 / 6 ∧
    footprints_stddev_comment = 50.5 / 3 ∧
    footprints_distribution_stddev < footprints_stddev_comment := by
  have h : footprints_distribution_stddev = 16 := by
    unfold footprints_distribution_stddev
    norm_num [Int.tdiv]
  refine ⟨h, ?_, ?_, ?_⟩
  · rw [h]; norm_num
  · unfold footprints_stddev_comment; norm_num
  · rw [h]; unfold footprints_stddev_comment; norm_num

/-! ## The scan of the single-processor loop past the end of the queue -/

/-- In a state whose queue holds no arrived process, the loop steps `i` up to
the size of the queue without dispatching. -/
theorem starvation_scan (s : SPState) (k : Nat)
    (hk : s.i + k = s.process_queue.length) (hne : s.process_queue ≠ [])
    (hnone : ∀ p ∈ s.process_queue, s.current_time < p.arrival_time) :
    Reaches s { s with i := s.process_queue.length } := by
  induction k generalizing s with
  | zero =>
    have h : ({ s with i := s.process_queue.length } : SPState) = s := by
      rw [← hk]
      cases s
      rfl
    rw [h]
    exact Reaches.refl s
  | succ k ih =>
    have hlt : s.i < s.process_queue.length := by omega
    have hp : s.process_queue[s.i]? = some (s.process_queue[s.i]) :=
      List.getElem?_eq_getElem hlt
    have hlate := hnone _ (List.getElem_mem hlt)
    have hstep : SJF_iteration s = Except.ok { s with i := s.i + 1 } := by
      unfold SJF_iteration
      rw [hp]
      simp only
      rw [if_neg (not_le_of_lt hlate)]
    have hempty : s.process_queue.isEmpty = false := by
      cases hq : s.process_queue with
      | nil => exact absurd hq hne
      | cons a l => rfl
    have h1 := ih { s with i := s.i + 1 }
      (by show s.i + 1 + k = s.process_queue.length; omega) hne hnone
    exact Reaches_trans (Reaches.step (Reaches.refl s) hempty hstep) h1

/-- C26: there is a workload that is not empty, a single process that arrives
at time 50, on which the scan of `SJF_single_processor` steps `i` up to the
size of the queue while the queue still holds the process, and then reads
`process_queue[i]` past its end; and the same happens from every state the
loop reaches in which the queue is not empty and holds no process that has
arrived. -/
theorem C26_scan_runs_past_queue :
    (∃ process_list : List node, process_list ≠ [] ∧
      (∀ p ∈ process_list, 0 < p.arrival_time) ∧
      ∃ s, Reaches (SP_init (sorted_process_queue (insertion_sort true) process_list)) s ∧
        s.process_queue ≠ [] ∧ s.i = s.process_queue.length ∧ s.sjf_file = [] ∧
        SJF_iteration s = Except.error Fault.out_of_range ∧
        SJF_single_processor (insertion_sort true) process_list 1
          = Except.error Fault.out_of_range) ∧
    ∀ (sort : List node → List node) (process_list : List node) (s : SPState),
      std_sort_contract cycles_less sort →
      Reaches (SP_init (sorted_process_queue sort process_list)) s →
      s.process_queue ≠ [] →
      (∀ p ∈ s.process_queue, s.current_time < p.arrival_time) →
      Reaches (SP_init (sorted_process_queue sort process_list))
        { s with i := s.process_queue.length } ∧
      SJF_iteration { s with i := s.process_queue.length }
        = Except.error Fault.out_of_range := by
  constructor
  · refine ⟨late_workload, by decide, by decide, ?_⟩
    refine ⟨{ process_queue := late_workload, i := 1, current_time := 0,
              waiting_time := 0, total_waiting_time := 0, sjf_file := [] }, ?_, by decide,
      rfl, rfl, rfl, rfl⟩
    exact Reaches.step (Reaches.refl _) rfl rfl
  · intro sort process_list s hsort hreach hne hnone
    have hinv : SP_scan_inv s := SP_scan_inv_reaches hreach
      (SP_scan_inv_init _ (sorted_process_queue_spec sort hsort process_list).2)
    refine ⟨Reaches_trans hreach
      (starvation_scan s (s.process_queue.length - s.i) ?_ hne hnone), ?_⟩
    · have := hinv.2.1
      omega
    · unfold SJF_iteration
      simp

/-! ## The clock of the single-processor loop -/

theorem SP_clock_inv_init (q : List node) : SP_clock_inv (SP_init q) := by
  refine ⟨rfl, ?_⟩
  intro j r hj
  simp [SP_init] at hj

theorem SP_clock_inv_iteration {s u : SPState} (hinv : SP_clock_inv s)
    (h : SJF_iteration s = Except.ok u) : SP_clock_inv u := by
  obtain ⟨htime, hrows⟩ := hinv
  obtain ⟨p, _, hcase⟩ := SJF_iteration_ok h
  rcases hcase with ⟨_, _, _, ht, _, _, hfile⟩ | ⟨_, _, _, ht, _, _, hfile⟩
  · refine ⟨?_, ?_⟩
    · rw [ht, hfile, htime]
      simp
    · intro j r hj
      rw [hfile] at hj ⊢
      by_cases hlt : j < s.sjf_file.length
      · rw [List.getElem?_append_left hlt] at hj
        rw [List.take_append_of_le_length (Nat.le_of_lt hlt),
          List.take_append_of_le_length (Nat.succ_le_of_lt hlt)]
        exact hrows j r hj
      · have hge : s.sjf_file.length ≤ j := Nat.le_of_not_lt hlt
        rw [List.getElem?_append_right hge] at hj
        have hj0 : j - s.sjf_file.length = 0 := by
          by_contra hne
          have : 1 ≤ j - s.sjf_file.length := Nat.one_le_iff_ne_zero.mpr hne
          rw [List.getElem?_eq_none (by simpa using this)] at hj
          cases hj
        rw [hj0] at hj
        have hje : j = s.sjf_file.length := by omega
        simp only [List.getElem?_cons_zero, Option.some.injEq] at hj
        subst hj
        subst hje
        refine ⟨?_, ?_⟩
        · rw [List.take_left']
          · exact htime
          · rfl
        · rw [List.take_of_length_le (by simp)]
          simp [htime]
  · refine ⟨?_, ?_⟩
    · rw [ht, hfile]; exact htime
    · rw [hfile]; exact hrows

theorem SP_clock_inv_reaches {s t : SPState} (hr : Reaches s t) (hinv : SP_clock_inv s) :
    SP_clock_inv t := by
  induction hr with
  | refl => exact hinv
  | step _ _ hstep ih => exact SP_clock_inv_iteration ih hstep
/-- C28: when `SJF_single_processor` returns, the first row of its report
starts at 0, every later row starts where the row in front of it stops, and the
last row stops at the sum of the cycles of the whole workload, which is the
clock at the end of the loop and, for a workload built by `generate_processes`
from `total_cycles = 0`, the `total_cycles` computed there. -/
theorem C28_server_never_idle (sort : List node → List node)
    (hsort : std_sort_contract cycles_less sort) (process_list : List node)
    (num_processes : Int) (r : SPResult)
    (h : SJF_single_processor sort process_list num_processes = Except.ok r) :
    (∀ row, r.loop_end.sjf_file.head? = some row → row.start_time = 0) ∧
    (∀ (j : Nat) (a b : Row), r.loop_end.sjf_file[j]? = some a →
      r.loop_end.sjf_file[j + 1]? = some b → b.start_time = a.stop_time) ∧
    (∀ row, r.loop_end.sjf_file.getLast? = some row →
      row.stop_time = (process_list.map (fun p => p.CPU_cycles)).sum) ∧
    r.loop_end.current_time = (process_list.map (fun p => p.CPU_cycles)).sum ∧
    ∀ draws g, generate_processes draws 0 num_processes = some g →
      g.process_list = process_list →
      r.loop_end.current_time = g.total_cycles ∧
      ∀ row, r.loop_end.sjf_file.getLast? = some row → row.stop_time = g.total_cycles := by
  obtain ⟨hreach, hq, _⟩ := SJF_single_processor_ok h
  obtain ⟨htime, hrows⟩ := SP_clock_inv_reaches hreach (SP_clock_inv_init _)
  obtain ⟨_, _, hperm⟩ := SP_report_inv_reaches hreach (SP_report_inv_init _)
  rw [hq, List.append_nil] at hperm
  have hperm1 := hperm.trans (sorted_process_queue_spec sort hsort process_list).1
  have hsum : (r.loop_end.sjf_file.map (fun row => row.process.CPU_cycles)).sum
      = (process_list.map (fun p => p.CPU_cycles)).sum := by
    have h1 := (hperm1.map (fun p => p.CPU_cycles)).sum_eq
    simp only [List.map_map] at h1
    exact h1
  have hlast : ∀ row, r.loop_end.sjf_file.getLast? = some row →
      row.stop_time = (process_list.map (fun p => p.CPU_cycles)).sum := by
    intro row hrow
    rw [List.getLast?_eq_getElem?] at hrow
    have hlen : r.loop_end.sjf_file.length ≠ 0 := by
      intro h0
      rw [List.getElem?_eq_none (by omega)] at hrow
      cases hrow
    have h2 := (hrows _ row hrow).2
    rw [List.take_of_length_le (by omega)] at h2
    rw [h2, hsum]
  refine ⟨?_, ?_, hlast, htime.trans hsum, ?_⟩
  · intro row hrow
    have h0 : r.loop_end.sjf_file[0]? = some row := by
      rw [← List.head?_eq_getElem?]
      exact hrow
    have h1 := (hrows 0 row h0).1
    simpa using h1
  · intro j a b ha hb
    rw [(hrows j a ha).2, (hrows (j + 1) b hb).1]
  · intro draws g hg hpl
    obtain ⟨added, hlist, _, _, _, htotal, _⟩ := generate_loop_spec _ _ _ _ hg
    simp only [List.nil_append] at hlist
    have hg1 : g.total_cycles = (process_list.map (fun p => p.CPU_cycles)).sum := by
      rw [htotal, ← hpl, hlist]
      simp
    refine ⟨?_, ?_⟩
    · rw [hg1]; exact htime.trans hsum
    · intro row hrow
      rw [hg1]; exact hlast row hrow

/-- C28 on the scenario workload: the rows start at 0, 2000 and 3000, and the
last one stops at 4500 = 2000 + 1000 + 1500. -/
theorem C28_server_never_idle_witness :
    (∀ row, scenario_result.loop_end.sjf_file.head? = some row → row.start_time = 0) ∧
    (∀ (j : Nat) (a b : Row), scenario_result.loop_end.sjf_file[j]? = some a →
      scenario_result.loop_end.sjf_file[j + 1]? = some b → b.start_time = a.stop_time) ∧
    (∀ row, scenario_result.loop_end.sjf_file.getLast? = some row →
      row.stop_time = ((scenario_workload 20 30 40).map (fun p => p.CPU_cycles)).sum) ∧
    scenario_result.loop_end.current_time
      = ((scenario_workload 20 30 40).map (fun p => p.CPU_cycles)).sum ∧
    ∀ draws g, generate_processes draws 0 3 = some g →
      g.process_list = scenario_workload 20 30 40 →
      scenario_result.loop_end.current_time = g.total_cycles ∧
      ∀ row, scenario_result.loop_end.sjf_file.getLast? = some row →
        row.stop_time = g.total_cycles :=
  C28_server_never_idle (insertion_sort true) (insertion_sort_contract true)
    (scenario_workload 20 30 40) 3 scenario_result rfl
/-! ## No starvation on the workloads of the generator -/

/-- Among arrival times 0, 50, 100, ... the first `k + 1` are at most `t` when
`50 * k ≤ t`. -/
theorem arrived_prefix (arrivals : List Int)
    (harr : ∀ (j : Nat) (a : Int), arrivals[j]? = some a → a = 50 * (j : Int))
    (k : Nat) (t : Int) (hk : k < arrivals.length) (ht : 50 * (k : Int) ≤ t) :
    k + 1 ≤ (arrivals.filter (fun a => decide (a ≤ t))).length := by
  have hsub : ((arrivals.take (k + 1)).filter (fun a => decide (a ≤ t))).Sublist
      (arrivals.filter (fun a => decide (a ≤ t))) :=
    (List.take_sublist _ _).filter _
  have hall : (arrivals.take (k + 1)).filter (fun a => decide (a ≤ t))
      = arrivals.take (k + 1) := by
    rw [List.filter_eq_self]
    intro a ha
    obtain ⟨j, hj⟩ := List.mem_iff_getElem?.mp ha
    rw [List.getElem?_take] at hj
    by_cases hjk : j < k + 1
    · rw [if_pos hjk] at hj
      have := harr j a hj
      simp only [decide_eq_true_eq]
      have hjk1 : (j : Int) ≤ (k : Int) := by omega
      omega
    · rw [if_neg hjk] at hj
      cases hj
  have hlen := hsub.length_le
  rw [hall, List.length_take] at hlen
  omega

/-- When `D` and `Q` together are the arrival times 0, 50, 100, ..., `Q` is not
empty and the clock has reached 50 times the size of `D`, some time in `Q` is
at most the clock. -/
theorem arrived_in_queue (arrivals D Q : List Int)
    (harr : ∀ (j : Nat) (a : Int), arrivals[j]? = some a → a = 50 * (j : Int))
    (hperm : (D ++ Q).Perm arrivals) (hQ : Q ≠ []) (t : Int)
    (ht : 50 * (D.length : Int) ≤ t) : ∃ a ∈ Q, a ≤ t := by
  by_contra hnone
  have hlen := hperm.length_eq
  rw [List.length_append] at hlen
  have hQlen : 0 < Q.length := List.length_pos.mpr hQ
  have h1 := arrived_prefix arrivals harr D.length t (by omega) ht
  have h2 := (hperm.filter (fun a => decide (a ≤ t))).length_eq
  have hQ0 : Q.filter (fun a => decide (a ≤ t)) = [] := by
    rw [List.filter_eq_nil_iff]
    intro a ha hle
    exact hnone ⟨a, ha, by simpa using hle⟩
  rw [List.filter_append, hQ0, List.append_nil] at h2
  have h3 := List.length_filter_le (fun a => decide (a ≤ t)) D
  omega

/-- A sum of `n` cycles of at least 50 each is at least `50 * n`. -/
theorem sum_cycles_ge (l : List Int) (h : ∀ c ∈ l, 50 ≤ c) : 50 * (l.length : Int) ≤ l.sum := by
  induction l with
  | nil => simp
  | cons a l ih =>
    have h1 := h a (List.mem_cons_self _ _)
    have h2 := ih (fun c hc => h c (List.mem_cons_of_mem _ hc))
    simp only [List.length_cons, List.sum_cons]
    push_cast
    omega

/-- On a workload with arrival times 0, 50, 100, ... and at least 50 cycles per
process, a state the single-processor loop reaches with a queue that is not
empty holds an arrived process in its queue, and `i` lies within the queue. -/
theorem SP_no_starvation (sort : List node → List node)
    (hsort : std_sort_contract cycles_less sort) (process_list : List node)
    (hgen : ∀ (j : Nat) (p : node), process_list[j]? = some p →
      p.arrival_time = 50 * (j : Int) ∧ 50 ≤ p.CPU_cycles)
    (s : SPState) (hreach : Reaches (SP_init (sorted_process_queue sort process_list)) s)
    (hne : s.process_queue ≠ []) :
    (∃ p ∈ s.process_queue, p.arrival_time ≤ s.current_time) ∧
    s.i < s.process_queue.length := by
  obtain ⟨hperm0, hsorted⟩ := sorted_process_queue_spec sort hsort process_list
  obtain ⟨htime, _⟩ := SP_clock_inv_reaches hreach (SP_clock_inv_init _)
  obtain ⟨_, _, hperm⟩ := SP_report_inv_reaches hreach (SP_report_inv_init _)
  obtain ⟨_, hi, hscan⟩ := SP_scan_inv_reaches hreach (SP_scan_inv_init _ hsorted)
  have hperm1 := hperm.trans hperm0
  have hcycles : ∀ c ∈ s.sjf_file.map (fun r => r.process.CPU_cycles), 50 ≤ c := by
    intro c hc
    obtain ⟨row, hrow, rfl⟩ := List.mem_map.mp hc
    have hmem : row.process ∈ process_list :=
      hperm1.subset (List.mem_append_left _ (List.mem_map.mpr ⟨row, hrow, rfl⟩))
    obtain ⟨j, hj⟩ := List.mem_iff_getElem?.mp hmem
    exact (hgen j _ hj).2
  have hpace := sum_cycles_ge _ hcycles
  rw [List.length_map, ← htime] at hpace
  have harr : ∀ (j : Nat) (a : Int),
      (process_list.map (fun p => p.arrival_time))[j]? = some a → a = 50 * (j : Int) := by
    intro j a hj
    rw [List.getElem?_map] at hj
    cases hp : process_list[j]? with
    | none => rw [hp] at hj; cases hj
    | some p =>
      rw [hp] at hj
      cases hj
      exact (hgen j p hp).1
  have hperm2 := hperm1.map (fun p => p.arrival_time)
  rw [List.map_append, List.map_map] at hperm2
  obtain ⟨a, ha, hat⟩ := arrived_in_queue _ _ _ harr hperm2
    (by simpa using hne) s.current_time (by simpa using hpace)
  obtain ⟨p, hp, rfl⟩ := List.mem_map.mp ha
  refine ⟨⟨p, hp, hat⟩, ?_⟩
  obtain ⟨j, hj⟩ := List.mem_iff_getElem?.mp hp
  have hjlt : j < s.process_queue.length := (List.getElem?_eq_some.mp hj).1
  by_contra hge
  have := hscan j p (by omega) hj
  omega

/-- A run of the single-processor loop that ends in a fault other than the
bound on the iterations has reached a state in which an iteration fails. -/
theorem SJF_loop_error (fuel : Nat) (s : SPState) (e : Fault)
    (h : SJF_loop fuel s = Except.error e) :
    e = Fault.out_of_fuel ∨
    ∃ t, Reaches s t ∧ t.process_queue ≠ [] ∧ SJF_iteration t = Except.error e := by
  induction fuel generalizing s with
  | zero =>
    left
    simp only [SJF_loop, Except.error.injEq] at h
    exact h.symm
  | succ fuel ih =>
    unfold SJF_loop at h
    by_cases hempty : s.process_queue.isEmpty = true
    · simp [hempty] at h
    · simp only [hempty, Bool.false_eq_true, if_false] at h
      have hne : s.process_queue ≠ [] := by
        intro hq
        rw [hq] at hempty
        exact hempty rfl
      cases hstep : SJF_iteration s with
      | error e1 =>
        rw [hstep] at h
        simp only [Except.error.injEq] at h
        subst h
        exact Or.inr ⟨s, Reaches.refl s, hne, hstep⟩
      | ok s1 =>
        rw [hstep] at h
        simp only at h
        rcases ih s1 h with h1 | ⟨t, ht, htne, hterr⟩
        · exact Or.inl h1
        · refine Or.inr ⟨t, Reaches_trans ?_ ht, htne, hterr⟩
          exact Reaches.step (Reaches.refl s) (by simpa using hempty) hstep

/-- On a workload with arrival times 0, 50, 100, ... and at least 50 cycles per
process, every iteration of the single-processor loop in a reached state with
a queue that is not empty succeeds. -/
theorem SP_iteration_succeeds (sort : List node → List node)
    (hsort : std_sort_contract cycles_less sort) (process_list : List node)
    (hgen : ∀ (j : Nat) (p : node), process_list[j]? = some p →
      p.arrival_time = 50 * (j : Int) ∧ 50 ≤ p.CPU_cycles)
    (s : SPState) (hreach : Reaches (SP_init (sorted_process_queue sort process_list)) s)
    (hne : s.process_queue ≠ []) : ∃ u, SJF_iteration s = Except.ok u := by
  obtain ⟨_, h2⟩ := SP_no_starvation sort hsort process_list hgen s hreach hne
  cases hstep : SJF_iteration s with
  | ok u => exact ⟨u, rfl⟩
  | error e =>
    have h3 := (SJF_iteration_error hstep).2
    rw [List.getElem?_eq_getElem h2] at h3
    cases h3

/-- On such a workload `SJF_single_processor` returns, for every
`num_processes` other than 0, with an empty queue. -/
theorem SJF_single_processor_returns (sort : List node → List node)
    (hsort : std_sort_contract cycles_less sort) (process_list : List node)
    (hgen : ∀ (j : Nat) (p : node), process_list[j]? = some p →
      p.arrival_time = 50 * (j : Int) ∧ 50 ≤ p.CPU_cycles)
    (num_processes : Int) (hn : num_processes ≠ 0) :
    ∃ r, SJF_single_processor sort process_list num_processes = Except.ok r := by
  have hloop : ∃ t, SJF_loop (SP_fuel (SP_init (sorted_process_queue sort process_list)))
      (SP_init (sorted_process_queue sort process_list)) = Except.ok t := by
    cases hl : SJF_loop (SP_fuel (SP_init (sorted_process_queue sort process_list)))
      (SP_init (sorted_process_queue sort process_list)) with
    | ok t => exact ⟨t, rfl⟩
    | error e =>
      exfalso
      rcases SJF_loop_error _ _ _ hl with he | ⟨t, ht, htne, hterr⟩
      · rw [he] at hl
        exact SJF_loop_fuel_enough _ _ (Nat.zero_le _) (Nat.le_refl _) hl
      · obtain ⟨u, hu⟩ := SP_iteration_succeeds sort hsort process_list hgen t ht htne
        rw [hu] at hterr
        cases hterr
  obtain ⟨t, ht⟩ := hloop
  refine ⟨{ loop_end := t,
            avg_waiting_time := ((Int.tdiv t.total_waiting_time num_processes : Int) : ℚ) }, ?_⟩
  unfold SJF_single_processor
  simp only [ht, avg_waiting_time, if_neg hn]

/-- C27: on a workload with arrival times 0, 50, 100, ... and at least 50
cycles per process (so on every workload of the generator, whose processes have
at least 1000 cycles), every state the loop of `SJF_single_processor` reaches
with a queue that is not empty has an arrived process in the queue and reads
`process_queue[i]` with `i` below the size of the queue, so that the iteration
succeeds; the function returns, for every `num_processes` other than 0, and all
processes have been dispatched, each once. -/
theorem C27_generated_run_completes (sort : List node → List node)
    (hsort : std_sort_contract cycles_less sort) (process_list : List node)
    (hgen : ∀ (j : Nat) (p : node), process_list[j]? = some p →
      p.arrival_time = 50 * (j : Int) ∧ 50 ≤ p.CPU_cycles) :
    (∀ s, Reaches (SP_init (sorted_process_queue sort process_list)) s →
      s.process_queue ≠ [] →
      (∃ p ∈ s.process_queue, p.arrival_time ≤ s.current_time) ∧
      s.i < s.process_queue.length ∧
      ∃ u, SJF_iteration s = Except.ok u) ∧
    ∀ num_processes : Int, num_processes ≠ 0 →
      ∃ r, SJF_single_processor sort process_list num_processes = Except.ok r ∧
        r.loop_end.process_queue = [] ∧
        r.loop_end.sjf_file.length = process_list.length ∧
        (r.loop_end.sjf_file.map (fun row => row.process)).Perm process_list := by
  constructor
  · intro s hreach hne
    obtain ⟨h1, h2⟩ := SP_no_starvation sort hsort process_list hgen s hreach hne
    exact ⟨h1, h2, SP_iteration_succeeds sort hsort process_list hgen s hreach hne⟩
  · intro num_processes hn
    obtain ⟨r, hr⟩ := SJF_single_processor_returns sort hsort process_list hgen num_processes hn
    obtain ⟨hreach, hq, _⟩ := SJF_single_processor_ok hr
    obtain ⟨_, _, hperm⟩ := SP_report_inv_reaches hreach (SP_report_inv_init _)
    rw [hq, List.append_nil] at hperm
    have hperm1 := hperm.trans (sorted_process_queue_spec sort hsort process_list).1
    refine ⟨r, hr, hq, ?_, hperm1⟩
    have := hperm1.length_eq
    simpa using this

/-- C27 on the scenario workload (arrival times 0, 50, 100; 2000, 1000 and 1500
cycles). -/
theorem C27_generated_run_completes_witness :
    (∀ s, Reaches (SP_init (sorted_process_queue (insertion_sort true)
        (scenario_workload 20 30 40))) s →
      s.process_queue ≠ [] →
      (∃ p ∈ s.process_queue, p.arrival_time ≤ s.current_time) ∧
      s.i < s.process_queue.length ∧
      ∃ u, SJF_iteration s = Except.ok u) ∧
    ∀ num_processes : Int, num_processes ≠ 0 →
      ∃ r, SJF_single_processor (insertion_sort true) (scenario_workload 20 30 40)
          num_processes = Except.ok r ∧
        r.loop_end.process_queue = [] ∧
        r.loop_end.sjf_file.length = (scenario_workload 20 30 40).length ∧
        (r.loop_end.sjf_file.map (fun row => row.process)).Perm (scenario_workload 20 30 40) :=
  C27_generated_run_completes (insertion_sort true) (insertion_sort_contract true)
    (scenario_workload 20 30 40)
    (by
      intro j p hj
      rcases j with _ | _ | _ | j <;>
        simp [scenario_workload] at hj <;> subst hj <;> simp [fresh_node])

/-! ## No fast-forward of the clock -/

/-- From a state whose queue holds no arrived process the loop only steps `i`:
the clock, the queue and the report stay as they are. -/
theorem starvation_frame {s t : SPState} (hr : Reaches s t)
    (hnone : ∀ p ∈ s.process_queue, ¬ p.arrival_time ≤ s.current_time) :
    t.current_time = s.current_time ∧ t.process_queue = s.process_queue ∧
    t.sjf_file = s.sjf_file ∧ t.total_waiting_time = s.total_waiting_time ∧ s.i ≤ t.i := by
  induction hr with
  | refl => exact ⟨rfl, rfl, rfl, rfl, Nat.le_refl _⟩
  | step _ _ hstep ih =>
    obtain ⟨ht, hq, hf, hw, hi⟩ := ih
    obtain ⟨p, hp, hcase⟩ := SJF_iteration_ok hstep
    have hmem := List.getElem?_mem hp
    rw [hq] at hmem
    rcases hcase with ⟨harr, _⟩ | ⟨_, hq1, hi1, ht1, _, hw1, hf1⟩
    · rw [ht] at harr
      exact absurd harr (hnone p hmem)
    · exact ⟨ht1.trans ht, hq1.trans hq, hf1.trans hf, hw1.trans hw, by omega⟩

/-- C7, as stated, fails: with the single process of `late_workload`, which
arrives at time 50, the first state of `SJF_single_processor` has a queue that
is not empty and holds no arrived process; the iteration leaves the clock at 0
(not at 50), dispatches nothing and steps `i` to 1, and the next iteration
reads `process_queue[1]` in a queue of one entry.  With the second process of
`gap_workload`, which arrives at 5000, the same happens after the first
dispatch, at clock 1000. -/
theorem C7_starvation_out_of_range :
    (SP_init (sorted_process_queue (insertion_sort true) late_workload)).process_queue
      = late_workload ∧
    late_workload ≠ [] ∧
    (∀ p ∈ late_workload, ¬ p.arrival_time ≤ 0) ∧
    SJF_iteration (SP_init (sorted_process_queue (insertion_sort true) late_workload))
      = Except.ok { process_queue := late_workload, i := 1, current_time := 0,
                    waiting_time := 0, total_waiting_time := 0, sjf_file := [] } ∧
    SJF_iteration { process_queue := late_workload, i := 1, current_time := 0,
                    waiting_time := 0, total_waiting_time := 0, sjf_file := [] }
      = Except.error Fault.out_of_range ∧
    SJF_single_processor (insertion_sort true) late_workload 1
      = Except.error Fault.out_of_range ∧
    SJF_single_processor (insertion_sort true) gap_workload 2
      = Except.error Fault.out_of_range := by
  refine ⟨rfl, by decide, by decide, rfl, rfl, rfl, rfl⟩

/-- C7, amended: in a state the loop of `SJF_single_processor` reaches with a
queue that is not empty and holds no arrived process, an iteration only steps
`i`; whatever state the loop goes on to, the clock, the queue and the report
are those of that state (the clock is not advanced and nothing is dispatched);
and the loop ends, after `i` has reached the size of the queue, in the read of
`process_queue[i]` out of range, so that it does not run forever.  On a
workload with arrival times 0, 50, 100, ... and at least 50 cycles per process,
as `generate_processes` builds them, the loop reaches no such state. -/
theorem C7_no_fast_forward (sort : List node → List node) (process_list : List node)
    (s : SPState) (hreach : Reaches (SP_init (sorted_process_queue sort process_list)) s)
    (hne : s.process_queue ≠ []) :
    ((∀ p ∈ s.process_queue, ¬ p.arrival_time ≤ s.current_time) →
      (∀ u, SJF_iteration s = Except.ok u → u = { s with i := s.i + 1 }) ∧
      (∀ t, Reaches s t →
        t.current_time = s.current_time ∧ t.process_queue = s.process_queue ∧
        t.sjf_file = s.sjf_file ∧ s.i ≤ t.i) ∧
      (∀ fuel, s.process_queue.length - s.i < fuel →
        SJF_loop fuel s = Except.error Fault.out_of_range)) ∧
    (std_sort_contract cycles_less sort →
      (∀ (j : Nat) (p : node), process_list[j]? = some p →
        p.arrival_time = 50 * (j : Int) ∧ 50 ≤ p.CPU_cycles) →
      ∃ p ∈ s.process_queue, p.arrival_time ≤ s.current_time) := by
  refine ⟨?_, ?_⟩
  · intro hnone
    refine ⟨?_, ?_, ?_⟩
    · intro u hu
      obtain ⟨p, hp, hcase⟩ := SJF_iteration_ok hu
      rcases hcase with ⟨harr, _⟩ | ⟨_, hq1, hi1, ht1, hwt, hw1, hf1⟩
      · exact absurd harr (hnone p (List.getElem?_mem hp))
      · cases u
        cases s
        simp only at hq1 hi1 ht1 hwt hw1 hf1
        subst hq1 hi1 ht1 hwt hw1 hf1
        rfl
    · intro t ht
      obtain ⟨h1, h2, h3, _, h5⟩ := starvation_frame ht hnone
      exact ⟨h1, h2, h3, h5⟩
    · intro fuel hfuel
      exact starvation_reads_out_of_range fuel s hne
        (fun p hp => lt_of_not_le (hnone p hp)) hfuel
  · intro hsort hgen
    exact (SP_no_starvation sort hsort process_list hgen s hreach hne).1

/-- C7, amended, on `gap_workload` in the state after the first dispatch: the
clock is 1000 and the process left in the queue arrives at 5000. -/
theorem C7_no_fast_forward_witness :
    Reaches (SP_init (sorted_process_queue (insertion_sort true) gap_workload))
      { process_queue := [fresh_node 2 1000 30 5000], i := 0, current_time := 1000,
        waiting_time := 0, total_waiting_time := 0,
        sjf_file := [Row.mk (fresh_node 1 1000 20 0) 0 1000 0] } ∧
    ([fresh_node 2 1000 30 5000] : List node) ≠ [] ∧
    (∀ p ∈ [fresh_node 2 1000 30 5000], ¬ p.arrival_time ≤ (1000 : Int)) ∧
    (∀ u, SJF_iteration
        { process_queue := [fresh_node 2 1000 30 5000], i := 0, current_time := 1000,
          waiting_time := 0, total_waiting_time := 0,
          sjf_file := [Row.mk (fresh_node 1 1000 20 0) 0 1000 0] } = Except.ok u →
      u = { process_queue := [fresh_node 2 1000 30 5000], i := 0 + 1, current_time := 1000,
            waiting_time := 0, total_waiting_time := 0,
            sjf_file := [Row.mk (fresh_node 1 1000 20 0) 0 1000 0] }) ∧
    (∀ t, Reaches
        { process_queue := [fresh_node 2 1000 30 5000], i := 0, current_time := 1000,
          waiting_time := 0, total_waiting_time := 0,
          sjf_file := [Row.mk (fresh_node 1 1000 20 0) 0 1000 0] } t →
      t.current_time = 1000 ∧ t.process_queue = [fresh_node 2 1000 30 5000] ∧
      t.sjf_file = [Row.mk (fresh_node 1 1000 20 0) 0 1000 0] ∧ 0 ≤ t.i) ∧
    (∀ fuel, [fresh_node 2 1000 30 5000].length - 0 < fuel →
      SJF_loop fuel
        { process_queue := [fresh_node 2 1000 30 5000], i := 0, current_time := 1000,
          waiting_time := 0, total_waiting_time := 0,
          sjf_file := [Row.mk (fresh_node 1 1000 20 0) 0 1000 0] }
        = Except.error Fault.out_of_range) :=
  ⟨Reaches.step (Reaches.refl _) rfl rfl, by decide, by decide,
    (C7_no_fast_forward (insertion_sort true) gap_workload
      { process_queue := [fresh_node 2 1000 30 5000], i := 0, current_time := 1000,
        waiting_time := 0, total_waiting_time := 0,
        sjf_file := [Row.mk (fresh_node 1 1000 20 0) 0 1000 0] }
      (Reaches.step (Reaches.refl _) rfl rfl) (by decide)).1 (by decide)⟩

/-! ## Where the records of the schedules and of the report come from -/

theorem MP_cores_eq (L : List (List node)) :
    L.flatten.map forget_remaining = (L.map (List.map forget_remaining)).flatten := by
  rw [List.map_flatten]

theorem MP_cores_frame {s u : MPState} (h : MP_frame s u) : MP_cores u = MP_cores s := by
  unfold MP_cores
  rw [MP_cores_eq, MP_cores_eq, h.2.2.2.2.2.2.2.2.1]

theorem mem_cores_of_slot {s : MPState} {k idx : Nat} {schedule : List node} {entry : node}
    (hs : s.processor_schedule[k]? = some schedule) (he : schedule[idx]? = some entry) :
    forget_remaining entry ∈ MP_cores s := by
  apply List.mem_map_of_mem
  exact List.mem_flatten.mpr ⟨schedule, List.getElem?_mem hs, List.getElem?_mem he⟩

/-- A row the steady-state report adds shows a record of a schedule. -/
theorem steady_report_lines {index : Nat} {a b : MPState}
    (hempty : a.empty_processor = false) (h : steady_report index a = Except.ok b) :
    ∀ k e, Line.process k e ∈ b.sjf_file →
      Line.process k e ∈ a.sjf_file ∨ forget_remaining e ∈ MP_cores a := by
  intro k e hmem
  rcases steady_report_ok hempty h with ⟨_, rfl⟩ | ⟨_, schedule, idx, entry, hs, _, he, hcase⟩
  · exact Or.inl hmem
  · rcases hcase with ⟨_, rfl⟩ | ⟨_, rfl⟩
    · rcases List.mem_append.mp hmem with h1 | h1
      · exact Or.inl h1
      · rw [List.mem_singleton] at h1
        cases h1
        have h2 : forget_remaining entry ∈ MP_cores a := mem_cores_of_slot hs he
        exact Or.inr h2
    · rcases List.mem_append.mp hmem with h1 | h1
      · exact Or.inl h1
      · rw [List.mem_singleton] at h1
        cases h1

/-- A row the report of the branch for empty processors adds shows a record of
a schedule. -/
theorem cold_report_lines {index : Nat} {a b : MPState}
    (h : cold_report index a = Except.ok b) :
    ∀ k e, Line.process k e ∈ b.sjf_file →
      Line.process k e ∈ a.sjf_file ∨ forget_remaining e ∈ MP_cores a := by
  intro k e hmem
  rcases cold_report_ok h with ⟨_, rfl⟩ | ⟨_, _, rfl⟩ | ⟨_, _, schedule, c, entry, hs, _, he, rfl⟩
  · rcases List.mem_append.mp hmem with h1 | h1
    · exact Or.inl h1
    · rw [List.mem_singleton] at h1
      cases h1
  · exact Or.inl hmem
  · rcases List.mem_append.mp hmem with h1 | h1
    · exact Or.inl h1
    · rw [List.mem_singleton] at h1
      cases h1
      right
      have h2 := mem_cores_of_slot hs he
      by_cases hl : cold_late index a.current_time = true
      · rw [if_pos hl]
        exact h2
      · rw [if_neg hl]
        exact h2

theorem steady_report_loop_lines {n : Nat} {s u : MPState}
    (hempty : s.empty_processor = false) (h : for_range steady_report n s = Except.ok u) :
    ∀ k e, Line.process k e ∈ u.sjf_file →
      Line.process k e ∈ s.sjf_file ∨ forget_remaining e ∈ MP_cores s :=
  (for_range_inv steady_report
    (fun _ a => MP_frame s a ∧ ∀ k e, Line.process k e ∈ a.sjf_file →
      Line.process k e ∈ s.sjf_file ∨ forget_remaining e ∈ MP_cores s)
    n s u ⟨MP_frame_refl s hempty, fun _ _ hm => Or.inl hm⟩
    (fun _ a b _ ha hb => by
      have hae : a.empty_processor = false := ha.1.2.2.2.2.2.2.2.1
      refine ⟨MP_frame_trans ha.1 (steady_report_frame hae hb), ?_⟩
      intro k e hm
      rcases steady_report_lines hae hb k e hm with h1 | h1
      · exact ha.2 k e h1
      · rw [MP_cores_frame ha.1] at h1
        exact Or.inr h1) h).2

theorem cold_report_loop_lines {n : Nat} {s u : MPState}
    (hempty : s.empty_processor = false) (h : for_range cold_report n s = Except.ok u) :
    ∀ k e, Line.process k e ∈ u.sjf_file →
      Line.process k e ∈ s.sjf_file ∨ forget_remaining e ∈ MP_cores s :=
  (for_range_inv cold_report
    (fun _ a => MP_frame s a ∧ ∀ k e, Line.process k e ∈ a.sjf_file →
      Line.process k e ∈ s.sjf_file ∨ forget_remaining e ∈ MP_cores s)
    n s u ⟨MP_frame_refl s hempty, fun _ _ hm => Or.inl hm⟩
    (fun _ a b _ ha hb => by
      have hae : a.empty_processor = false := ha.1.2.2.2.2.2.2.2.1
      refine ⟨MP_frame_trans ha.1 (cold_report_frame hae hb), ?_⟩
      intro k e hm
      rcases cold_report_lines hb k e hm with h1 | h1
      · exact ha.2 k e h1
      · rw [MP_cores_frame ha.1] at h1
        exact Or.inr h1) h).2
/-- One iteration in a state with the invariant: it either steps `i`, or it
dispatches the arrived process `process_queue[i]`: then the records of the
schedules, up to their remaining cycles, are those of before and the record of
the dispatch, and every new row of the report shows a record of a schedule. -/
theorem MP_iteration_records {processor_count : Nat} {s u : MPState}
    (hP : processor_count ≤ 4) (hinv : MP_inv processor_count s)
    (h : MP_iteration processor_count s = Except.ok u) :
    u = { s with i := s.i + 1 } ∨
    ∃ p, s.process_queue[s.i]? = some p ∧ p.arrival_time ≤ s.current_time ∧
      u.process_queue = s.process_queue.eraseIdx s.i ∧
      (MP_cores u).Perm (forget_remaining (dispatched_at s.current_time p) :: MP_cores s) ∧
      ∀ k e, Line.process k e ∈ u.sjf_file →
        Line.process k e ∈ s.sjf_file ∨ forget_remaining e ∈ MP_cores u := by
  obtain ⟨p, hp, hcase⟩ := MP_iteration_ok h
  rcases hcase with ⟨_, rfl⟩ | ⟨harr, c, s1, hc, hbranch, rfl⟩
  · exact Or.inl rfl
  · right
    refine ⟨p, hp, harr, ?_⟩
    have hempty : s.empty_processor = false := hinv.2.2.2.1
    have hphase := hinv.2.2.2.2.2.2.2
    have hfile : ∀ (t1 : MPState), t1.sjf_file = s.sjf_file ++ [Line.time s.current_time] →
        ∀ k e, Line.process k e ∈ t1.sjf_file → Line.process k e ∈ s.sjf_file := by
      intro t1 ht1 k e hm
      rw [ht1] at hm
      rcases List.mem_append.mp hm with h1 | h1
      · exact h1
      · rw [List.mem_singleton] at h1
        cases h1
    have hcold_case : ∀ hcold : MP_cold processor_count s,
        cold_branch processor_count (MP_header s) = Except.ok s1 →
        s1.process_queue = s.process_queue.eraseIdx s.i ∧
        (MP_cores s1).Perm (forget_remaining (dispatched_at s.current_time p) :: MP_cores s) ∧
        ∀ k e, Line.process k e ∈ s1.sjf_file →
          Line.process k e ∈ s.sjf_file ∨ forget_remaining e ∈ MP_cores s1 := by
      intro hcold hb
      obtain ⟨t1, t2, hd, hrep, hfin⟩ := cold_branch_ok hb
      obtain ⟨c1, c2, _, _, _, _, _, c8, c9⟩ := cold_dispatch_cold hP hcold hp hd
      obtain ⟨hminlt, _, _, hempties⟩ := hcold
      obtain ⟨e1, _, _⟩ := hempties s.min_cycles_index (Nat.le_refl _) (by omega)
      have hf := cold_report_loop_frame (c8.trans hempty) hrep
      have hlines := cold_report_loop_lines (c8.trans hempty) hrep
      have hcores1 : (MP_cores t1).Perm
          (forget_remaining (dispatched_at s.current_time p) :: MP_cores s) := by
        unfold MP_cores
        rw [c2]
        have := flatten_set_append_perm s.processor_schedule s.min_cycles_index []
          (dispatched_at s.current_time p) e1
        exact this.map forget_remaining
      have hs1 : s1.process_queue = t2.process_queue ∧
          s1.processor_schedule = t2.processor_schedule ∧ s1.sjf_file = t2.sjf_file := by
        rcases hfin with ⟨_, rfl⟩ | ⟨_, _, _, _, _, rfl⟩
        · exact ⟨rfl, rfl, rfl⟩
        · exact ⟨rfl, rfl, rfl⟩
      have hcores2 : MP_cores s1 = MP_cores t1 := by
        rw [← MP_cores_frame hf]
        unfold MP_cores
        rw [hs1.2.1]
      refine ⟨?_, ?_, ?_⟩
      · rw [hs1.1, hf.1, c1]
      · rw [hcores2]
        exact hcores1
      · intro k e hm
        rw [hs1.2.2] at hm
        rcases hlines k e hm with h1 | h1
        · exact Or.inl (hfile t1 c9 k e h1)
        · rw [hcores2]
          exact Or.inr h1
    have hsteady_case : ∀ hsteady : MP_steady processor_count s,
        steady_branch processor_count (MP_header s) = Except.ok s1 →
        s1.process_queue = s.process_queue.eraseIdx s.i ∧
        (MP_cores s1).Perm (forget_remaining (dispatched_at s.current_time p) :: MP_cores s) ∧
        ∀ k e, Line.process k e ∈ s1.sjf_file →
          Line.process k e ∈ s.sjf_file ∨ forget_remaining e ∈ MP_cores s1 := by
      intro hsteady hb
      obtain ⟨t1, t2, m1, m2, c2, hd, hrep, _, _, _, hs1⟩ := steady_branch_ok hb
      have hne : (MP_header s).process_queue.isEmpty = false := by
        show s.process_queue.isEmpty = false
        cases hq : s.process_queue with
        | nil => rw [hq] at hp; simp at hp
        | cons a l => rfl
      rw [hne] at hd
      simp only [Bool.false_eq_true, if_false] at hd
      obtain ⟨schedule, idx, g1, _, _, c1, csch, _, _, _, _, _, c8, c9⟩ :=
        steady_dispatch_steady hP hsteady hp hd
      have hf := steady_report_loop_frame (c8.trans hempty) hrep
      have hlines := steady_report_loop_lines (c8.trans hempty) hrep
      have hcores1 : (MP_cores t1).Perm
          (forget_remaining (dispatched_at s.current_time p) :: MP_cores s) := by
        unfold MP_cores
        rw [csch]
        have := flatten_set_append_perm s.processor_schedule s.min_cycles_index schedule
          (dispatched_at s.current_time p) g1
        exact this.map forget_remaining
      have hs2 : s1.process_queue = t2.process_queue ∧
          s1.processor_schedule = t2.processor_schedule ∧ s1.sjf_file = t2.sjf_file := by
        rw [hs1]
        exact ⟨rfl, rfl, rfl⟩
      have hcores2 : MP_cores s1 = MP_cores t1 := by
        rw [← MP_cores_frame hf]
        unfold MP_cores
        rw [hs2.2.1]
      refine ⟨?_, ?_, ?_⟩
      · rw [hs2.1, hf.1, c1]
      · rw [hcores2]
        exact hcores1
      · intro k e hm
        rw [hs2.2.2] at hm
        rcases hlines k e hm with h1 | h1
        · exact Or.inl (hfile t1 c9 k e h1)
        · rw [hcores2]
          exact Or.inr h1
    rcases hphase with hcold | hsteady
    · have hc0 : c = 0 := by
        obtain ⟨hminlt, _, _, hempties⟩ := hcold
        obtain ⟨_, _, e3⟩ := hempties s.min_cycles_index (Nat.le_refl _) (by omega)
        rw [hc] at e3
        cases e3
        rfl
      rcases hbranch with ⟨hpos, _⟩ | ⟨_, hb⟩
      · omega
      · exact hcold_case hcold hb
    · have hcpos : 0 < c := by
        obtain ⟨_, ⟨c1, hc1, hpos⟩, _⟩ := hsteady
        rw [hc] at hc1
        cases hc1
        exact hpos
      rcases hbranch with ⟨_, hb⟩ | ⟨hneg, _⟩
      · exact hsteady_case hsteady hb
      · exact absurd hcpos hneg
/-! ## The order of the times of a dispatch -/

theorem times_ok_forget (e : node) : times_ok (forget_remaining e) ↔ times_ok e := Iff.rfl

theorem times_ok_dispatched (t : Int) (p : node) (harr : p.arrival_time ≤ t)
    (hc : 0 ≤ p.CPU_cycles) : times_ok (dispatched_at t p) := by
  refine ⟨harr, ?_, ?_⟩
  · show t ≤ t + p.CPU_cycles
    omega
  · show 0 ≤ t - p.arrival_time
    omega

/-- The times of the records of the schedules and of the rows of the report
stay in order from one iteration to the next. -/
theorem MP_times_iteration {processor_count : Nat} {s u : MPState}
    (hP : processor_count ≤ 4) (hinv : MP_inv processor_count s)
    (ht : (∀ e ∈ MP_cores s, times_ok e) ∧
      ∀ k e, Line.process k e ∈ s.sjf_file → times_ok e)
    (h : MP_iteration processor_count s = Except.ok u) :
    (∀ e ∈ MP_cores u, times_ok e) ∧ ∀ k e, Line.process k e ∈ u.sjf_file → times_ok e := by
  rcases MP_iteration_records hP hinv h with rfl | ⟨p, hp, harr, _, hcores, hlines⟩
  · exact ht
  · have hpc : 1000 ≤ p.CPU_cycles := (hinv.2.2.2.2.1 p (List.getElem?_mem hp)).1
    have hcore : ∀ e ∈ MP_cores u, times_ok e := by
      intro e he
      rcases List.mem_cons.mp (hcores.subset he) with h1 | h1
      · rw [h1]
        exact (times_ok_forget _).mpr (times_ok_dispatched _ _ harr (by omega))
      · exact ht.1 e h1
    refine ⟨hcore, ?_⟩
    intro k e hm
    rcases hlines k e hm with h1 | h1
    · exact ht.2 k e h1
    · exact (times_ok_forget e).mp (hcore _ h1)

theorem MP_times_reaches {processor_count : Nat} {s t : MPState}
    (hP : processor_count ≤ 4) (hr : MP_reaches processor_count s t)
    (hinv : MP_inv processor_count s)
    (ht : (∀ e ∈ MP_cores s, times_ok e) ∧
      ∀ k e, Line.process k e ∈ s.sjf_file → times_ok e) :
    (∀ e ∈ MP_cores t, times_ok e) ∧ ∀ k e, Line.process k e ∈ t.sjf_file → times_ok e := by
  induction hr with
  | refl => exact ht
  | step hr1 _ hstep ih => exact MP_times_iteration hP (MP_inv_reaches hP hr1 hinv) ih hstep

/-- C23: on a generated workload, every row of the report of
`SJF_single_processor`, every record of a schedule of `SJF_multiprocessor` and
every process row of its report, in every state the loops reach, has arrival
time ≤ start time ≤ stop time and a waiting time of at least 0. -/
theorem C23_dispatch_times_ordered (sort : List node → List node)
    (hsort : std_sort_contract cycles_less sort) (process_list : List node)
    (hgen : generated_workload process_list) :
    (∀ s row, Reaches (SP_init (sorted_process_queue sort process_list)) s →
      row ∈ s.sjf_file →
      row.process.arrival_time ≤ row.start_time ∧ row.start_time ≤ row.stop_time ∧
      0 ≤ row.waiting_time) ∧
    ∀ processor_count s, processor_count ≤ 4 →
      MP_reaches processor_count (MP_init (sorted_process_queue sort process_list)) s →
      (∀ e ∈ s.processor_schedule.flatten,
        e.arrival_time ≤ e.start_time ∧ e.start_time ≤ e.stop_time ∧ 0 ≤ e.waiting_time) ∧
      ∀ k e, Line.process k e ∈ s.sjf_file →
        e.arrival_time ≤ e.start_time ∧ e.start_time ≤ e.stop_time ∧ 0 ≤ e.waiting_time := by
  obtain ⟨hperm, hsorted⟩ := sorted_process_queue_spec sort hsort process_list
  constructor
  · intro s row hreach hrow
    obtain ⟨s0, u0, hr0, hstep, hfile, _⟩ := row_has_dispatch hreach rfl row hrow
    obtain ⟨hq, harr, hstart, _, _⟩ :=
      dispatch_choice (SP_scan_inv_reaches hr0 (SP_scan_inv_init _ hsorted)) hstep hfile
    obtain ⟨hrows, _, _⟩ := SP_report_inv_reaches hreach (SP_report_inv_init _)
    obtain ⟨hw, hstop⟩ := hrows row hrow
    have hmem : row.process ∈ process_list :=
      hperm.subset ((queue_sublist_reaches hr0).subset (List.getElem?_mem hq))
    obtain ⟨j, hj⟩ := List.mem_iff_getElem?.mp hmem
    obtain ⟨_, hc, _, _⟩ := hgen j _ hj
    refine ⟨?_, ?_, ?_⟩ <;> omega
  · intro processor_count s hP hreach
    have hinv0 := MP_inv_init processor_count _
      (generated_queue_facts sort hsort process_list hgen)
    have h0 : (∀ e ∈ MP_cores (MP_init (sorted_process_queue sort process_list)), times_ok e) ∧
        ∀ k e, Line.process k e ∈ (MP_init (sorted_process_queue sort process_list)).sjf_file →
          times_ok e := by
      constructor
      · intro e he
        simp [MP_cores, MP_init] at he
      · intro k e he
        simp [MP_init] at he
    obtain ⟨h1, h2⟩ := MP_times_reaches hP hreach hinv0 h0
    refine ⟨?_, h2⟩
    intro e he
    exact (times_ok_forget e).mp (h1 _ (List.mem_map_of_mem _ he))

/-- C23 on the tie workload, for the single processor and for two to four
processors. -/
theorem C23_dispatch_times_ordered_witness :
    (∀ s row, Reaches (SP_init (sorted_process_queue (insertion_sort true) mp_tie_workload)) s →
      row ∈ s.sjf_file →
      row.process.arrival_time ≤ row.start_time ∧ row.start_time ≤ row.stop_time ∧
      0 ≤ row.waiting_time) ∧
    ∀ processor_count s, processor_count ≤ 4 →
      MP_reaches processor_count
        (MP_init (sorted_process_queue (insertion_sort true) mp_tie_workload)) s →
      (∀ e ∈ s.processor_schedule.flatten,
        e.arrival_time ≤ e.start_time ∧ e.start_time ≤ e.stop_time ∧ 0 ≤ e.waiting_time) ∧
      ∀ k e, Line.process k e ∈ s.sjf_file →
        e.arrival_time ≤ e.start_time ∧ e.start_time ≤ e.stop_time ∧ 0 ≤ e.waiting_time :=
  C23_dispatch_times_ordered (insertion_sort true) (insertion_sort_contract true)
    mp_tie_workload mp_tie_workload_generated

/-! ## The multi-processor scenario -/

theorem mp_scenario_queue (sort : List node → List node)
    (hsort : std_sort_contract cycles_less sort) (f1 f2 f3 f4 : Int) :
    sorted_process_queue sort (mp_scenario_workload f1 f2 f3 f4) =
      [fresh_node 4 500 f4 150, fresh_node 1 1000 f1 0, fresh_node 3 1500 f3 100,
       fresh_node 2 2000 f2 50] := by
  obtain ⟨hperm, hsorted⟩ :=
    sorted_process_queue_spec sort hsort (mp_scenario_workload f1 f2 f3 f4)
  refine sorted_queue_unique _ _ (hperm.trans ?_) hsorted ?_
  · unfold mp_scenario_workload
    have h1 : ([fresh_node 1 1000 f1 0, fresh_node 2 2000 f2 50, fresh_node 3 1500 f3 100]
        ++ [fresh_node 4 500 f4 150]).Perm
        ([fresh_node 4 500 f4 150] ++
          [fresh_node 1 1000 f1 0, fresh_node 2 2000 f2 50, fresh_node 3 1500 f3 100]) :=
      List.perm_append_comm
    have h2 : [fresh_node 1 1000 f1 0, fresh_node 2 2000 f2 50, fresh_node 3 1500 f3 100].Perm
        [fresh_node 1 1000 f1 0, fresh_node 3 1500 f3 100, fresh_node 2 2000 f2 50] :=
      List.Perm.cons _ (List.Perm.swap _ _ [])
    exact h1.trans (List.Perm.cons _ h2)
  · simp [fresh_node]

/-- C22: on the workload (cycles, arrival) = (1000, 0), (2000, 50), (1500, 100),
(500, 150) with two processors, whatever the memory footprints and whichever
conforming `std::sort` is used, the second iteration dispatches process 1 to
processor 0 at clock 0 (start 0, stop 1000, waiting time 0) and the fifth
iteration dispatches process 2 to processor 1 at clock 50 (start 50, stop 2050,
waiting time 0); the report of the clock 0 shows process 1 on processor 0 and
processor 1 empty, the report of the clock 50 shows process 1 on processor 0
and process 2 on processor 1, and after both dispatches no schedule holds more
than one record. -/
theorem C22_cold_start_scenario (sort : List node → List node)
    (hsort : std_sort_contract cycles_less sort) (f1 f2 f3 f4 : Int) :
    ∃ s2 s5,
      MP_run 2 2 (MP_init (sorted_process_queue sort (mp_scenario_workload f1 f2 f3 f4)))
        = Except.ok s2 ∧
      MP_run 2 5 (MP_init (sorted_process_queue sort (mp_scenario_workload f1 f2 f3 f4)))
        = Except.ok s5 ∧
      s2.processor_schedule = [[run_record (fresh_node 1 1000 f1 0) 0 1000 0 1000], [], [], []] ∧
      s2.sjf_file =
        [Line.time 0,
         Line.process 0 (run_record (fresh_node 1 1000 f1 0) 0 1000 0 1000),
         Line.idle 1] ∧
      s2.current_time = 50 ∧
      s5.processor_schedule =
        [[run_record (fresh_node 1 1000 f1 0) 0 1000 0 950],
         [run_record (fresh_node 2 2000 f2 50) 50 2050 0 2000], [], []] ∧
      s5.sjf_file = s2.sjf_file ++
        [Line.time 50,
         Line.process 0 (run_record (fresh_node 1 1000 f1 0) 0 1000 0 950),
         Line.process 1 (run_record (fresh_node 2 2000 f2 50) 50 2050 0 2000)] ∧
      s5.process_queue = [fresh_node 4 500 f4 150, fresh_node 3 1500 f3 100] ∧
      (∀ schedule ∈ s2.processor_schedule, schedule.length ≤ 1) ∧
      (∀ schedule ∈ s5.processor_schedule, schedule.length ≤ 1) := by
  rw [mp_scenario_queue sort hsort f1 f2 f3 f4]
  refine ⟨
    { process_queue := [fresh_node 4 500 f4 150, fresh_node 3 1500 f3 100,
        fresh_node 2 2000 f2 50]
      processor_schedule := [[run_record (fresh_node 1 1000 f1 0) 0 1000 0 1000], [], [], []]
      processor_index := [0, 0, 0, 0]
      processor_cycles := [1000, 0, 0, 0]
      current_time := 50
      total_waiting_time := 0
      i := 0
      min_cycles_index := 1
      empty_processor := false
      processes_left := true
      processes_executed := 0
      sjf_file :=
        [Line.time 0,
         Line.process 0 (run_record (fresh_node 1 1000 f1 0) 0 1000 0 1000),
         Line.idle 1] },
    { process_queue := [fresh_node 4 500 f4 150, fresh_node 3 1500 f3 100]
      processor_schedule :=
        [[run_record (fresh_node 1 1000 f1 0) 0 1000 0 950],
         [run_record (fresh_node 2 2000 f2 50) 50 2050 0 2000], [], []]
      processor_index := [0, 0, 0, 0]
      processor_cycles := [950, 2000, 0, 0]
      current_time := 1000
      total_waiting_time := 0
      i := 0
      min_cycles_index := 0
      empty_processor := false
      processes_left := true
      processes_executed := 0
      sjf_file :=
        [Line.time 0,
         Line.process 0 (run_record (fresh_node 1 1000 f1 0) 0 1000 0 1000),
         Line.idle 1,
         Line.time 50,
         Line.process 0 (run_record (fresh_node 1 1000 f1 0) 0 1000 0 950),
         Line.process 1 (run_record (fresh_node 2 2000 f2 50) 50 2050 0 2000)] },
    rfl, rfl, rfl, rfl, rfl, rfl, rfl, rfl, ?_, ?_⟩
  · intro schedule h
    simp only [List.mem_cons, List.mem_singleton, List.not_mem_nil, or_false] at h
    rcases h with rfl | rfl | rfl | rfl <;> simp
  · intro schedule h
    simp only [List.mem_cons, List.mem_singleton, List.not_mem_nil, or_false] at h
    rcases h with rfl | rfl | rfl | rfl <;> simp

/-- C22 with the footprints 20, 30, 40, 50 and the order-preserving insertion
sort. -/
theorem C22_cold_start_scenario_witness :
    ∃ s2 s5,
      MP_run 2 2 (MP_init (sorted_process_queue (insertion_sort true)
          (mp_scenario_workload 20 30 40 50))) = Except.ok s2 ∧
      MP_run 2 5 (MP_init (sorted_process_queue (insertion_sort true)
          (mp_scenario_workload 20 30 40 50))) = Except.ok s5 ∧
      s2.processor_schedule = [[run_record (fresh_node 1 1000 20 0) 0 1000 0 1000], [], [], []] ∧
      s2.sjf_file =
        [Line.time 0,
         Line.process 0 (run_record (fresh_node 1 1000 20 0) 0 1000 0 1000),
         Line.idle 1] ∧
      s2.current_time = 50 ∧
      s5.processor_schedule =
        [[run_record (fresh_node 1 1000 20 0) 0 1000 0 950],
         [run_record (fresh_node 2 2000 30 50) 50 2050 0 2000], [], []] ∧
      s5.sjf_file = s2.sjf_file ++
        [Line.time 50,
         Line.process 0 (run_record (fresh_node 1 1000 20 0) 0 1000 0 950),
         Line.process 1 (run_record (fresh_node 2 2000 30 50) 50 2050 0 2000)] ∧
      s5.process_queue = [fresh_node 4 500 50 150, fresh_node 3 1500 40 100] ∧
      (∀ schedule ∈ s2.processor_schedule, schedule.length ≤ 1) ∧
      (∀ schedule ∈ s5.processor_schedule, schedule.length ≤ 1) :=
  C22_cold_start_scenario (insertion_sort true) (insertion_sort_contract true) 20 30 40 50

/-! ## `reset_processes` -/

/-- The loop of `reset_processes` resets the records at the positions `i`, ...,
`i + k - 1` when the list is long enough. -/
theorem reset_loop_ok (k i : Nat) (nodes : List node) (h : i + k ≤ nodes.length) :
    ∃ nodes1, reset_loop k i nodes = Except.ok nodes1 ∧
      nodes1.length = nodes.length ∧
      ∀ j, nodes1[j]? =
        if i ≤ j ∧ j < i + k then (nodes[j]?).map reset_node else nodes[j]? := by
  induction k generalizing i nodes with
  | zero =>
    refine ⟨nodes, rfl, rfl, ?_⟩
    intro j
    rw [if_neg (by omega)]
  | succ k ih =>
    have hi : i < nodes.length := by omega
    unfold reset_loop
    rw [List.getElem?_eq_getElem hi]
    simp only
    obtain ⟨nodes1, h1, h2, h3⟩ := ih (i + 1) (nodes.set i (reset_node nodes[i]))
      (by rw [List.length_set]; omega)
    refine ⟨nodes1, h1, by rw [h2, List.length_set], ?_⟩
    intro j
    rw [h3 j]
    by_cases hj : j = i
    · subst hj
      rw [if_neg (by omega), if_pos (by omega), List.getElem?_eq_getElem hi,
        List.getElem?_set_self hi]
      rfl
    · rw [List.getElem?_set_ne (Ne.symm hj)]
      by_cases hr : i + 1 ≤ j ∧ j < i + 1 + k
      · rw [if_pos hr, if_pos (by omega)]
      · rw [if_neg hr, if_neg (by omega)]

/-- On a list of `num_processes` records, `reset_processes` resets every
record and clears the queue and the schedules. -/
theorem reset_processes_ok (nodes : List node) (num_processes : Int)
    (hn : num_processes.toNat = nodes.length) :
    reset_processes nodes num_processes =
      Except.ok { nodes := nodes.map reset_node, process_queue := [],
                  processor_schedule := [[], [], [], []] } := by
  obtain ⟨nodes1, h1, h2, h3⟩ := reset_loop_ok num_processes.toNat 0 nodes (by omega)
  have h4 : nodes1 = nodes.map reset_node := by
    apply List.ext_getElem?
    intro j
    rw [h3 j, List.getElem?_map]
    by_cases hj : j < nodes.length
    · rw [if_pos (by omega)]
    · rw [if_neg (by omega), List.getElem?_eq_none (by omega)]
      rfl
  unfold reset_processes
  rw [h1, h4]

theorem reset_node_idem (p : node) : reset_node (reset_node p) = reset_node p := rfl

theorem reset_node_forget (p : node) : reset_node (forget_remaining p) = reset_node p := rfl

theorem reset_node_dispatched (t : Int) (p : node) :
    reset_node (dispatched_at t p) = reset_node p := rfl

theorem reset_node_fresh (a b c d : Int) : reset_node (fresh_node a b c d) = fresh_node a b c d :=
  rfl
/-! ## The records of the list while `SJF_multiprocessor` runs -/

/-- A run of the loop of `SJF_multiprocessor` that returns passes through
states the loop reaches and ends with `processes_left` false. -/
theorem MP_loop_ok {processor_count : Nat} (fuel : Nat) (s t : MPState)
    (h : MP_loop processor_count fuel s = Except.ok t) :
    MP_reaches processor_count s t ∧ t.processes_left = false := by
  induction fuel generalizing s with
  | zero => simp [MP_loop] at h
  | succ fuel ih =>
    unfold MP_loop at h
    by_cases hl : s.processes_left = true
    · rw [if_pos hl] at h
      cases hstep : MP_iteration processor_count s with
      | error e => rw [hstep] at h; cases h
      | ok s1 =>
        rw [hstep] at h
        obtain ⟨h1, h2⟩ := ih s1 h
        refine ⟨?_, h2⟩
        clear ih h h2
        induction h1 with
        | refl => exact MP_reaches.step (MP_reaches.refl s) hl hstep
        | step _ hl2 hstep2 ih2 => exact MP_reaches.step ih2 hl2 hstep2
    · rw [if_neg hl] at h
      cases h
      exact ⟨MP_reaches.refl _, by simpa using hl⟩

theorem SJF_multiprocessor_ok {sort : List node → List node} {process_list : List node}
    {num_processes : Int} {processor_count : Nat} {r : MPResult}
    (h : SJF_multiprocessor sort process_list num_processes processor_count = Except.ok r) :
    MP_reaches processor_count (MP_init (sorted_process_queue sort process_list)) r.loop_end := by
  unfold SJF_multiprocessor at h
  simp only at h
  cases hl : MP_loop processor_count (MP_fuel (MP_init (sorted_process_queue sort process_list)))
      (MP_init (sorted_process_queue sort process_list)) with
  | error e => rw [hl] at h; cases h
  | ok s =>
    rw [hl] at h
    simp only at h
    cases ha : avg_waiting_time s.total_waiting_time num_processes with
    | error e => rw [ha] at h; cases h
    | ok avg =>
      rw [ha] at h
      cases h
      exact (MP_loop_ok _ _ _ hl).1

theorem flatten_reset_eq_cores (s : MPState) :
    s.processor_schedule.flatten.map reset_node = (MP_cores s).map reset_node := by
  unfold MP_cores
  rw [List.map_map]
  rfl

/-- Up to what `reset_processes` rewrites, the records of the queue and of the
schedules stay the same from one iteration to the next. -/
theorem MP_reset_iteration {processor_count : Nat} {s u : MPState}
    (hP : processor_count ≤ 4) (hinv : MP_inv processor_count s)
    (h : MP_iteration processor_count s = Except.ok u) :
    ((u.process_queue ++ u.processor_schedule.flatten).map reset_node).Perm
      ((s.process_queue ++ s.processor_schedule.flatten).map reset_node) := by
  rcases MP_iteration_records hP hinv h with rfl | ⟨p, hp, _, hq, hcores, _⟩
  · exact List.Perm.refl _
  · rw [List.map_append, List.map_append, flatten_reset_eq_cores u, flatten_reset_eq_cores s, hq]
    have h1 := hcores.map reset_node
    rw [List.map_cons, reset_node_forget, reset_node_dispatched] at h1
    have h2 := (cons_eraseIdx_perm s.process_queue s.i p hp).map reset_node
    rw [List.map_cons] at h2
    have h3 : (List.map reset_node (s.process_queue.eraseIdx s.i) ++
        List.map reset_node (MP_cores u)).Perm
        (List.map reset_node (s.process_queue.eraseIdx s.i) ++
          (reset_node p :: List.map reset_node (MP_cores s))) :=
      List.Perm.append_left _ h1
    refine h3.trans ?_
    refine List.perm_middle.trans ?_
    exact List.Perm.append_right _ h2

theorem MP_reset_reaches {processor_count : Nat} {s t : MPState}
    (hP : processor_count ≤ 4) (hr : MP_reaches processor_count s t)
    (hinv : MP_inv processor_count s) :
    ((t.process_queue ++ t.processor_schedule.flatten).map reset_node).Perm
      ((s.process_queue ++ s.processor_schedule.flatten).map reset_node) := by
  induction hr with
  | refl => exact List.Perm.refl _
  | step hr1 _ hstep ih =>
    exact (MP_reset_iteration hP (MP_inv_reaches hP hr1 hinv) hstep).trans ih

/-- When the records `records`, once reset, are the records of `process_list`,
which are as `reset_processes` leaves them and have different ids, the reset of
the current record of each process of `process_list` is that process. -/
theorem reset_current_records (process_list records : List node)
    (hfresh : ∀ p ∈ process_list, reset_node p = p)
    (hids : (process_list.map (fun p => p.process_ID)).Nodup)
    (hperm : (records.map reset_node).Perm process_list) :
    (process_list.map (current_record records)).map reset_node = process_list := by
  rw [List.map_map]
  conv_rhs => rw [← List.map_id process_list]
  apply List.map_congr_left
  intro p hp
  show reset_node (current_record records p) = p
  unfold current_record
  cases hf : records.find? (fun r => decide (r.process_ID = p.process_ID)) with
  | none => exact hfresh p hp
  | some r =>
    have hr : r ∈ records := List.mem_of_find?_eq_some hf
    have hid : r.process_ID = p.process_ID := by
      have := List.find?_some hf
      simpa using this
    have hmem : reset_node r ∈ process_list :=
      hperm.subset (List.mem_map_of_mem _ hr)
    exact List.inj_on_of_nodup_map hids hmem hp hid

/-- What `generate_processes` builds: records as `reset_processes` leaves them,
with the ids 1, 2, ..., arrival times 0, 50, 100, ..., and at least 1000 and at
most 11000 cycles. -/
theorem generate_loop_fresh (k i : Nat) (g g1 : GenState)
    (h : generate_loop k i g = some g1) :
    ∃ added : List node, g1.process_list = g.process_list ++ added ∧
      ∀ p ∈ added, reset_node p = p := by
  induction k generalizing i g with
  | zero =>
    simp only [generate_loop, Option.some.injEq] at h
    subst h
    exact ⟨[], by simp, by simp⟩
  | succ k ih =>
    unfold generate_loop at h
    cases hc : draw_until_in_range 1000 11000 g.draws with
    | none => rw [hc] at h; cases h
    | some c =>
      obtain ⟨cycles, draws1⟩ := c
      rw [hc] at h
      simp only at h
      cases hf : draw_until_in_range 1 100 draws1 with
      | none => rw [hf] at h; cases h
      | some f =>
        obtain ⟨footprint, draws2⟩ := f
        rw [hf] at h
        simp only at h
        obtain ⟨added, hlist, hfresh⟩ := ih _ _ h
        refine ⟨(⟨(i : Int) + 1, cycles, footprint, g.arrival, 0, 0, 0, 0, 0, cycles⟩ : node)
          :: added, ?_, ?_⟩
        · rw [hlist]; simp
        · intro p hp
          rcases List.mem_cons.mp hp with rfl | hp
          · rfl
          · exact hfresh p hp

theorem generated_facts (draws : List Int) (total_cycles num_processes : Int) (g : GenState)
    (h : generate_processes draws total_cycles num_processes = some g) :
    g.process_list.length = num_processes.toNat ∧
    generated_workload g.process_list ∧
    (∀ p ∈ g.process_list, reset_node p = p) ∧
    (g.process_list.map (fun p => p.process_ID)).Nodup ∧
    ∀ (j : Nat) (p : node), g.process_list[j]? = some p → p.process_ID = (j : Int) + 1 := by
  obtain ⟨added, hlist, hlen, hrange, hpos, _, _⟩ := generate_loop_spec _ _ _ _ h
  obtain ⟨added1, hlist1, hfresh⟩ := generate_loop_fresh _ _ _ _ h
  simp only [List.nil_append] at hlist hlist1
  rw [← hlist] at hlen hrange hpos
  rw [← hlist1] at hfresh
  have hid : ∀ (j : Nat) (p : node), g.process_list[j]? = some p →
      p.process_ID = (j : Int) + 1 := by
    intro j p hj
    have := (hpos j p hj).2
    simpa using this
  refine ⟨hlen, ?_, hfresh, ?_, hid⟩
  · intro j p hj
    obtain ⟨h1, h2, _, _, h5⟩ := hrange p (List.getElem?_mem hj)
    have h6 := (hpos j p hj).1
    exact ⟨by simpa using h6, h1, h2, h5⟩
  · rw [List.nodup_iff_getElem?_ne_getElem?]
    intro a b hab hb
    rw [List.length_map] at hb
    rw [List.getElem?_map, List.getElem?_map, List.getElem?_eq_getElem hb,
      List.getElem?_eq_getElem (by omega : a < g.process_list.length)]
    simp only [Option.map_some', ne_eq, Option.some.injEq]
    rw [hid a _ (List.getElem?_eq_getElem (by omega)), hid b _ (List.getElem?_eq_getElem hb)]
    omega

/-- In every state the loop of `SJF_multiprocessor` reaches on a workload of
the generator, `reset_processes` gives back the records the generator built. -/
theorem MP_nodes_reset (sort : List node → List node)
    (hsort : std_sort_contract cycles_less sort) (draws : List Int)
    (total_cycles num_processes : Int) (g : GenState)
    (hg : generate_processes draws total_cycles num_processes = some g)
    (processor_count : Nat) (hP : processor_count ≤ 4) (s : MPState)
    (hreach : MP_reaches processor_count
      (MP_init (sorted_process_queue sort g.process_list)) s) :
    reset_processes (MP_nodes g.process_list s) num_processes =
      Except.ok { nodes := g.process_list, process_queue := [],
                  processor_schedule := [[], [], [], []] } := by
  obtain ⟨hlen, hgen, hfresh, hids, _⟩ := generated_facts _ _ _ _ hg
  have hinv0 := MP_inv_init processor_count _
    (generated_queue_facts sort hsort g.process_list hgen)
  have hperm := MP_reset_reaches hP hreach hinv0
  have hperm1 : ((s.process_queue ++ s.processor_schedule.flatten).map reset_node).Perm
      g.process_list := by
    refine hperm.trans ?_
    have h0 : (MP_init (sorted_process_queue sort g.process_list)).process_queue ++
        (MP_init (sorted_process_queue sort g.process_list)).processor_schedule.flatten
        = sorted_process_queue sort g.process_list := by
      simp [MP_init]
    rw [h0]
    have h1 := (sorted_process_queue_spec sort hsort g.process_list).1.map reset_node
    refine h1.trans ?_
    have h2 : g.process_list.map reset_node = g.process_list := by
      conv_rhs => rw [← List.map_id g.process_list]
      exact List.map_congr_left hfresh
    rw [h2]
  have h2 := reset_current_records g.process_list _ hfresh hids hperm1
  rw [reset_processes_ok _ _ (by rw [MP_nodes, List.length_map, hlen])]
  unfold MP_nodes
  rw [h2]
theorem mp_workload_60_from_generator :
    generate_processes mp_draws_60 0 60 =
      some { process_list := mp_workload_60, total_cycles := 77160, arrival := 3000,
             draws := [] } := by
  decide!

/-- On `mp_workload_60` with two processors `SJF_multiprocessor` returns. -/
theorem mp_workload_60_returns :
    ∃ r, SJF_multiprocessor (insertion_sort true) mp_workload_60 60 2 = Except.ok r := by
  have h : (match SJF_multiprocessor (insertion_sort true) mp_workload_60 60 2 with
      | Except.ok _ => true
      | Except.error _ => false) = true := by decide!
  cases hr : SJF_multiprocessor (insertion_sort true) mp_workload_60 60 2 with
  | ok r => exact ⟨r, rfl⟩
  | error e =>
    rw [hr] at h
    cases h

/-- C24: `reset_processes`, called with the number of the records of the list,
sets `start_time`, `stop_time` and `waiting_time` of every record to 0 and its
remaining cycles to its cycles, leaves id, cycles, memory footprint and arrival
time as they are, and empties the queue and the four schedules.  On a workload
of the generator it gives back, from the records of every state the loop of
`SJF_multiprocessor` reaches, and so from those at the end of a run that
returns, the records the generator built. -/
theorem C24_reset_restores_records (sort : List node → List node)
    (hsort : std_sort_contract cycles_less sort) (draws : List Int)
    (total_cycles num_processes : Int) (g : GenState)
    (hg : generate_processes draws total_cycles num_processes = some g)
    (processor_count : Nat) (hP : processor_count ≤ 4) :
    (∀ (nodes : List node) (n : Int), n.toNat = nodes.length →
      ∃ m, reset_processes nodes n = Except.ok m ∧
        m.process_queue = [] ∧ m.processor_schedule = [[], [], [], []] ∧
        m.nodes.length = nodes.length ∧
        ∀ (j : Nat) (p : node), nodes[j]? = some p →
          ∃ q, m.nodes[j]? = some q ∧
            q.start_time = 0 ∧ q.stop_time = 0 ∧ q.waiting_time = 0 ∧
            q.remaining_cycles = q.CPU_cycles ∧
            q.process_ID = p.process_ID ∧ q.CPU_cycles = p.CPU_cycles ∧
            q.memory_footprint = p.memory_footprint ∧ q.arrival_time = p.arrival_time) ∧
    (∀ s, MP_reaches processor_count (MP_init (sorted_process_queue sort g.process_list)) s →
      reset_processes (MP_nodes g.process_list s) num_processes =
        Except.ok { nodes := g.process_list, process_queue := [],
                    processor_schedule := [[], [], [], []] }) ∧
    ∀ r, SJF_multiprocessor sort g.process_list num_processes processor_count = Except.ok r →
      reset_processes (MP_nodes g.process_list r.loop_end) num_processes =
        Except.ok { nodes := g.process_list, process_queue := [],
                    processor_schedule := [[], [], [], []] } := by
  refine ⟨?_, ?_, ?_⟩
  · intro nodes n hn
    refine ⟨_, reset_processes_ok nodes n hn, rfl, rfl, by simp, ?_⟩
    intro j p hj
    refine ⟨reset_node p, ?_, rfl, rfl, rfl, rfl, rfl, rfl, rfl, rfl⟩
    show (nodes.map reset_node)[j]? = some (reset_node p)
    rw [List.getElem?_map, hj]
    rfl
  · intro s hreach
    exact MP_nodes_reset sort hsort draws total_cycles num_processes g hg processor_count hP s
      hreach
  · intro r hr
    exact MP_nodes_reset sort hsort draws total_cycles num_processes g hg processor_count hP _
      (SJF_multiprocessor_ok hr)

/-- C24 on the workload `mp_workload_60` with two processors, on which
`SJF_multiprocessor` returns. -/
theorem C24_reset_restores_records_witness :
    (∃ r, SJF_multiprocessor (insertion_sort true) mp_workload_60 60 2 = Except.ok r) ∧
    (∀ (nodes : List node) (n : Int), n.toNat = nodes.length →
      ∃ m, reset_processes nodes n = Except.ok m ∧
        m.process_queue = [] ∧ m.processor_schedule = [[], [], [], []] ∧
        m.nodes.length = nodes.length ∧
        ∀ (j : Nat) (p : node), nodes[j]? = some p →
          ∃ q, m.nodes[j]? = some q ∧
            q.start_time = 0 ∧ q.stop_time = 0 ∧ q.waiting_time = 0 ∧
            q.remaining_cycles = q.CPU_cycles ∧
            q.process_ID = p.process_ID ∧ q.CPU_cycles = p.CPU_cycles ∧
            q.memory_footprint = p.memory_footprint ∧ q.arrival_time = p.arrival_time) ∧
    (∀ s, MP_reaches 2 (MP_init (sorted_process_queue (insertion_sort true) mp_workload_60)) s →
      reset_processes (MP_nodes mp_workload_60 s) 60 =
        Except.ok { nodes := mp_workload_60, process_queue := [],
                    processor_schedule := [[], [], [], []] }) ∧
    ∀ r, SJF_multiprocessor (insertion_sort true) mp_workload_60 60 2 = Except.ok r →
      reset_processes (MP_nodes mp_workload_60 r.loop_end) 60 =
        Except.ok { nodes := mp_workload_60, process_queue := [],
                    processor_schedule := [[], [], [], []] } :=
  ⟨mp_workload_60_returns,
    C24_reset_restores_records (insertion_sort true) (insertion_sort_contract true)
      mp_draws_60 0 60
      { process_list := mp_workload_60, total_cycles := 77160, arrival := 3000, draws := [] }
      mp_workload_60_from_generator 2 (by decide)⟩

/-! ## Running the schedulers again -/

theorem map_reset_fresh (process_list : List node)
    (hfresh : ∀ p ∈ process_list, reset_node p = p) :
    process_list.map reset_node = process_list := by
  conv_rhs => rw [← List.map_id process_list]
  exact List.map_congr_left hfresh

/-- C25: on a workload of the generator, `SJF_single_processor` returns (when
`num_processes` is not 0) and leaves, through the `reset_processes` at its
end, the records the generator built and empty schedules: a second call
returns the same result (the same report and the same total waiting time), and
`SJF_multiprocessor` called afterwards does, iteration by iteration, what it
does on the records as generated.  In whichever state the loop of
`SJF_multiprocessor` has left the records (every state the loop reaches, 50
processes and four processors included), `reset_processes` gives back the
records the generator built and empty schedules, so a second call of
`SJF_multiprocessor`, and one of `SJF_single_processor`, does on them,
iteration by iteration, what it does on the records as generated; a call of
`SJF_multiprocessor` that returns is repeated with the same result. -/
theorem C25_runs_repeat (sort : List node → List node)
    (hsort : std_sort_contract cycles_less sort) (draws : List Int)
    (total_cycles num_processes : Int) (g : GenState)
    (hg : generate_processes draws total_cycles num_processes = some g)
    (processor_count : Nat) (hP : processor_count ≤ 4) :
    (∀ r m, SJF_single_processor_reset sort g.process_list num_processes = Except.ok (r, m) →
      m = { nodes := g.process_list, process_queue := [],
            processor_schedule := [[], [], [], []] } ∧
      SJF_single_processor_reset sort m.nodes num_processes = Except.ok (r, m) ∧
      SJF_multiprocessor_reset sort m.nodes num_processes processor_count
        = SJF_multiprocessor_reset sort g.process_list num_processes processor_count ∧
      SJF_multiprocessor sort m.nodes num_processes processor_count
        = SJF_multiprocessor sort g.process_list num_processes processor_count ∧
      ∀ k, MP_run processor_count k (MP_init (sorted_process_queue sort m.nodes))
        = MP_run processor_count k (MP_init (sorted_process_queue sort g.process_list))) ∧
    (∀ s, MP_reaches processor_count (MP_init (sorted_process_queue sort g.process_list)) s →
      ∃ m, reset_processes (MP_nodes g.process_list s) num_processes = Except.ok m ∧
        m = { nodes := g.process_list, process_queue := [],
              processor_schedule := [[], [], [], []] } ∧
        SJF_multiprocessor sort m.nodes num_processes processor_count
          = SJF_multiprocessor sort g.process_list num_processes processor_count ∧
        (∀ k, MP_run processor_count k (MP_init (sorted_process_queue sort m.nodes))
          = MP_run processor_count k (MP_init (sorted_process_queue sort g.process_list))) ∧
        SJF_single_processor sort m.nodes num_processes
          = SJF_single_processor sort g.process_list num_processes) ∧
    (∀ r m, SJF_multiprocessor_reset sort g.process_list num_processes processor_count
        = Except.ok (r, m) →
      m = { nodes := g.process_list, process_queue := [],
            processor_schedule := [[], [], [], []] } ∧
      SJF_multiprocessor_reset sort m.nodes num_processes processor_count
        = Except.ok (r, m)) ∧
    (num_processes ≠ 0 →
      ∃ r m, SJF_single_processor_reset sort g.process_list num_processes
        = Except.ok (r, m)) := by
  obtain ⟨hlen, hgen, hfresh, _, _⟩ := generated_facts _ _ _ _ hg
  have hreset : reset_processes g.process_list num_processes =
      Except.ok { nodes := g.process_list, process_queue := [],
                  processor_schedule := [[], [], [], []] } := by
    rw [reset_processes_ok _ _ hlen.symm, map_reset_fresh _ hfresh]
  refine ⟨?_, ?_, ?_, ?_⟩
  · intro r m h
    have hm : m = { nodes := g.process_list, process_queue := [],
                    processor_schedule := [[], [], [], []] } := by
      unfold SJF_single_processor_reset at h
      cases hr : SJF_single_processor sort g.process_list num_processes with
      | error e => rw [hr] at h; cases h
      | ok r1 =>
        rw [hr, hreset] at h
        cases h
        rfl
    subst hm
    exact ⟨rfl, h, rfl, rfl, fun _ => rfl⟩
  · intro s hreach
    exact ⟨_, MP_nodes_reset sort hsort draws total_cycles num_processes g hg processor_count hP
      s hreach, rfl, rfl, fun _ => rfl, rfl⟩
  · intro r m h
    have hm : m = { nodes := g.process_list, process_queue := [],
                    processor_schedule := [[], [], [], []] } := by
      unfold SJF_multiprocessor_reset at h
      cases hr : SJF_multiprocessor sort g.process_list num_processes processor_count with
      | error e => rw [hr] at h; cases h
      | ok r1 =>
        rw [hr] at h
        simp only at h
        rw [MP_nodes_reset sort hsort draws total_cycles num_processes g hg processor_count hP _
          (SJF_multiprocessor_ok hr)] at h
        cases h
        rfl
    subst hm
    exact ⟨rfl, h⟩
  · intro hn
    obtain ⟨r, hr⟩ := SJF_single_processor_returns sort hsort g.process_list
      (fun j p hj => by
        obtain ⟨h1, h2, _, _⟩ := hgen j p hj
        exact ⟨h1, by omega⟩) num_processes hn
    refine ⟨r, { nodes := g.process_list, process_queue := [],
                 processor_schedule := [[], [], [], []] }, ?_⟩
    unfold SJF_single_processor_reset
    rw [hr, hreset]

/-- C25 on the workload `mp_workload_50` of 50 processes with four processors:
the state after 98 iterations, in which the ready queue is empty, is a state
the loop of `SJF_multiprocessor` reaches. -/
theorem C25_runs_repeat_witness :
    MP_reaches 4 (MP_init (sorted_process_queue (insertion_sort true) mp_workload_50))
      (MP_state_after 4 98 (insertion_sort true mp_workload_50)) ∧
    (∀ r m, SJF_single_processor_reset (insertion_sort true) mp_workload_50 50
        = Except.ok (r, m) →
      m = { nodes := mp_workload_50, process_queue := [],
            processor_schedule := [[], [], [], []] } ∧
      SJF_single_processor_reset (insertion_sort true) m.nodes 50 = Except.ok (r, m) ∧
      SJF_multiprocessor_reset (insertion_sort true) m.nodes 50 4
        = SJF_multiprocessor_reset (insertion_sort true) mp_workload_50 50 4 ∧
      SJF_multiprocessor (insertion_sort true) m.nodes 50 4
        = SJF_multiprocessor (insertion_sort true) mp_workload_50 50 4 ∧
      ∀ k, MP_run 4 k (MP_init (sorted_process_queue (insertion_sort true) m.nodes))
        = MP_run 4 k (MP_init (sorted_process_queue (insertion_sort true) mp_workload_50))) ∧
    (∀ s, MP_reaches 4 (MP_init (sorted_process_queue (insertion_sort true) mp_workload_50)) s →
      ∃ m, reset_processes (MP_nodes mp_workload_50 s) 50 = Except.ok m ∧
        m = { nodes := mp_workload_50, process_queue := [],
              processor_schedule := [[], [], [], []] } ∧
        SJF_multiprocessor (insertion_sort true) m.nodes 50 4
          = SJF_multiprocessor (insertion_sort true) mp_workload_50 50 4 ∧
        (∀ k, MP_run 4 k (MP_init (sorted_process_queue (insertion_sort true) m.nodes))
          = MP_run 4 k (MP_init (sorted_process_queue (insertion_sort true) mp_workload_50))) ∧
        SJF_single_processor (insertion_sort true) m.nodes 50
          = SJF_single_processor (insertion_sort true) mp_workload_50 50) ∧
    (∀ r m, SJF_multiprocessor_reset (insertion_sort true) mp_workload_50 50 4
        = Except.ok (r, m) →
      m = { nodes := mp_workload_50, process_queue := [],
            processor_schedule := [[], [], [], []] } ∧
      SJF_multiprocessor_reset (insertion_sort true) m.nodes 50 4 = Except.ok (r, m)) ∧
    ((50 : Int) ≠ 0 →
      ∃ r m, SJF_single_processor_reset (insertion_sort true) mp_workload_50 50
        = Except.ok (r, m)) :=
  ⟨MP_run_reaches 4 98 _ _ (by decide!),
    C25_runs_repeat (insertion_sort true) (insertion_sort_contract true) mp_draws_50 0 50
      { process_list := mp_workload_50, total_cycles := 217825, arrival := 2500, draws := [] }
      mp_workload_50_from_generator 4 (by decide)⟩

/-! ## Iterations that succeed -/

/-- A loop whose body succeeds in every state with `inv`, and keeps `inv`,
succeeds. -/
theorem for_range_total {σ : Type} (body : Nat → σ → Except Fault σ) (inv : σ → Prop)
    (n : Nat) (s : σ) (h0 : inv s)
    (hstep : ∀ k a, k < n → inv a → ∃ b, body k a = Except.ok b ∧ inv b) :
    ∃ u, for_range body n s = Except.ok u ∧ inv u := by
  induction n with
  | zero => exact ⟨s, rfl, h0⟩
  | succ n ih =>
    obtain ⟨u, hu, hinv⟩ := ih (fun k a hk ha => hstep k a (Nat.lt_succ_of_lt hk) ha)
    obtain ⟨b, hb, hinvb⟩ := hstep n u (Nat.lt_succ_self n) hinv
    refine ⟨b, ?_, hinvb⟩
    unfold for_range
    rw [hu]
    exact hb

theorem MP_reaches_trans {processor_count : Nat} {s t u : MPState}
    (h1 : MP_reaches processor_count s t) (h2 : MP_reaches processor_count t u) :
    MP_reaches processor_count s u := by
  induction h2 with
  | refl => exact h1
  | step _ hl hstep ih => exact MP_reaches.step ih hl hstep

/-- An iteration that finds a process which has not arrived steps `i`. -/
theorem MP_iteration_scan (processor_count : Nat) {s : MPState} {p : node}
    (hp : s.process_queue[s.i]? = some p) (hlate : ¬ p.arrival_time ≤ s.current_time) :
    MP_iteration processor_count s = Except.ok { s with i := s.i + 1 } := by
  unfold MP_iteration
  rw [read_at_some hp]
  simp only
  rw [if_neg hlate]

/-- When the queue holds an arrived process at `i` or behind it, the loop steps
`i` up to the first such process. -/
theorem MP_scan_finds (processor_count : Nat) (d : Nat) (s : MPState)
    (hleft : s.processes_left = true) (j : Nat) (q : node) (hd : j = s.i + d)
    (hq : s.process_queue[j]? = some q) (harr : q.arrival_time ≤ s.current_time) :
    ∃ idx p, MP_reaches processor_count s { s with i := idx } ∧ s.i ≤ idx ∧
      s.process_queue[idx]? = some p ∧ p.arrival_time ≤ s.current_time := by
  induction d generalizing s with
  | zero =>
    refine ⟨s.i, q, MP_reaches.refl s, Nat.le_refl _, ?_, harr⟩
    rw [← hq, hd]
    rfl
  | succ d ih =>
    have hlt : s.i < s.process_queue.length := by
      have := (List.getElem?_eq_some.mp hq).1
      omega
    by_cases ha : (s.process_queue[s.i]).arrival_time ≤ s.current_time
    · exact ⟨s.i, _, MP_reaches.refl s, Nat.le_refl _, List.getElem?_eq_getElem hlt, ha⟩
    · have hstep := MP_iteration_scan processor_count (List.getElem?_eq_getElem hlt) ha
      obtain ⟨idx, p, hr, hle, hp, hpa⟩ := ih { s with i := s.i + 1 } hleft
        (by show j = s.i + 1 + d; omega) hq harr
      refine ⟨idx, p, ?_, by have : s.i + 1 ≤ idx := hle; omega, hp, hpa⟩
      have h1 : MP_reaches processor_count s { s with i := s.i + 1 } :=
        MP_reaches.step (MP_reaches.refl s) hleft hstep
      exact MP_reaches_trans h1 hr

/-- During the fill-up the `switch` of the branch for empty processors
succeeds. -/
theorem cold_dispatch_total {processor_count : Nat} {s : MPState} {p : node}
    (hP : processor_count ≤ 4) (hcold : MP_cold processor_count s)
    (hp : s.process_queue[s.i]? = some p) :
    ∃ t1, cold_dispatch (MP_header s) = Except.ok t1 := by
  obtain ⟨hminlt, _, _, hempties⟩ := hcold
  have hD : s.min_cycles_index < 4 := by omega
  obtain ⟨e1, e2, _⟩ := hempties s.min_cycles_index (Nat.le_refl _) hD
  have h1 : read_at (MP_header s).process_queue (MP_header s).i = Except.ok p :=
    read_at_some hp
  have h2 : read_at (MP_header s).processor_schedule (MP_header s).min_cycles_index
      = Except.ok [] := read_at_some e1
  have h3 : read_at (MP_header s).processor_index (MP_header s).min_cycles_index
      = Except.ok 0 := read_at_some e2
  have hD1 : (MP_header s).min_cycles_index < 4 := hD
  unfold cold_dispatch
  rw [if_pos hD1, h1, h2, h3]
  simp [read_at]

/-- During the fill-up the report loop of the branch for empty processors
succeeds. -/
theorem cold_report_total {processor_count D : Nat} {t1 : MPState}
    (hP : processor_count ≤ 4) (hmin : t1.min_cycles_index = D)
    (hempty : t1.empty_processor = false)
    (hlen3 : t1.processor_cycles.length = 4)
    (hslots : ∀ k, k ≤ D → ∃ e, t1.processor_schedule[k]? = some [e]) :
    ∃ t2, for_range cold_report processor_count t1 = Except.ok t2 := by
  obtain ⟨t2, h2, _⟩ := for_range_total cold_report (fun a => MP_frame t1 a) processor_count t1
    (MP_frame_refl t1 hempty)
    (fun k a hk hf => by
      have hb : ∃ b, cold_report k a = Except.ok b := by
        unfold cold_report
        by_cases hgt : k > a.min_cycles_index
        · rw [if_pos hgt]
          exact ⟨_, rfl⟩
        · rw [if_neg hgt, if_pos (by omega : k < 4)]
          have hkD : k ≤ D := by
            rw [hf.2.2.2.2.1, hmin] at hgt
            omega
          obtain ⟨e, he⟩ := hslots k hkD
          obtain ⟨schedule, hs, hfs⟩ := MP_frame_slot_back hf k [e] he
          have hlen : schedule.length = 1 := by
            have := forget_length hfs
            simpa using this
          have hc : k < a.processor_cycles.length := by
            rw [hf.2.2.2.2.2.2.2.2.2, hlen3]
            omega
          rw [read_at_some hs, read_at_some (List.getElem?_eq_getElem hc)]
          simp only
          rw [read_at_some (List.getElem?_eq_getElem (by omega : 0 < schedule.length))]
          exact ⟨_, rfl⟩
      obtain ⟨b, hb⟩ := hb
      exact ⟨b, hb, MP_frame_trans hf (cold_report_frame hf.2.2.2.2.2.2.2.1 hb)⟩)
  exact ⟨t2, h2⟩

/-- The loop that picks the smallest entry of `processor_cycles` at the end of
the branch for empty processors succeeds. -/
theorem min_scan_total (cycles : List Int) (n : Nat) (hn : n ≤ 4) (hlen : cycles.length = 4) :
    ∃ m, for_range (min_scan cycles) n 0 = Except.ok m ∧ m < 4 :=
  for_range_total (min_scan cycles) (fun m => m < 4) n 0 (by omega)
    (fun k a hk ha => by
      unfold min_scan
      rw [read_at_some (List.getElem?_eq_getElem (by omega : k < cycles.length)),
        read_at_some (List.getElem?_eq_getElem (by omega : a < cycles.length))]
      simp only
      by_cases hc : cycles[k] < cycles[a]
      · rw [if_pos hc]
        exact ⟨k, rfl, by omega⟩
      · rw [if_neg hc]
        exact ⟨a, rfl, ha⟩)
/-- During the fill-up the branch for empty processors succeeds. -/
theorem cold_branch_total {processor_count : Nat} {s : MPState} {p : node}
    (hP : processor_count ≤ 4) (hinv : MP_inv processor_count s)
    (hcold : MP_cold processor_count s) (hp : s.process_queue[s.i]? = some p) :
    ∃ s1, cold_branch processor_count (MP_header s) = Except.ok s1 := by
  obtain ⟨_, _, hl3, hempty, _, _, _, _⟩ := hinv
  obtain ⟨t1, hd⟩ := cold_dispatch_total hP hcold hp
  obtain ⟨_, c2, _, c4, _, _, c7, c8, _⟩ := cold_dispatch_cold hP hcold hp hd
  obtain ⟨hminlt, _, hfilled, hempties⟩ := hcold
  have hD : s.min_cycles_index < 4 := by omega
  obtain ⟨e1, _, _⟩ := hempties s.min_cycles_index (Nat.le_refl _) hD
  have hslots : ∀ k, k ≤ s.min_cycles_index → ∃ e, t1.processor_schedule[k]? = some [e] := by
    intro k hk
    rw [c2, getElem?_set_of_some _ _ _ _ _ e1]
    by_cases hkD : s.min_cycles_index = k
    · rw [if_pos hkD]
      exact ⟨_, rfl⟩
    · rw [if_neg hkD]
      obtain ⟨e, g1, _⟩ := hfilled k (by omega)
      exact ⟨e, g1⟩
  have hlen3 : t1.processor_cycles.length = 4 := by
    rw [c4, List.length_set]
    exact hl3
  obtain ⟨t2, hrep⟩ := cold_report_total hP c7 (c8.trans hempty) hlen3 hslots
  have hf := cold_report_loop_frame (c8.trans hempty) hrep
  have hlen4 : t2.processor_cycles.length = 4 := by
    rw [hf.2.2.2.2.2.2.2.2.2, hlen3]
  unfold cold_branch
  rw [hd]
  simp only
  rw [hrep]
  simp only
  by_cases hlt : t2.min_cycles_index + 1 < processor_count
  · rw [if_pos hlt]
    exact ⟨_, rfl⟩
  · rw [if_neg hlt]
    obtain ⟨m, hm, hm4⟩ := min_scan_total t2.processor_cycles processor_count hP hlen4
    rw [hm]
    simp only
    rw [read_at_some (List.getElem?_eq_getElem (by omega : m < t2.processor_cycles.length))]
    exact ⟨_, rfl⟩

/-- During the fill-up an iteration that finds an arrived process succeeds: it
is a pass through the branch for empty processors. -/
theorem cold_iteration {processor_count : Nat} {s : MPState} {p : node}
    (hP : processor_count ≤ 4) (hinv : MP_inv processor_count s)
    (hcold : MP_cold processor_count s) (hp : s.process_queue[s.i]? = some p)
    (harr : p.arrival_time ≤ s.current_time) :
    ∃ s1, cold_branch processor_count (MP_header s) = Except.ok s1 ∧
      MP_iteration processor_count s = Except.ok { s1 with i := 0 } := by
  obtain ⟨s1, hb⟩ := cold_branch_total hP hinv hcold hp
  refine ⟨s1, hb, ?_⟩
  obtain ⟨hminlt, _, _, hempties⟩ := hcold
  obtain ⟨_, _, e3⟩ := hempties s.min_cycles_index (Nat.le_refl _) (by omega)
  have hb1 : cold_branch processor_count
      { s with sjf_file := s.sjf_file ++ [Line.time s.current_time] } = Except.ok s1 := hb
  unfold MP_iteration
  rw [read_at_some hp]
  simp only
  rw [if_pos harr, read_at_some e3]
  simp only
  rw [if_neg (by omega : ¬ (0 : Int) > 0), hb1]

/-- The report loop of the branch for empty processors does not touch
`processes_left`. -/
theorem cold_report_loop_left {n : Nat} {s u : MPState}
    (h : for_range cold_report n s = Except.ok u) : u.processes_left = s.processes_left :=
  for_range_inv cold_report (fun _ a => a.processes_left = s.processes_left) n s u rfl
    (fun _ a b _ ha hb => by
      rcases cold_report_ok hb with ⟨_, rfl⟩ | ⟨_, _, rfl⟩ | ⟨_, _, _, _, _, _, _, _, rfl⟩
      · exact ha
      · exact ha
      · exact ha) h

/-- What a pass through the branch for empty processors leaves behind during
the fill-up: the schedules as before, up to the remaining cycles, with the
record of the dispatch as the only record of the processor `min_cycles_index`;
and, while a further processor is to be filled, `min_cycles_index` one higher
and the clock 50 later. -/
theorem cold_branch_next {processor_count : Nat} {s s1 : MPState} {p : node}
    (hP : processor_count ≤ 4) (hinv : MP_inv processor_count s)
    (hcold : MP_cold processor_count s) (hp : s.process_queue[s.i]? = some p)
    (hb : cold_branch processor_count (MP_header s) = Except.ok s1) :
    s1.processor_schedule.map (List.map forget_remaining) =
      (s.processor_schedule.set s.min_cycles_index
        [dispatched_at s.current_time p]).map (List.map forget_remaining) ∧
    s1.process_queue = s.process_queue.eraseIdx s.i ∧
    s1.processes_left = s.processes_left ∧
    (s.min_cycles_index + 1 < processor_count →
      s1.min_cycles_index = s.min_cycles_index + 1 ∧
      s1.current_time = s.current_time + 50) := by
  have hempty : s.empty_processor = false := hinv.2.2.2.1
  obtain ⟨t1, t2, hd, hrep, hfin⟩ := cold_branch_ok hb
  obtain ⟨c1, c2, _, _, c5, _, c7, c8, _⟩ := cold_dispatch_cold hP hcold hp hd
  have hl1 : t1.processes_left = s.processes_left := (cold_dispatch_moved hd).2.2.2.2.1
  have hl2 := cold_report_loop_left hrep
  have hf := cold_report_loop_frame (c8.trans hempty) hrep
  have hsched : t2.processor_schedule.map (List.map forget_remaining) =
      (s.processor_schedule.set s.min_cycles_index
        [dispatched_at s.current_time p]).map (List.map forget_remaining) := by
    rw [hf.2.2.2.2.2.2.2.2.1, c2]
  rcases hfin with ⟨hlt, rfl⟩ | ⟨hnlt, m, c, _, _, rfl⟩
  · refine ⟨hsched, by rw [← c1]; exact hf.1, hl2.trans hl1, ?_⟩
    intro _
    refine ⟨?_, ?_⟩
    · show t2.min_cycles_index + 1 = s.min_cycles_index + 1
      rw [hf.2.2.2.2.1, c7]
    · show t2.current_time + 50 = s.current_time + 50
      rw [hf.2.2.1, c5]
  · refine ⟨hsched, by rw [← c1]; exact hf.1, hl2.trans hl1, ?_⟩
    intro hlt
    exfalso
    rw [hf.2.2.2.2.1, c7] at hnlt
    exact hnlt hlt
/-! ## The fill-up on the workloads of the generator -/

theorem slot_of_forget_eq {L1 L2 : List (List node)}
    (h : L1.map (List.map forget_remaining) = L2.map (List.map forget_remaining))
    (k : Nat) (schedule2 : List node) (h2 : L2[k]? = some schedule2) :
    ∃ schedule1, L1[k]? = some schedule1 ∧
      schedule1.map forget_remaining = schedule2.map forget_remaining := by
  have h1 := congrArg (fun L => L[k]?) h
  simp only [List.getElem?_map, h2, Option.map_some'] at h1
  cases hk : L1[k]? with
  | none => rw [hk] at h1; cases h1
  | some schedule1 =>
    rw [hk] at h1
    simp only [Option.map_some', Option.some.injEq] at h1
    exact ⟨schedule1, rfl, h1⟩

theorem MP_cold_init (processor_count : Nat) (q : List node) :
    MP_cold processor_count (MP_init q) := by
  refine ⟨?_, ?_, ?_, ?_⟩
  · show 0 < max processor_count 1
    omega
  · rfl
  · intro k hk
    exact absurd hk (Nat.not_lt_zero k)
  · intro k _ hk4
    have h4 : k = 0 ∨ k = 1 ∨ k = 2 ∨ k = 3 := by omega
    rcases h4 with rfl | rfl | rfl | rfl <;> exact ⟨rfl, rfl, rfl⟩

/-- On a generated workload of at least `m` processes with at least `m`
processors (at most four), the loop reaches the state in which the first `m`
processes have been dispatched, process `k` to processor `k` at the clock
`50 * k`. -/
theorem cold_start_reaches (sort : List node → List node)
    (hsort : std_sort_contract cycles_less sort) (process_list : List node)
    (hgen : generated_workload process_list) (processor_count : Nat)
    (hP : processor_count ≤ 4) (m : Nat) (hm : m ≤ processor_count)
    (hn : m ≤ process_list.length) :
    ∃ s, MP_reaches processor_count (MP_init (sorted_process_queue sort process_list)) s ∧
      s.i = 0 ∧ s.processes_left = true ∧ cold_filled process_list m s ∧
      (m < processor_count → MP_cold processor_count s ∧ s.min_cycles_index = m) := by
  have hinv0 := MP_inv_init processor_count _
    (generated_queue_facts sort hsort process_list hgen)
  induction m with
  | zero =>
    refine ⟨_, MP_reaches.refl _, rfl, rfl, ⟨?_, ?_, ?_⟩, fun _ => ⟨MP_cold_init _ _, rfl⟩⟩
    · intro k hk
      exact absurd hk (Nat.not_lt_zero k)
    · intro k _ hk4
      have h4 : k = 0 ∨ k = 1 ∨ k = 2 ∨ k = 3 := by omega
      rcases h4 with rfl | rfl | rfl | rfl <;> rfl
    · exact (sorted_process_queue_spec sort hsort process_list).1
  | succ m ih =>
    obtain ⟨s, hreach, hi, hleft, ⟨hfilled, hempties, hperm⟩, hphase⟩ :=
      ih (by omega) (by omega)
    obtain ⟨hcold, hmin⟩ := hphase (by omega)
    have hinv := MP_inv_reaches hP hreach hinv0
    have htime : s.current_time = 50 * (m : Int) := by
      rw [hcold.2.1, hmin]
    have hmlt : m < process_list.length := by omega
    have hdrop : process_list.drop m = process_list[m] :: process_list.drop (m + 1) :=
      List.drop_eq_getElem_cons hmlt
    have hpm_arr : (process_list[m]).arrival_time = 50 * (m : Int) :=
      (hgen m _ (List.getElem?_eq_getElem hmlt)).1
    have hpm_mem : process_list[m] ∈ s.process_queue := by
      apply hperm.symm.subset
      rw [hdrop]
      exact List.mem_cons_self _ _
    obtain ⟨j, hj⟩ := List.mem_iff_getElem?.mp hpm_mem
    obtain ⟨idx, p, hscan, _, hp, harr⟩ :=
      MP_scan_finds processor_count j s hleft j _ (by omega) hj
        (by rw [hpm_arr, htime])
    have hpeq : p = process_list[m] := by
      have hmem : p ∈ process_list.drop m := hperm.subset (List.getElem?_mem hp)
      obtain ⟨a, ha⟩ := List.mem_iff_getElem?.mp hmem
      rw [List.getElem?_drop] at ha
      have h1 := (hgen (m + a) p ha).1
      have ha0 : a = 0 := by
        rw [htime, h1] at harr
        push_cast at harr
        omega
      subst ha0
      rw [Nat.add_zero, List.getElem?_eq_getElem hmlt] at ha
      cases ha
      rfl
    have hreach1 := MP_reaches_trans hreach hscan
    have hinv1 := MP_inv_reaches hP hreach1 hinv0
    have hcold1 : MP_cold processor_count { s with i := idx } := hcold
    obtain ⟨s1, hb, hstep⟩ := cold_iteration hP hinv1 hcold1 hp harr
    obtain ⟨hsched, hq, hl, hnext⟩ := cold_branch_next hP hinv1 hcold1 hp hb
    have hreach2 : MP_reaches processor_count
        (MP_init (sorted_process_queue sort process_list)) { s1 with i := 0 } :=
      MP_reaches.step hreach1 hleft hstep
    have hinv2 := MP_inv_reaches hP hreach2 hinv0
    have hD : s.min_cycles_index < 4 := by omega
    have he1 : s.processor_schedule[s.min_cycles_index]? = some [] := by
      rw [hmin]
      exact hempties m (Nat.le_refl _) (by omega)
    have hslot : ∀ k schedule2,
        (if s.min_cycles_index = k then some [dispatched_at s.current_time p]
          else s.processor_schedule[k]?) = some schedule2 →
        ∃ schedule1, s1.processor_schedule[k]? = some schedule1 ∧
          schedule1.map forget_remaining = schedule2.map forget_remaining := by
      intro k schedule2 h2
      apply slot_of_forget_eq hsched k schedule2
      show (s.processor_schedule.set s.min_cycles_index [dispatched_at s.current_time p])[k]?
        = some schedule2
      rw [getElem?_set_of_some _ _ _ _ _ he1]
      exact h2
    have hfilled2 : cold_filled process_list (m + 1) { s1 with i := 0 } := by
      refine ⟨?_, ?_, ?_⟩
      · intro k hk
        by_cases hkm : k = m
        · subst hkm
          obtain ⟨schedule1, g1, g2⟩ := hslot k [dispatched_at s.current_time p]
            (by rw [if_pos hmin])
          cases schedule1 with
          | nil => simp at g2
          | cons e rest =>
            cases rest with
            | cons _ _ => simp at g2
            | nil =>
              simp only [List.map_cons, List.map_nil, List.cons.injEq, and_true] at g2
              refine ⟨process_list[k], e, List.getElem?_eq_getElem hmlt, g1, ?_⟩
              rw [g2, htime, hpeq]
        · obtain ⟨p0, e0, f1, f2, f3⟩ := hfilled k (by omega)
          obtain ⟨schedule1, g1, g2⟩ := hslot k [e0] (by rw [if_neg (by omega)]; exact f2)
          cases schedule1 with
          | nil => simp at g2
          | cons e rest =>
            cases rest with
            | cons _ _ => simp at g2
            | nil =>
              simp only [List.map_cons, List.map_nil, List.cons.injEq, and_true] at g2
              exact ⟨p0, e, f1, g1, g2.trans f3⟩
      · intro k hk hk4
        obtain ⟨schedule1, g1, g2⟩ := hslot k []
          (by rw [if_neg (by omega)]; exact hempties k (by omega) hk4)
        cases schedule1 with
        | nil => exact g1
        | cons _ _ => simp at g2
      · show s1.process_queue.Perm (process_list.drop (m + 1))
        rw [hq]
        have h1 := (cons_eraseIdx_perm s.process_queue idx p hp).trans hperm
        rw [hdrop, hpeq] at h1
        exact h1.cons_inv
    refine ⟨{ s1 with i := 0 }, hreach2, rfl, hl.trans hleft, hfilled2, ?_⟩
    intro hlt
    obtain ⟨h1, h2⟩ := hnext (by rw [hmin]; exact hlt)
    have hmin2 : s1.min_cycles_index = m + 1 := by rw [h1, hmin]
    refine ⟨?_, hmin2⟩
    rcases hinv2.2.2.2.2.2.2.2 with hc | hs
    · exact hc
    · exfalso
      obtain ⟨_, _, hslots⟩ := hs
      obtain ⟨schedule, idx1, g1, _, g3⟩ := hslots (m + 1) (by omega)
      have g4 := hfilled2.2.1 (m + 1) (Nat.le_refl _) (by omega)
      rw [g4] at g1
      cases g1
      simp at g3
/-- C29: on a generated workload (arrival `50 * i`, cycles in [1000, 11000]; ids
1, 2, ...) of at least `P` processes with `P ≤ 4` processors, whichever
conforming `std::sort` is used and whatever the cycles are, the loop of
`SJF_multiprocessor` reaches the state in which exactly the first `P` processes
have been dispatched: for `k < P` the schedule of processor `k` holds one
record, that of the process with id `k + 1`, with start time `50 * k`, stop
time `50 * k` plus its cycles and waiting time 0; the other schedules are
empty and the queue holds the other processes. -/
theorem C29_cold_start_assignment (sort : List node → List node)
    (hsort : std_sort_contract cycles_less sort) (process_list : List node)
    (hgen : generated_workload process_list)
    (hids : ∀ (j : Nat) (p : node), process_list[j]? = some p → p.process_ID = (j : Int) + 1)
    (processor_count : Nat) (hP : processor_count ≤ 4)
    (hn : processor_count ≤ process_list.length) :
    ∃ s, MP_reaches processor_count (MP_init (sorted_process_queue sort process_list)) s ∧
      (∀ k : Nat, k < processor_count → ∃ p e,
        process_list[k]? = some p ∧ s.processor_schedule[k]? = some [e] ∧
        node_key e = node_key p ∧ e.process_ID = (k : Int) + 1 ∧
        e.start_time = 50 * (k : Int) ∧
        e.stop_time = 50 * (k : Int) + p.CPU_cycles ∧
        e.waiting_time = 0) ∧
      (∀ k : Nat, processor_count ≤ k → k < 4 → s.processor_schedule[k]? = some []) ∧
      s.process_queue.Perm (process_list.drop processor_count) := by
  obtain ⟨s, hreach, _, _, ⟨hfilled, hempties, hperm⟩, _⟩ :=
    cold_start_reaches sort hsort process_list hgen processor_count hP processor_count
      (Nat.le_refl _) hn
  refine ⟨s, hreach, ?_, hempties, hperm⟩
  intro k hk
  obtain ⟨p, e, h1, h2, h3⟩ := hfilled k hk
  have hkey : node_key e = node_key p := (node_key_of_forget_eq h3).trans rfl
  have harr := (hgen k p h1).1
  refine ⟨p, e, h1, h2, hkey, ?_, ?_, ?_, ?_⟩
  · have := congrArg (fun n : node => n.process_ID) h3
    exact this.trans (hids k p h1)
  · exact congrArg (fun n : node => n.start_time) h3
  · exact congrArg (fun n : node => n.stop_time) h3
  · have := congrArg (fun n : node => n.waiting_time) h3
    refine this.trans ?_
    show 50 * (k : Int) - p.arrival_time = 0
    rw [harr]
    ring

/-- C29 on the tie workload with two processors. -/
theorem C29_cold_start_assignment_witness :
    ∃ s, MP_reaches 2 (MP_init (sorted_process_queue (insertion_sort true) mp_tie_workload)) s ∧
      (∀ k : Nat, k < 2 → ∃ p e,
        mp_tie_workload[k]? = some p ∧ s.processor_schedule[k]? = some [e] ∧
        node_key e = node_key p ∧ e.process_ID = (k : Int) + 1 ∧
        e.start_time = 50 * (k : Int) ∧
        e.stop_time = 50 * (k : Int) + p.CPU_cycles ∧
        e.waiting_time = 0) ∧
      (∀ k : Nat, 2 ≤ k → k < 4 → s.processor_schedule[k]? = some []) ∧
      s.process_queue.Perm (mp_tie_workload.drop 2) :=
  C29_cold_start_assignment (insertion_sort true) (insertion_sort_contract true)
    mp_tie_workload mp_tie_workload_generated
    (by
      intro j p hj
      rcases j with _ | _ | _ | _ | j <;>
        simp [mp_tie_workload] at hj <;> subst hj <;> simp [fresh_node])
    2 (by decide) (by decide)

/-! ## The steady-state branch succeeds -/

/-- The state behind the `switch` and the report loop of the steady-state
branch: the report loop has left everything but the remaining cycles, the entry
of `processor_cycles` of the processor that received the process `p` holds the
cycles of `p`, and the entries below `processor_count` are set from the stop
times of the current records. -/
theorem steady_report_facts {processor_count : Nat} {s t1 t2 : MPState} {p : node}
    (hP : processor_count ≤ 4) (hinv : MP_inv processor_count s)
    (hsteady : MP_steady processor_count s) (hp : s.process_queue[s.i]? = some p)
    (hd : steady_dispatch (MP_header s) = Except.ok t1)
    (hrep : for_range steady_report processor_count t1 = Except.ok t2) :
    MP_frame t1 t2 ∧ t2.processor_cycles.length = 4 ∧
    t2.processor_cycles[s.min_cycles_index]? = some p.CPU_cycles ∧
    (∀ k, k < processor_count → k < 4 → slot_cycles t2 k) := by
  obtain ⟨_, _, hl3, hempty, hqueue, hentries, hlines, _⟩ := hinv
  have hsteady0 := hsteady
  obtain ⟨hminlt, _, hslots⟩ := hsteady
  have hD : s.min_cycles_index < 4 := by omega
  obtain ⟨schedule, idx, g1, g2, g3, c1, csch, cidx, ccyc, c5, c6, c7, c8, c9⟩ :=
    steady_dispatch_steady hP hsteady0 hp hd
  have hpq : 1000 ≤ p.CPU_cycles ∧ p.remaining_cycles = p.CPU_cycles :=
    hqueue p (List.getElem?_mem hp)
  obtain ⟨cm, hcm⟩ : ∃ cm, s.processor_cycles[s.min_cycles_index]? = some cm := by
    obtain ⟨_, ⟨c, hc, _⟩, _⟩ := hsteady0
    exact ⟨c, hc⟩
  have hsched1 : ∀ k, t1.processor_schedule[k]? =
      if s.min_cycles_index = k then some (schedule ++ [dispatched_at s.current_time p])
      else s.processor_schedule[k]? := by
    intro k
    rw [csch, getElem?_set_of_some _ _ _ _ _ g1]
  have hidx1 : ∀ k, t1.processor_index[k]? =
      if s.min_cycles_index = k then some (idx + 1) else s.processor_index[k]? := by
    intro k
    rw [cidx, getElem?_set_of_some _ _ _ _ _ g2]
  have hcycles1 : ∀ k, t1.processor_cycles[k]? =
      if s.min_cycles_index = k then some p.CPU_cycles else s.processor_cycles[k]? := by
    intro k
    rw [ccyc, getElem?_set_of_some _ _ _ _ _ hcm]
  have hentries1 : entries_ok t1 := by
    intro k sched hk e he
    rw [hsched1 k] at hk
    rw [c5]
    by_cases hkD : s.min_cycles_index = k
    · rw [if_pos hkD] at hk
      cases hk
      rcases List.mem_append.mp he with he | he
      · exact hentries _ schedule g1 e he
      · rw [List.mem_singleton] at he
        subst he
        exact dispatched_at_ok _ _ hpq.1 hpq.2
    · rw [if_neg hkD] at hk
      exact hentries k sched hk e he
  have hlines1 : lines_ok t1.sjf_file := by
    rw [c9]
    exact lines_ok_append hlines (lines_ok_time _)
  have hlen1 : t1.processor_cycles.length = 4 := by
    rw [ccyc, List.length_set]
    exact hl3
  obtain ⟨hf, _, _, hcyc_hi, hcyc_lo⟩ :=
    steady_report_loop (c8.trans hempty) hentries1 hlines1 hlen1 hrep
  have hfr := hf
  obtain ⟨_, f2, f3, _, _, _, _, _, _, f10⟩ := hf
  have hlen3 : t2.processor_cycles.length = 4 := by
    rw [f10]
    exact hlen1
  obtain ⟨sched2, hsched2, hcore2⟩ := MP_frame_slot_back hfr s.min_cycles_index
    (schedule ++ [dispatched_at s.current_time p]) (by rw [hsched1, if_pos rfl])
  obtain ⟨init, e, hsplit, hinitcore, hecore⟩ :=
    map_eq_concat forget_remaining sched2 schedule (dispatched_at s.current_time p) hcore2
  have hcycm : t2.processor_cycles[s.min_cycles_index]? = some p.CPU_cycles := by
    by_cases hmP : s.min_cycles_index < processor_count
    · obtain ⟨sch, ix, en, q1, q2, q3, q4⟩ := hcyc_lo s.min_cycles_index hmP hD
      rw [hsched2] at q1
      cases q1
      rw [f2, hidx1, if_pos rfl] at q2
      cases q2
      have hlen : init.length = idx + 1 := by
        have := forget_length hinitcore
        omega
      rw [hsplit, ← hlen, List.getElem?_concat_length] at q3
      cases q3
      rw [q4, f3, c5]
      have hstop : e.stop_time = s.current_time + p.CPU_cycles := by
        have := congrArg node.stop_time hecore
        exact this
      rw [hstop]
      congr 1
      omega
    · rw [hcyc_hi s.min_cycles_index (by omega), hcycles1, if_pos rfl]
  exact ⟨hfr, hlen3, hcycm, hcyc_lo⟩

/-- In the steady state the `switch` of the steady-state branch succeeds. -/
theorem steady_dispatch_total {processor_count : Nat} {s : MPState} {p : node}
    (hP : processor_count ≤ 4) (hsteady : MP_steady processor_count s)
    (hp : s.process_queue[s.i]? = some p) :
    ∃ t1, steady_dispatch (MP_header s) = Except.ok t1 := by
  obtain ⟨hminlt, _, hslots⟩ := hsteady
  have hD : s.min_cycles_index < 4 := by omega
  obtain ⟨schedule, idx, g1, g2, g3⟩ := hslots s.min_cycles_index hminlt
  have h1 : read_at (MP_header s).process_queue (MP_header s).i = Except.ok p :=
    read_at_some hp
  have h2 : read_at (MP_header s).processor_schedule (MP_header s).min_cycles_index
      = Except.ok schedule := read_at_some g1
  have h3 : read_at (MP_header s).processor_index (MP_header s).min_cycles_index
      = Except.ok idx := read_at_some g2
  have h4 : read_at (schedule ++ [p]) (idx + 1) = Except.ok p := by
    apply read_at_some
    rw [← g3, List.getElem?_concat_length]
  have hD1 : (MP_header s).min_cycles_index < 4 := hD
  unfold steady_dispatch
  rw [if_pos hD1, h1, h2, h3]
  simp only
  rw [h4]
  exact ⟨_, rfl⟩

/-- The report loop of the steady-state branch succeeds when every processor
below `processor_count` has a record at its index. -/
theorem steady_report_total {processor_count : Nat} {t1 : MPState}
    (hP : processor_count ≤ 4) (hempty : t1.empty_processor = false)
    (hslots : ∀ k, k < processor_count → ∃ schedule idx,
      t1.processor_schedule[k]? = some schedule ∧ t1.processor_index[k]? = some idx ∧
      idx < schedule.length) :
    ∃ t2, for_range steady_report processor_count t1 = Except.ok t2 := by
  obtain ⟨t2, h2, _⟩ := for_range_total steady_report (fun a => MP_frame t1 a)
    processor_count t1 (MP_frame_refl t1 hempty)
    (fun k a hk hf => by
      have hae : a.empty_processor = false := hf.2.2.2.2.2.2.2.1
      have hb : ∃ b, steady_report k a = Except.ok b := by
        obtain ⟨schedule0, idx, g1, g2, g3⟩ := hslots k hk
        obtain ⟨schedule, hs, hfs⟩ := MP_frame_slot_back hf k schedule0 g1
        have hlen : idx < schedule.length := by
          rw [forget_length hfs]
          exact g3
        have hi : a.processor_index[k]? = some idx := by
          rw [hf.2.1]
          exact g2
        unfold steady_report
        rw [if_pos (by omega : k < 4), read_at_some hs, read_at_some hi]
        simp only
        rw [read_at_some (List.getElem?_eq_getElem hlen)]
        simp only
        split
        · rename_i e he
          split at he <;> cases he
        · rename_i s1 hs1
          split
          · exact ⟨_, rfl⟩
          · exact ⟨_, rfl⟩
      obtain ⟨b, hb⟩ := hb
      exact ⟨b, hb, MP_frame_trans hf (steady_report_frame hae hb)⟩)
  exact ⟨t2, h2⟩

/-- The initialising loop of `min_cycles_index` succeeds when it stays inside
`processor_cycles`. -/
theorem min_init_total (cycles : List Int) (remaining index m : Nat)
    (h : index + remaining ≤ cycles.length) :
    ∃ r, min_init cycles remaining index m = Except.ok r := by
  induction remaining generalizing index m with
  | zero => exact ⟨m, rfl⟩
  | succ remaining ih =>
    unfold min_init
    rw [read_at_some (List.getElem?_eq_getElem (by omega : index < cycles.length))]
    simp only
    by_cases hc : cycles[index] > 0
    · rw [if_pos hc]
      exact ⟨index, rfl⟩
    · rw [if_neg hc]
      exact ih (index + 1) (m + 1) (by omega)

/-- The loop that picks the smallest positive entry of `processor_cycles`
succeeds when it starts inside the array. -/
theorem min_pick_total (cycles : List Int) (n m1 : Nat) (hn : n ≤ 4)
    (hlen : cycles.length = 4) (hm1 : m1 < 4) :
    ∃ m2, for_range (min_pick cycles) n m1 = Except.ok m2 ∧ m2 < 4 :=
  for_range_total (min_pick cycles) (fun m => m < 4) n m1 hm1
    (fun k a hk ha => by
      unfold min_pick
      rw [read_at_some (List.getElem?_eq_getElem (by omega : k < cycles.length))]
      simp only
      by_cases hc : cycles[k] > 0
      · rw [if_pos hc,
          read_at_some (List.getElem?_eq_getElem (by omega : a < cycles.length))]
        simp only
        by_cases hle : cycles[k] ≤ cycles[a]
        · rw [if_pos hle]
          exact ⟨k, rfl, by omega⟩
        · rw [if_neg hle]
          exact ⟨a, rfl, ha⟩
      · rw [if_neg hc]
        exact ⟨a, rfl, ha⟩)

/-- In the steady state the steady-state branch succeeds. -/
theorem steady_branch_total {processor_count : Nat} {s : MPState} {p : node}
    (hP : processor_count ≤ 4) (hinv : MP_inv processor_count s)
    (hsteady : MP_steady processor_count s) (hp : s.process_queue[s.i]? = some p) :
    ∃ s1, steady_branch processor_count (MP_header s) = Except.ok s1 := by
  have hempty : s.empty_processor = false := hinv.2.2.2.1
  have hpq : 1000 ≤ p.CPU_cycles := (hinv.2.2.2.2.1 p (List.getElem?_mem hp)).1
  obtain ⟨t1, hd⟩ := steady_dispatch_total hP hsteady hp
  obtain ⟨schedule, idx, g1, g2, g3, _, csch, cidx, _, _, _, c7, c8, _⟩ :=
    steady_dispatch_steady hP hsteady hp hd
  have hminlt := hsteady.1
  have hslots1 : ∀ k, k < processor_count → ∃ schedule1 idx1,
      t1.processor_schedule[k]? = some schedule1 ∧ t1.processor_index[k]? = some idx1 ∧
      idx1 < schedule1.length := by
    intro k hk
    rw [csch, cidx, getElem?_set_of_some _ _ _ _ _ g1, getElem?_set_of_some _ _ _ _ _ g2]
    by_cases hkD : s.min_cycles_index = k
    · rw [if_pos hkD, if_pos hkD]
      exact ⟨_, _, rfl, rfl, by simp [g3]⟩
    · rw [if_neg hkD, if_neg hkD]
      obtain ⟨sch0, ix0, q1, q2, q3⟩ := hsteady.2.2 k (by omega)
      exact ⟨sch0, ix0, q1, q2, by omega⟩
  obtain ⟨t2, hrep⟩ := steady_report_total hP (c8.trans hempty) hslots1
  obtain ⟨hf, hlen3, hcycm, _⟩ := steady_report_facts hP hinv hsteady hp hd hrep
  obtain ⟨m1, hm1⟩ := min_init_total t2.processor_cycles processor_count 0
    t2.min_cycles_index (by omega)
  have hm1lt : m1 < 4 := by
    by_cases hP0 : processor_count = 0
    · subst hP0
      rw [min_init_zero] at hm1
      cases hm1
      rw [hf.2.2.2.2.1, c7]
      omega
    · have h1 := min_init_pos _ _ _ _ _ hm1
        ⟨s.min_cycles_index, p.CPU_cycles, Nat.zero_le _, by omega, hcycm, by omega⟩
      omega
  obtain ⟨m2, hm2, hm2lt⟩ := min_pick_total t2.processor_cycles processor_count m1 hP hlen3 hm1lt
  have hne : (MP_header s).process_queue.isEmpty = false := by
    show s.process_queue.isEmpty = false
    cases hq : s.process_queue with
    | nil => rw [hq] at hp; simp at hp
    | cons a l => rfl
  unfold steady_branch
  rw [hne]
  simp only [Bool.false_eq_true, if_false]
  rw [hd]
  simp only
  rw [hrep]
  simp only
  rw [hm1]
  simp only
  rw [hm2]
  simp only
  rw [read_at_some (List.getElem?_eq_getElem (by omega : m2 < t2.processor_cycles.length))]
  exact ⟨_, rfl⟩

/-- In the steady state an iteration that finds an arrived process succeeds: it
is a pass through the steady-state branch. -/
theorem steady_iteration {processor_count : Nat} {s : MPState} {p : node}
    (hP : processor_count ≤ 4) (hinv : MP_inv processor_count s)
    (hsteady : MP_steady processor_count s) (hp : s.process_queue[s.i]? = some p)
    (harr : p.arrival_time ≤ s.current_time) :
    ∃ s1, steady_branch processor_count (MP_header s) = Except.ok s1 ∧
      MP_iteration processor_count s = Except.ok { s1 with i := 0 } := by
  obtain ⟨s1, hb⟩ := steady_branch_total hP hinv hsteady hp
  refine ⟨s1, hb, ?_⟩
  obtain ⟨_, ⟨c, hc, hcpos⟩, _⟩ := hsteady
  have hb1 : steady_branch processor_count
      { s with sjf_file := s.sjf_file ++ [Line.time s.current_time] } = Except.ok s1 := hb
  unfold MP_iteration
  rw [read_at_some hp]
  simp only
  rw [if_pos harr, read_at_some hc]
  simp only
  rw [if_pos (by omega : c > 0), hb1]

/-- Every iteration in a state with the invariant whose read of the queue is
in range succeeds. -/
theorem MP_iteration_total {processor_count : Nat} {s : MPState} {p : node}
    (hP : processor_count ≤ 4) (hinv : MP_inv processor_count s)
    (hp : s.process_queue[s.i]? = some p) :
    ∃ u, MP_iteration processor_count s = Except.ok u := by
  by_cases harr : p.arrival_time ≤ s.current_time
  · rcases hinv.2.2.2.2.2.2.2 with hcold | hsteady
    · obtain ⟨s1, _, h⟩ := cold_iteration hP hinv hcold hp harr
      exact ⟨_, h⟩
    · obtain ⟨s1, _, h⟩ := steady_iteration hP hinv hsteady hp harr
      exact ⟨_, h⟩
  · exact ⟨_, MP_iteration_scan processor_count hp harr⟩

/-! ## The pace of the dispatches -/

/-- What a pass through the steady-state branch leaves behind: the schedules
as before, up to the remaining cycles, with the record of the dispatch added to
the processor `min_cycles_index`, the queue without the process, and
`processes_executed` one higher. -/
theorem steady_branch_next {processor_count : Nat} {s s1 : MPState} {p : node}
    (hP : processor_count ≤ 4) (hinv : MP_inv processor_count s)
    (hsteady : MP_steady processor_count s) (hp : s.process_queue[s.i]? = some p)
    (hb : steady_branch processor_count (MP_header s) = Except.ok s1) :
    ∃ schedule, s.processor_schedule[s.min_cycles_index]? = some schedule ∧
      s1.processor_schedule.map (List.map forget_remaining) =
        (s.processor_schedule.set s.min_cycles_index
          (schedule ++ [dispatched_at s.current_time p])).map (List.map forget_remaining) ∧
      s1.process_queue = s.process_queue.eraseIdx s.i ∧
      s1.processes_executed = s.processes_executed + 1 := by
  have hempty : s.empty_processor = false := hinv.2.2.2.1
  obtain ⟨t1, t2, m1, m2, c2, hd, hrep, _, _, _, hs1⟩ := steady_branch_ok hb
  have hne : (MP_header s).process_queue.isEmpty = false := by
    show s.process_queue.isEmpty = false
    cases hq : s.process_queue with
    | nil => rw [hq] at hp; simp at hp
    | cons a l => rfl
  rw [hne] at hd
  simp only [Bool.false_eq_true, if_false] at hd
  obtain ⟨schedule, idx, g1, _, _, c1, csch, _, _, _, _, _, c8, _⟩ :=
    steady_dispatch_steady hP hsteady hp hd
  have hpe : t1.processes_executed = s.processes_executed :=
    (steady_dispatch_moved hd).2.2.2.2.2.1
  have hf := steady_report_loop_frame (c8.trans hempty) hrep
  rw [hs1]
  refine ⟨schedule, g1, ?_, ?_, ?_⟩
  · show t2.processor_schedule.map (List.map forget_remaining) = _
    rw [hf.2.2.2.2.2.2.2.2.1, csch]
  · show t2.process_queue = _
    rw [hf.1, c1]
  · show t2.processes_executed + 1 = s.processes_executed + 1
    rw [hf.2.2.2.2.2.2.1, hpe]

/-- Behind a pass through the steady-state branch, with at least one
processor, the clock is the stop time of the last record of the processor
`min_cycles_index`. -/
theorem steady_branch_clock {processor_count : Nat} {s s1 : MPState} {p : node}
    (hP : processor_count ≤ 4) (hP1 : 1 ≤ processor_count)
    (hinv : MP_inv processor_count s)
    (hsteady : MP_steady processor_count s) (hp : s.process_queue[s.i]? = some p)
    (hb : steady_branch processor_count (MP_header s) = Except.ok s1) :
    ∃ schedule idx e, s1.processor_schedule[s1.min_cycles_index]? = some schedule ∧
      schedule.length = idx + 1 ∧ schedule[idx]? = some e ∧
      s1.current_time = e.stop_time := by
  have hinv1 := (steady_step hP hinv hsteady hp hb).1
  obtain ⟨t1, t2, m1, m2, c2, hd, hrep, hinit, hpick, hc2, hs1⟩ := steady_branch_ok hb
  have hne : (MP_header s).process_queue.isEmpty = false := by
    show s.process_queue.isEmpty = false
    cases hq : s.process_queue with
    | nil => rw [hq] at hp; simp at hp
    | cons a l => rfl
  rw [hne] at hd
  simp only [Bool.false_eq_true, if_false] at hd
  obtain ⟨_, _, hcycm, hcyc_lo⟩ := steady_report_facts hP hinv hsteady hp hd hrep
  have hpq : 1000 ≤ p.CPU_cycles := (hinv.2.2.2.2.1 p (List.getElem?_mem hp)).1
  have hminlt := hsteady.1
  have h1 := min_init_pos _ _ _ _ _ hinit
    ⟨s.min_cycles_index, p.CPU_cycles, Nat.zero_le _, by omega, hcycm, by omega⟩
  have h2 := min_pick_loop_pos _ processor_count processor_count m1 m2 (Nat.le_refl _)
    ⟨by omega, h1.2⟩ hpick
  obtain ⟨hm2lt, c, hc, hcpos⟩ := h2
  rw [hc2] at hc
  cases hc
  obtain ⟨sch, ix, en, q1, q2, q3, q4⟩ := hcyc_lo m2 hm2lt (by omega)
  rw [hc2] at q4
  cases q4
  have hphase := hinv1.2.2.2.2.2.2.2
  rw [hs1] at hphase
  rcases hphase with hcold | hst
  · exfalso
    obtain ⟨_, _, _, hempties⟩ := hcold
    obtain ⟨_, _, e3⟩ := hempties m2 (Nat.le_refl _) (by omega)
    have e4 : t2.processor_cycles[m2]? = some 0 := e3
    rw [hc2, Option.some.injEq] at e4
    omega
  · obtain ⟨_, _, hslots⟩ := hst
    obtain ⟨sch1, ix1, r1, r2, r3⟩ := hslots m2 (by omega)
    have r1' : t2.processor_schedule[m2]? = some sch1 := r1
    have r2' : t2.processor_index[m2]? = some ix1 := r2
    rw [q1] at r1'
    cases r1'
    rw [q2] at r2'
    cases r2'
    rw [hs1]
    refine ⟨sch, ix, en, q1, r3, q3, ?_⟩
    show t2.current_time + (en.stop_time - t2.current_time) = en.stop_time
    omega

/-- The last pass through the branch for empty processors leaves the clock at
950 or later. -/
theorem cold_branch_last {processor_count : Nat} {s s1 : MPState} {p : node}
    (hP : processor_count ≤ 4) (hinv : MP_inv processor_count s)
    (hcold : MP_cold processor_count s) (hp : s.process_queue[s.i]? = some p)
    (hb : cold_branch processor_count (MP_header s) = Except.ok s1)
    (hlast : ¬ s.min_cycles_index + 1 < processor_count) :
    950 ≤ s1.current_time := by
  obtain ⟨hl1, hl2, hl3, hempty, hqueue, hentries, hlines, _⟩ := hinv
  have hcold0 := hcold
  obtain ⟨hminlt, htime, hfilled, hempties⟩ := hcold
  have hD : s.min_cycles_index < 4 := by omega
  obtain ⟨e1, e2, e3⟩ := hempties s.min_cycles_index (Nat.le_refl _) hD
  obtain ⟨t1, t2, hd, hrep, hfin⟩ := cold_branch_ok hb
  obtain ⟨c1, c2, c3, c4, c5, c6, c7, c8, c9⟩ := cold_dispatch_cold hP hcold0 hp hd
  have hpq : 1000 ≤ p.CPU_cycles ∧ p.remaining_cycles = p.CPU_cycles :=
    hqueue p (List.getElem?_mem hp)
  have hsched1 : ∀ k, t1.processor_schedule[k]? =
      if s.min_cycles_index = k then some [dispatched_at s.current_time p]
      else s.processor_schedule[k]? := by
    intro k
    rw [c2, getElem?_set_of_some _ _ _ _ _ e1]
  have hcycles1 : ∀ k, t1.processor_cycles[k]? =
      if s.min_cycles_index = k then some p.CPU_cycles else s.processor_cycles[k]? := by
    intro k
    rw [c4, getElem?_set_of_some _ _ _ _ _ e3]
  have hentries1 : entries_ok t1 := by
    intro k schedule hk e he
    rw [hsched1 k] at hk
    rw [c5]
    by_cases hkD : s.min_cycles_index = k
    · rw [if_pos hkD] at hk
      cases hk
      rw [List.mem_singleton] at he
      subst he
      exact dispatched_at_ok _ _ hpq.1 hpq.2
    · rw [if_neg hkD] at hk
      exact hentries k schedule hk e he
  have hlines1 : lines_ok t1.sjf_file := by
    rw [c9]
    exact lines_ok_append hlines (lines_ok_time _)
  have hslots1 : ∀ k, k ≤ s.min_cycles_index →
      cold_slot (1000 - 50 * (s.min_cycles_index : Int)) t1 k := by
    intro k hk
    by_cases hkD : s.min_cycles_index = k
    · refine ⟨dispatched_at s.current_time p, ?_, ?_, ?_, ?_⟩
      · rw [hsched1 k, if_pos hkD]
      · rw [c3, ← hkD]; exact e2
      · rw [hcycles1 k, if_pos hkD]
        show some p.CPU_cycles = some p.remaining_cycles
        rw [hpq.2]
      · show 1000 - 50 * (s.min_cycles_index : Int) ≤ p.remaining_cycles
        rw [hpq.2]
        have := hpq.1
        omega
    · obtain ⟨e, g1, g2, g3, g4⟩ := hfilled k (by omega)
      refine ⟨e, ?_, ?_, ?_, g4⟩
      · rw [hsched1 k, if_neg hkD]; exact g1
      · rw [c3]; exact g2
      · rw [hcycles1 k, if_neg hkD]; exact g3
  have hempties1 : ∀ k, s.min_cycles_index < k → k < 4 → empty_slot t1 k := by
    intro k hk hk4
    obtain ⟨g1, g2, g3⟩ := hempties k (by omega) hk4
    refine ⟨?_, ?_, ?_⟩
    · rw [hsched1 k, if_neg (by omega)]; exact g1
    · rw [c3]; exact g2
    · rw [hcycles1 k, if_neg (by omega)]; exact g3
  obtain ⟨hf, _, _, hslots2, _⟩ :=
    cold_report_loop c7 hD (by omega) (c8.trans hempty) hentries1 hlines1 hslots1 hempties1 hrep
  obtain ⟨_, _, f3, _, f5, _, _, _, _, _⟩ := hf
  rcases hfin with ⟨hlt, _⟩ | ⟨hnlt, m, c, hscan, hc, hs1⟩
  · exfalso
    rw [f5, c7] at hlt
    exact hlast hlt
  · have hm : m < max processor_count 1 := min_scan_loop_lt _ _ _ hscan
    have hmD : m ≤ s.min_cycles_index := by omega
    obtain ⟨e, _, _, g3, g4⟩ := hslots2 m hmD
    rw [hc] at g3
    cases g3
    rw [hs1]
    show 950 ≤ t2.current_time + e.remaining_cycles
    rw [f3, c5, htime]
    omega

/-- The first state keeps the pace. -/
theorem MP_pace_init (q : List node) : MP_pace (MP_init q) := by
  refine ⟨?_, ?_⟩
  · intro k schedule j e hk hj
    have h4 : schedule = [] := by
      have hk1 : ([[], [], [], []] : List (List node))[k]? = some schedule := hk
      rcases k with _ | _ | _ | _ | k <;> simp at hk1 <;> exact hk1
    rw [h4] at hj
    simp at hj
  · intro schedule hk
    have hk1 : ([[], [], [], []] : List (List node))[0]? = some schedule := hk
    simp at hk1
    rw [hk1]
    show (950 : Int) * ((0 : Nat) : Int) ≤ 0
    simp

/-- Every iteration keeps the pace (with one to four processors, in a state
with the invariant). -/
theorem MP_pace_iteration {processor_count : Nat} {s u : MPState}
    (hP : processor_count ≤ 4) (hP1 : 1 ≤ processor_count)
    (hinv : MP_inv processor_count s) (hpace : MP_pace s)
    (h : MP_iteration processor_count s = Except.ok u) : MP_pace u := by
  have hinvu := (MP_inv_iteration hP hinv h).1
  obtain ⟨p, hp, hcase⟩ := MP_iteration_ok h
  rcases hcase with ⟨_, rfl⟩ | ⟨harr, c, s1, hc, hbranch, rfl⟩
  · exact hpace
  · have hphase := hinv.2.2.2.2.2.2.2
    have hentries_u := hinvu.2.2.2.2.2.1
    have hstart : ∀ {a b : node}, forget_remaining a = forget_remaining b →
        a.start_time = b.start_time := by
      intro a b hab
      have := congrArg node.start_time hab
      exact this
    rcases hphase with hcold | hsteady
    · have hc0 : c = 0 := by
        obtain ⟨hminlt, _, _, hempties⟩ := hcold
        obtain ⟨_, _, e3⟩ := hempties s.min_cycles_index (Nat.le_refl _) (by omega)
        rw [hc] at e3
        cases e3
        rfl
      rcases hbranch with ⟨hpos, _⟩ | ⟨_, hb⟩
      · omega
      · obtain ⟨hsched, _, _, hnext⟩ := cold_branch_next hP hinv hcold hp hb
        have hlast := cold_branch_last hP hinv hcold hp hb
        obtain ⟨hminlt, htime, hfilled, hempties⟩ := hcold
        have hD : s.min_cycles_index < 4 := by omega
        obtain ⟨e1, _, _⟩ := hempties s.min_cycles_index (Nat.le_refl _) hD
        have ht0 : 0 ≤ s.current_time := by
          have := hpace.2 [] e1
          simpa using this
        have hslot : ∀ k schedule, s1.processor_schedule[k]? = some schedule →
            ∃ schedule0,
              (if s.min_cycles_index = k then some [dispatched_at s.current_time p]
                else s.processor_schedule[k]?) = some schedule0 ∧
              schedule.map forget_remaining = schedule0.map forget_remaining := by
          intro k schedule hk
          obtain ⟨schedule0, g1, g2⟩ := slot_of_forget_eq hsched.symm k schedule hk
          rw [getElem?_set_of_some _ _ _ _ _ e1] at g1
          exact ⟨schedule0, g1, g2.symm⟩
        have hshort : ∀ k schedule, k < 4 → s1.processor_schedule[k]? = some schedule →
            schedule.length ≤ 1 := by
          intro k schedule hk4 hk
          obtain ⟨schedule0, g1, g2⟩ := hslot k schedule hk
          rw [forget_length g2]
          by_cases hkD : s.min_cycles_index = k
          · rw [if_pos hkD] at g1
            cases g1
            simp
          · rw [if_neg hkD] at g1
            by_cases hlt : k < s.min_cycles_index
            · obtain ⟨e, q1, _⟩ := hfilled k hlt
              rw [q1] at g1
              cases g1
              simp
            · obtain ⟨q1, _⟩ := hempties k (by omega) hk4
              rw [q1] at g1
              cases g1
              simp
        refine ⟨?_, ?_⟩
        · intro k schedule j e hk hj
          obtain ⟨schedule0, g1, g2⟩ := hslot k schedule hk
          obtain ⟨e0, g3, g4⟩ := forget_getElem? g2 j e hj
          rw [hstart g4]
          by_cases hkD : s.min_cycles_index = k
          · rw [if_pos hkD] at g1
            cases g1
            cases j with
            | zero =>
              simp only [List.getElem?_cons_zero, Option.some.injEq] at g3
              subst g3
              show 950 * ((0 : Nat) : Int) ≤ s.current_time
              simpa using ht0
            | succ j => simp at g3
          · rw [if_neg hkD] at g1
            exact hpace.1 k schedule0 j e0 g1 g3
        · intro schedule hk
          have hk1 : s1.processor_schedule[s1.min_cycles_index]? = some schedule := hk
          show 950 * (schedule.length : Int) ≤ s1.current_time
          by_cases hlt : s.min_cycles_index + 1 < processor_count
          · obtain ⟨h1, h2⟩ := hnext hlt
            rw [h1] at hk1
            obtain ⟨schedule0, g1, g2⟩ := hslot _ schedule hk1
            rw [if_neg (by omega)] at g1
            obtain ⟨q1, _⟩ := hempties (s.min_cycles_index + 1) (by omega) (by omega)
            rw [q1] at g1
            cases g1
            have hl0 : schedule.length = 0 := by
              have := forget_length g2
              simpa using this
            rw [h2, hl0]
            push_cast
            omega
          · have h950 := hlast hlt
            have hmin4 : s1.min_cycles_index < 4 := by
              rcases hinvu.2.2.2.2.2.2.2 with hc1 | hs1
              · have := hc1.1
                have h2 : s1.min_cycles_index < max processor_count 1 := this
                omega
              · have := hs1.1
                have h2 : s1.min_cycles_index < max processor_count 1 := this
                omega
            have := hshort _ schedule hmin4 hk1
            have hcast : (schedule.length : Int) ≤ 1 := by exact_mod_cast this
            omega
    · have hcpos : 0 < c := by
        obtain ⟨_, ⟨c1, hc1, hpos⟩, _⟩ := hsteady
        rw [hc] at hc1
        cases hc1
        exact hpos
      rcases hbranch with ⟨_, hb⟩ | ⟨hneg, _⟩
      · obtain ⟨schedule0, g1, hsched, _, _⟩ := steady_branch_next hP hinv hsteady hp hb
        obtain ⟨sch, idx, en, q1, q2, q3, q4⟩ :=
          steady_branch_clock hP hP1 hinv hsteady hp hb
        have hpace1 : ∀ (k : Nat) (schedule : List node) (j : Nat) (e : node),
            s1.processor_schedule[k]? = some schedule → schedule[j]? = some e →
            950 * (j : Int) ≤ e.start_time := by
          intro k schedule j e hk hj
          obtain ⟨schedule1, h1, h2⟩ := slot_of_forget_eq hsched.symm k schedule hk
          rw [getElem?_set_of_some _ _ _ _ _ g1] at h1
          obtain ⟨e0, h3, h4⟩ := forget_getElem? h2.symm j e hj
          rw [hstart h4]
          by_cases hkD : s.min_cycles_index = k
          · rw [if_pos hkD] at h1
            cases h1
            by_cases hjl : j < schedule0.length
            · rw [List.getElem?_append_left hjl] at h3
              exact hpace.1 _ schedule0 j e0 g1 h3
            · have hge : schedule0.length ≤ j := Nat.le_of_not_lt hjl
              rw [List.getElem?_append_right hge] at h3
              have hj0 : j - schedule0.length = 0 := by
                by_contra hne0
                have : 1 ≤ j - schedule0.length := Nat.one_le_iff_ne_zero.mpr hne0
                rw [List.getElem?_eq_none (by simpa using this)] at h3
                cases h3
              rw [hj0] at h3
              simp only [List.getElem?_cons_zero, Option.some.injEq] at h3
              subst h3
              have hje : j = schedule0.length := by omega
              rw [hje]
              exact hpace.2 schedule0 g1
          · rw [if_neg hkD] at h1
            exact hpace.1 k schedule1 j e0 h1 h3
        refine ⟨hpace1, ?_⟩
        intro schedule hk
        have hk1 : s1.processor_schedule[s1.min_cycles_index]? = some schedule := hk
        rw [q1] at hk1
        cases hk1
        show 950 * (sch.length : Int) ≤ s1.current_time
        have hen := hentries_u s1.min_cycles_index sch q1 en (List.getElem?_mem q3)
        obtain ⟨hstop, _, _, _, hcyc⟩ := hen
        have hst := hpace1 _ sch idx en q1 q3
        rw [q4, q2]
        push_cast
        omega
      · exact absurd hcpos hneg

/-- Every state the loop reaches from a state with invariant and pace keeps the
pace. -/
theorem MP_pace_reaches {processor_count : Nat} {s t : MPState}
    (hP : processor_count ≤ 4) (hP1 : 1 ≤ processor_count)
    (hr : MP_reaches processor_count s t)
    (hinv : MP_inv processor_count s) (hpace : MP_pace s) : MP_pace t := by
  induction hr with
  | refl => exact hpace
  | step hr1 _ hstep ih =>
    exact MP_pace_iteration hP hP1 (MP_inv_reaches hP hr1 hinv) ih hstep

/-! ## No starvation in the multi-processor loop -/

/-- Four schedules, written out. -/
theorem four_schedules (L : List (List node)) (h : L.length = 4) :
    ∃ a b c d, L = [a, b, c, d] := by
  rcases L with _ | ⟨a, _ | ⟨b, _ | ⟨c, _ | ⟨d, _ | ⟨e, L⟩⟩⟩⟩⟩
  · simp at h
  · simp at h
  · simp at h
  · simp at h
  · exact ⟨a, b, c, d, rfl⟩
  · simp at h

/-- With the invariant and the pace, the clock has reached 50 times the number
of the processes dispatched so far. -/
theorem MP_clock_bound {processor_count : Nat} {s : MPState}
    (hP : processor_count ≤ 4) (hinv : MP_inv processor_count s) (hpace : MP_pace s) :
    50 * (s.processor_schedule.flatten.length : Int) ≤ s.current_time := by
  obtain ⟨hl1, _, _, _, _, hentries, _, hphase⟩ := hinv
  obtain ⟨a, b, c, d, hL⟩ := four_schedules _ hl1
  have hlen : s.processor_schedule.flatten.length = a.length + b.length + c.length + d.length := by
    rw [hL]
    simp [List.flatten, Nat.add_assoc]
  rw [hlen]
  have hslot : ∀ (k : Nat) (schedule : List node), s.processor_schedule[k]? = some schedule →
      0 ≤ s.current_time → 950 * (schedule.length : Int) ≤ s.current_time + 950 := by
    intro k schedule hk ht
    cases hn : schedule.length with
    | zero =>
      push_cast
      omega
    | succ m =>
      have hm : m < schedule.length := by omega
      have he : schedule[m]? = some schedule[m] := List.getElem?_eq_getElem hm
      have h1 := hpace.1 k schedule m _ hk he
      have h2 := (hentries k schedule hk _ (List.getElem_mem hm)).2.1
      push_cast
      omega
  rcases hphase with hcold | hsteady
  · obtain ⟨hminlt, htime, hfilled, hempties⟩ := hcold
    have hone : ∀ (k : Nat) (schedule : List node), k < 4 →
        s.processor_schedule[k]? = some schedule →
        schedule.length = if k < s.min_cycles_index then 1 else 0 := by
      intro k schedule hk4 hk
      by_cases hlt : k < s.min_cycles_index
      · obtain ⟨e, q1, _⟩ := hfilled k hlt
        rw [q1] at hk
        cases hk
        rw [if_pos hlt]
        rfl
      · obtain ⟨q1, _⟩ := hempties k (by omega) hk4
        rw [q1] at hk
        cases hk
        rw [if_neg hlt]
        rfl
    have ha := hone 0 a (by omega) (by rw [hL]; rfl)
    have hb := hone 1 b (by omega) (by rw [hL]; rfl)
    have hc := hone 2 c (by omega) (by rw [hL]; rfl)
    have hd := hone 3 d (by omega) (by rw [hL]; rfl)
    rw [htime, ha, hb, hc, hd]
    have hm4 : s.min_cycles_index < 4 := by omega
    have hcases : s.min_cycles_index = 0 ∨ s.min_cycles_index = 1 ∨ s.min_cycles_index = 2 ∨
        s.min_cycles_index = 3 := by omega
    rcases hcases with h0 | h0 | h0 | h0 <;> rw [h0] <;> simp
  · obtain ⟨hminlt, _, hlast⟩ := hsteady
    obtain ⟨schedule, idx, q1, _, q3⟩ := hlast s.min_cycles_index hminlt
    have h950 := hpace.2 schedule q1
    rw [q3] at h950
    push_cast at h950
    have ht : 0 ≤ s.current_time := by omega
    have ha := hslot 0 a (by rw [hL]; rfl) ht
    have hb := hslot 1 b (by rw [hL]; rfl) ht
    have hc := hslot 2 c (by rw [hL]; rfl) ht
    have hd := hslot 3 d (by rw [hL]; rfl) ht
    push_cast
    omega

/-- The arrival times of the queue and of the schedules of a state the loop
reaches are those of the workload. -/
theorem MP_arrivals (sort : List node → List node)
    (hsort : std_sort_contract cycles_less sort) (process_list : List node)
    (processor_count : Nat) (s : MPState)
    (hreach : MP_reaches processor_count
      (MP_init (sorted_process_queue sort process_list)) s) :
    (s.processor_schedule.flatten.map (fun p => p.arrival_time) ++
      s.process_queue.map (fun p => p.arrival_time)).Perm
      (process_list.map (fun p => p.arrival_time)) := by
  obtain ⟨hperm0, hsorted⟩ := sorted_process_queue_spec sort hsort process_list
  have hkeys := MP_keys_reaches hreach rfl (MP_scan_inv_init _ hsorted)
  rw [MP_keys_init] at hkeys
  have h1 := (hkeys.trans (hperm0.map node_key)).map (fun k => k.2.2.2)
  unfold MP_keys at h1
  rw [List.map_map, List.map_map] at h1
  have h2 : ((fun k : Int × Int × Int × Int => k.2.2.2) ∘ node_key)
      = (fun p : node => p.arrival_time) := rfl
  rw [h2, List.map_append] at h1
  exact List.perm_append_comm.trans h1

/-- On a generated workload with one to four processors, a state the loop
reaches with a queue that is not empty holds an arrived process in its queue,
and `i` lies within the queue. -/
theorem MP_no_starvation (sort : List node → List node)
    (hsort : std_sort_contract cycles_less sort) (process_list : List node)
    (hgen : generated_workload process_list) (processor_count : Nat)
    (hP : processor_count ≤ 4) (hP1 : 1 ≤ processor_count) (s : MPState)
    (hreach : MP_reaches processor_count
      (MP_init (sorted_process_queue sort process_list)) s)
    (hne : s.process_queue ≠ []) :
    (∃ p ∈ s.process_queue, p.arrival_time ≤ s.current_time) ∧
    s.i < s.process_queue.length := by
  obtain ⟨_, hsorted⟩ := sorted_process_queue_spec sort hsort process_list
  have hinv0 := MP_inv_init processor_count _ (generated_queue_facts sort hsort process_list hgen)
  have hinv := MP_inv_reaches hP hreach hinv0
  have hpace := MP_pace_reaches hP hP1 hreach hinv0 (MP_pace_init _)
  have hclock := MP_clock_bound hP hinv hpace
  have hperm := MP_arrivals sort hsort process_list processor_count s hreach
  obtain ⟨_, ⟨_, hi, hscan⟩⟩ := MP_scan_inv_reaches hreach ⟨rfl, MP_scan_inv_init _ hsorted⟩
  have harr : ∀ (j : Nat) (a : Int),
      (process_list.map (fun p => p.arrival_time))[j]? = some a → a = 50 * (j : Int) := by
    intro j a hj
    rw [List.getElem?_map] at hj
    cases hp : process_list[j]? with
    | none => rw [hp] at hj; cases hj
    | some p =>
      rw [hp] at hj
      simp only [Option.map_some', Option.some.injEq] at hj
      rw [← hj]
      exact (hgen j p hp).1
  have hQ : s.process_queue.map (fun p => p.arrival_time) ≠ [] := by
    intro h
    exact hne (List.map_eq_nil_iff.mp h)
  have hlenD : (s.processor_schedule.flatten.map (fun p => p.arrival_time)).length
      = s.processor_schedule.flatten.length := List.length_map _ _
  obtain ⟨a, ha, hat⟩ := arrived_in_queue _ _ _ harr hperm hQ s.current_time
    (by rw [hlenD]; exact hclock)
  obtain ⟨p, hp, rfl⟩ := List.mem_map.mp ha
  refine ⟨⟨p, hp, hat⟩, ?_⟩
  obtain ⟨j, hj⟩ := List.mem_iff_getElem?.mp hp
  have hjlt := (List.getElem?_eq_some.mp hj).1
  by_contra hnot
  have hji : j < s.i := by omega
  have := hscan j p hji hj
  omega

/-! ## The counter `processes_executed` and the end of the run -/

/-- The branch for empty processors counts `processes_executed` in case 3
alone. -/
theorem cold_branch_counter {processor_count : Nat} {s s1 : MPState}
    (hempty : s.empty_processor = false)
    (hb : cold_branch processor_count (MP_header s) = Except.ok s1) :
    s1.processes_executed =
      if s.min_cycles_index = 3 then s.processes_executed + 1 else s.processes_executed := by
  obtain ⟨t1, t2, hd, hrep, hfin⟩ := cold_branch_ok hb
  have he1 : t1.empty_processor = false := (cold_dispatch_moved hd).2.2.2.1.trans hempty
  have hf := cold_report_loop_frame he1 hrep
  have hpe2 : t2.processes_executed = t1.processes_executed := hf.2.2.2.2.2.2.1
  have hpe1 : t1.processes_executed =
      if s.min_cycles_index = 3 then s.processes_executed + 1 else s.processes_executed := by
    rcases cold_dispatch_ok hd with ⟨h4, rfl⟩ | ⟨_, _, _, _, _, _, _, _, _, _, _, rfl⟩
    · have h4a : 4 ≤ s.min_cycles_index := h4
      rw [if_neg (by omega)]
      rfl
    · rfl
  rcases hfin with ⟨_, rfl⟩ | ⟨_, m, c, _, _, rfl⟩
  · exact hpe2.trans hpe1
  · exact hpe2.trans hpe1

/-- A schedule with a record makes the list of all records non-empty. -/
theorem flatten_length_pos {L : List (List node)} {k : Nat} {schedule : List node}
    (hk : L[k]? = some schedule) (hpos : 0 < schedule.length) : 0 < L.flatten.length := by
  obtain ⟨e, he⟩ := List.exists_mem_of_length_pos hpos
  exact List.length_pos_of_mem (List.mem_flatten.mpr ⟨schedule, List.getElem?_mem hk, he⟩)

/-- Every iteration keeps the counter behind the number of dispatches. -/
theorem MP_counter_iteration {processor_count : Nat} {s u : MPState}
    (hP : processor_count ≤ 4) (hinv : MP_inv processor_count s) (hcount : MP_counter s)
    (h : MP_iteration processor_count s = Except.ok u) : MP_counter u := by
  have hempty : s.empty_processor = false := hinv.2.2.2.1
  rcases MP_iteration_records hP hinv h with rfl | ⟨p, hp, harr, _, hperm, _⟩
  · exact hcount
  · have hD : u.processor_schedule.flatten.length = s.processor_schedule.flatten.length + 1 := by
      have h1 := hperm.length_eq
      unfold MP_cores at h1
      rw [List.length_cons, List.length_map, List.length_map] at h1
      exact h1
    have hpe : u.processes_executed = s.processes_executed ∨
        (u.processes_executed = s.processes_executed + 1 ∧
          0 < s.processor_schedule.flatten.length) := by
      obtain ⟨p1, hp1, hcase⟩ := MP_iteration_ok h
      rw [hp] at hp1
      cases hp1
      rcases hcase with ⟨hlate, _⟩ | ⟨_, c, s1, hc, hbranch, rfl⟩
      · exact absurd harr hlate
      · rcases hinv.2.2.2.2.2.2.2 with hcold | hsteady
        · have hc0 : c = 0 := by
            obtain ⟨hminlt, _, _, hempties⟩ := hcold
            obtain ⟨_, _, e3⟩ := hempties s.min_cycles_index (Nat.le_refl _) (by omega)
            rw [hc] at e3
            cases e3
            rfl
          rcases hbranch with ⟨hpos, _⟩ | ⟨_, hb⟩
          · omega
          · have hpe1 := cold_branch_counter hempty hb
            by_cases h3 : s.min_cycles_index = 3
            · rw [if_pos h3] at hpe1
              obtain ⟨_, _, hfilled, _⟩ := hcold
              obtain ⟨e, q1, _⟩ := hfilled 0 (by omega)
              exact Or.inr ⟨hpe1, flatten_length_pos q1 (by simp)⟩
            · rw [if_neg h3] at hpe1
              exact Or.inl hpe1
        · have hcpos : 0 < c := by
            obtain ⟨_, ⟨c1, hc1, hpos⟩, _⟩ := hsteady
            rw [hc] at hc1
            cases hc1
            exact hpos
          rcases hbranch with ⟨_, hb⟩ | ⟨hneg, _⟩
          · obtain ⟨schedule0, _, _, _, hpe1⟩ := steady_branch_next hP hinv hsteady hp hb
            obtain ⟨hminlt, _, hlast⟩ := hsteady
            obtain ⟨schedule, idx, q1, _, q3⟩ := hlast s.min_cycles_index hminlt
            exact Or.inr ⟨hpe1, flatten_length_pos q1 (by omega)⟩
          · exact absurd hcpos hneg
    unfold MP_counter
    rw [hD]
    push_cast
    rcases hcount with h1 | ⟨h1, h2⟩
    · rcases hpe with h3 | ⟨h3, _⟩
      · left; omega
      · left; omega
    · rcases hpe with h3 | ⟨_, h4⟩
      · left
        rw [h3, h1, h2]
        simp
      · rw [h2] at h4
        simp at h4

/-- Every state the loop reaches keeps the counter behind the number of
dispatches. -/
theorem MP_counter_reaches {processor_count : Nat} {s t : MPState}
    (hP : processor_count ≤ 4) (hr : MP_reaches processor_count s t)
    (hinv : MP_inv processor_count s) (hcount : MP_counter s) : MP_counter t := by
  induction hr with
  | refl => exact hcount
  | step hr1 _ hstep ih =>
    exact MP_counter_iteration hP (MP_inv_reaches hP hr1 hinv) ih hstep

/-- A state the loop reaches is the first one or comes out of an iteration in
a state the loop reaches. -/
theorem MP_reaches_last {processor_count : Nat} {s u : MPState}
    (hr : MP_reaches processor_count s u) :
    u = s ∨ ∃ t, MP_reaches processor_count s t ∧ t.processes_left = true ∧
      MP_iteration processor_count t = Except.ok u := by
  cases hr with
  | refl => exact Or.inl rfl
  | step hr1 hl hstep => exact Or.inr ⟨_, hr1, hl, hstep⟩

/-- On a generated workload of at most 50 processes with at most four
processors the loop never clears `processes_left`: `processes_executed` does
not reach 50 before an iteration. -/
theorem MP_processes_left (sort : List node → List node)
    (hsort : std_sort_contract cycles_less sort) (process_list : List node)
    (hgen : generated_workload process_list) (hn : process_list.length ≤ 50)
    (processor_count : Nat) (hP : processor_count ≤ 4) (s : MPState)
    (hreach : MP_reaches processor_count
      (MP_init (sorted_process_queue sort process_list)) s) :
    s.processes_left = true := by
  rcases MP_reaches_last hreach with rfl | ⟨t, hrt, hl, hstep⟩
  · rfl
  · have hinv0 := MP_inv_init processor_count _
      (generated_queue_facts sort hsort process_list hgen)
    have hinv := MP_inv_reaches hP hrt hinv0
    have hcount := MP_counter_reaches hP hrt hinv0 (Or.inr ⟨rfl, rfl⟩)
    have hperm := (MP_arrivals sort hsort process_list processor_count t hrt).length_eq
    simp only [List.length_append, List.length_map] at hperm
    cases hu : s.processes_left with
    | true => rfl
    | false =>
      exfalso
      have h50 := processes_left_only_at_50 hinv.2.2.2.1 hl hstep hu
      rcases hcount with h1 | ⟨h1, _⟩
      · omega
      · omega

/-- On a generated workload of at most 50 processes with one to four
processors, the loop of `SJF_multiprocessor`, continued from a state it has
reached with enough iterations left, ends in the read out of range. -/
theorem MP_loop_faults (sort : List node → List node)
    (hsort : std_sort_contract cycles_less sort) (process_list : List node)
    (hgen : generated_workload process_list) (hn : process_list.length ≤ 50)
    (processor_count : Nat) (hP : processor_count ≤ 4) (hP1 : 1 ≤ processor_count)
    (fuel : Nat) (s : MPState)
    (hreach : MP_reaches processor_count
      (MP_init (sorted_process_queue sort process_list)) s)
    (hfuel : MP_fuel s ≤ fuel) :
    MP_loop processor_count fuel s = Except.error Fault.out_of_range := by
  induction fuel generalizing s with
  | zero =>
    exfalso
    obtain ⟨_, hsorted⟩ := sorted_process_queue_spec sort hsort process_list
    obtain ⟨_, ⟨_, hi, _⟩⟩ := MP_scan_inv_reaches hreach ⟨rfl, MP_scan_inv_init _ hsorted⟩
    unfold MP_fuel at hfuel
    have h1 : (s.process_queue.length + 1) * (s.process_queue.length + 1)
        = s.process_queue.length * s.process_queue.length + 2 * s.process_queue.length + 1 := by
      ring
    omega
  | succ fuel ih =>
    have hleft := MP_processes_left sort hsort process_list hgen hn processor_count hP s hreach
    have hinv := MP_inv_generated sort hsort process_list hgen processor_count hP s hreach
    unfold MP_loop
    rw [if_pos hleft]
    by_cases hne : s.process_queue = []
    · have herr : MP_iteration processor_count s = Except.error Fault.out_of_range := by
        unfold MP_iteration read_at
        rw [hne]
        rfl
      rw [herr]
    · obtain ⟨_, hi⟩ := MP_no_starvation sort hsort process_list hgen processor_count hP hP1
        s hreach hne
      obtain ⟨u, hu⟩ := MP_iteration_total hP hinv (List.getElem?_eq_getElem hi)
      rw [hu]
      simp only
      apply ih u (MP_reaches.step hreach hleft hu)
      unfold MP_fuel at hfuel ⊢
      rcases MP_iteration_records hP hinv hu with rfl | ⟨p, _, _, hq, _, _⟩
      · show (s.process_queue.length + 1) * (s.process_queue.length + 1) - (s.i + 1) ≤ fuel
        omega
      · rw [hq, List.length_eraseIdx, if_pos hi]
        obtain ⟨m, hm⟩ : ∃ m, s.process_queue.length = m + 1 := ⟨s.process_queue.length - 1, by omega⟩
        rw [hm] at hfuel ⊢
        have h1 : (m + 1 + 1) * (m + 1 + 1) = (m + 1 - 1 + 1) * (m + 1 - 1 + 1) + 2 * m + 3 := by
          simp only [Nat.add_sub_cancel]
          ring
        have h2 : s.i ≤ m := by omega
        omega

/-- On every generated workload of at most 50 processes, with one to four
processors, `SJF_multiprocessor` does not return: once the queue is empty the
loop, whose flag `processes_left` still holds, reads `process_queue[i]` out of
range. -/
theorem SJF_multiprocessor_never_returns (sort : List node → List node)
    (hsort : std_sort_contract cycles_less sort) (process_list : List node)
    (hgen : generated_workload process_list) (hn : process_list.length ≤ 50)
    (num_processes : Int) (processor_count : Nat)
    (hP : processor_count ≤ 4) (hP1 : 1 ≤ processor_count) :
    SJF_multiprocessor sort process_list num_processes processor_count
      = Except.error Fault.out_of_range := by
  unfold SJF_multiprocessor
  simp only [MP_loop_faults sort hsort process_list hgen hn processor_count hP hP1 _ _
    (MP_reaches.refl _) (Nat.le_refl _)]

/-! ## The end of the dispatching -/

/-- C21: on the workload `mp_workload_50`, 50 processes built by
`generate_processes`, with four processors, the first 98 iterations of the loop
of `SJF_multiprocessor` succeed and dispatch all 50 processes: the queue is
empty, `i` is 0 and `processes_left` still holds, with `processes_executed` at
47, while three processes are still running at the clock 51702.  The next
iteration starts with the read `process_queue[i]` in the empty queue, a read
out of range, and the function ends in that fault. -/
theorem C21_reads_empty_queue :
    generate_processes mp_draws_50 0 50 =
      some { process_list := mp_workload_50, total_cycles := 217825, arrival := 2500,
             draws := [] } ∧
    MP_run 4 98 (MP_init (sorted_process_queue (insertion_sort true) mp_workload_50))
      = Except.ok (MP_state_after 4 98 (insertion_sort true mp_workload_50)) ∧
    (MP_state_after 4 98 (insertion_sort true mp_workload_50)).process_queue = [] ∧
    (MP_state_after 4 98 (insertion_sort true mp_workload_50)).i = 0 ∧
    (MP_state_after 4 98 (insertion_sort true mp_workload_50)).processes_left = true ∧
    (MP_state_after 4 98 (insertion_sort true mp_workload_50)).processes_executed = 47 ∧
    (MP_state_after 4 98 (insertion_sort true mp_workload_50)).current_time = 51702 ∧
    (MP_state_after 4 98 (insertion_sort true mp_workload_50)).processor_schedule.flatten.length
      = 50 ∧
    ((MP_state_after 4 98 (insertion_sort true mp_workload_50)).processor_schedule.flatten.filter
      (fun e => decide (51702 < e.stop_time))).map (fun e => (e.process_ID, e.stop_time))
      = [(36, 55374), (29, 57301), (43, 53748)] ∧
    read_at (MP_state_after 4 98 (insertion_sort true mp_workload_50)).process_queue
        (MP_state_after 4 98 (insertion_sort true mp_workload_50)).i
      = Except.error Fault.out_of_range ∧
    MP_iteration 4 (MP_state_after 4 98 (insertion_sort true mp_workload_50))
      = Except.error Fault.out_of_range ∧
    MP_run 4 99 (MP_init (sorted_process_queue (insertion_sort true) mp_workload_50))
      = Except.error Fault.out_of_range ∧
    SJF_multiprocessor (insertion_sort true) mp_workload_50 50 4
      = Except.error Fault.out_of_range := by
  decide!

end SJF
